import Mathlib

/-!
# kwebapp linker: a shallow embedding of `linker.c`

The configuration is a pointer graph in C.  Here it is an arena: the structure
queue `cfg->sq` is a list of `strct`, a `struct strct *` is an index into that
list and a `struct field *` is an `fptr` (index of the parent structure, index
in its field queue), so `f->parent` is `p.s`.  A back pointer from an entity to
its owner (`ref->parent`, `search->parent`, `unique->parent`,
`uref->parent->parent`) is the position of the owner, which the functions below
receive as an argument.  C strings are lists of characters.

A function that returns zero after `warnx` yields `.error (.fatal d)`, a failed
`assert` yields `.error .assertion`, a dereference of `NULL` or of a pointer
outside the arena yields `.error .null`, and a recursion that exhausts its
budget yields `.error .fuel`.  Warnings that do not change the result are not
modelled.  `size_t` counters are natural numbers (heights and colours stay far
below the word size).
-/

namespace Kwebapp

/-! ## Data model -/

/-- Modelled from the spec: the field type tags of `enum ftype` (declared in
`extern.h`, which is not among the sources). -/
inductive ftype
  | FTYPE_INT
  | FTYPE_REAL
  | FTYPE_BLOB
  | FTYPE_TEXT
  | FTYPE_PASSWORD
  | FTYPE_EMAIL
  | FTYPE_STRUCT
  | FTYPE_EPOCH
  | FTYPE_ENUM
  deriving DecidableEq

/-- Modelled from the spec: the comparison operators of `enum optype`
(declared in `extern.h`). -/
inductive optype
  | OPTYPE_EQUAL
  | OPTYPE_GE
  | OPTYPE_GT
  | OPTYPE_LE
  | OPTYPE_LT
  | OPTYPE_NEQUAL
  | OPTYPE_LIKE
  | OPTYPE_ISNULL
  | OPTYPE_NOTNULL
  deriving DecidableEq

/-- Modelled from the spec: the modification kinds of `enum modtype`
(declared in `extern.h`). -/
inductive modtype
  | MODTYPE_SET
  | MODTYPE_INC
  | MODTYPE_DEC
  | MODTYPE__MAX
  deriving DecidableEq

/-- Modelled from the spec: the query cardinalities of `enum stype`
(declared in `extern.h`). -/
inductive stype
  | STYPE_SEARCH
  | STYPE_LIST
  | STYPE_ITERATE
  deriving DecidableEq

/-- Modelled from the spec: the update kinds of `enum upt` (declared in
`extern.h`). -/
inductive upt
  | UP_MODIFY
  | UP_DELETE
  deriving DecidableEq

/-- Modelled from the spec: the row-identifier bit of `field.flags`. -/
def FIELD_ROWID : Nat := 1
/-- Modelled from the spec: the unique bit of `field.flags`. -/
def FIELD_UNIQUE : Nat := 2
/-- Modelled from the spec: the nullable bit of `field.flags`. -/
def FIELD_NULL : Nat := 4
/-- Modelled from the spec: the excluded-from-export bit of `field.flags`. -/
def FIELD_NOEXPORT : Nat := 8
/-- Modelled from the spec: the unique bit of `search.flags`. -/
def SEARCH_IS_UNIQUE : Nat := 1
/-- Modelled from the spec: the unique bit of `sent.flags`. -/
def SENT_IS_UNIQUE : Nat := 1

/-- The C test `bit & flags`. -/
def hasflag (bit flags : Nat) : Bool := (bit &&& flags) != 0

/-- A `struct field *`: the parent structure and the place in its `fq`. -/
structure fptr where
  s : Nat
  f : Nat
  deriving DecidableEq

/-- The `struct ref`: names before resolution, pointers after. -/
structure ref where
  sfield : List Char
  tfield : List Char
  tstrct : List Char
  source : Option fptr
  target : Option fptr
  deriving DecidableEq

/-- The `struct eref`: an enumeration named, then linked. -/
structure eref where
  ename : List Char
  enm : Option Nat
  deriving DecidableEq

/-- The `struct field`. -/
structure field where
  name : List Char
  type : ftype
  flags : Nat
  ref : Option ref
  eref : Option eref
  deriving DecidableEq

/-- The `struct alias`: a dotted join path and its short symbol. -/
structure alias_t where
  name : List Char
  sym : List Char
  deriving DecidableEq

/-- The `struct sref`: one segment of a search chain. -/
structure sref where
  name : List Char
  field : Option fptr
  deriving DecidableEq

/-- The `struct sent`: a search entity; `alias_p` (the C field `alias`) is the place of the alias in
the `aq` of the owning structure. -/
structure sent where
  srq : List sref
  op : optype
  name : Option (List Char)
  flags : Nat
  alias_p : Option Nat
  deriving DecidableEq

/-- The `struct search`. -/
structure search where
  sntq : List sent
  type : stype
  flags : Nat
  deriving DecidableEq

/-- The `struct uref`: an entry of a modify or constraint list. -/
structure uref where
  name : List Char
  op : optype
  mod : modtype
  field : Option fptr
  deriving DecidableEq

/-- The `struct update`. -/
structure update where
  mrq : List uref
  crq : List uref
  type : upt
  deriving DecidableEq

/-- The `struct nref`: one field of a unique constraint. -/
structure nref where
  name : List Char
  field : Option fptr
  deriving DecidableEq

/-- The `struct unique`. -/
structure unique where
  nq : List nref
  deriving DecidableEq

/-- The `struct strct`. -/
structure strct where
  name : List Char
  fq : List field
  sq : List search
  aq : List alias_t
  uq : List update
  dq : List update
  nq : List unique
  height : Nat
  colour : Nat
  deriving DecidableEq

/-- The `struct enm`. -/
structure enm where
  name : List Char
  deriving DecidableEq

/-- The `struct config`: the structure queue (the arena, in queue order) and
the enumeration queue. -/
structure config where
  sq : List strct
  eq : List enm
  deriving DecidableEq

/-- The fatal diagnostics of `linker.c`, one per `warnx` followed by
`return(0)`. -/
inductive diag
  | multiple_rowids
  | rowid_on_struct
  | referencing_struct
  | referencing_different_type
  | redeclaration_of_reference
  | target_not_rowid
  | target_null
  | unknown_reference_source
  | unknown_reference_target
  | unknown_enum_reference
  | recursive_reference
  | update_term_not_found
  | update_term_struct
  | update_constraint_password
  | update_not_numeric
  | search_term_not_found
  | search_leaf_struct
  | search_node_not_struct
  | password_only_equality
  | unique_not_native
  | unique_not_found
  deriving DecidableEq

/-- The ways a call does not return success. -/
inductive stop
  | fatal (d : diag)
  | assertion
  | null
  | fuel
  deriving DecidableEq

/-- Equality of results is decidable, so that a run on a sample configuration
can be evaluated. -/
instance decEqExcept {α : Type} [DecidableEq α] : DecidableEq (Except stop α) := fun a b =>
  match a, b with
  | .ok x, .ok y =>
    if h : x = y then isTrue (by rw [h]) else isFalse (by intro h2; cases h2; exact h rfl)
  | .error x, .error y =>
    if h : x = y then isTrue (by rw [h]) else isFalse (by intro h2; cases h2; exact h rfl)
  | .ok _, .error _ => isFalse (by intro h2; cases h2)
  | .error _, .ok _ => isFalse (by intro h2; cases h2)

/-! ## Arena access -/

/-- Dereference a `struct strct *`. -/
def getstrct (sq : List strct) (p : Nat) : Except stop strct :=
  match sq[p]? with
  | some st => .ok st
  | none => .error .null

/-- Dereference a `struct field *`. -/
def getfield (sq : List strct) (p : fptr) : Except stop field :=
  match sq[p.s]? with
  | none => .error .null
  | some st =>
    match st.fq[p.f]? with
    | some f => .ok f
    | none => .error .null

/-- Dereference a possibly null `struct field *`. -/
def getfield? (sq : List strct) (p : Option fptr) : Except stop field :=
  match p with
  | none => .error .null
  | some q => getfield sq q

/-- Store through a `struct strct *`. -/
def modstrct (sq : List strct) (p : Nat) (g : strct → strct) : List strct :=
  match sq[p]? with
  | some st => sq.set p (g st)
  | none => sq

/-- Store through a `struct field *`. -/
def modfield (sq : List strct) (p : fptr) (g : field → field) : List strct :=
  modstrct sq p.s (fun st =>
    match st.fq[p.f]? with
    | some f => { st with fq := st.fq.set p.f (g f) }
    | none => st)

/-! ## String comparison and name lookup -/

/-- The C `tolower` on the character code (ASCII letters only). -/
def tolower (c : Char) : Nat :=
  if 65 ≤ c.toNat ∧ c.toNat ≤ 90 then c.toNat + 32 else c.toNat

/-- The C `strcasecmp`: zero exactly when the strings agree up to case. -/
def strcasecmp : List Char → List Char → Int
  | [], [] => 0
  | [], c :: _ => 0 - (tolower c : Int)
  | c :: _, [] => (tolower c : Int)
  | a :: as, b :: bs =>
    if tolower a = tolower b then strcasecmp as bs
    else (tolower a : Int) - (tolower b : Int)

/-- The loop `TAILQ_FOREACH(f, &s->fq, entries)` that stops at the first field
whose name matches: the place of that field, if any. -/
def find_field (name : List Char) : List field → Option Nat
  | [] => none
  | f :: fs =>
    if strcasecmp f.name name = 0 then some 0
    else (find_field name fs).map (· + 1)

/-- The nested loops of `resolve_field_target`: the first structure, in queue
order, whose name matches and that has a field whose name matches, with the
first such field. -/
def find_target (tstrct tfield : List Char) : List strct → Option fptr
  | [] => none
  | p :: ps =>
    let later := (find_target tstrct tfield ps).map (fun t => { t with s := t.s + 1 })
    if strcasecmp p.name tstrct = 0 then
      match find_field tfield p.fq with
      | some i => some { s := 0, f := i }
      | none => later
    else later

/-- The loop of `resolve_field_enum`: the first enumeration whose name
matches. -/
def find_enm (ename : List Char) : List enm → Option Nat
  | [] => none
  | e :: es =>
    if strcasecmp e.name ename = 0 then some 0
    else (find_enm ename es).map (· + 1)

/-! ## Reference linking (`linker.c`, lines 37 to 244) -/

/-- The function `checkrowid`: one row identifier per structure, on a native
field. -/
def checkrowid (f : field) (hasrowid : Nat) : Except stop Unit :=
  if hasrowid ≠ 0 then .error (.fatal .multiple_rowids)
  else if ftype.FTYPE_STRUCT = f.type then .error (.fatal .rowid_on_struct)
  else .ok ()

/-- The function `checktargettype`: neither end of a reference is a struct and
both ends have the same type.  A target that is not a row identifier only
draws a warning. -/
def checktargettype (sq : List strct) (r : ref) : Except stop Unit := do
  let t ← getfield? sq r.target
  let s ← getfield? sq r.source
  if ftype.FTYPE_STRUCT = t.type ∨ ftype.FTYPE_STRUCT = s.type then
    .error (.fatal .referencing_struct)
  else if s.type ≠ t.type then
    .error (.fatal .referencing_different_type)
  else .ok ()

/-- The function `linkref`, called on the reference `r` owned by the field at
`owner`: for a struct-typed owner, the source field receives a reference of
its own to the same target unless it already has one. -/
def linkref (sq : List strct) (owner : fptr) (r : ref) : Except stop (List strct) :=
  match r.source, r.target with
  | none, _ => .error .assertion
  | some _, none => .error .assertion
  | some sp, some tp => do
    let o ← getfield sq owner
    if ftype.FTYPE_STRUCT ≠ o.type then .ok sq
    else do
      let src ← getfield sq sp
      match src.ref with
      | some sr =>
        if strcasecmp r.tfield sr.tfield ≠ 0 ∨ strcasecmp r.tstrct sr.tstrct ≠ 0 then
          .error (.fatal .redeclaration_of_reference)
        else .ok sq
      | none => do
        let tgt ← getfield sq tp
        if ¬ hasflag FIELD_ROWID tgt.flags then .error (.fatal .target_not_rowid)
        else if hasflag FIELD_NULL tgt.flags then .error (.fatal .target_null)
        else
          let created : ref := { r with source := some sp, target := some tp }
          .ok (modfield sq sp (fun f => { f with ref := some created }))

/-- The function `resolve_field_source` on a reference owned by a field of the structure
at `s`, whose field queue is `fq`: the reference with its source
set. -/
def resolve_field_source (r : ref) (s : Nat) (fq : List field) : Except stop ref :=
  if r.source.isSome then .ok r
  else if r.target.isSome then .error .assertion
  else
    match find_field r.sfield fq with
    | some i => .ok { r with source := some { s := s, f := i } }
    | none => .error (.fatal .unknown_reference_source)

/-- The function `resolve_field_target`: the reference with its target set. -/
def resolve_field_target (r : ref) (q : List strct) : Except stop ref :=
  if r.target.isSome then .ok r
  else if r.source.isNone then .error .assertion
  else
    match find_target r.tstrct r.tfield q with
    | some t => .ok { r with target := some t }
    | none => .error (.fatal .unknown_reference_target)

/-- The function `resolve_field_enum`: the enumeration reference with its link
set. -/
def resolve_field_enum (e : eref) (q : List enm) : Except stop eref :=
  match find_enm e.ename q with
  | some i => .ok { e with enm := some i }
  | none => .error (.fatal .unknown_enum_reference)

/-! ## Recursion check and height annotation (lines 250 to 290) -/

/-- The loop of `check_recursive` over the fields of the structure reached,
with the recursive call as `again`. -/
def check_recursive_fields (again : Option ref → Except stop Bool) :
    List field → Except stop Bool
  | [] => .ok true
  | f :: fs =>
    if ftype.FTYPE_STRUCT = f.type then
      match again f.ref with
      | .error e => .error e
      | .ok false => .ok false
      | .ok true => check_recursive_fields again fs
    else check_recursive_fields again fs

/-- The function `check_recursive`: `false` (the C zero) when the walk from
the target of `r` reaches the structure `check`.  The first argument bounds
the depth of the recursion. -/
def check_recursive : Nat → List strct → Option ref → Nat → Except stop Bool
  | 0, _, _, _ => .error .fuel
  | fuel + 1, sq, r, check =>
    match r with
    | none => .error .assertion
    | some r =>
      match r.target with
      | none => .error .null
      | some t =>
        if t.s = check then .ok false
        else
          match getstrct sq t.s with
          | .error e => .error e
          | .ok p => check_recursive_fields (fun r2 => check_recursive fuel sq r2 check) p.fq

/-- The loop of `annotate` over the fields of the structure just coloured,
with the recursive call as `again`. -/
def annotate_fields (again : List strct → Option ref → Except stop (List strct)) :
    List field → List strct → Except stop (List strct)
  | [], sq => .ok sq
  | f :: fs, sq =>
    if ftype.FTYPE_STRUCT = f.type then
      match again sq f.ref with
      | .error e => .error e
      | .ok sq2 => annotate_fields again fs sq2
    else annotate_fields again fs sq

/-- The function `annotate`: unless the target structure already has the
colour, colour it, add `height` to its height and descend with `height + 1`.
The first argument bounds the depth of the recursion. -/
def annotate : Nat → List strct → Option ref → Nat → Nat → Except stop (List strct)
  | 0, _, _, _, _ => .error .fuel
  | fuel + 1, sq, r, height, colour =>
    match r with
    | none => .error .null
    | some r =>
      match r.target with
      | none => .error .null
      | some t =>
        match getstrct sq t.s with
        | .error e => .error e
        | .ok p =>
          if p.colour = colour then .ok sq
          else
            annotate_fields (fun sq2 r2 => annotate fuel sq2 r2 (height + 1) colour) p.fq
              (modstrct sq t.s (fun st =>
                { st with colour := colour, height := st.height + height }))

/-! ## Update and delete resolution (lines 297 to 403) -/

/-- The function `resolve_uref` on an entry of an update owned by the structure
at `s`; `crq` tells a constraint from a modifier. -/
def resolve_uref (sq : List strct) (s : Nat) (u : uref) (crq : Bool) : Except stop uref :=
  if u.field.isSome then .error .assertion
  else do
    let p ← getstrct sq s
    match find_field u.name p.fq with
    | none => .error (.fatal .update_term_not_found)
    | some i => do
      let f ← getfield sq { s := s, f := i }
      if ftype.FTYPE_STRUCT = f.type then .error (.fatal .update_term_struct)
      else if crq ∧ ftype.FTYPE_PASSWORD = f.type then
        .error (.fatal .update_constraint_password)
      else .ok { u with field := some { s := s, f := i } }

/-- The function `check_updatetype`: it reads the constrained field under a
null-sensitivity operator, warns, and always succeeds. -/
def check_updatetype (sq : List strct) : List uref → Except stop Unit
  | [] => .ok ()
  | u :: us =>
    if optype.OPTYPE_NOTNULL = u.op ∨ optype.OPTYPE_ISNULL = u.op then
      match getfield? sq u.field with
      | .error e => .error e
      | .ok _ => check_updatetype sq us
    else check_updatetype sq us

/-- The function `check_modtype`: a modification other than `set` needs a
numeric or epoch field. -/
def check_modtype (sq : List strct) (u : uref) : Except stop Unit :=
  if modtype.MODTYPE__MAX = u.mod then .error .assertion
  else if modtype.MODTYPE_SET = u.mod then .ok ()
  else do
    let f ← getfield? sq u.field
    if ftype.FTYPE_EPOCH = f.type ∨ ftype.FTYPE_INT = f.type ∨ ftype.FTYPE_REAL = f.type then
      .ok ()
    else .error (.fatal .update_not_numeric)

/-- The first loop of `resolve_update`, over the modify list. -/
def resolve_update_mrq (sq : List strct) (s : Nat) : List uref → Except stop (List uref)
  | [] => .ok []
  | u :: us =>
    match resolve_uref sq s u false with
    | .error e => .error e
    | .ok u2 =>
      match check_modtype sq u2 with
      | .error e => .error e
      | .ok _ =>
        match resolve_update_mrq sq s us with
        | .error e => .error e
        | .ok us2 => .ok (u2 :: us2)

/-- The second loop of `resolve_update`, over the constraint list. -/
def resolve_update_crq (sq : List strct) (s : Nat) : List uref → Except stop (List uref)
  | [] => .ok []
  | u :: us =>
    match resolve_uref sq s u true with
    | .error e => .error e
    | .ok u2 =>
      match resolve_update_crq sq s us with
      | .error e => .error e
      | .ok us2 => .ok (u2 :: us2)

/-- The function `resolve_update` on an update of the structure at `s`. -/
def resolve_update (sq : List strct) (s : Nat) (up : update) : Except stop update := do
  let m ← resolve_update_mrq sq s up.mrq
  let c ← resolve_update_crq sq s up.crq
  .ok { up with mrq := m, crq := c }

/-! ## Search chains, aliases, searches, unique constraints (lines 410 to 659) -/

/-- The function `resolve_sref` on the chain that starts at the given segment,
from the structure at `s`: the chain with every segment resolved. -/
def resolve_sref (sq : List strct) : List sref → Nat → Except stop (List sref)
  | [], _ => .error .null
  | r :: rest, s =>
    match getstrct sq s with
    | .error e => .error e
    | .ok p =>
      match find_field r.name p.fq with
      | none => .error (.fatal .search_term_not_found)
      | some i =>
        match getfield sq { s := s, f := i } with
        | .error e => .error e
        | .ok f =>
          match rest with
          | [] =>
            if ftype.FTYPE_STRUCT ≠ f.type then .ok [{ r with field := some { s := s, f := i } }]
            else .error (.fatal .search_leaf_struct)
          | n :: more =>
            if ftype.FTYPE_STRUCT ≠ f.type then .error (.fatal .search_node_not_struct)
            else
              match f.ref with
              | none => .error .null
              | some fr =>
                match fr.target with
                | none => .error .null
                | some t =>
                  match resolve_sref sq (n :: more) t.s with
                  | .error e => .error e
                  | .ok rest2 => .ok ({ r with field := some { s := s, f := i } } :: rest2)

/-- The function `parse_cmp`: the difference of the heights of two
structures. -/
def parse_cmp (p1 p2 : strct) : Int := (p1.height : Int) - (p2.height : Int)

/-- Lines 492 to 498 of `resolve_aliases`: the name of a new alias is the field
name, behind the name of the prior alias and a dot when there is one. -/
def alias_name (prior : Option alias_t) (path : List Char) : List Char :=
  match prior with
  | some pr => pr.name ++ '.' :: path
  | none => path

/-- Lines 488 to 507 of `resolve_aliases`: the alias made for the field `f`
when the counter `*offs` is `offs`; the symbol is an underscore and the letter
`(char)*offs + 97`. -/
def new_alias (prior : Option alias_t) (f : field) (offs : Nat) : alias_t :=
  { name := alias_name prior f.name, sym := ['_', Char.ofNat (offs + 97)] }

/-- The loop of `resolve_aliases` over the fields of a structure, with the
recursive call as `again`.  The state is the alias queue of the original structure
and the counter `*offs`. -/
def resolve_aliases_fields
    (again : Nat → List alias_t × Nat → alias_t → Except stop (List alias_t × Nat))
    (prior : Option alias_t) : List field → List alias_t × Nat → Except stop (List alias_t × Nat)
  | [], st => .ok st
  | f :: fs, st =>
    if ftype.FTYPE_STRUCT ≠ f.type then resolve_aliases_fields again prior fs st
    else
      match f.ref with
      | none => .error .assertion
      | some r =>
        if ¬ st.2 < 26 then .error .assertion
        else
          match r.target with
          | none => .error .null
          | some t =>
            match again t.s (st.1 ++ [new_alias prior f st.2], st.2 + 1)
                (new_alias prior f st.2) with
            | .error e => .error e
            | .ok st2 => resolve_aliases_fields again prior fs st2

/-- The function `resolve_aliases` for the structure at `p`; the original structure
is present through its alias queue.  The first argument bounds the
depth of the recursion. -/
def resolve_aliases : Nat → List strct → Nat → List alias_t × Nat → Option alias_t →
    Except stop (List alias_t × Nat)
  | 0, _, _, _, _ => .error .fuel
  | fuel + 1, sq, p, st, prior =>
    match getstrct sq p with
    | .error e => .error e
    | .ok ps =>
      resolve_aliases_fields (fun q st2 a => resolve_aliases fuel sq q st2 (some a)) prior ps.fq st

/-- The terminal field of a search entity, `TAILQ_LAST(&sent->srq, srefq)`
followed by `->field`, dereferenced. -/
def last_field (sq : List strct) (srq : List sref) : Except stop field :=
  match srq.getLast? with
  | none => .error .null
  | some sr => getfield? sq sr.field

/-- Lines 547 to 554 of `check_searchtype`: under a null-sensitivity operator
the terminal field is read; the outcome is a warning at most. -/
def check_searchtype_null (sq : List strct) (e : sent) : Except stop Unit :=
  if optype.OPTYPE_NOTNULL = e.op ∨ optype.OPTYPE_ISNULL = e.op then
    match last_field sq e.srq with
    | .error x => .error x
    | .ok _ => .ok ()
  else .ok ()

/-- The loop of `check_searchtype` over the entities of one search: under
every operator other than equality the terminal field is read, and a password
there is fatal. -/
def check_searchtype_sntq (sq : List strct) : List sent → Except stop Unit
  | [] => .ok ()
  | e :: es =>
    match check_searchtype_null sq e with
    | .error x => .error x
    | .ok _ =>
      if optype.OPTYPE_EQUAL ≠ e.op then
        match last_field sq e.srq with
        | .error x => .error x
        | .ok f =>
          if ftype.FTYPE_PASSWORD = f.type then .error (.fatal .password_only_equality)
          else check_searchtype_sntq sq es
      else check_searchtype_sntq sq es

/-- The function `check_searchtype` over the searches of a structure. -/
def check_searchtype (sq : List strct) : List search → Except stop Unit
  | [] => .ok ()
  | srch :: more =>
    match check_searchtype_sntq sq srch.sntq with
    | .error e => .error e
    | .ok _ => check_searchtype sq more

/-- The alias lookup of `resolve_search`: the first alias whose name
matches. -/
def find_alias (name : List Char) : List alias_t → Option Nat
  | [] => none
  | a :: as =>
    if strcasecmp a.name name = 0 then some 0
    else (find_alias name as).map (· + 1)

/-- The loop of `resolve_search` over the entities of a search of the structure
at `s` with alias queue `aq`; the state is `srch->flags`. -/
def resolve_search_sntq (sq : List strct) (s : Nat) (aq : List alias_t) :
    List sent → Nat → Except stop (List sent × Nat)
  | [], flags => .ok ([], flags)
  | e :: es, flags =>
    match resolve_sref sq e.srq s with
    | .error x => .error x
    | .ok srq =>
      match last_field sq srq with
      | .error x => .error x
      | .ok f =>
        let uniq : Bool := hasflag FIELD_ROWID f.flags || hasflag FIELD_UNIQUE f.flags
        let eflags := if uniq then e.flags ||| SENT_IS_UNIQUE else e.flags
        let flags2 := if uniq then flags ||| SEARCH_IS_UNIQUE else flags
        match e.name with
        | none =>
          match resolve_search_sntq sq s aq es flags2 with
          | .error x => .error x
          | .ok r => .ok ({ e with srq := srq, flags := eflags } :: r.1, r.2)
        | some nm =>
          match find_alias nm aq with
          | none => .error .assertion
          | some k =>
            match resolve_search_sntq sq s aq es flags2 with
            | .error x => .error x
            | .ok r => .ok ({ e with srq := srq, flags := eflags, alias_p := some k } :: r.1, r.2)

/-- The function `resolve_search` on a search of the structure at `s`. -/
def resolve_search (sq : List strct) (s : Nat) (srch : search) : Except stop search :=
  match getstrct sq s with
  | .error e => .error e
  | .ok p =>
    match resolve_search_sntq sq s p.aq srch.sntq srch.flags with
    | .error e => .error e
    | .ok r => .ok { srch with sntq := r.1, flags := r.2 }

/-- The function `check_unique`: no field of the constraint is a struct. -/
def check_unique (sq : List strct) : List nref → Except stop Unit
  | [] => .ok ()
  | n :: ns =>
    match getfield? sq n.field with
    | .error e => .error e
    | .ok f =>
      if ftype.FTYPE_STRUCT ≠ f.type then check_unique sq ns
      else .error (.fatal .unique_not_native)

/-- The function `resolve_unique` on the entries of a unique constraint of the structure
at `s`. -/
def resolve_unique (sq : List strct) (s : Nat) : List nref → Except stop (List nref)
  | [] => .ok []
  | n :: ns =>
    match getstrct sq s with
    | .error e => .error e
    | .ok p =>
      match find_field n.name p.fq with
      | none => .error (.fatal .unique_not_found)
      | some i =>
        match resolve_unique sq s ns with
        | .error e => .error e
        | .ok ns2 => .ok ({ n with field := some { s := s, f := i } } :: ns2)

/-! ## The passes of `parse_link` (lines 661 to 789) -/

/-- The macro `TAILQ_FOREACH` over the positions of a queue, with a body that
may return from the function. -/
def tailq_foreach {σ : Type} (body : σ → Nat → Except stop σ) : List Nat → σ → Except stop σ
  | [], st => .ok st
  | i :: more, st =>
    match body st i with
    | .error e => .error e
    | .ok st2 => tailq_foreach body more st2

/-- Lines 680 to 682: the row identifier test of one field; the result is the
counter `hasrowid` after it. -/
def link_field_rowid (f : field) (hasrowid : Nat) : Except stop Nat :=
  if hasflag FIELD_ROWID f.flags then
    match checkrowid f hasrowid with
    | .error e => .error e
    | .ok _ => .ok (hasrowid + 1)
  else .ok hasrowid

/-- Lines 683 to 688: the reference of the field at `(s, i)`, when it has one,
is resolved in place, linked and checked. -/
def link_field_ref (sq : List strct) (s i : Nat) (f : field) : Except stop (List strct) :=
  match f.ref with
  | none => .ok sq
  | some r => do
    let p ← getstrct sq s
    let r1 ← resolve_field_source r s p.fq
    let r2 ← resolve_field_target r1 sq
    let sq1 := modfield sq { s := s, f := i } (fun g => { g with ref := some r2 })
    let sq2 ← linkref sq1 { s := s, f := i } r2
    checktargettype sq2 r2
    .ok sq2

/-- Lines 689 to 691: the enumeration reference of the field at `(s, i)`. -/
def link_field_enum (eq : List enm) (sq : List strct) (s i : Nat) (f : field) :
    Except stop (List strct) :=
  match f.eref with
  | none => .ok sq
  | some e => do
    let e2 ← resolve_field_enum e eq
    .ok (modfield sq { s := s, f := i } (fun g => { g with eref := some e2 }))

/-- Lines 679 to 692: the body of the loop over the fields of the structure at
`s`; the state is the arena and `hasrowid`. -/
def link_field (eq : List enm) (s : Nat) (st : List strct × Nat) (i : Nat) :
    Except stop (List strct × Nat) := do
  let f ← getfield st.1 { s := s, f := i }
  let h ← link_field_rowid f st.2
  let sq1 ← link_field_ref st.1 s i f
  let sq2 ← link_field_enum eq sq1 s i f
  .ok (sq2, h)

/-- Lines 693 to 700: one of the loops over the updates (or deletes) of the structure
at `s`. -/
def link_updates (sq : List strct) (s : Nat) : List update → Except stop (List update)
  | [] => .ok []
  | u :: us =>
    match resolve_update sq s u with
    | .error e => .error e
    | .ok u2 =>
      match check_updatetype sq u2.crq with
      | .error e => .error e
      | .ok _ =>
        match link_updates sq s us with
        | .error e => .error e
        | .ok us2 => .ok (u2 :: us2)

/-- Lines 677 to 701: the body of the first loop over the structures. -/
def link_strct (eq : List enm) (sq : List strct) (s : Nat) : Except stop (List strct) := do
  let p ← getstrct sq s
  let st ← tailq_foreach (link_field eq s) (List.range p.fq.length) (sq, 0)
  let p1 ← getstrct st.1 s
  let uq ← link_updates st.1 s p1.uq
  let dq ← link_updates st.1 s p1.dq
  .ok (modstrct st.1 s (fun q => { q with uq := uq, dq := dq }))

/-- Lines 677 to 701: the first pass, linkage between nodes. -/
def pass_link (cfg : config) : Except stop (List strct) :=
  tailq_foreach (link_strct cfg.eq) (List.range cfg.sq.length) cfg.sq

/-- Lines 706 to 714: the loop over the fields of the structure at `s` in the
recursion check. -/
def pass_recursive_fields (fuel : Nat) (sq : List strct) (s : Nat) :
    List field → Except stop Unit
  | [] => .ok ()
  | f :: fs =>
    if ftype.FTYPE_STRUCT = f.type then
      match check_recursive fuel sq f.ref s with
      | .error e => .error e
      | .ok true => pass_recursive_fields fuel sq s fs
      | .ok false => .error (.fatal .recursive_reference)
    else pass_recursive_fields fuel sq s fs

/-- Lines 705 to 714: the recursion check over the structures at the given
positions. -/
def pass_recursive (fuel : Nat) (sq : List strct) : List Nat → Except stop Unit
  | [] => .ok ()
  | s :: more =>
    match getstrct sq s with
    | .error e => .error e
    | .ok p =>
      match pass_recursive_fields fuel sq s p.fq with
      | .error e => .error e
      | .ok _ => pass_recursive fuel sq more

/-- Lines 728 to 732: the loop over the fields of the structure at `s` in the
annotation pass. -/
def pass_annotate_fields (fuel : Nat) (s colour : Nat) :
    List field → List strct → Except stop (List strct)
  | [], sq => .ok sq
  | f :: fs, sq =>
    if ftype.FTYPE_STRUCT = f.type then
      match annotate fuel (modstrct sq s (fun q => { q with colour := colour })) f.ref 1 colour with
      | .error e => .error e
      | .ok sq2 => pass_annotate_fields fuel s colour fs sq2
    else pass_annotate_fields fuel s colour fs sq

/-- Lines 724 to 734: the body of the annotation loop; the state is the arena
and the variable `colour`. -/
def pass_annotate_strct (fuel : Nat) (st : List strct × Nat) (s : Nat) :
    Except stop (List strct × Nat) :=
  match getstrct st.1 s with
  | .error e => .error e
  | .ok p =>
    if p.colour ≠ 0 then .ok st
    else
      match pass_annotate_fields fuel s st.2 p.fq st.1 with
      | .error e => .error e
      | .ok sq2 => .ok (sq2, st.2 + 1)

/-- Lines 724 to 735: the annotation pass, from `colour = 1`, followed by
`assert(sz > 0)`. -/
def pass_annotate (fuel : Nat) (sq : List strct) : Except stop (List strct) :=
  match tailq_foreach (pass_annotate_strct fuel) (List.range sq.length) (sq, 1) with
  | .error e => .error e
  | .ok st => if sq.length > 0 then .ok st.1 else .error .assertion

/-- Lines 746 to 747: the body of the alias loop; the state is the arena and
the counter `i`, which the loop never resets. -/
def pass_aliases_strct (fuel : Nat) (st : List strct × Nat) (s : Nat) :
    Except stop (List strct × Nat) :=
  match getstrct st.1 s with
  | .error e => .error e
  | .ok p =>
    match resolve_aliases fuel st.1 s (p.aq, st.2) none with
    | .error e => .error e
    | .ok r => .ok (modstrct st.1 s (fun q => { q with aq := r.1 }), r.2)

/-- Lines 745 to 747: alias generation, from `i = 0`. -/
def pass_aliases (fuel : Nat) (sq : List strct) : Except stop (List strct × Nat) :=
  tailq_foreach (pass_aliases_strct fuel) (List.range sq.length) (sq, 0)

/-- Line 752: the loop over the searches of the structure at `s`. -/
def pass_search_sq (sq : List strct) (s : Nat) : List search → Except stop (List search)
  | [] => .ok []
  | srch :: more =>
    match resolve_search sq s srch with
    | .error e => .error e
    | .ok srch2 =>
      match pass_search_sq sq s more with
      | .error e => .error e
      | .ok more2 => .ok (srch2 :: more2)

/-- Lines 751 to 754: the body of the search resolution loop. -/
def pass_search_strct (sq : List strct) (s : Nat) : Except stop (List strct) := do
  let p ← getstrct sq s
  let q ← pass_search_sq sq s p.sq
  .ok (modstrct sq s (fun st => { st with sq := q }))

/-- Line 757: the loop over the unique constraints of the structure at `s`. -/
def pass_unique_nq (sq : List strct) (s : Nat) : List unique → Except stop (List unique)
  | [] => .ok []
  | u :: more =>
    match resolve_unique sq s u.nq with
    | .error e => .error e
    | .ok nq =>
      match check_unique sq nq with
      | .error e => .error e
      | .ok _ =>
        match pass_unique_nq sq s more with
        | .error e => .error e
        | .ok more2 => .ok ({ u with nq := nq } :: more2)

/-- Lines 756 to 760: the body of the unique resolution loop. -/
def pass_unique_strct (sq : List strct) (s : Nat) : Except stop (List strct) := do
  let p ← getstrct sq s
  let q ← pass_unique_nq sq s p.nq
  .ok (modstrct sq s (fun st => { st with nq := q }))

/-- Lines 764 to 766: the body of the search sanity loop. -/
def pass_searchtype_strct (sq : List strct) (s : Nat) : Except stop (List strct) := do
  let p ← getstrct sq s
  check_searchtype sq p.sq
  .ok sq

/-- The structure a `struct strct *` of the array `pa` points at; a pointer
outside the arena, which `qsort` never passes, reads as an empty structure. -/
def strct_at (sq : List strct) (a : Nat) : strct :=
  match sq[a]? with
  | some p => p
  | none =>
    { name := [], fq := [], sq := [], aq := [], uq := [], dq := [], nq := [],
      height := 0, colour := 0 }

/-- The comparison `parse_cmp` on two elements of the pointer array `pa`. -/
def parse_cmp_at (sq : List strct) (a b : Nat) : Int :=
  parse_cmp (strct_at sq a) (strct_at sq b)

/-- Lines 774 to 786: the queue is emptied into the array `pa` in order, the
array is sorted by the library `qsort` with `parse_cmp`, and every element in
turn is inserted at the head of the queue: the final queue is the sorted array
reversed. -/
def pass_order (qsort : (Nat → Nat → Int) → List Nat → List Nat) (sq : List strct) : List Nat :=
  (qsort (parse_cmp_at sq) (List.range sq.length)).reverse

/-- The configuration after a successful `parse_link`: the arena with every
annotation, and the final structure queue as a list of structure pointers. -/
structure linked where
  sq : List strct
  order : List Nat
  deriving DecidableEq

/-- Lines 677 to 766: every pass of `parse_link` before the reordering. -/
def parse_link_passes (fuel : Nat) (cfg : config) : Except stop (List strct) := do
  let sq1 ← pass_link cfg
  pass_recursive fuel sq1 (List.range sq1.length)
  let sq2 ← pass_annotate fuel sq1
  let st ← pass_aliases fuel sq2
  let sq3 ← tailq_foreach pass_search_strct (List.range st.1.length) st.1
  let sq4 ← tailq_foreach pass_unique_strct (List.range sq3.length) sq3
  let sq5 ← tailq_foreach pass_searchtype_strct (List.range sq4.length) sq4
  .ok sq5

/-- The function `parse_link`.  The library function `qsort` is a parameter;
`fuel` bounds the depth of every recursion. -/
def parse_link (qsort : (Nat → Nat → Int) → List Nat → List Nat) (fuel : Nat) (cfg : config) :
    Except stop linked :=
  match parse_link_passes fuel cfg with
  | .error e => .error e
  | .ok sq => .ok { sq := sq, order := pass_order qsort sq }

/-- The contract of the library `qsort` for the comparison `cmp`: the result
is a rearrangement of the array in which no element is followed by one that
compares smaller. -/
def qsort_ok (qsort : (Nat → Nat → Int) → List Nat → List Nat) (cmp : Nat → Nat → Int) : Prop :=
  ∀ l : List Nat, (qsort cmp l).Perm l ∧ (qsort cmp l).Pairwise (fun a b => cmp a b ≤ 0)

/-- Insertion of one element into a sorted array. -/
def isort_insert (cmp : Nat → Nat → Int) (a : Nat) : List Nat → List Nat
  | [] => [a]
  | b :: l => if cmp a b ≤ 0 then a :: b :: l else b :: isort_insert cmp a l

/-- One admissible `qsort`: insertion sort. -/
def isort (cmp : Nat → Nat → Int) : List Nat → List Nat
  | [] => []
  | a :: l => isort_insert cmp a (isort cmp l)

/-! ## Specification-side definitions and sample configurations -/

/-- The structure that owns the target of the reference of a field:
`f->ref->target->parent`. -/
def field_target (f : field) : Option Nat :=
  match f.ref with
  | some r => r.target.map (fun t => t.s)
  | none => none

/-- The terminal field of a search entity can be read. -/
def sent_resolved (sq : List strct) (e : sent) : Bool :=
  match last_field sq e.srq with
  | .ok _ => true
  | .error _ => false

/-- A search entity compares a password-typed terminal field with an operator
other than equality. -/
def sent_password_misuse (sq : List strct) (e : sent) : Prop :=
  e.op ≠ optype.OPTYPE_EQUAL ∧
    ∃ f, last_field sq e.srq = .ok f ∧ f.type = ftype.FTYPE_PASSWORD

/-- A native field without a reference. -/
def mk_field (name : String) (type : ftype) (flags : Nat) : field :=
  { name := name.toList, type := type, flags := flags, ref := none, eref := none }

/-- A native field that declares a reference to `ts.tf`. -/
def mk_ref_field (name : String) (type : ftype) (ts tf : String) : field :=
  { name := name.toList, type := type, flags := 0,
    ref := some { sfield := name.toList, tfield := tf.toList, tstrct := ts.toList,
                  source := none, target := none },
    eref := none }

/-- A struct-typed field over the local field `src`, referring to `ts.tf`. -/
def mk_struct_field (name src ts tf : String) : field :=
  { name := name.toList, type := .FTYPE_STRUCT, flags := 0,
    ref := some { sfield := src.toList, tfield := tf.toList, tstrct := ts.toList,
                  source := none, target := none },
    eref := none }

/-- A structure as the parser leaves it: fields only, height and colour
zero. -/
def mk_strct (name : String) (fq : List field) : strct :=
  { name := name.toList, fq := fq, sq := [], aq := [], uq := [], dq := [], nq := [],
    height := 0, colour := 0 }

/-- A resolved search over a password field: `id` is compared for equality and
`hash` for inequality. -/
def sample_search_strct : strct :=
  { mk_strct "user" [mk_field "id" .FTYPE_INT FIELD_ROWID, mk_field "hash" .FTYPE_PASSWORD 0] with
    sq := [{ sntq := [{ srq := [{ name := "id".toList, field := some { s := 0, f := 0 } }],
                        op := .OPTYPE_EQUAL, name := none, flags := 1, alias_p := none },
                      { srq := [{ name := "hash".toList, field := some { s := 0, f := 1 } }],
                        op := .OPTYPE_NEQUAL, name := none, flags := 0, alias_p := none }],
             type := .STYPE_LIST, flags := 1 }] }

/-- The field of the structure at `s` that a name denotes: the first one, in
declaration order, whose name matches up to case. -/
def named_field (sq : List strct) (s : Nat) (n : List Char) : Option field :=
  match sq[s]? with
  | none => none
  | some p =>
    match find_field n p.fq with
    | some i => p.fq[i]?
    | none => none

/-- The structure reached from the structure at `s` along a list of names that
each denote a struct-typed field of the current structure; the next current structure
is the one that owns the target of the reference of that field. -/
def follow (sq : List strct) : List (List Char) → Nat → Option Nat
  | [], s => some s
  | n :: rest, s =>
    match named_field sq s n with
    | none => none
    | some f =>
      if f.type = ftype.FTYPE_STRUCT then
        match field_target f with
        | some t => follow sq rest t
        | none => none
      else none

/-- A chain of names is well formed from the structure at `s`: every name but
the last denotes a struct-typed field of the current structure, and the last
denotes a field of the last structure reached that is not struct-typed. -/
def chain_valid (sq : List strct) (names : List (List Char)) (s : Nat) : Prop :=
  ∃ last s2 f, names.getLast? = some last ∧ follow sq names.dropLast s = some s2 ∧
    named_field sq s2 last = some f ∧ f.type ≠ ftype.FTYPE_STRUCT

/-- The scenario `user(id: rowid)`, `post(id: rowid, author -> user.id)`: the
struct-typed field `author` of `post` goes through the local field `userid`
to `user.id`. -/
def sample_user : strct := mk_strct "user" [mk_field "id" .FTYPE_INT FIELD_ROWID]

/-- The structure `post` of the scenario. -/
def sample_post : strct :=
  mk_strct "post" [mk_field "id" .FTYPE_INT FIELD_ROWID, mk_field "userid" .FTYPE_INT 0,
    mk_struct_field "author" "userid" "user" "id"]

/-- The scenario with `user` declared first. -/
def cfg_user_post : config := { sq := [sample_user, sample_post], eq := [] }

/-- The scenario with `post` declared first. -/
def cfg_post_user : config := { sq := [sample_post, sample_user], eq := [] }

/-- The arena of a configuration after the first pass, empty when the pass
fails. -/
def linked_arena (cfg : config) : List strct :=
  match pass_link cfg with
  | .ok sq => sq
  | .error _ => []

/-- A search chain as the parser leaves it: names only. -/
def mk_chain (names : List String) : List sref :=
  names.map (fun n => { name := n.toList, field := none })

/-- A structure with a row identifier `id`, a local field `<dst>id` and a
struct-typed field `<dst>` over it that refers to `<dst>.id`. -/
def mk_node (name dst : String) : strct :=
  mk_strct name [mk_field "id" .FTYPE_INT FIELD_ROWID, mk_field (dst ++ "id") .FTYPE_INT 0,
    mk_struct_field dst (dst ++ "id") dst "id"]

/-- The scenario of two structures that refer to each other, `a` first. -/
def cfg_cycle_ab : config := { sq := [mk_node "a" "b", mk_node "b" "a"], eq := [] }

/-- The scenario of two structures that refer to each other, `b` first. -/
def cfg_cycle_ba : config := { sq := [mk_node "b" "a", mk_node "a" "b"], eq := [] }

/-- The structure `b` of the scenario with one more struct-typed field, `self`,
which refers to `b.id` and is declared before the field that refers to
`a.id`. -/
def strct_b_self : strct :=
  mk_strct "b" [mk_field "id" .FTYPE_INT FIELD_ROWID, mk_field "bid" .FTYPE_INT 0,
    mk_field "aid" .FTYPE_INT 0, mk_struct_field "self" "bid" "b" "id",
    mk_struct_field "a" "aid" "a" "id"]

/-- Two structures that refer to each other, `a` first, where `b` also refers
to itself. -/
def cfg_self_ab : config := { sq := [mk_node "a" "b", strct_b_self], eq := [] }

/-- The same two structures with `b` first. -/
def cfg_self_ba : config := { sq := [strct_b_self, mk_node "a" "b"], eq := [] }

/-- A cycle between `a` and `b` behind a structure `r` that refers to `a` and
is declared first. -/
def cfg_cycle_tail : config :=
  { sq := [mk_node "r" "a", mk_node "a" "b", mk_node "b" "a"], eq := [] }

/-- The same three structures with the cycle declared first. -/
def cfg_cycle_head : config :=
  { sq := [mk_node "a" "b", mk_node "b" "a", mk_node "r" "a"], eq := [] }

/-- The structure at `S` has a struct-typed field whose reference targets a
field of the structure at `T`. -/
def refers (sq : List strct) (S T : Nat) : Prop :=
  ∃ p, sq[S]? = some p ∧ ∃ f ∈ p.fq, f.type = ftype.FTYPE_STRUCT ∧ field_target f = some T

/-- The structure `mk_node name dst` after the first pass, when it sits at
`self` and the structure `dst` at `t`: the local field has received a
reference of its own and both references are resolved. -/
def linked_node (name dst : String) (self t : Nat) : strct :=
  let r : ref :=
    { sfield := (dst ++ "id").toList, tfield := "id".toList, tstrct := dst.toList,
      source := some { s := self, f := 1 }, target := some { s := t, f := 0 } }
  mk_strct name [mk_field "id" .FTYPE_INT FIELD_ROWID,
    { mk_field (dst ++ "id") .FTYPE_INT 0 with ref := some r },
    { mk_struct_field dst (dst ++ "id") dst "id" with ref := some r }]

/-- The structure `strct_b_self` after the first pass, when it sits at `self`
and the structure `a` at `t`. -/
def linked_b_self (self t : Nat) : strct :=
  let rb : ref :=
    { sfield := "bid".toList, tfield := "id".toList, tstrct := "b".toList,
      source := some { s := self, f := 1 }, target := some { s := self, f := 0 } }
  let ra : ref :=
    { sfield := "aid".toList, tfield := "id".toList, tstrct := "a".toList,
      source := some { s := self, f := 2 }, target := some { s := t, f := 0 } }
  mk_strct "b" [mk_field "id" .FTYPE_INT FIELD_ROWID,
    { mk_field "bid" .FTYPE_INT 0 with ref := some rb },
    { mk_field "aid" .FTYPE_INT 0 with ref := some ra },
    { mk_struct_field "self" "bid" "b" "id" with ref := some rb },
    { mk_struct_field "a" "aid" "a" "id" with ref := some ra }]

/-- The field a `struct field *` points at, if the pointer is inside the
arena. -/
def fld (sq : List strct) (q : fptr) : Option field :=
  match sq[q.s]? with
  | none => none
  | some st => st.fq[q.f]?

/-- In the queue `order`, the structure `a` comes before the structure `b`. -/
def precedes (order : List Nat) (a b : Nat) : Prop := List.Sublist [a, b] order

/-- The diamond: `r` refers to `t` and then to `q`, `q` refers to `s`, and `s`
refers to `t`, declared in the order `r`, `q`, `s`, `t`. -/
def cfg_diamond : config :=
  { sq := [mk_strct "r" [mk_field "id" .FTYPE_INT FIELD_ROWID, mk_field "tid" .FTYPE_INT 0,
             mk_field "qid" .FTYPE_INT 0, mk_struct_field "t" "tid" "t" "id",
             mk_struct_field "q" "qid" "q" "id"],
           mk_node "q" "s", mk_node "s" "t",
           mk_strct "t" [mk_field "id" .FTYPE_INT FIELD_ROWID]],
    eq := [] }

/-- The arena after every pass of `parse_link` but the last, empty when a pass
fails. -/
def passes_arena (fuel : Nat) (cfg : config) : List strct :=
  match parse_link_passes fuel cfg with
  | .ok sq => sq
  | .error _ => []

/-- No struct-typed field of the arena refers to a structure in `P`. -/
def no_ref_into (sq : List strct) (P : Nat → Prop) : Prop :=
  ∀ p ∈ sq, ∀ f ∈ p.fq, f.type = ftype.FTYPE_STRUCT → ∀ t, field_target f = some t → ¬ P t

/-- The length of the longest chain of struct-typed field references that
starts at the structure at `s`, explored to the given depth. -/
def longest_chain : Nat → List strct → Nat → Nat
  | 0, _, _ => 0
  | fuel + 1, sq, s =>
    match sq[s]? with
    | none => 0
    | some p =>
      (p.fq.map (fun f =>
        if f.type = ftype.FTYPE_STRUCT then
          match field_target f with
          | some t => 1 + longest_chain fuel sq t
          | none => 0
        else 0)).foldl max 0

/-- The part of the arena that linking never changes: the type tag and the
flags of every field of every structure. -/
def skel (sq : List strct) : List (List (ftype × Nat)) :=
  sq.map (fun st => st.fq.map (fun f => (f.type, f.flags)))

/-- A reference passes `checktargettype` in the arena. -/
def ref_checked (sq : List strct) (r : ref) : Prop := checktargettype sq r = .ok ()

/-- The target of a reference is a field that carries the row-identifier flag
and does not carry the nullable flag. -/
def ref_target_rowid (sq : List strct) (r : ref) : Prop :=
  ∃ tp tgt, r.target = some tp ∧ fld sq tp = some tgt ∧
    hasflag FIELD_ROWID tgt.flags = true ∧ hasflag FIELD_NULL tgt.flags = false

/-- The reference slot of the field a pointer points at: `f->ref`. -/
def ref_at (sq : List strct) (q : fptr) : Option (Option ref) := (fld sq q).map field.ref

/-- Every reference held by a field in `V` passes `checktargettype`. -/
def all_checked (V : fptr → Prop) (sq : List strct) : Prop :=
  ∀ q r, V q → ref_at sq q = some (some r) → ref_checked sq r

/-- Every reference held by a field that had none in the arena `sq0` has a
non-nullable row identifier as its target. -/
def created_rowid (sq0 sq : List strct) : Prop :=
  ∀ q r, ref_at sq0 q = some none → ref_at sq q = some (some r) → ref_target_rowid sq r

/-- A native field referring to a field that is nullable and no row
identifier: `post.uid` refers to `user.age`. -/
def cfg_native_ref : config :=
  { sq := [mk_strct "user" [mk_field "id" .FTYPE_INT FIELD_ROWID,
                            mk_field "age" .FTYPE_INT FIELD_NULL],
           mk_strct "post" [mk_ref_field "uid" .FTYPE_INT "user" "age"]],
    eq := [] }

/-- The join paths that start with one of the given fields, in declaration
order: for every struct-typed field, the field alone and then every path of
the structure it refers to (`sub`), each prefixed by the field. -/
def chains_fields (sub : Nat → List (List (List Char))) : List field → List (List (List Char))
  | [] => []
  | f :: fs =>
    if f.type = ftype.FTYPE_STRUCT then
      match field_target f with
      | some t => ([f.name] :: (sub t).map (fun c => f.name :: c)) ++ chains_fields sub fs
      | none => chains_fields sub fs
    else chains_fields sub fs

/-- The non-empty chains of struct-typed fields that start at the structure at
`s` (each next field belongs to the structure that owns the target of the
reference of the previous one), as lists of field names, depth first in
declaration order, explored to the given depth. -/
def chains : Nat → List strct → Nat → List (List (List Char))
  | 0, _, _ => []
  | fuel + 1, sq, s =>
    match sq[s]? with
    | none => []
    | some p => chains_fields (chains fuel sq) p.fq

/-- The names of a chain joined by dots. -/
def dotjoin : List (List Char) → List Char
  | [] => []
  | [n] => n
  | n :: m :: rest => n ++ '.' :: dotjoin (m :: rest)

/-- The aliases of a list of chains, numbered from `offs`. -/
def mk_aliases (prior : Option alias_t) : Nat → List (List (List Char)) → List alias_t
  | _, [] => []
  | offs, c :: cs =>
    { name := alias_name prior (dotjoin c), sym := ['_', Char.ofNat (offs + 97)] } ::
      mk_aliases prior (offs + 1) cs

/-- The struct-typed field references are resolved inside the arena and lead
to structures of strictly smaller rank: the reference graph is acyclic. -/
def acyclic_by (sq : List strct) (rank : Nat → Nat) : Prop :=
  ∀ s p, sq[s]? = some p → ∀ f ∈ p.fq, f.type = ftype.FTYPE_STRUCT →
    ∃ t, field_target f = some t ∧ t < sq.length ∧ rank t < rank s

/-- The number of join paths of the structures before the one at `s`: the
value of the alias counter when the alias loop reaches it. -/
def alias_offset (fuel : Nat) (sq : List strct) (s : Nat) : Nat :=
  ((List.range s).map (fun j => (chains fuel sq j).length)).sum

/-- An executable test for `acyclic_by`. -/
def acyclic_check (sq : List strct) (rank : Nat → Nat) : Bool :=
  (List.range sq.length).all (fun s =>
    match sq[s]? with
    | none => true
    | some p =>
      p.fq.all (fun f =>
        f.type != ftype.FTYPE_STRUCT ||
          match field_target f with
          | some t => decide (t < sq.length) && decide (rank t < rank s)
          | none => false))

/-- A structure with a row identifier `id`, a local field `<dst>id` and `n`
struct-typed fields `<dst>1`, `<dst>2`, ... over it, all referring to
`<dst>.id`. -/
def mk_fan (name dst : String) (n : Nat) : strct :=
  mk_strct name (mk_field "id" .FTYPE_INT FIELD_ROWID :: mk_field (dst ++ "id") .FTYPE_INT 0 ::
    (List.range n).map (fun k => mk_struct_field (dst ++ toString (k + 1)) (dst ++ "id") dst "id"))

/-- Structures `a`, `b`, `c`: four struct-typed fields of `a` refer to `b` and
five of `b` refer to `c`, so `a` has 24 join paths, `b` has 5 and `c` none. -/
def cfg_fan : config :=
  { sq := [mk_fan "a" "b" 4, mk_fan "b" "c" 5, mk_strct "c" [mk_field "id" .FTYPE_INT FIELD_ROWID]],
    eq := [] }

/-- The arena after the first three passes, empty when one fails. -/
def annotated_arena (fuel : Nat) (cfg : config) : List strct :=
  match pass_link cfg with
  | .error _ => []
  | .ok sq1 =>
    match pass_recursive fuel sq1 (List.range sq1.length) with
    | .error _ => []
    | .ok _ =>
      match pass_annotate fuel sq1 with
      | .error _ => []
      | .ok sq2 => sq2

/-- An entry of a modify list is acceptable: its name denotes a field of the
structure at `s` that is not struct-typed, and the modification is a `set` or
the field is an integer, a real or an epoch. -/
def uref_modifier_ok (sq : List strct) (s : Nat) (u : uref) : Prop :=
  ∃ f, named_field sq s u.name = some f ∧ f.type ≠ ftype.FTYPE_STRUCT ∧
    (u.mod = modtype.MODTYPE_SET ∨ f.type = ftype.FTYPE_INT ∨ f.type = ftype.FTYPE_REAL ∨
      f.type = ftype.FTYPE_EPOCH)

/-- An entry of a constraint list is acceptable: its name denotes a field of
the structure at `s` that is neither struct-typed nor password-typed. -/
def uref_constraint_ok (sq : List strct) (s : Nat) (u : uref) : Prop :=
  ∃ f, named_field sq s u.name = some f ∧ f.type ≠ ftype.FTYPE_STRUCT ∧
    f.type ≠ ftype.FTYPE_PASSWORD

/-- The processing of one update or delete in `parse_link` (lines 693 to 700):
`resolve_update` followed by `check_updatetype` succeeds. -/
def update_accepted (sq : List strct) (s : Nat) (up : update) : Prop :=
  ∃ up2, resolve_update sq s up = .ok up2 ∧ check_updatetype sq up2.crq = .ok ()

/-- An entry of an update as the parser leaves it. -/
def mk_uref (name : String) (op : optype) (mod : modtype) : uref :=
  { name := name.toList, op := op, mod := mod, field := none }

/-- A structure with an integer row identifier `id`, a text `name`, a password
`hash` and an integer `age` that is never null. -/
def sample_account : strct :=
  mk_strct "account" [mk_field "id" .FTYPE_INT FIELD_ROWID, mk_field "name" .FTYPE_TEXT 0,
    mk_field "hash" .FTYPE_PASSWORD 0, mk_field "age" .FTYPE_INT 0]

/-- A sample update of `sample_account`: it increments `age` (named in capitals)
where the `name` satisfies a null test. -/
def sample_update : update :=
  { mrq := [mk_uref "AGE" .OPTYPE_EQUAL .MODTYPE_INC],
    crq := [mk_uref "name" .OPTYPE_ISNULL .MODTYPE_SET], type := .UP_MODIFY }

/-- The acceptance of a unique constraint of the structure at `s`:
`resolve_unique` succeeds and `check_unique` accepts what it resolved. -/
def unique_accepted (sq : List strct) (s : Nat) (nq : List nref) : Prop :=
  ∃ nq2, resolve_unique sq s nq = .ok nq2 ∧ check_unique sq nq2 = .ok ()

/-- The scenario where `post` declares a unique constraint over its struct
field `author`. -/
def cfg_unique_author : config :=
  { sq := [sample_user,
      { sample_post with nq := [{ nq := [{ name := "author".toList, field := none }] }] }],
    eq := [] }

/-- The reference of the struct field `author` of `sample_post` once its source
and target are resolved, in the arena where `user` comes first. -/
def sample_author_ref : ref :=
  { sfield := "userid".toList, tfield := "id".toList, tstrct := "user".toList,
    source := some { s := 1, f := 1 }, target := some { s := 0, f := 0 } }

/-- A search of `sample_account` by `id` and by `name`, as the parser leaves
it. -/
def sample_id_search : search :=
  { sntq := [{ srq := [{ name := "id".toList, field := none }], op := .OPTYPE_EQUAL,
               name := none, flags := 0, alias_p := none },
             { srq := [{ name := "name".toList, field := none }], op := .OPTYPE_EQUAL,
               name := none, flags := 0, alias_p := none }],
    type := .STYPE_SEARCH, flags := 0 }

/-- The search `sample_id_search` once resolved in the arena that holds only
`sample_account`. -/
def sample_id_search_resolved : search :=
  { sntq := [{ srq := [{ name := "id".toList, field := some { s := 0, f := 0 } }],
               op := .OPTYPE_EQUAL, name := none, flags := 1, alias_p := none },
             { srq := [{ name := "name".toList, field := some { s := 0, f := 1 } }],
               op := .OPTYPE_EQUAL, name := none, flags := 0, alias_p := none }],
    type := .STYPE_SEARCH, flags := 1 }

/-- The fields of a structure that carry the row-identifier flag. -/
def rowid_fields (p : strct) : List field :=
  p.fq.filter (fun f => hasflag FIELD_ROWID f.flags)

/-- A structure has at most one row-identifier field, and that field is not
struct-typed. -/
def rowid_ok (p : strct) : Prop :=
  (rowid_fields p).length ≤ 1 ∧ ∀ f ∈ rowid_fields p, f.type ≠ ftype.FTYPE_STRUCT

/-- The same condition read on the types and flags of the fields. -/
def rowid_ok_row (row : List (ftype × Nat)) : Prop :=
  (row.filter (fun x => hasflag FIELD_ROWID x.2)).length ≤ 1 ∧
    ∀ x ∈ row, hasflag FIELD_ROWID x.2 = true → x.1 ≠ ftype.FTYPE_STRUCT

/-- A reference is consistent in an arena: a target is set only with a source,
and the pointers that are set point at fields of the arena. -/
def ref_wf (sq : List strct) (r : ref) : Prop :=
  (r.source = none → r.target = none) ∧
    (∀ sp, r.source = some sp → (fld sq sp).isSome = true) ∧
    (∀ tp, r.target = some tp → (fld sq tp).isSome = true)

/-- Every reference held by a field of the arena is consistent. -/
def refs_wf (sq : List strct) : Prop :=
  ∀ q r, ref_at sq q = some (some r) → ref_wf sq r

/-- The stop is a diagnosed failure: `parse_link` returns zero. -/
def is_fatal (e : stop) : Prop := ∃ d, e = .fatal d

/-- A field as the parser leaves it: its reference, when it has one, is not
resolved yet. -/
def field_parsed (f : field) : Bool :=
  match f.ref with
  | none => true
  | some r => r.source.isNone && r.target.isNone

/-- An update as the parser leaves it: no entry is resolved yet and every
modifier has a real modification kind. -/
def update_parsed (up : update) : Bool :=
  up.mrq.all (fun u => u.field.isNone && decide (u.mod ≠ modtype.MODTYPE__MAX)) &&
    up.crq.all (fun u => u.field.isNone)

/-- A structure as the parser leaves it. -/
def strct_parsed (p : strct) : Bool :=
  p.fq.all field_parsed && p.uq.all update_parsed && p.dq.all update_parsed

/-- A configuration as the parser leaves it. -/
def parsed (cfg : config) : Bool := cfg.sq.all strct_parsed

/-- A structure with two fields that carry the row-identifier flag. -/
def cfg_two_rowids : config :=
  { sq := [mk_strct "user" [mk_field "id" .FTYPE_INT FIELD_ROWID,
                            mk_field "uid" .FTYPE_INT FIELD_ROWID]],
    eq := [] }

/-- The names of an arena: every structure with the names of its fields, in
declaration order. -/
def names (sq : List strct) : List (List Char × List (List Char)) :=
  sq.map (fun st => (st.name, st.fq.map field.name))

/-- The entry at place `i` of a list of names is the first, in list order,
that agrees with `n` up to case. -/
def first_match (l : List (List Char)) (n : List Char) (i : Nat) : Prop :=
  (∃ x, l[i]? = some x ∧ strcasecmp x n = 0) ∧
    ∀ j x, j < i → l[j]? = some x → strcasecmp x n ≠ 0

/-- Every chain of struct-typed field references that starts at the structure
at `t` stays inside the arena and ends in fewer than `n` steps. -/
def explore : Nat → List strct → Nat → Prop
  | 0, _, _ => False
  | n + 1, sq, t =>
    ∃ p, sq[t]? = some p ∧ ∀ g ∈ p.fq, g.type = ftype.FTYPE_STRUCT →
      ∃ t2, field_target g = some t2 ∧ explore n sq t2

/-- The recursion check passes: `check_recursive` returns non-zero for every
struct-typed field of every structure, called with the reference of the field
and the structure. -/
def recursion_checked (sq : List strct) : Prop :=
  ∀ s p, sq[s]? = some p → ∀ f ∈ p.fq, f.type = ftype.FTYPE_STRUCT →
    ∃ fuel, check_recursive fuel sq f.ref s = .ok true

/-- A list of characters is the content of a C string: the terminating NUL
does not occur inside it. -/
def cstr (l : List Char) : Prop := ∀ c ∈ l, c.toNat ≠ 0

instance (l : List Char) : Decidable (cstr l) := by
  unfold cstr
  infer_instance

/-- The height of the structure at `x`. -/
def hgt (sq : List strct) (x : Nat) : Nat := (strct_at sq x).height

/-- The colour of the structure at `x`. -/
def col (sq : List strct) (x : Nat) : Nat := (strct_at sq x).colour

/-- The structure at `b` is reached from the structure at `a` along struct-typed
field references (in no step or more). -/
def reach (g : List strct) : Nat → Nat → Prop := Relation.ReflTransGen (refers g)

/-- Each structure is the reference target of struct-typed fields of at most
one structure. -/
def forest (g : List strct) : Prop := ∀ S S2 T, refers g S T → refers g S2 T → S = S2

/-- The structure at `k` is the target of a struct-typed field of the list. -/
def tgt (fs : List field) (k : Nat) : Prop :=
  ∃ f ∈ fs, f.type = ftype.FTYPE_STRUCT ∧ field_target f = some k

/-- The effect of `annotate` entered at the structure `t` with height `h` and
a colour `c` that nothing reachable from `t` carries: what is reachable from
`t` takes the colour, `t` gains `h`, along every reference that starts in the
reachable part the target gains one more than the source, and nothing else
changes. -/
def annot_spec (g sq sq2 : List strct) (t h c : Nat) : Prop :=
  sq2.map strct.fq = g.map strct.fq ∧
    (∀ x, ¬ reach g t x → hgt sq2 x = hgt sq x ∧ col sq2 x = col sq x) ∧
    (∀ x, reach g t x → col sq2 x = c) ∧
    hgt sq2 t = hgt sq t + h ∧
    (∀ x y, reach g t x → refers g x y → hgt sq2 y + hgt sq x = hgt sq y + hgt sq2 x + 1)

/-- The state of the loop of `annotate` over the fields of a structure once the
fields `pre` are done, against the state `sq0` at the start of the loop: what
the targets of `pre` reach is coloured, each target has gained `h`, along every
reference that starts in that part the target has gained one more than the
source, and nothing else has changed. -/
def loop_inv (g sq0 sq1 : List strct) (pre : List field) (h c : Nat) : Prop :=
  sq1.map strct.fq = g.map strct.fq ∧
    (∀ x, (∀ k, tgt pre k → ¬ reach g k x) → hgt sq1 x = hgt sq0 x ∧ col sq1 x = col sq0 x) ∧
    (∀ k, tgt pre k →
      (∀ x, reach g k x → col sq1 x = c) ∧ hgt sq1 k = hgt sq0 k + h ∧
        ∀ x y, reach g k x → refers g x y → hgt sq1 y + hgt sq0 x = hgt sq0 y + hgt sq1 x + 1)

/-- The state of the annotation loop of `parse_link` when it reaches the
structure at `i`: colours already given are below the colour counter, along
every struct-typed reference the target is at least as high as the source and
strictly higher once the source is coloured, and the structures before `i` that
have a struct-typed field are coloured. -/
def pass_inv (g : List strct) (i : Nat) (st : List strct × Nat) : Prop :=
  st.1.map strct.fq = g.map strct.fq ∧ 1 ≤ st.2 ∧ (∀ x, col st.1 x < st.2) ∧
    (∀ x y, refers g x y →
      hgt st.1 x ≤ hgt st.1 y ∧ (col st.1 x ≠ 0 → hgt st.1 x + 1 ≤ hgt st.1 y)) ∧
    (∀ j, j < i → (∃ k, refers g j k) → col st.1 j ≠ 0)

/-- An executable test for `refers`. -/
def refers_b (sq : List strct) (S T : Nat) : Bool :=
  match sq[S]? with
  | none => false
  | some p => p.fq.any (fun f => decide (f.type = ftype.FTYPE_STRUCT) && decide (field_target f = some T))

/-- An executable test for `forest`. -/
def forest_check (sq : List strct) : Bool :=
  (List.range sq.length).all (fun S =>
    (List.range sq.length).all (fun S2 =>
      match sq[S]? with
      | none => true
      | some p =>
        p.fq.all (fun f =>
          f.type != ftype.FTYPE_STRUCT ||
            match field_target f with
            | none => true
            | some T => !(refers_b sq S2 T) || decide (S = S2))))

/-- A chain declared against the direction of its references: `s` refers to
`t`, `q` refers to `s`, and `t` comes last. -/
def cfg_chain_reversed : config :=
  { sq := [mk_node "s" "t", mk_node "q" "s", mk_strct "t" [mk_field "id" .FTYPE_INT FIELD_ROWID]],
    eq := [] }

/-- Every structure that the structure at `x` refers to has height at least
one. -/
def done (g sq : List strct) (x : Nat) : Prop := ∀ y, refers g x y → 1 ≤ hgt sq y

/-- What a run of `annotate` with the colour `c`, inside the loop iteration
that started at the structure `r`, keeps and establishes: heights never
decrease, a structure other than `r` that carries the colour `c` has height at
least one, and a structure whose colour has changed carries `c` and has seen
all its struct-typed fields followed. -/
def mark_spec (g sq sq2 : List strct) (c r : Nat) : Prop :=
  sq2.map strct.fq = g.map strct.fq ∧ (∀ x, hgt sq x ≤ hgt sq2 x) ∧
    (∀ x, col sq2 x = c → x ≠ r → 1 ≤ hgt sq2 x) ∧
    (∀ x, col sq2 x = col sq x ∨ (col sq2 x = c ∧ done g sq2 x))

/-- The state of the annotation loop of `parse_link` when it reaches the
structure at `i`, on any acyclic arena: colours already given are below the
colour counter, every coloured structure has seen all its struct-typed fields
followed, and the structures before `i` that have a struct-typed field are
coloured. -/
def pass_mark_inv (g : List strct) (i : Nat) (st : List strct × Nat) : Prop :=
  st.1.map strct.fq = g.map strct.fq ∧ 1 ≤ st.2 ∧ (∀ x, col st.1 x < st.2) ∧
    (∀ x, col st.1 x ≠ 0 → done g st.1 x) ∧
    (∀ j, j < i → (∃ k, refers g j k) → col st.1 j ≠ 0)

/-! ## The JavaScript generator (`javascript.c`) -/

/-- One call of `printf` or `puts` in `javascript.c`, with its arguments.  The
flag of `list_fill` and `replcl` tells the call inside the null test (one more
level of indentation on the first line) from the one outside. -/
inductive js_out
  | prologue
  | fill_head (name : List Char)
  | var_decl
  | null_open (pname name : List Char)
  | list_fill (deep : Bool) (pname name tstrct : List Char)
  | replcl (deep : Bool) (pname name : List Char)
  | close
  | fill_foot
  | root (name : List Char)
  | epilogue
  deriving DecidableEq

/-- The text of the first `puts` of `gen_javascript`: the helper functions,
each with its own declaration of `list` and `i`. -/
def js_prologue : List Char :=
  ("(function(root) \x7b\n" ++
   "\t\x27use strict\x27;\n" ++
   "\n" ++
   "\tfunction _repl(e, text)\n" ++
   "\t\x7b\n" ++
   "\t\tif (null === e)\n" ++
   "\t\t\treturn;\n" ++
   "\t\twhile (e.firstChild)\n" ++
   "\t\t\te.removeChild(e.firstChild);\n" ++
   "\t\te.appendChild(document.createTextNode(text));\n" ++
   "\t\x7d\n" ++
   "\n" ++
   "\tfunction _replcl(e, name, text)\n" ++
   "\t\x7b\n" ++
   "\t\tvar list, i;\n" ++
   "\t\tif (null === e)\n" ++
   "\t\t\treturn;\n" ++
   "\t\tlist = e.getElementsByClassName(name);\n" ++
   "\t\tfor (i = 0; i < list.length; i++)\n" ++
   "\t\t\t_repl(list[i], text);\n" ++
   "\t\x7d\n" ++
   "\n" ++
   "\tfunction _hide(e)\n" ++
   "\t\x7b\n" ++
   "\t\tif (null === e)\n" ++
   "\t\t\treturn(null);\n" ++
   "\t\tif ( ! e.classList.contains(\x27hide\x27))\n" ++
   "\t\t\te.classList.add(\x27hide\x27);\n" ++
   "\t\treturn(e);\n" ++
   "\t\x7d\n" ++
   "\t\n" ++
   "\tfunction _hidecl(e, name)\n" ++
   "\t\x7b\n" ++
   "\t\tvar list, i;\n" ++
   "\t\tif (null === e)\n" ++
   "\t\t\treturn;\n" ++
   "\t\tlist = e.getElementsByClassName(name);\n" ++
   "\t\tfor (i = 0; i < list.length; i++)\n" ++
   "\t\t\t_hide(list[i]);\n" ++
   "\t\x7d\n" ++
   "\n" ++
   "\tfunction _show(e)\n" ++
   "\t\x7b\n" ++
   "\t\tif (null === e)\n" ++
   "\t\t\treturn(null);\n" ++
   "\t\tif (e.classList.contains(\x27hide\x27))\n" ++
   "\t\t\te.classList.remove(\x27hide\x27);\n" ++
   "\t\treturn(e);\n" ++
   "\t\x7d\n" ++
   "\t\n" ++
   "\tfunction _showcl(e, name)\n" ++
   "\t\x7b\n" ++
   "\t\tvar list, i;\n" ++
   "\t\tif (null === e)\n" ++
   "\t\t\treturn;\n" ++
   "\t\tlist = e.getElementsByClassName(name);\n" ++
   "\t\tfor (i = 0; i < list.length; i++)\n" ++
   "\t\t\t_show(list[i]);\n" ++
   "\t\x7d\n" ++
   "\n").toList

/-- The text that a call writes: the format with every `%s` replaced by its
argument, and the newline that `puts` appends. -/
def js_out.render : js_out → List Char
  | .prologue => js_prologue
  | .fill_head name =>
    "\tfunction ".toList ++ name ++ "(obj)\n\t\x7b\n\t\tthis.obj = obj;\n".toList ++
      "\t\tthis.fill = function(e)\x7b\n".toList
  | .var_decl => "\t\t\tvar list, i;\n".toList
  | .null_open pname name =>
    "\t\t\tif (null === this.obj.".toList ++ name ++ ") \x7b\n".toList ++
      "\t\t\t\t_hidecl(e, \x27".toList ++ pname ++ "-has-".toList ++ name ++ "\x27);\n".toList ++
      "\t\t\t\t_showcl(e, \x27".toList ++ pname ++ "-no-".toList ++ name ++ "\x27);\n".toList ++
      "\t\t\t\x7d else \x7b\n".toList ++
      "\t\t\t\t_showcl(e, \x27".toList ++ pname ++ "-has-".toList ++ name ++ "\x27);\n".toList ++
      "\t\t\t\t_hidecl(e, \x27".toList ++ pname ++ "-no-".toList ++ name ++ "\x27);\n".toList
  | .list_fill deep pname name tstrct =>
    (if deep then "\t\t\t\t" else "\t\t\t").toList ++
      "list = e.getElementsByClassName(\x27".toList ++ pname ++ "-".toList ++ name ++
      "-obj\x27);\n".toList ++
      "\t\t\tfor (i = 0; i < list.length; i++)\n".toList ++
      "\t\t\t\t".toList ++ tstrct ++ ".fill(list[i], this.obj.".toList ++ name ++ ");\n".toList
  | .replcl deep pname name =>
    (if deep then "\t\t\t\t" else "\t\t\t").toList ++
      "_replcl(e, \x27".toList ++ pname ++ "-".toList ++ name ++
      "-text\x27, this.obj.".toList ++ name ++ ");\n".toList
  | .close => "\t\t\t\x7d\n".toList
  | .fill_foot => "\t\t\x7d;\n\t\x7d\n\n".toList
  | .root name => "\troot.".toList ++ name ++ " = ".toList ++ name ++ ";\n".toList
  | .epilogue => "\x7d)(this);\n".toList

/-- The statement of `gen_js_field` for a struct-typed field, which assigns
`list` and counts with `i`; it reads `f->ref->tstrct`. -/
def gen_js_struct_stmt (deep : Bool) (pname : List Char) (f : field) : Except stop js_out :=
  match f.ref with
  | none => .error .null
  | some r => .ok (.list_fill deep pname f.name r.tstrct)

/-- The function `gen_js_field` on a field of the structure named `pname`: the
calls it makes, in order.  A field lives in the queue of its structure, so
`f->parent->name` is the name of the structure whose queue is walked. -/
def gen_js_field (pname : List Char) (f : field) : Except stop (List js_out) :=
  if hasflag FIELD_NOEXPORT f.flags ∨ ftype.FTYPE_BLOB = f.type then .ok []
  else if hasflag FIELD_NULL f.flags then
    if ftype.FTYPE_STRUCT = f.type then
      match gen_js_struct_stmt true pname f with
      | .error e => .error e
      | .ok o => .ok [.null_open pname f.name, o, .close]
    else .ok [.null_open pname f.name, .replcl true pname f.name, .close]
  else
    if ftype.FTYPE_STRUCT = f.type then
      match gen_js_struct_stmt false pname f with
      | .error e => .error e
      | .ok o => .ok [o]
    else .ok [.replcl false pname f.name]

/-- The second loop over the fields in `gen_javascript`: `gen_js_field` on each
field in turn. -/
def gen_js_fields (pname : List Char) : List field → Except stop (List js_out)
  | [] => .ok []
  | f :: fs =>
    match gen_js_field pname f with
    | .error e => .error e
    | .ok o =>
      match gen_js_fields pname fs with
      | .error e => .error e
      | .ok os => .ok (o ++ os)

/-- The first loop over the fields in `gen_javascript`: the declaration of
`list` and `i` is written at the first exported struct-typed field, and the
loop stops there. -/
def gen_js_decl : List field → List js_out
  | [] => []
  | f :: fs =>
    if ¬ hasflag FIELD_NOEXPORT f.flags ∧ ftype.FTYPE_STRUCT = f.type then [.var_decl]
    else gen_js_decl fs

/-- The body of the first loop over the structures in `gen_javascript`: the
constructor of one structure with its `fill` function. -/
def gen_js_strct (s : strct) : Except stop (List js_out) :=
  match gen_js_fields s.name s.fq with
  | .error e => .error e
  | .ok body => .ok (.fill_head s.name :: gen_js_decl s.fq ++ body ++ [.fill_foot])

/-- The first loop over the structures in `gen_javascript`. -/
def gen_js_strcts : List strct → Except stop (List js_out)
  | [] => .ok []
  | s :: more =>
    match gen_js_strct s with
    | .error e => .error e
    | .ok o =>
      match gen_js_strcts more with
      | .error e => .error e
      | .ok os => .ok (o ++ os)

/-- The function `gen_javascript` on a structure queue: every call it makes, in
order. -/
def gen_javascript (sq : List strct) : Except stop (List js_out) :=
  match gen_js_strcts sq with
  | .error e => .error e
  | .ok blocks => .ok (.prologue :: blocks ++ sq.map (fun s => js_out.root s.name) ++ [.epilogue])

/-- The text that `gen_javascript` writes to the standard output. -/
def gen_javascript_text (sq : List strct) : Except stop (List Char) :=
  match gen_javascript sq with
  | .error e => .error e
  | .ok outs => .ok (outs.map js_out.render).flatten

/-- The call is a statement that assigns `list` or counts with `i` in the scope
of the `fill` function. -/
def uses_list_or_i : js_out → Bool
  | .list_fill _ _ _ _ => true
  | _ => false

/-- The call is one that `gen_js_field` makes, inside the body of a `fill`
function. -/
def in_fill_body : js_out → Bool
  | .null_open _ _ => true
  | .list_fill _ _ _ _ => true
  | .replcl _ _ _ => true
  | .close => true
  | _ => false

/-- The field is exported and struct-typed. -/
def exported_struct (f : field) : Prop :=
  ¬ hasflag FIELD_NOEXPORT f.flags = true ∧ f.type = ftype.FTYPE_STRUCT

instance (f : field) : Decidable (exported_struct f) := by
  unfold exported_struct
  infer_instance

/-- The text of a sequence of calls. -/
def js_text (outs : List js_out) : List Char := (outs.map js_out.render).flatten

/-- What is claimed of the calls `block` made for the structure `s`: they are
the head of the `fill` function, a declaration or nothing, the output of
`gen_js_field` on every field in order, and the foot; a field gives a statement
using `list` or `i` exactly when it is exported and struct-typed; and when some
field gives such a statement the declaration is there, its text standing
between the head and the text of the fields. -/
def fill_block (s : strct) (block : List js_out) : Prop :=
  ∃ (outs : List (List js_out)) (decl : List js_out),
    List.Forall₂ (fun f o => gen_js_field s.name f = .ok o) s.fq outs ∧
    (∀ f ∈ s.fq, ∀ o, gen_js_field s.name f = .ok o →
      ((∃ x ∈ o, uses_list_or_i x = true) ↔ exported_struct f)) ∧
    block = js_out.fill_head s.name :: decl ++ outs.flatten ++ [js_out.fill_foot] ∧
    (decl = [] ∨ decl = [js_out.var_decl]) ∧
    ((∃ x ∈ outs.flatten, uses_list_or_i x = true) →
      decl = [js_out.var_decl] ∧
      js_text block = (js_out.fill_head s.name).render ++ "\t\t\tvar list, i;\n".toList ++
        js_text outs.flatten ++ js_out.fill_foot.render)

/-- Every statement using `list` or `i` stands in a `fill` function whose first
call after the head is the declaration, with only field output between the
declaration and the statement. -/
def declared_before_use (outs : List js_out) : Prop :=
  ∀ pre x post, outs = pre ++ x :: post → uses_list_or_i x = true →
    ∃ a nm b, pre = a ++ js_out.fill_head nm :: js_out.var_decl :: b ∧
      ∀ y ∈ b, in_fill_body y = true

/-! ## Theorems -/

/-! ### The search sanity pass -/

theorem check_searchtype_sntq_spec (sq : List strct) (l : List sent)
    (h : ∀ e ∈ l, sent_resolved sq e = true) :
    ((∃ e ∈ l, sent_password_misuse sq e) ∧
        check_searchtype_sntq sq l = .error (.fatal .password_only_equality)) ∨
      ((¬ ∃ e ∈ l, sent_password_misuse sq e) ∧ check_searchtype_sntq sq l = .ok ()) := by
  induction l with
  | nil => simp [check_searchtype_sntq]
  | cons e es ih =>
    have hr := h e (List.mem_cons_self _ _)
    unfold sent_resolved at hr
    cases hf : last_field sq e.srq with
    | error x => simp [hf] at hr
    | ok f =>
      have ih2 := ih (fun e2 he2 => h e2 (List.mem_cons_of_mem _ he2))
      have hnull : check_searchtype_null sq e = .ok () := by
        unfold check_searchtype_null
        split
        · rw [hf]
        · rfl
      unfold check_searchtype_sntq
      rw [hnull]
      by_cases hop : optype.OPTYPE_EQUAL = e.op
      · have hne : ¬ sent_password_misuse sq e := fun hb => hb.1 hop.symm
        simp only [hop, ne_eq, not_true_eq_false, ↓reduceIte, List.mem_cons, exists_eq_or_imp,
          hne, false_or]
        exact ih2
      · by_cases hp : ftype.FTYPE_PASSWORD = f.type
        · have hb : sent_password_misuse sq e := ⟨fun h2 => hop h2.symm, f, hf, hp.symm⟩
          left
          simp [hop, hf, hp, hb]
        · have hne : ¬ sent_password_misuse sq e := by
            rintro ⟨_, g, hg, hgp⟩
            rw [hf] at hg
            cases hg
            exact hp hgp.symm
          simp only [ne_eq, hop, not_false_eq_true, ↓reduceIte, hf, hp, List.mem_cons,
            exists_eq_or_imp, hne, false_or]
          exact ih2

theorem check_searchtype_spec (sq : List strct) (l : List search)
    (h : ∀ srch ∈ l, ∀ e ∈ srch.sntq, sent_resolved sq e = true) :
    ((∃ srch ∈ l, ∃ e ∈ srch.sntq, sent_password_misuse sq e) ∧
        check_searchtype sq l = .error (.fatal .password_only_equality)) ∨
      ((¬ ∃ srch ∈ l, ∃ e ∈ srch.sntq, sent_password_misuse sq e) ∧
        check_searchtype sq l = .ok ()) := by
  induction l with
  | nil => simp [check_searchtype]
  | cons s ss ih =>
    have ih2 := ih (fun e2 he2 => h e2 (List.mem_cons_of_mem _ he2))
    unfold check_searchtype
    rcases check_searchtype_sntq_spec sq s.sntq (h s (List.mem_cons_self _ _)) with
      ⟨hb, he⟩ | ⟨hb, he⟩
    · left
      refine ⟨⟨s, List.mem_cons_self _ _, hb⟩, ?_⟩
      simp [he]
    · simp only [he, List.mem_cons, exists_eq_or_imp, hb, false_or]
      exact ih2

/-- C10: on a structure whose search entities all have a readable terminal
field, `check_searchtype` does not succeed exactly when some entity compares a
password-typed terminal field with an operator other than equality, and then it
fails with the password diagnostic; nothing else (search cardinality, a
null-sensitivity operator on a field that is never null) makes it fail. -/
theorem C10_check_searchtype_password_only (sq : List strct) (p : strct)
    (h : ∀ srch ∈ p.sq, ∀ e ∈ srch.sntq, sent_resolved sq e = true) :
    (check_searchtype sq p.sq ≠ .ok () ↔
        ∃ srch ∈ p.sq, ∃ e ∈ srch.sntq, sent_password_misuse sq e) ∧
      (check_searchtype sq p.sq = .ok () ∨
        check_searchtype sq p.sq = .error (.fatal .password_only_equality)) := by
  rcases check_searchtype_spec sq p.sq h with ⟨hb, he⟩ | ⟨hb, he⟩
  · refine ⟨⟨fun _ => hb, fun _ => ?_⟩, Or.inr he⟩
    rw [he]
    exact fun h2 => by cases h2
  · refine ⟨⟨fun h2 => absurd he h2, fun h2 => absurd h2 hb⟩, Or.inl he⟩

/-- C10 at a sample: a resolved search that compares a password for inequality
is rejected. -/
theorem C10_check_searchtype_password_only_witness :
    (∀ srch ∈ sample_search_strct.sq, ∀ e ∈ srch.sntq,
        sent_resolved [sample_search_strct] e = true) ∧
      check_searchtype [sample_search_strct] sample_search_strct.sq ≠ .ok () := by
  have hres : ∀ srch ∈ sample_search_strct.sq, ∀ e ∈ srch.sntq,
      sent_resolved [sample_search_strct] e = true := by decide
  refine ⟨hres, ?_⟩
  have h := C10_check_searchtype_password_only [sample_search_strct] sample_search_strct hres
  rw [h.1]
  refine ⟨_, List.mem_cons_self _ _, _, List.mem_cons_of_mem _ (List.mem_cons_self _ _), ?_⟩
  exact ⟨by decide, _, rfl, rfl⟩

/-! ### Search chains -/

theorem find_field_lt (n : List Char) (fq : List field) (i : Nat)
    (h : find_field n fq = some i) : i < fq.length := by
  induction fq generalizing i with
  | nil => simp [find_field] at h
  | cons f fs ih =>
    unfold find_field at h
    split at h
    · cases h
      simp
    · cases hr : find_field n fs with
      | none => simp [hr] at h
      | some j =>
        simp [hr] at h
        subst h
        have := ih j hr
        simp
        omega

theorem chain_valid_single (sq : List strct) (n : List Char) (s : Nat) :
    chain_valid sq [n] s ↔ ∃ f, named_field sq s n = some f ∧ f.type ≠ ftype.FTYPE_STRUCT := by
  unfold chain_valid
  constructor
  · rintro ⟨last, s2, f, h1, h2, h3, h4⟩
    simp [follow] at h1 h2
    subst h1 h2
    exact ⟨f, h3, h4⟩
  · rintro ⟨f, h3, h4⟩
    exact ⟨n, s, f, by simp, by simp [follow], h3, h4⟩

theorem chain_valid_cons (sq : List strct) (a b : List Char) (l : List (List Char)) (s : Nat) :
    chain_valid sq (a :: b :: l) s ↔
      ∃ f t, named_field sq s a = some f ∧ f.type = ftype.FTYPE_STRUCT ∧
        field_target f = some t ∧ chain_valid sq (b :: l) t := by
  unfold chain_valid
  simp only [List.getLast?_cons_cons, List.dropLast_cons₂, follow]
  constructor
  · rintro ⟨last, s2, f, h1, h2, h3, h4⟩
    cases hn : named_field sq s a with
    | none => simp [hn] at h2
    | some g =>
      simp only [hn] at h2
      split at h2
      · rename_i hg
        cases ht : field_target g with
        | none => simp [ht] at h2
        | some t =>
          simp only [ht] at h2
          exact ⟨g, t, rfl, hg, ht, last, s2, f, h1, h2, h3, h4⟩
      · cases h2
  · rintro ⟨g, t, hn, hg, ht, last, s2, f, h1, h2, h3, h4⟩
    refine ⟨last, s2, f, h1, ?_, h3, h4⟩
    simp [hn, hg, ht, h2]

theorem resolve_sref_single_ok (sq : List strct) (r : sref) (s : Nat) :
    (∃ out, resolve_sref sq [r] s = .ok out) ↔
      ∃ f, named_field sq s r.name = some f ∧ f.type ≠ ftype.FTYPE_STRUCT := by
  rw [resolve_sref]
  unfold named_field getstrct getfield
  cases hs : sq[s]? with
  | none => simp
  | some p =>
    cases hi : find_field r.name p.fq with
    | none => simp [hi]
    | some i =>
      have hlt := find_field_lt _ _ _ hi
      have hget : p.fq[i]? = some p.fq[i] := List.getElem?_eq_getElem hlt
      by_cases hty : ftype.FTYPE_STRUCT = p.fq[i].type
      · simp [hs, hi, hget, hty.symm]
      · have hty2 : ¬ p.fq[i].type = ftype.FTYPE_STRUCT := fun h => hty h.symm
        simp [hs, hi, hget, hty, hty2]

theorem resolve_sref_cons_ok (sq : List strct) (r n : sref) (more : List sref) (s : Nat) :
    (∃ out, resolve_sref sq (r :: n :: more) s = .ok out) ↔
      ∃ f t, named_field sq s r.name = some f ∧ f.type = ftype.FTYPE_STRUCT ∧
        field_target f = some t ∧ ∃ out, resolve_sref sq (n :: more) t = .ok out := by
  rw [resolve_sref]
  unfold named_field getstrct getfield field_target
  cases hs : sq[s]? with
  | none => simp
  | some p =>
    cases hi : find_field r.name p.fq with
    | none => simp [hi]
    | some i =>
      have hlt := find_field_lt _ _ _ hi
      have hget : p.fq[i]? = some p.fq[i] := List.getElem?_eq_getElem hlt
      by_cases hty : ftype.FTYPE_STRUCT = p.fq[i].type
      · cases hr : p.fq[i].ref with
        | none => simp [hs, hi, hget, hty.symm, hr]
        | some fr =>
          cases ht : fr.target with
          | none => simp [hs, hi, hget, hty.symm, hr, ht]
          | some t =>
            cases hrec : resolve_sref sq (n :: more) t.s with
            | error e => simp [hs, hi, hget, hty.symm, hr, ht, hrec]
            | ok out => simp [hs, hi, hget, hty.symm, hr, ht, hrec]
      · have hty2 : ¬ p.fq[i].type = ftype.FTYPE_STRUCT := fun h => hty h.symm
        simp [hs, hi, hget, hty, hty2]

theorem resolve_sref_iff (sq : List strct) (chain : List sref) (s : Nat) :
    (∃ out, resolve_sref sq chain s = .ok out) ↔
      chain_valid sq (chain.map sref.name) s := by
  induction chain generalizing s with
  | nil =>
    simp [resolve_sref, chain_valid]
  | cons r rest ih =>
    cases rest with
    | nil =>
      rw [List.map_singleton, chain_valid_single, resolve_sref_single_ok]
    | cons n more =>
      rw [List.map_cons, List.map_cons, chain_valid_cons, ← List.map_cons, resolve_sref_cons_ok]
      simp only [ih]

theorem resolve_sref_interior (sq : List strct) (pre : List sref) (r : sref) (post : List sref)
    (s s2 : Nat) (f : field) (hpost : post ≠ [])
    (hpre : follow sq (pre.map sref.name) s = some s2)
    (hf : named_field sq s2 r.name = some f) (hty : f.type ≠ ftype.FTYPE_STRUCT) :
    resolve_sref sq (pre ++ r :: post) s = .error (.fatal .search_node_not_struct) := by
  induction pre generalizing s with
  | nil =>
    simp only [List.map_nil, follow, Option.some.injEq] at hpre
    subst hpre
    cases post with
    | nil => exact absurd rfl hpost
    | cons n more =>
      rw [List.nil_append, resolve_sref]
      unfold named_field at hf
      unfold getstrct getfield
      cases hs : sq[s]? with
      | none => simp [hs] at hf
      | some p =>
        cases hi : find_field r.name p.fq with
        | none => simp [hs, hi] at hf
        | some i =>
          simp only [hs, hi] at hf
          have hty2 : ¬ ftype.FTYPE_STRUCT = f.type := fun h => hty h.symm
          simp [hs, hi, hf, hty2]
  | cons a pre2 ih =>
    simp only [List.map_cons, follow] at hpre
    cases hn : named_field sq s a.name with
    | none => simp [hn] at hpre
    | some g =>
      simp only [hn] at hpre
      split at hpre
      · rename_i hg
        cases ht : field_target g with
        | none => simp [ht] at hpre
        | some t =>
          simp only [ht] at hpre
          have hrec := ih t hpre
          obtain ⟨n, more, hnm⟩ : ∃ n more, pre2 ++ r :: post = n :: more := by
            cases pre2 with
            | nil => exact ⟨r, post, rfl⟩
            | cons b l => exact ⟨b, l ++ r :: post, rfl⟩
          rw [List.cons_append, hnm, resolve_sref]
          rw [hnm] at hrec
          unfold named_field at hn
          unfold field_target at ht
          unfold getstrct getfield
          cases hs : sq[s]? with
          | none => simp [hs] at hn
          | some p =>
            cases hi : find_field a.name p.fq with
            | none => simp [hs, hi] at hn
            | some i =>
              simp only [hs, hi] at hn
              cases hr : g.ref with
              | none => simp [hr] at ht
              | some fr =>
                simp only [hr, Option.map_eq_some'] at ht
                obtain ⟨tp, htp, rfl⟩ := ht
                simp [hs, hi, hn, hg, hr, htp, hrec]
      · cases hpre

/-- C9: `resolve_sref`, started at the structure at `s`, succeeds exactly when
every name of the chain but the last denotes (first match up to case, in
declaration order) a struct-typed field of the current structure, followed
through the target of its reference, and the last name denotes a field that is
not struct-typed; and a chain with an interior segment that denotes a
non-struct field fails with the node-not-a-struct diagnostic. -/
theorem C9_resolve_sref_chain (sq : List strct) (chain : List sref) (s : Nat) :
    ((∃ out, resolve_sref sq chain s = .ok out) ↔ chain_valid sq (chain.map sref.name) s) ∧
      (∀ (pre : List sref) (r : sref) (post : List sref) (s2 : Nat) (f : field),
        chain = pre ++ r :: post → post ≠ [] →
        follow sq (pre.map sref.name) s = some s2 →
        named_field sq s2 r.name = some f → f.type ≠ ftype.FTYPE_STRUCT →
        resolve_sref sq chain s = .error (.fatal .search_node_not_struct)) := by
  refine ⟨resolve_sref_iff sq chain s, ?_⟩
  intro pre r post s2 f hc hpost hpre hf hty
  subst hc
  exact resolve_sref_interior sq pre r post s s2 f hpost hpre hf hty

/-- C9 at the scenario `user`, `post`: from `post` the chain `author.id` is
well formed, and the chain `userid.id`, whose interior segment is a native
field, fails. -/
theorem C9_resolve_sref_chain_witness :
    chain_valid (linked_arena cfg_user_post)
        ((mk_chain ["author", "id"]).map sref.name) 1 ∧
      resolve_sref (linked_arena cfg_user_post) (mk_chain ["userid", "id"]) 1 =
        .error (.fatal .search_node_not_struct) := by
  have h := C9_resolve_sref_chain (linked_arena cfg_user_post)
  have hok : resolve_sref (linked_arena cfg_user_post) (mk_chain ["author", "id"]) 1 =
      .ok [{ name := "author".toList, field := some { s := 1, f := 2 } },
           { name := "id".toList, field := some { s := 0, f := 0 } }] := by decide
  refine ⟨((h (mk_chain ["author", "id"]) 1).1).1 ⟨_, hok⟩, ?_⟩
  exact (h (mk_chain ["userid", "id"]) 1).2 [] _ _ 1 _ rfl (by decide) rfl rfl (by decide)

/-! ### The recursion check -/

theorem check_recursive_hit (fuel : Nat) (sq : List strct) (f : field) (check : Nat)
    (h : field_target f = some check) :
    check_recursive (fuel + 1) sq f.ref check = .ok false := by
  unfold field_target at h
  cases hr : f.ref with
  | none => simp [hr] at h
  | some r =>
    simp only [hr, Option.map_eq_some'] at h
    obtain ⟨t, ht, hts⟩ := h
    simp [check_recursive, ht, hts]

theorem check_recursive_fields_hit (fuel : Nat) (sq : List strct) (check : Nat)
    (fq : List field)
    (hall : ∀ f ∈ fq, f.type = ftype.FTYPE_STRUCT → field_target f = some check)
    (hex : ∃ f ∈ fq, f.type = ftype.FTYPE_STRUCT) :
    check_recursive_fields (fun r2 => check_recursive (fuel + 1) sq r2 check) fq = .ok false := by
  induction fq with
  | nil =>
    obtain ⟨f, hf, _⟩ := hex
    cases hf
  | cons f fs ih =>
    unfold check_recursive_fields
    by_cases hty : f.type = ftype.FTYPE_STRUCT
    · have := check_recursive_hit fuel sq f check (hall f (List.mem_cons_self _ _) hty)
      simp [hty, this]
    · have hty2 : ¬ ftype.FTYPE_STRUCT = f.type := fun h => hty h.symm
      simp only [hty2, ↓reduceIte]
      apply ih (fun g hg => hall g (List.mem_cons_of_mem _ hg))
      obtain ⟨g, hg, hgt⟩ := hex
      rcases List.mem_cons.1 hg with rfl | hg2
      · exact absurd hgt hty
      · exact ⟨g, hg2, hgt⟩

theorem pass_recursive_fields_two (fuel : Nat) (a b : strct) (fq : List field)
    (hall : ∀ f ∈ fq, f.type = ftype.FTYPE_STRUCT → field_target f = some 1)
    (hex : ∃ f ∈ fq, f.type = ftype.FTYPE_STRUCT)
    (hb : ∃ f ∈ b.fq, f.type = ftype.FTYPE_STRUCT)
    (hba : ∀ f ∈ b.fq, f.type = ftype.FTYPE_STRUCT → field_target f = some 0) :
    pass_recursive_fields (fuel + 2) [a, b] 0 fq = .error (.fatal .recursive_reference) := by
  induction fq with
  | nil =>
    obtain ⟨f, hf, _⟩ := hex
    cases hf
  | cons f fs ih =>
    unfold pass_recursive_fields
    by_cases hty : f.type = ftype.FTYPE_STRUCT
    · have ht := hall f (List.mem_cons_self _ _) hty
      have hrec : check_recursive (fuel + 2) [a, b] f.ref 0 = .ok false := by
        unfold field_target at ht
        cases hr : f.ref with
        | none => simp [hr] at ht
        | some r =>
          simp only [hr, Option.map_eq_some'] at ht
          obtain ⟨t, htt, hts⟩ := ht
          rw [check_recursive]
          simp only [htt, hts, getstrct]
          simpa using check_recursive_fields_hit fuel [a, b] 0 b.fq hba hb
      simp [hty, hrec]
    · have hty2 : ¬ ftype.FTYPE_STRUCT = f.type := fun h => hty h.symm
      simp only [hty2, ↓reduceIte]
      apply ih (fun g hg => hall g (List.mem_cons_of_mem _ hg))
      obtain ⟨g, hg, hgt⟩ := hex
      rcases List.mem_cons.1 hg with rfl | hg2
      · exact absurd hgt hty
      · exact ⟨g, hg2, hgt⟩

/-- A configuration of exactly two structures, linked without error, in which
every struct-typed field of the first refers to the second and every one of
the second refers to the first (each has at least one), makes `parse_link`
return failure with the recursive-reference diagnostic: no alias is generated
and no reordered list is produced.  The statement is symmetric in the two
structures, so it covers both list orders. -/
theorem mutual_reference_rejected (qsort : (Nat → Nat → Int) → List Nat → List Nat)
    (fuel : Nat) (cfg : config) (a b : strct)
    (hlink : pass_link cfg = .ok [a, b])
    (ha : ∃ f ∈ a.fq, f.type = ftype.FTYPE_STRUCT)
    (hab : ∀ f ∈ a.fq, f.type = ftype.FTYPE_STRUCT → field_target f = some 1)
    (hb : ∃ f ∈ b.fq, f.type = ftype.FTYPE_STRUCT)
    (hba : ∀ f ∈ b.fq, f.type = ftype.FTYPE_STRUCT → field_target f = some 0) :
    parse_link qsort (fuel + 2) cfg = .error (.fatal .recursive_reference) := by
  have h := pass_recursive_fields_two fuel a b a.fq hab ha hb hba
  simp [parse_link, parse_link_passes, hlink, bind, Except.bind, pass_recursive, getstrct,
    List.range_succ_eq_map, h]

/-- The scenario: `a` and `b` refer to each other and to nothing else; linking
fails with the recursive-reference diagnostic whichever is declared first. -/
theorem mutual_reference_rejected_scenario :
    (pass_link cfg_cycle_ab = .ok [linked_node "a" "b" 0 1, linked_node "b" "a" 1 0] ∧
      parse_link isort 2 cfg_cycle_ab = .error (.fatal .recursive_reference)) ∧
    (pass_link cfg_cycle_ba = .ok [linked_node "b" "a" 0 1, linked_node "a" "b" 1 0] ∧
      parse_link isort 2 cfg_cycle_ba = .error (.fatal .recursive_reference)) := by
  have h1 : pass_link cfg_cycle_ab = .ok [linked_node "a" "b" 0 1, linked_node "b" "a" 1 0] := by
    decide
  have h2 : pass_link cfg_cycle_ba = .ok [linked_node "b" "a" 0 1, linked_node "a" "b" 1 0] := by
    decide
  exact ⟨⟨h1, mutual_reference_rejected isort 0 cfg_cycle_ab _ _ h1
      (by decide) (by decide) (by decide) (by decide)⟩,
    ⟨h2, mutual_reference_rejected isort 0 cfg_cycle_ba _ _ h2
      (by decide) (by decide) (by decide) (by decide)⟩⟩

theorem cycle_tail_linked :
    pass_link cfg_cycle_tail =
      .ok [linked_node "r" "a" 0 1, linked_node "a" "b" 1 2, linked_node "b" "a" 2 1] := by
  decide

theorem check_recursive_fields_error (again : Option ref → Except stop Bool)
    (fq : List field) (f : field) (e : stop)
    (hfirst : fq.find? (fun g => g.type == ftype.FTYPE_STRUCT) = some f)
    (herr : again f.ref = .error e) :
    check_recursive_fields again fq = .error e := by
  induction fq with
  | nil => simp at hfirst
  | cons g gs ih =>
    unfold check_recursive_fields
    by_cases hty : g.type = ftype.FTYPE_STRUCT
    · simp only [List.find?, hty, beq_self_eq_true, Option.some.injEq] at hfirst
      subst hfirst
      simp [hty, herr]
    · have hty2 : ¬ ftype.FTYPE_STRUCT = g.type := fun h => hty h.symm
      have hb : (g.type == ftype.FTYPE_STRUCT) = false := by simpa using hty
      simp only [List.find?, hb] at hfirst
      simp only [hty2, ↓reduceIte]
      exact ih hfirst

/-- A walk of `check_recursive` that has entered a part of the graph from
which the first struct-typed field of every structure leads on inside that
part, away from `check`, exhausts every budget: it never returns. -/
theorem check_recursive_trapped (sq : List strct) (check : Nat) (P : ref → Prop)
    (hP : ∀ r, P r → ∃ t p f r2, r.target = some t ∧ t.s ≠ check ∧ sq[t.s]? = some p ∧
      p.fq.find? (fun g => g.type == ftype.FTYPE_STRUCT) = some f ∧ f.ref = some r2 ∧ P r2)
    (fuel : Nat) (r : ref) (hr : P r) :
    check_recursive fuel sq (some r) check = .error .fuel := by
  induction fuel generalizing r with
  | zero => rfl
  | succ n ih =>
    obtain ⟨t, p, f, r2, ht, hne, hp, hfirst, hf, hr2⟩ := hP r hr
    rw [check_recursive]
    simp only [ht, hne, ↓reduceIte, getstrct, hp]
    apply check_recursive_fields_error _ _ f _ hfirst
    rw [hf]
    exact ih r2 hr2

theorem check_recursive_two_steps (fuel : Nat) (sq : List strct) (r : ref) (t : fptr)
    (p : strct) (check : Nat) (ht : r.target = some t) (hne : t.s ≠ check)
    (hp : sq[t.s]? = some p)
    (hall : ∀ f ∈ p.fq, f.type = ftype.FTYPE_STRUCT → field_target f = some check)
    (hex : ∃ f ∈ p.fq, f.type = ftype.FTYPE_STRUCT) :
    check_recursive (fuel + 2) sq (some r) check = .ok false := by
  rw [check_recursive]
  simp only [ht, hne, ↓reduceIte, getstrct, hp]
  exact check_recursive_fields_hit fuel sq check p.fq hall hex

theorem pass_recursive_fields_first (fuel : Nat) (sq : List strct) (s : Nat)
    (fq : List field) (f : field)
    (hfirst : fq.find? (fun g => g.type == ftype.FTYPE_STRUCT) = some f) :
    (∀ e, check_recursive fuel sq f.ref s = .error e →
        pass_recursive_fields fuel sq s fq = .error e) ∧
      (check_recursive fuel sq f.ref s = .ok false →
        pass_recursive_fields fuel sq s fq = .error (.fatal .recursive_reference)) := by
  induction fq with
  | nil => simp at hfirst
  | cons g gs ih =>
    unfold pass_recursive_fields
    by_cases hty : g.type = ftype.FTYPE_STRUCT
    · simp only [List.find?, hty, beq_self_eq_true, Option.some.injEq] at hfirst
      subst hfirst
      constructor
      · intro e he
        simp [hty, he]
      · intro he
        simp [hty, he]
    · have hty2 : ¬ ftype.FTYPE_STRUCT = g.type := fun h => hty h.symm
      have hb : (g.type == ftype.FTYPE_STRUCT) = false := by simpa using hty
      simp only [List.find?, hb] at hfirst
      simp only [hty2, ↓reduceIte]
      exact ih hfirst

theorem cycle_tail_walk (fuel : Nat) (r : ref)
    (hr : r.target = some { s := 1, f := 0 } ∨ r.target = some { s := 2, f := 0 }) :
    check_recursive fuel
        [linked_node "r" "a" 0 1, linked_node "a" "b" 1 2, linked_node "b" "a" 2 1]
        (some r) 0 = .error .fuel := by
  apply check_recursive_trapped _ 0
    (fun r => r.target = some { s := 1, f := 0 } ∨ r.target = some { s := 2, f := 0 }) _ fuel r hr
  intro r2 h2
  rcases h2 with h2 | h2
  · exact ⟨_, _, _, _, h2, by decide, rfl, rfl, rfl, Or.inr rfl⟩
  · exact ⟨_, _, _, _, h2, by decide, rfl, rfl, rfl, Or.inl rfl⟩

/-- C2 (failing input): with `r -> a`, `a -> b`, `b -> a` and `r` declared
first, the references link without error and contain the cycle `a`, `b`, yet
the recursion check started from `r` never reaches `r` again: it exhausts
every recursion budget, so `parse_link` does not return failure.  Declared
with the cycle first, the same structures are rejected. -/
theorem C2_cycle_behind_first_structure_diverges :
    (∃ sq, pass_link cfg_cycle_tail = .ok sq ∧ refers sq 1 2 ∧ refers sq 2 1) ∧
      (∀ (qsort : (Nat → Nat → Int) → List Nat → List Nat) (fuel : Nat),
        parse_link qsort fuel cfg_cycle_tail = .error .fuel) ∧
      (∀ (qsort : (Nat → Nat → Int) → List Nat → List Nat) (fuel : Nat),
        parse_link qsort (fuel + 2) cfg_cycle_head = .error (.fatal .recursive_reference)) := by
  refine ⟨⟨_, cycle_tail_linked, ?_, ?_⟩, ?_, ?_⟩
  · exact ⟨_, rfl, _, List.mem_cons_of_mem _ (List.mem_cons_of_mem _ (List.mem_cons_self _ _)),
      rfl, rfl⟩
  · exact ⟨_, rfl, _, List.mem_cons_of_mem _ (List.mem_cons_of_mem _ (List.mem_cons_self _ _)),
      rfl, rfl⟩
  · intro qsort fuel
    have hw := cycle_tail_walk fuel
      { sfield := "aid".toList, tfield := "id".toList, tstrct := "a".toList,
        source := some { s := 0, f := 1 }, target := some { s := 1, f := 0 } } (Or.inl rfl)
    have hf := (pass_recursive_fields_first fuel
      [linked_node "r" "a" 0 1, linked_node "a" "b" 1 2, linked_node "b" "a" 2 1] 0
      (linked_node "r" "a" 0 1).fq _ rfl).1 _ hw
    simp [parse_link, parse_link_passes, cycle_tail_linked, bind, Except.bind, pass_recursive,
      getstrct, List.range_succ_eq_map, hf]
  · intro qsort fuel
    have hl : pass_link cfg_cycle_head =
        .ok [linked_node "a" "b" 0 1, linked_node "b" "a" 1 0, linked_node "r" "a" 2 0] := by
      decide
    have hrec := check_recursive_two_steps fuel
      [linked_node "a" "b" 0 1, linked_node "b" "a" 1 0, linked_node "r" "a" 2 0]
      { sfield := "bid".toList, tfield := "id".toList, tstrct := "b".toList,
        source := some { s := 0, f := 1 }, target := some { s := 1, f := 0 } }
      { s := 1, f := 0 } (linked_node "b" "a" 1 0) 0 rfl (by decide) rfl (by decide) (by decide)
    have hf := (pass_recursive_fields_first (fuel + 2)
      [linked_node "a" "b" 0 1, linked_node "b" "a" 1 0, linked_node "r" "a" 2 0] 0
      (linked_node "a" "b" 0 1).fq _ rfl).2 hrec
    simp [parse_link, parse_link_passes, hl, bind, Except.bind, pass_recursive,
      getstrct, List.range_succ_eq_map, hf]

theorem self_ab_linked :
    pass_link cfg_self_ab = .ok [linked_node "a" "b" 0 1, linked_b_self 1 0] := by
  decide

theorem self_ba_linked :
    pass_link cfg_self_ba = .ok [linked_b_self 0 1, linked_node "a" "b" 1 0] := by
  decide

theorem self_ab_walk (fuel : Nat) (r : ref) (hr : r.target = some { s := 1, f := 0 }) :
    check_recursive fuel [linked_node "a" "b" 0 1, linked_b_self 1 0] (some r) 0 =
      .error .fuel := by
  apply check_recursive_trapped _ 0 (fun r => r.target = some { s := 1, f := 0 }) _ fuel r hr
  intro r2 h2
  exact ⟨_, _, _, _, h2, by decide, rfl, rfl, rfl, rfl⟩

/-- C3 (failing input): `a` has a struct-typed field that refers to `b`, and
`b` has one that refers to `a`, declared after one that refers to `b` itself.
The references link without error.  With `a` declared first the recursion
check started from `a` enters `b` and follows its first struct-typed field
back into `b` again and again, comparing only with `a`: it exhausts every
recursion budget, so `parse_link` does not return failure.  With `b` declared
first the same structures are rejected, and so is, in both orders, the pair in
which `b` has no reference to itself. -/
theorem C3_self_reference_hides_mutual_cycle :
    (∃ sq, pass_link cfg_self_ab = .ok sq ∧ sq.length = 2 ∧ refers sq 0 1 ∧ refers sq 1 0) ∧
      (∀ (qsort : (Nat → Nat → Int) → List Nat → List Nat) (fuel : Nat),
        parse_link qsort fuel cfg_self_ab = .error .fuel) ∧
      (∃ sq, pass_link cfg_self_ba = .ok sq ∧ sq.length = 2 ∧ refers sq 0 1 ∧ refers sq 1 0) ∧
      (∀ (qsort : (Nat → Nat → Int) → List Nat → List Nat) (fuel : Nat),
        parse_link qsort (fuel + 1) cfg_self_ba = .error (.fatal .recursive_reference)) ∧
      (∀ (qsort : (Nat → Nat → Int) → List Nat → List Nat) (fuel : Nat),
        parse_link qsort (fuel + 2) cfg_cycle_ab = .error (.fatal .recursive_reference) ∧
          parse_link qsort (fuel + 2) cfg_cycle_ba = .error (.fatal .recursive_reference)) := by
  refine ⟨⟨_, self_ab_linked, rfl, ?_, ?_⟩, ?_, ⟨_, self_ba_linked, rfl, ?_, ?_⟩, ?_, ?_⟩
  · exact ⟨_, rfl, _, List.mem_cons_of_mem _ (List.mem_cons_of_mem _ (List.mem_cons_self _ _)),
      rfl, rfl⟩
  · exact ⟨_, rfl, _, List.mem_cons_of_mem _ (List.mem_cons_of_mem _ (List.mem_cons_of_mem _
      (List.mem_cons_of_mem _ (List.mem_cons_self _ _)))), rfl, rfl⟩
  · intro qsort fuel
    have hw := self_ab_walk fuel
      { sfield := "bid".toList, tfield := "id".toList, tstrct := "b".toList,
        source := some { s := 0, f := 1 }, target := some { s := 1, f := 0 } } rfl
    have hf := (pass_recursive_fields_first fuel
      [linked_node "a" "b" 0 1, linked_b_self 1 0] 0
      (linked_node "a" "b" 0 1).fq _ rfl).1 _ hw
    simp [parse_link, parse_link_passes, self_ab_linked, bind, Except.bind, pass_recursive,
      getstrct, List.range_succ_eq_map, hf]
  · exact ⟨_, rfl, _, List.mem_cons_of_mem _ (List.mem_cons_of_mem _ (List.mem_cons_of_mem _
      (List.mem_cons_of_mem _ (List.mem_cons_self _ _)))), rfl, rfl⟩
  · exact ⟨_, rfl, _, List.mem_cons_of_mem _ (List.mem_cons_of_mem _ (List.mem_cons_self _ _)),
      rfl, rfl⟩
  · intro qsort fuel
    have hc : check_recursive (fuel + 1) [linked_b_self 0 1, linked_node "a" "b" 1 0]
        (some { sfield := "bid".toList, tfield := "id".toList, tstrct := "b".toList,
                source := some { s := 0, f := 1 }, target := some { s := 0, f := 0 } }) 0 =
          .ok false := by
      simp [check_recursive]
    have hf := (pass_recursive_fields_first (fuel + 1)
      [linked_b_self 0 1, linked_node "a" "b" 1 0] 0
      (linked_b_self 0 1).fq _ rfl).2 hc
    simp [parse_link, parse_link_passes, self_ba_linked, bind, Except.bind, pass_recursive,
      getstrct, List.range_succ_eq_map, hf]
  · intro qsort fuel
    have h1 : pass_link cfg_cycle_ab =
        .ok [linked_node "a" "b" 0 1, linked_node "b" "a" 1 0] := by decide
    have h2 : pass_link cfg_cycle_ba =
        .ok [linked_node "b" "a" 0 1, linked_node "a" "b" 1 0] := by decide
    exact ⟨mutual_reference_rejected qsort fuel cfg_cycle_ab _ _ h1
        (by decide) (by decide) (by decide) (by decide),
      mutual_reference_rejected qsort fuel cfg_cycle_ba _ _ h2
        (by decide) (by decide) (by decide) (by decide)⟩

/-! ### The arena and the loops -/

theorem modstrct_length (sq : List strct) (p : Nat) (g : strct → strct) :
    (modstrct sq p g).length = sq.length := by
  unfold modstrct
  split <;> simp

theorem getElem?_modstrct (sq : List strct) (p : Nat) (g : strct → strct) (k : Nat) :
    (modstrct sq p g)[k]? = if k = p then (sq[k]?).map g else sq[k]? := by
  unfold modstrct
  cases hp : sq[p]? with
  | none =>
    by_cases hk : k = p
    · subst hk
      simp [hp]
    · simp [hk]
  | some st =>
    by_cases hk : k = p
    · subst hk
      have hlt : k < sq.length := by
        rcases Nat.lt_or_ge k sq.length with h | h
        · exact h
        · rw [List.getElem?_eq_none h] at hp
          cases hp
      simp [hp, List.getElem?_set, hlt]
    · have hk2 : ¬ p = k := fun h => hk h.symm
      simp [List.getElem?_set, hk, hk2]

theorem modstrct_map {α : Type} (π : strct → α) (sq : List strct) (p : Nat) (g : strct → strct)
    (h : ∀ st, π (g st) = π st) : (modstrct sq p g).map π = sq.map π := by
  apply List.ext_getElem?
  intro k
  rw [List.getElem?_map, List.getElem?_map, getElem?_modstrct]
  by_cases hk : k = p
  · cases hs : sq[k]? <;> simp [hk, h]
  · simp [hk]

theorem getfield_eq (sq : List strct) (q : fptr) :
    getfield sq q = match fld sq q with
      | some f => .ok f
      | none => .error .null := by
  unfold getfield fld
  cases sq[q.s]? with
  | none => rfl
  | some st => cases st.fq[q.f]? <;> rfl

theorem getfield_ok_iff (sq : List strct) (q : fptr) (f : field) :
    getfield sq q = .ok f ↔ fld sq q = some f := by
  rw [getfield_eq]
  cases fld sq q <;> simp

theorem fld_modstrct (sq : List strct) (p : Nat) (g : strct → strct) (q : fptr)
    (h : ∀ st, (g st).fq = st.fq) : fld (modstrct sq p g) q = fld sq q := by
  unfold fld
  rw [getElem?_modstrct]
  by_cases hk : q.s = p
  · cases hs : sq[q.s]? <;> simp [hk, h]
  · simp [hk]

theorem fld_modfield (sq : List strct) (p : fptr) (g : field → field) (q : fptr) :
    fld (modfield sq p g) q = if q = p then (fld sq q).map g else fld sq q := by
  unfold fld modfield
  rw [getElem?_modstrct]
  by_cases hs : q.s = p.s
  · cases hst : sq[q.s]? with
    | none => simp [hs]
    | some st =>
      simp only [hs, ↓reduceIte, Option.map_some']
      cases hf : st.fq[p.f]? with
      | none =>
        by_cases hq : q = p
        · subst hq
          simp [hf]
        · simp [hq]
      | some f =>
        have hlt : p.f < st.fq.length := by
          rcases Nat.lt_or_ge p.f st.fq.length with h | h
          · exact h
          · rw [List.getElem?_eq_none h] at hf
            cases hf
        by_cases hq : q = p
        · subst hq
          simp [hf, List.getElem?_set, hlt]
        · have hne : ¬ p.f = q.f := by
            intro h
            apply hq
            cases q
            cases p
            simp_all
          simp [hq, List.getElem?_set, hne]
  · have hq : ¬ q = p := fun h => hs (by rw [h])
    simp [hs, hq]

theorem modfield_map {α : Type} (π : strct → α) (sq : List strct) (p : fptr) (g : field → field)
    (h : ∀ st fq, π { st with fq := fq } = π st) : (modfield sq p g).map π = sq.map π := by
  unfold modfield
  apply modstrct_map
  intro st
  split
  · exact h st _
  · rfl

theorem tailq_foreach_inv {σ : Type} (body : σ → Nat → Except stop σ) (inv : σ → Prop)
    (hbody : ∀ st i st2, inv st → body st i = .ok st2 → inv st2)
    (l : List Nat) (st st2 : σ) (h0 : inv st) (h : tailq_foreach body l st = .ok st2) :
    inv st2 := by
  induction l generalizing st with
  | nil =>
    simp only [tailq_foreach, Except.ok.injEq] at h
    exact h ▸ h0
  | cons i more ih =>
    unfold tailq_foreach at h
    cases hb : body st i with
    | error e => simp [hb] at h
    | ok st1 =>
      simp only [hb] at h
      exact ih st1 (hbody st i st1 h0 hb) h

theorem tailq_foreach_range'_inv {σ : Type} (body : σ → Nat → Except stop σ)
    (inv : Nat → σ → Prop) (n : Nat)
    (hbody : ∀ i st st2, i < n → inv i st → body st i = .ok st2 → inv (i + 1) st2)
    (k a : Nat) (st st2 : σ) (hak : a + k = n) (h0 : inv a st)
    (h : tailq_foreach body (List.range' a k) st = .ok st2) : inv n st2 := by
  induction k generalizing a st with
  | zero =>
    simp only [List.range'_zero, tailq_foreach, Except.ok.injEq] at h
    have : a = n := by omega
    exact this ▸ h ▸ h0
  | succ k ih =>
    rw [List.range'_succ] at h
    unfold tailq_foreach at h
    cases hb : body st a with
    | error e => simp [hb] at h
    | ok st1 =>
      simp only [hb] at h
      exact ih (a + 1) st1 (by omega) (hbody a st st1 (by omega) h0 hb) h

theorem tailq_foreach_range_inv {σ : Type} (body : σ → Nat → Except stop σ)
    (inv : Nat → σ → Prop) (n : Nat)
    (hbody : ∀ i st st2, i < n → inv i st → body st i = .ok st2 → inv (i + 1) st2)
    (st st2 : σ) (h0 : inv 0 st)
    (h : tailq_foreach body (List.range n) st = .ok st2) : inv n st2 := by
  rw [List.range_eq_range'] at h
  exact tailq_foreach_range'_inv body inv n hbody n 0 st st2 (by omega) h0 h

/-! ### What each pass leaves unchanged -/

theorem annotate_fields_keeps {α : Type} (π : strct → α)
    (again : List strct → Option ref → Except stop (List strct))
    (hagain : ∀ sq r sq2, again sq r = .ok sq2 → sq2.map π = sq.map π)
    (fq : List field) (sq sq2 : List strct)
    (h : annotate_fields again fq sq = .ok sq2) : sq2.map π = sq.map π := by
  induction fq generalizing sq with
  | nil =>
    simp only [annotate_fields, Except.ok.injEq] at h
    rw [h]
  | cons f fs ih =>
    unfold annotate_fields at h
    split at h
    · cases ha : again sq f.ref with
      | error e => simp [ha] at h
      | ok sq1 =>
        simp only [ha] at h
        rw [ih sq1 h, hagain sq f.ref sq1 ha]
    · exact ih sq h

theorem annotate_keeps {α : Type} (π : strct → α)
    (hπ : ∀ st c h, π { st with colour := c, height := h } = π st)
    (fuel : Nat) (sq : List strct) (r : Option ref) (height colour : Nat) (sq2 : List strct)
    (h : annotate fuel sq r height colour = .ok sq2) : sq2.map π = sq.map π := by
  induction fuel generalizing sq r height sq2 with
  | zero => simp [annotate] at h
  | succ n ih =>
    unfold annotate at h
    cases r with
    | none => simp at h
    | some r =>
      cases ht : r.target with
      | none => simp [ht] at h
      | some t =>
        simp only [ht] at h
        cases hp : getstrct sq t.s with
        | error e => simp [hp] at h
        | ok p =>
          simp only [hp] at h
          split at h
          · simp only [Except.ok.injEq] at h
            rw [h]
          · have h1 := annotate_fields_keeps π _
              (fun sq1 r1 sq3 h3 => ih sq1 r1 (height + 1) sq3 h3) p.fq _ sq2 h
            rw [h1]
            exact modstrct_map π sq t.s _ (fun st => hπ st _ _)

theorem pass_annotate_fields_keeps {α : Type} (π : strct → α)
    (hπ : ∀ st c h, π { st with colour := c, height := h } = π st)
    (fuel s colour : Nat) (fq : List field) (sq sq2 : List strct)
    (h : pass_annotate_fields fuel s colour fq sq = .ok sq2) : sq2.map π = sq.map π := by
  induction fq generalizing sq with
  | nil =>
    simp only [pass_annotate_fields, Except.ok.injEq] at h
    rw [h]
  | cons f fs ih =>
    unfold pass_annotate_fields at h
    split at h
    · cases ha : annotate fuel (modstrct sq s fun q => { q with colour := colour }) f.ref 1 colour with
      | error e => simp [ha] at h
      | ok sq1 =>
        simp only [ha] at h
        rw [ih sq1 h, annotate_keeps π hπ fuel _ _ _ _ sq1 ha]
        exact modstrct_map π sq s _ (fun st => hπ st colour st.height)
    · exact ih sq h

theorem pass_annotate_keeps {α : Type} (π : strct → α)
    (hπ : ∀ st c h, π { st with colour := c, height := h } = π st)
    (fuel : Nat) (sq sq2 : List strct)
    (h : pass_annotate fuel sq = .ok sq2) : sq2.map π = sq.map π := by
  unfold pass_annotate at h
  cases hl : tailq_foreach (pass_annotate_strct fuel) (List.range sq.length) (sq, 1) with
  | error e => simp [hl] at h
  | ok st =>
    simp only [hl] at h
    split at h
    · simp only [Except.ok.injEq] at h
      subst h
      refine tailq_foreach_inv (pass_annotate_strct fuel) (fun st => st.1.map π = sq.map π)
        ?_ _ (sq, 1) st rfl hl
      intro st1 i st2 hinv hb
      unfold pass_annotate_strct at hb
      cases hp : getstrct st1.1 i with
      | error e => simp [hp] at hb
      | ok p =>
        simp only [hp] at hb
        split at hb
        · simp only [Except.ok.injEq] at hb
          rw [← hb]
          exact hinv
        · cases hf : pass_annotate_fields fuel i st1.2 p.fq st1.1 with
          | error e => simp [hf] at hb
          | ok sq3 =>
            simp only [hf, Except.ok.injEq] at hb
            rw [← hb]
            simp only
            rw [pass_annotate_fields_keeps π hπ fuel i st1.2 p.fq st1.1 sq3 hf]
            exact hinv
    · cases h

theorem pass_aliases_keeps {α : Type} (π : strct → α)
    (hπ : ∀ st aq, π { st with aq := aq } = π st)
    (fuel : Nat) (sq : List strct) (r : List strct × Nat)
    (h : pass_aliases fuel sq = .ok r) : r.1.map π = sq.map π := by
  unfold pass_aliases at h
  refine tailq_foreach_inv (pass_aliases_strct fuel) (fun st => st.1.map π = sq.map π)
    ?_ _ (sq, 0) r rfl h
  intro st1 i st2 hinv hb
  unfold pass_aliases_strct at hb
  cases hp : getstrct st1.1 i with
  | error e => simp [hp] at hb
  | ok p =>
    simp only [hp] at hb
    cases hr : resolve_aliases fuel st1.1 i (p.aq, st1.2) none with
    | error e => simp [hr] at hb
    | ok r1 =>
      simp only [hr, Except.ok.injEq] at hb
      rw [← hb]
      simp only
      rw [modstrct_map π st1.1 i _ (fun st => hπ st _)]
      exact hinv

theorem pass_search_keeps {α : Type} (π : strct → α)
    (hπ : ∀ (st : strct) (q : List search), π { st with sq := q } = π st)
    (sq sq2 : List strct)
    (h : tailq_foreach pass_search_strct (List.range sq.length) sq = .ok sq2) :
    sq2.map π = sq.map π := by
  refine tailq_foreach_inv pass_search_strct (fun st => st.map π = sq.map π) ?_ _ sq sq2 rfl h
  intro st1 i st2 hinv hb
  unfold pass_search_strct at hb
  cases hp : getstrct st1 i with
  | error e => simp [hp, bind, Except.bind] at hb
  | ok p =>
    cases hq : pass_search_sq st1 i p.sq with
    | error e => simp [hp, hq, bind, Except.bind] at hb
    | ok q =>
      simp only [hp, hq, bind, Except.bind, Except.ok.injEq] at hb
      rw [← hb, modstrct_map π st1 i _ (fun st => hπ st _)]
      exact hinv

theorem pass_unique_keeps {α : Type} (π : strct → α)
    (hπ : ∀ (st : strct) (q : List unique), π { st with nq := q } = π st)
    (sq sq2 : List strct)
    (h : tailq_foreach pass_unique_strct (List.range sq.length) sq = .ok sq2) :
    sq2.map π = sq.map π := by
  refine tailq_foreach_inv pass_unique_strct (fun st => st.map π = sq.map π) ?_ _ sq sq2 rfl h
  intro st1 i st2 hinv hb
  unfold pass_unique_strct at hb
  cases hp : getstrct st1 i with
  | error e => simp [hp, bind, Except.bind] at hb
  | ok p =>
    cases hq : pass_unique_nq st1 i p.nq with
    | error e => simp [hp, hq, bind, Except.bind] at hb
    | ok q =>
      simp only [hp, hq, bind, Except.bind, Except.ok.injEq] at hb
      rw [← hb, modstrct_map π st1 i _ (fun st => hπ st _)]
      exact hinv

theorem pass_searchtype_keeps (sq sq2 : List strct)
    (h : tailq_foreach pass_searchtype_strct (List.range sq.length) sq = .ok sq2) :
    sq2 = sq := by
  refine tailq_foreach_inv pass_searchtype_strct (fun st => st = sq) ?_ _ sq sq2 rfl h
  intro st1 i st2 hinv hb
  unfold pass_searchtype_strct at hb
  cases hp : getstrct st1 i with
  | error e => simp [hp, bind, Except.bind] at hb
  | ok p =>
    cases hq : check_searchtype st1 p.sq with
    | error e => simp [hp, hq, bind, Except.bind] at hb
    | ok q =>
      simp only [hp, hq, bind, Except.bind, Except.ok.injEq] at hb
      rw [← hb]
      exact hinv

theorem linkref_keeps {α : Type} (π : strct → α)
    (hπ : ∀ (st : strct) (fq : List field), π { st with fq := fq } = π st)
    (sq : List strct) (owner : fptr) (r : ref) (sq2 : List strct)
    (h : linkref sq owner r = .ok sq2) : sq2.map π = sq.map π := by
  unfold linkref at h
  split at h
  · cases h
  · cases h
  · rename_i sp tp _ _
    cases ho : getfield sq owner with
    | error e => simp [ho, bind, Except.bind] at h
    | ok o =>
      simp only [ho, bind, Except.bind] at h
      split at h
      · simp only [Except.ok.injEq] at h
        rw [h]
      · cases hs : getfield sq sp with
        | error e => simp [hs] at h
        | ok src =>
          simp only [hs] at h
          split at h
          · split at h
            · cases h
            · simp only [Except.ok.injEq] at h
              rw [h]
          · cases htg : getfield sq tp with
            | error e => simp [htg] at h
            | ok tgt =>
              simp only [htg] at h
              split at h
              · cases h
              · split at h
                · cases h
                · simp only [Except.ok.injEq] at h
                  rw [← h]
                  exact modfield_map π sq sp _ hπ

theorem link_field_keeps {α : Type} (π : strct → α)
    (hπ : ∀ (st : strct) (fq : List field), π { st with fq := fq } = π st)
    (eq : List enm) (s : Nat) (st : List strct × Nat) (i : Nat) (st2 : List strct × Nat)
    (h : link_field eq s st i = .ok st2) : st2.1.map π = st.1.map π := by
  unfold link_field at h
  cases hf : getfield st.1 { s := s, f := i } with
  | error e => simp [hf, bind, Except.bind] at h
  | ok f =>
    cases hr : link_field_rowid f st.2 with
    | error e => simp [hf, hr, bind, Except.bind] at h
    | ok hrow =>
      cases hl : link_field_ref st.1 s i f with
      | error e => simp [hf, hr, hl, bind, Except.bind] at h
      | ok sq1 =>
        cases he : link_field_enum eq sq1 s i f with
        | error e => simp [hf, hr, hl, he, bind, Except.bind] at h
        | ok sq2 =>
          simp only [hf, hr, hl, he, bind, Except.bind, Except.ok.injEq] at h
          rw [← h]
          simp only
          have h1 : sq1.map π = st.1.map π := by
            unfold link_field_ref at hl
            cases hfr : f.ref with
            | none =>
              simp only [hfr, Except.ok.injEq] at hl
              rw [hl]
            | some r =>
              simp only [hfr] at hl
              cases hp : getstrct st.1 s with
              | error e => simp [hp, bind, Except.bind] at hl
              | ok p =>
                cases h1 : resolve_field_source r s p.fq with
                | error e => simp [hp, h1, bind, Except.bind] at hl
                | ok r1 =>
                  cases h2 : resolve_field_target r1 st.1 with
                  | error e => simp [hp, h1, h2, bind, Except.bind] at hl
                  | ok r2 =>
                    simp only [hp, h1, h2, bind, Except.bind] at hl
                    cases h3 : linkref (modfield st.1 { s := s, f := i }
                        fun g => { g with ref := some r2 }) { s := s, f := i } r2 with
                    | error e => simp [h3] at hl
                    | ok sq3 =>
                      simp only [h3] at hl
                      cases h4 : checktargettype sq3 r2 with
                      | error e => simp [h4] at hl
                      | ok u =>
                        simp only [h4, Except.ok.injEq] at hl
                        rw [← hl, linkref_keeps π hπ _ _ _ _ h3]
                        exact modfield_map π st.1 _ _ hπ
          have h2 : sq2.map π = sq1.map π := by
            unfold link_field_enum at he
            cases hfe : f.eref with
            | none =>
              simp only [hfe, Except.ok.injEq] at he
              rw [he]
            | some e =>
              simp only [hfe] at he
              cases h1 : resolve_field_enum e eq with
              | error e => simp [h1, bind, Except.bind] at he
              | ok e2 =>
                simp only [h1, bind, Except.bind, Except.ok.injEq] at he
                rw [← he]
                exact modfield_map π sq1 _ _ hπ
          rw [h2, h1]

theorem link_strct_keeps {α : Type} (π : strct → α)
    (hπ : ∀ (st : strct) (fq : List field), π { st with fq := fq } = π st)
    (hπ2 : ∀ (st : strct) (uq dq : List update), π { st with uq := uq, dq := dq } = π st)
    (eq : List enm) (sq : List strct) (s : Nat) (sq2 : List strct)
    (h : link_strct eq sq s = .ok sq2) : sq2.map π = sq.map π := by
  unfold link_strct at h
  cases hp : getstrct sq s with
  | error e => simp [hp, bind, Except.bind] at h
  | ok p =>
    cases hl : tailq_foreach (link_field eq s) (List.range p.fq.length) (sq, 0) with
    | error e => simp [hp, hl, bind, Except.bind] at h
    | ok st =>
      have hst : st.1.map π = sq.map π :=
        tailq_foreach_inv (link_field eq s) (fun st => st.1.map π = sq.map π)
          (fun st1 i st2 hinv hb => (link_field_keeps π hπ eq s st1 i st2 hb).trans hinv)
          _ (sq, 0) st rfl hl
      cases hp1 : getstrct st.1 s with
      | error e => simp [hp, hl, hp1, bind, Except.bind] at h
      | ok p1 =>
        cases hu : link_updates st.1 s p1.uq with
        | error e => simp [hp, hl, hp1, hu, bind, Except.bind] at h
        | ok uq =>
          cases hd : link_updates st.1 s p1.dq with
          | error e => simp [hp, hl, hp1, hu, hd, bind, Except.bind] at h
          | ok dq =>
            simp only [hp, hl, hp1, hu, hd, bind, Except.bind, Except.ok.injEq] at h
            rw [← h, modstrct_map π st.1 s _ (fun st => hπ2 st _ _), hst]

theorem pass_link_keeps {α : Type} (π : strct → α)
    (hπ : ∀ (st : strct) (fq : List field), π { st with fq := fq } = π st)
    (hπ2 : ∀ (st : strct) (uq dq : List update), π { st with uq := uq, dq := dq } = π st)
    (cfg : config) (sq2 : List strct)
    (h : pass_link cfg = .ok sq2) : sq2.map π = cfg.sq.map π := by
  unfold pass_link at h
  exact tailq_foreach_inv (link_strct cfg.eq) (fun st => st.map π = cfg.sq.map π)
    (fun st1 i st2 hinv hb => (link_strct_keeps π hπ hπ2 cfg.eq st1 i st2 hb).trans hinv)
    _ cfg.sq sq2 rfl h

/-! ### The final order -/

theorem parse_cmp_at_le (sq : List strct) (a b : Nat) :
    parse_cmp_at sq a b ≤ 0 ↔ (strct_at sq a).height ≤ (strct_at sq b).height := by
  unfold parse_cmp_at parse_cmp
  omega

theorem isort_insert_perm (cmp : Nat → Nat → Int) (a : Nat) (l : List Nat) :
    (isort_insert cmp a l).Perm (a :: l) := by
  induction l with
  | nil => exact List.Perm.refl _
  | cons b l ih =>
    unfold isort_insert
    split
    · exact List.Perm.refl _
    · exact (List.Perm.cons b ih).trans (List.Perm.swap a b l)

theorem isort_perm (cmp : Nat → Nat → Int) (l : List Nat) : (isort cmp l).Perm l := by
  induction l with
  | nil => exact List.Perm.refl _
  | cons a l ih =>
    unfold isort
    exact (isort_insert_perm cmp a _).trans (List.Perm.cons a ih)

theorem isort_insert_pairwise (sq : List strct) (a : Nat) (l : List Nat)
    (h : l.Pairwise (fun x y => parse_cmp_at sq x y ≤ 0)) :
    (isort_insert (parse_cmp_at sq) a l).Pairwise (fun x y => parse_cmp_at sq x y ≤ 0) := by
  induction l with
  | nil => simp [isort_insert]
  | cons b l ih =>
    unfold isort_insert
    rw [List.pairwise_cons] at h
    split
    · rename_i hab
      rw [List.pairwise_cons]
      refine ⟨?_, List.pairwise_cons.2 h⟩
      intro x hx
      rcases List.mem_cons.1 hx with rfl | hx2
      · exact hab
      · have := h.1 x hx2
        rw [parse_cmp_at_le] at *
        omega
    · rename_i hab
      rw [List.pairwise_cons]
      refine ⟨?_, ih h.2⟩
      intro x hx
      rcases List.mem_cons.1 ((isort_insert_perm _ a l).subset hx) with rfl | hx2
      · rw [parse_cmp_at_le] at *
        omega
      · exact h.1 x hx2

theorem isort_qsort_ok (sq : List strct) : qsort_ok isort (parse_cmp_at sq) := by
  intro l
  refine ⟨isort_perm _ l, ?_⟩
  induction l with
  | nil => simp [isort]
  | cons a l ih =>
    unfold isort
    exact isort_insert_pairwise sq a _ ih

theorem pair_sublist_of_mem (l : List Nat) (a b : Nat) (ha : a ∈ l) (hb : b ∈ l) (hab : a ≠ b) :
    List.Sublist [a, b] l ∨ List.Sublist [b, a] l := by
  induction l with
  | nil => cases ha
  | cons x xs ih =>
    rcases List.mem_cons.1 ha with rfl | ha2
    · rcases List.mem_cons.1 hb with rfl | hb2
      · exact absurd rfl hab
      · exact Or.inl (List.Sublist.cons₂ _ (List.singleton_sublist.2 hb2))
    · rcases List.mem_cons.1 hb with rfl | hb2
      · exact Or.inr (List.Sublist.cons₂ _ (List.singleton_sublist.2 ha2))
      · rcases ih ha2 hb2 with h | h
        · exact Or.inl (List.Sublist.cons _ h)
        · exact Or.inr (List.Sublist.cons _ h)

/-- In the final queue a structure precedes every structure of strictly smaller
height, and is preceded by none of them. -/
theorem pass_order_higher_first (qsort : (Nat → Nat → Int) → List Nat → List Nat)
    (sq : List strct) (hq : qsort_ok qsort (parse_cmp_at sq)) (S T : Nat)
    (hS : S < sq.length) (hT : T < sq.length)
    (hlt : (strct_at sq S).height < (strct_at sq T).height) :
    precedes (pass_order qsort sq) T S ∧ ¬ precedes (pass_order qsort sq) S T := by
  obtain ⟨hperm, hsorted⟩ := hq (List.range sq.length)
  have hnot : ¬ List.Sublist [T, S] (qsort (parse_cmp_at sq) (List.range sq.length)) := by
    intro hsub
    have := List.pairwise_iff_forall_sublist.1 hsorted hsub
    rw [parse_cmp_at_le] at this
    omega
  have hne : S ≠ T := by
    intro h
    rw [h] at hlt
    exact Nat.lt_irrefl _ hlt
  have hSm : S ∈ qsort (parse_cmp_at sq) (List.range sq.length) :=
    hperm.symm.subset (List.mem_range.2 hS)
  have hTm : T ∈ qsort (parse_cmp_at sq) (List.range sq.length) :=
    hperm.symm.subset (List.mem_range.2 hT)
  unfold precedes pass_order
  constructor
  · rcases pair_sublist_of_mem _ S T hSm hTm hne with h | h
    · simpa using h.reverse
    · exact absurd h hnot
  · intro h
    apply hnot
    simpa using h.reverse

theorem parse_link_ok (qsort : (Nat → Nat → Int) → List Nat → List Nat) (fuel : Nat)
    (cfg : config) (l : linked) (h : parse_link qsort fuel cfg = .ok l) :
    parse_link_passes fuel cfg = .ok l.sq ∧ l.order = pass_order qsort l.sq := by
  unfold parse_link at h
  cases hp : parse_link_passes fuel cfg with
  | error e => simp [hp] at h
  | ok sq =>
    simp only [hp, Except.ok.injEq] at h
    subst h
    exact ⟨rfl, rfl⟩

theorem refers_lt (sq : List strct) (S T : Nat) (h : refers sq S T) : S < sq.length := by
  obtain ⟨p, hp, _⟩ := h
  rcases Nat.lt_or_ge S sq.length with h | h
  · exact h
  · rw [List.getElem?_eq_none h] at hp
    cases hp

theorem strct_at_height_pos_lt (sq : List strct) (T : Nat) (h : 0 < (strct_at sq T).height) :
    T < sq.length := by
  rcases Nat.lt_or_ge T sq.length with h2 | h2
  · exact h2
  · unfold strct_at at h
    rw [List.getElem?_eq_none h2] at h
    simp at h

/-- When `parse_link` succeeds and `qsort` keeps its contract, a structure `T`
that a struct-typed field of `S` refers to appears before `S` in the final
queue whenever the annotated height of `T` is greater than that of `S`: the
queue is ordered by decreasing height. -/
theorem higher_target_precedes (qsort : (Nat → Nat → Int) → List Nat → List Nat)
    (fuel : Nat) (cfg : config) (l : linked) (S T : Nat)
    (h : parse_link qsort fuel cfg = .ok l)
    (hq : qsort_ok qsort (parse_cmp_at l.sq))
    (href : refers l.sq S T)
    (hh : (strct_at l.sq S).height < (strct_at l.sq T).height) :
    precedes l.order T S := by
  rw [(parse_link_ok qsort fuel cfg l h).2]
  exact (pass_order_higher_first qsort l.sq hq S T (refers_lt _ _ _ href)
    (strct_at_height_pos_lt _ _ (by omega)) hh).1

theorem diamond_passes :
    parse_link_passes 4 cfg_diamond = .ok (passes_arena 4 cfg_diamond) := by
  decide

/-- The scenario `user`, `post`: `post.author` refers to `user`, whose height
is greater, so `user` comes first. -/
theorem higher_target_precedes_user_post :
    parse_link isort 2 cfg_post_user =
        .ok { sq := passes_arena 2 cfg_post_user,
              order := pass_order isort (passes_arena 2 cfg_post_user) } ∧
      refers (passes_arena 2 cfg_post_user) 0 1 ∧
      precedes (pass_order isort (passes_arena 2 cfg_post_user)) 1 0 := by
  have h : parse_link isort 2 cfg_post_user =
      .ok { sq := passes_arena 2 cfg_post_user,
            order := pass_order isort (passes_arena 2 cfg_post_user) } := by decide
  have href : refers (passes_arena 2 cfg_post_user) 0 1 :=
    ⟨_, rfl, _, List.mem_cons_of_mem _ (List.mem_cons_of_mem _ (List.mem_cons_self _ _)),
      rfl, rfl⟩
  exact ⟨h, href, higher_target_precedes isort 2 cfg_post_user _ 0 1 h
    (isort_qsort_ok _) href (by decide)⟩

/-- C1 (failing input): in the diamond `r -> t`, `r -> q -> s -> t` linking
succeeds and `s` has a struct-typed field that refers to `t`.  The annotation
reaches `t` first through `r` and skips it when it comes back through `s`, so
`t` ends at height 1 and `s` at height 2: `s` precedes `t` in the final queue,
and with no `qsort` that keeps its contract does `t` precede `s`.  The heights
are there to order the structures for the header file, where the structure
embedded in another has to come first. -/
theorem C1_diamond_referrer_before_target :
    (∃ l, parse_link isort 4 cfg_diamond = .ok l ∧ refers l.sq 2 3 ∧
        precedes l.order 2 3 ∧ ¬ precedes l.order 3 2) ∧
      ¬ ∃ qsort : (Nat → Nat → Int) → List Nat → List Nat,
        qsort_ok qsort (parse_cmp_at (passes_arena 4 cfg_diamond)) ∧
          ∃ l, parse_link qsort 4 cfg_diamond = .ok l ∧ precedes l.order 3 2 := by
  have hh : (strct_at (passes_arena 4 cfg_diamond) 3).height <
      (strct_at (passes_arena 4 cfg_diamond) 2).height := by decide
  have hlen : (passes_arena 4 cfg_diamond).length = 4 := by decide
  constructor
  · refine ⟨{ sq := passes_arena 4 cfg_diamond,
              order := pass_order isort (passes_arena 4 cfg_diamond) }, ?_, ?_, ?_⟩
    · simp [parse_link, diamond_passes]
    · exact ⟨_, rfl, _,
        List.mem_cons_of_mem _ (List.mem_cons_of_mem _ (List.mem_cons_self _ _)), rfl, rfl⟩
    · exact pass_order_higher_first isort _ (isort_qsort_ok _) 3 2 (by omega) (by omega) hh
  · rintro ⟨qsort, hq, l, hl, hp⟩
    obtain ⟨h1, h2⟩ := parse_link_ok qsort 4 cfg_diamond l hl
    rw [diamond_passes] at h1
    simp only [Except.ok.injEq] at h1
    rw [h2, ← h1] at hp
    exact (pass_order_higher_first qsort _ hq 3 2 (by omega) (by omega) hh).2 hp

/-! ### Heights -/

theorem no_ref_into_congr (sq sq2 : List strct) (P : Nat → Prop)
    (h : sq2.map strct.fq = sq.map strct.fq) (hP : no_ref_into sq P) : no_ref_into sq2 P := by
  intro p hp f hf hty t ht
  have hmem : p.fq ∈ sq2.map strct.fq := List.mem_map_of_mem _ hp
  rw [h] at hmem
  obtain ⟨p0, hp0, hfq⟩ := List.mem_map.1 hmem
  exact hP p0 hp0 f (hfq ▸ hf) hty t ht

theorem annotate_fields_protect (P : Nat → Prop)
    (again : List strct → Option ref → Except stop (List strct))
    (hagain : ∀ sq r sq2, no_ref_into sq P →
      (∀ r2 t, r = some r2 → r2.target = some t → ¬ P t.s) → again sq r = .ok sq2 →
      sq2.map strct.fq = sq.map strct.fq ∧
        ∀ k, P k → (sq2[k]?).map strct.height = (sq[k]?).map strct.height)
    (fq : List field)
    (hfq : ∀ f ∈ fq, f.type = ftype.FTYPE_STRUCT → ∀ t, field_target f = some t → ¬ P t)
    (sq sq2 : List strct) (hP : no_ref_into sq P)
    (h : annotate_fields again fq sq = .ok sq2) :
    sq2.map strct.fq = sq.map strct.fq ∧
      ∀ k, P k → (sq2[k]?).map strct.height = (sq[k]?).map strct.height := by
  induction fq generalizing sq with
  | nil =>
    simp only [annotate_fields, Except.ok.injEq] at h
    subst h
    exact ⟨rfl, fun _ _ => rfl⟩
  | cons f fs ih =>
    unfold annotate_fields at h
    have hfs : ∀ g ∈ fs, g.type = ftype.FTYPE_STRUCT → ∀ t, field_target g = some t → ¬ P t :=
      fun g hg => hfq g (List.mem_cons_of_mem _ hg)
    split at h
    · rename_i hty
      cases ha : again sq f.ref with
      | error e => simp [ha] at h
      | ok sq1 =>
        simp only [ha] at h
        have hr : ∀ r2 t, f.ref = some r2 → r2.target = some t → ¬ P t.s := by
          intro r2 t h1 h2
          apply hfq f (List.mem_cons_self _ _) hty.symm t.s
          simp [field_target, h1, h2]
        obtain ⟨h1, h2⟩ := hagain sq f.ref sq1 hP hr ha
        obtain ⟨h3, h4⟩ := ih hfs sq1 (no_ref_into_congr sq sq1 P h1 hP) h
        exact ⟨h3.trans h1, fun k hk => (h4 k hk).trans (h2 k hk)⟩
    · exact ih hfs sq hP h

theorem getstrct_ok_iff (sq : List strct) (p : Nat) (st : strct) :
    getstrct sq p = .ok st ↔ sq[p]? = some st := by
  unfold getstrct
  cases sq[p]? <;> simp

theorem mem_of_getElem? {α : Type} (l : List α) (i : Nat) (a : α) (h : l[i]? = some a) :
    a ∈ l := by
  rw [List.getElem?_eq_some] at h
  obtain ⟨hlt, rfl⟩ := h
  exact List.getElem_mem _

theorem annotate_protect (P : Nat → Prop) (fuel : Nat) (sq : List strct) (r : Option ref)
    (height colour : Nat) (sq2 : List strct) (hP : no_ref_into sq P)
    (hr : ∀ r2 t, r = some r2 → r2.target = some t → ¬ P t.s)
    (h : annotate fuel sq r height colour = .ok sq2) :
    sq2.map strct.fq = sq.map strct.fq ∧
      ∀ k, P k → (sq2[k]?).map strct.height = (sq[k]?).map strct.height := by
  induction fuel generalizing sq r height sq2 with
  | zero => simp [annotate] at h
  | succ n ih =>
    unfold annotate at h
    cases r with
    | none => simp at h
    | some r =>
      cases ht : r.target with
      | none => simp [ht] at h
      | some t =>
        simp only [ht] at h
        cases hp : getstrct sq t.s with
        | error e => simp [hp] at h
        | ok p =>
          simp only [hp] at h
          split at h
          · simp only [Except.ok.injEq] at h
            subst h
            exact ⟨rfl, fun _ _ => rfl⟩
          · have hmem : p ∈ sq := mem_of_getElem? _ _ _ ((getstrct_ok_iff _ _ _).1 hp)
            have hkeep : (modstrct sq t.s (fun st =>
                { st with colour := colour, height := st.height + height })).map strct.fq =
                sq.map strct.fq := modstrct_map _ sq t.s _ (fun _ => rfl)
            obtain ⟨h1, h2⟩ := annotate_fields_protect P _
              (fun sq1 r1 sq3 hP1 hr1 h3 => ih sq1 r1 (height + 1) sq3 hP1 hr1 h3) p.fq
              (fun f hf hty t1 ht1 => hP p hmem f hf hty t1 ht1) _ sq2
              (no_ref_into_congr _ _ P hkeep hP) h
            refine ⟨h1.trans hkeep, fun k hk => ?_⟩
            rw [h2 k hk, getElem?_modstrct]
            have hne : ¬ k = t.s := by
              intro hkt
              exact hr r t rfl ht (hkt ▸ hk)
            simp [hne]

theorem pass_annotate_fields_protect (P : Nat → Prop) (fuel s colour : Nat) (fq : List field)
    (hfq : ∀ f ∈ fq, f.type = ftype.FTYPE_STRUCT → ∀ t, field_target f = some t → ¬ P t)
    (sq sq2 : List strct) (hP : no_ref_into sq P)
    (h : pass_annotate_fields fuel s colour fq sq = .ok sq2) :
    sq2.map strct.fq = sq.map strct.fq ∧
      ∀ k, P k → (sq2[k]?).map strct.height = (sq[k]?).map strct.height := by
  induction fq generalizing sq with
  | nil =>
    simp only [pass_annotate_fields, Except.ok.injEq] at h
    subst h
    exact ⟨rfl, fun _ _ => rfl⟩
  | cons f fs ih =>
    unfold pass_annotate_fields at h
    have hfs : ∀ g ∈ fs, g.type = ftype.FTYPE_STRUCT → ∀ t, field_target g = some t → ¬ P t :=
      fun g hg => hfq g (List.mem_cons_of_mem _ hg)
    split at h
    · rename_i hty
      cases ha : annotate fuel (modstrct sq s fun q => { q with colour := colour }) f.ref 1
          colour with
      | error e => simp [ha] at h
      | ok sq1 =>
        simp only [ha] at h
        have hkeep : (modstrct sq s (fun q => { q with colour := colour })).map strct.fq =
            sq.map strct.fq := modstrct_map _ sq s _ (fun _ => rfl)
        have hr : ∀ r2 t, f.ref = some r2 → r2.target = some t → ¬ P t.s := by
          intro r2 t h1 h2
          apply hfq f (List.mem_cons_self _ _) hty.symm t.s
          simp [field_target, h1, h2]
        obtain ⟨h1, h2⟩ := annotate_protect P fuel _ f.ref 1 colour sq1
          (no_ref_into_congr _ _ P hkeep hP) hr ha
        obtain ⟨h3, h4⟩ := ih hfs sq1 (no_ref_into_congr _ _ P (h1.trans hkeep) hP) h
        refine ⟨h3.trans (h1.trans hkeep), fun k hk => ?_⟩
        rw [h4 k hk, h2 k hk, getElem?_modstrct]
        by_cases hks : k = s
        · subst hks
          cases sq[k]? <;> simp
        · simp [hks]
    · exact ih hfs sq hP h

theorem pass_annotate_protect (P : Nat → Prop) (fuel : Nat) (sq sq2 : List strct)
    (hP : no_ref_into sq P) (h : pass_annotate fuel sq = .ok sq2) :
    ∀ k, P k → (sq2[k]?).map strct.height = (sq[k]?).map strct.height := by
  unfold pass_annotate at h
  cases hl : tailq_foreach (pass_annotate_strct fuel) (List.range sq.length) (sq, 1) with
  | error e => simp [hl] at h
  | ok st =>
    simp only [hl] at h
    split at h
    · simp only [Except.ok.injEq] at h
      subst h
      have hinv := tailq_foreach_inv (pass_annotate_strct fuel)
        (fun st => st.1.map strct.fq = sq.map strct.fq ∧
          ∀ k, P k → (st.1[k]?).map strct.height = (sq[k]?).map strct.height)
        ?_ _ (sq, 1) st ⟨rfl, fun _ _ => rfl⟩ hl
      · exact hinv.2
      · intro st1 i st2 hinv hb
        unfold pass_annotate_strct at hb
        cases hp : getstrct st1.1 i with
        | error e => simp [hp] at hb
        | ok p =>
          simp only [hp] at hb
          split at hb
          · simp only [Except.ok.injEq] at hb
            rw [← hb]
            exact hinv
          · cases hf : pass_annotate_fields fuel i st1.2 p.fq st1.1 with
            | error e => simp [hf] at hb
            | ok sq3 =>
              simp only [hf, Except.ok.injEq] at hb
              rw [← hb]
              have hP1 := no_ref_into_congr sq st1.1 P hinv.1 hP
              have hmem : p ∈ st1.1 := mem_of_getElem? _ _ _ ((getstrct_ok_iff _ _ _).1 hp)
              obtain ⟨h1, h2⟩ := pass_annotate_fields_protect P fuel i st1.2 p.fq
                (fun f hf hty t1 ht1 => hP1 p hmem f hf hty t1 ht1) st1.1 sq3 hP1 hf
              exact ⟨h1.trans hinv.1, fun k hk => (h2 k hk).trans (hinv.2 k hk)⟩
    · cases h

theorem parse_link_passes_ok (fuel : Nat) (cfg : config) (sq5 : List strct)
    (h : parse_link_passes fuel cfg = .ok sq5) :
    ∃ sq1 sq2 st sq3 sq4, pass_link cfg = .ok sq1 ∧
      pass_recursive fuel sq1 (List.range sq1.length) = .ok () ∧
      pass_annotate fuel sq1 = .ok sq2 ∧
      pass_aliases fuel sq2 = .ok st ∧
      tailq_foreach pass_search_strct (List.range st.1.length) st.1 = .ok sq3 ∧
      tailq_foreach pass_unique_strct (List.range sq3.length) sq3 = .ok sq4 ∧
      tailq_foreach pass_searchtype_strct (List.range sq4.length) sq4 = .ok sq5 := by
  unfold parse_link_passes at h
  cases h1 : pass_link cfg with
  | error e => simp [h1, bind, Except.bind] at h
  | ok sq1 =>
    cases h2 : pass_recursive fuel sq1 (List.range sq1.length) with
    | error e => simp [h1, h2, bind, Except.bind] at h
    | ok u =>
      cases h3 : pass_annotate fuel sq1 with
      | error e => simp [h1, h2, h3, bind, Except.bind] at h
      | ok sq2 =>
        cases h4 : pass_aliases fuel sq2 with
        | error e => simp [h1, h2, h3, h4, bind, Except.bind] at h
        | ok st =>
          cases h5 : tailq_foreach pass_search_strct (List.range st.1.length) st.1 with
          | error e => simp [h1, h2, h3, h4, h5, bind, Except.bind] at h
          | ok sq3 =>
            cases h6 : tailq_foreach pass_unique_strct (List.range sq3.length) sq3 with
            | error e => simp [h1, h2, h3, h4, h5, h6, bind, Except.bind] at h
            | ok sq4 =>
              simp only [h1, h2, h3, h4, h5, h6, bind, Except.bind] at h
              cases h7 : tailq_foreach pass_searchtype_strct (List.range sq4.length) sq4 with
              | error e => simp [h7] at h
              | ok sq6 =>
                simp only [h7, Except.ok.injEq] at h
                subst h
                exact ⟨sq1, sq2, st, sq3, sq4, rfl, h2, h3, h4, h5, h6, h7⟩

theorem map_eq_getElem? {α : Type} (π : strct → α) (sq sq2 : List strct)
    (h : sq2.map π = sq.map π) (k : Nat) : (sq2[k]?).map π = (sq[k]?).map π := by
  rw [← List.getElem?_map, ← List.getElem?_map, h]

/-- After the passes, the field queues are those the first pass left and the
heights are those the annotation pass left. -/
theorem parse_link_passes_frame (fuel : Nat) (cfg : config) (sq5 : List strct)
    (h : parse_link_passes fuel cfg = .ok sq5) :
    ∃ sq1 sq2, pass_link cfg = .ok sq1 ∧ pass_annotate fuel sq1 = .ok sq2 ∧
      sq5.map strct.fq = sq1.map strct.fq ∧ sq5.map strct.height = sq2.map strct.height := by
  obtain ⟨sq1, sq2, st, sq3, sq4, h1, _, h3, h4, h5, h6, h7⟩ := parse_link_passes_ok fuel cfg sq5 h
  refine ⟨sq1, sq2, h1, h3, ?_, ?_⟩
  · rw [pass_searchtype_keeps sq4 sq5 h7, pass_unique_keeps strct.fq (fun _ _ => rfl) sq3 sq4 h6,
      pass_search_keeps strct.fq (fun _ _ => rfl) st.1 sq3 h5,
      pass_aliases_keeps strct.fq (fun _ _ => rfl) fuel sq2 st h4,
      pass_annotate_keeps strct.fq (fun _ _ _ => rfl) fuel sq1 sq2 h3]
  · rw [pass_searchtype_keeps sq4 sq5 h7,
      pass_unique_keeps strct.height (fun _ _ => rfl) sq3 sq4 h6,
      pass_search_keeps strct.height (fun _ _ => rfl) st.1 sq3 h5,
      pass_aliases_keeps strct.height (fun _ _ => rfl) fuel sq2 st h4]

theorem unreferenced_height_zero (fuel : Nat) (cfg : config) (sq5 : List strct)
    (h : parse_link_passes fuel cfg = .ok sq5) (h0 : ∀ p ∈ cfg.sq, p.height = 0)
    (k : Nat) (p : strct) (hk : sq5[k]? = some p) (hno : ¬ ∃ S, refers sq5 S k) :
    p.height = 0 := by
  obtain ⟨sq1, sq2, h1, h3, hfq, hht⟩ := parse_link_passes_frame fuel cfg sq5 h
  have hP : no_ref_into sq1 (fun k => ¬ ∃ S, refers sq5 S k) := by
    intro q hq f hf hty t ht hnot
    apply hnot
    obtain ⟨S, hS⟩ := List.getElem?_of_mem hq
    have := map_eq_getElem? strct.fq sq1 sq5 hfq S
    rw [hS] at this
    cases h5 : sq5[S]? with
    | none => simp [h5] at this
    | some q5 =>
      simp only [h5, Option.map_some', Option.some.injEq] at this
      exact ⟨S, q5, h5, f, this ▸ hf, hty, ht⟩
  have e1 := map_eq_getElem? strct.height sq2 sq5 hht k
  have e2 := pass_annotate_protect _ fuel sq1 sq2 hP h3 k hno
  have e3 := map_eq_getElem? strct.height cfg.sq sq1
    (pass_link_keeps strct.height (fun _ _ => rfl) (fun _ _ _ => rfl) cfg sq1 h1) k
  rw [e2, e3, hk] at e1
  cases hc : cfg.sq[k]? with
  | none => simp [hc] at e1
  | some p0 =>
    simp only [hc, Option.map_some', Option.some.injEq] at e1
    rw [e1]
    exact h0 p0 (mem_of_getElem? _ _ _ hc)

/-- C6 (amended): heights are accumulated on the structures referred to.  When
`parse_link` succeeds on a configuration whose heights start at zero, every structure
that no struct-typed field refers to has height 0; and for
`user(id: rowid)`, `post(id: rowid, author -> user.id)`, in either input
order, `user.height = 1` and `post.height = 0`. -/
theorem C6_heights_on_referenced_structures :
    (∀ (qsort : (Nat → Nat → Int) → List Nat → List Nat) (fuel : Nat) (cfg : config)
        (l : linked), parse_link qsort fuel cfg = .ok l → (∀ p ∈ cfg.sq, p.height = 0) →
        ∀ (k : Nat) (p : strct), l.sq[k]? = some p → (¬ ∃ S, refers l.sq S k) →
          p.height = 0) ∧
      (parse_link_passes 2 cfg_user_post).map
          (fun sq => sq.map (fun p => (String.mk p.name, p.height))) =
        .ok [("user", 1), ("post", 0)] ∧
      (parse_link_passes 2 cfg_post_user).map
          (fun sq => sq.map (fun p => (String.mk p.name, p.height))) =
        .ok [("post", 0), ("user", 1)] := by
  refine ⟨?_, by decide, by decide⟩
  intro qsort fuel cfg l h h0 k p hk hno
  exact unreferenced_height_zero fuel cfg l.sq (parse_link_ok qsort fuel cfg l h).1 h0 k p hk hno

/-- C6 at the scenario with `post` declared first: no struct-typed field refers
to `post`, and its height is 0. -/
theorem C6_heights_on_referenced_structures_witness :
    parse_link isort 2 cfg_post_user =
        .ok { sq := passes_arena 2 cfg_post_user,
              order := pass_order isort (passes_arena 2 cfg_post_user) } ∧
      (∀ p ∈ (passes_arena 2 cfg_post_user)[0]?, p.height = 0) := by
  have h : parse_link isort 2 cfg_post_user =
      .ok { sq := passes_arena 2 cfg_post_user,
            order := pass_order isort (passes_arena 2 cfg_post_user) } := by decide
  refine ⟨h, ?_⟩
  intro p hp
  refine C6_heights_on_referenced_structures.1 isort 2 cfg_post_user _ h (by decide) 0 p hp ?_
  rintro ⟨S, q, hq, f, hf, hty, ht⟩
  have hS : S < 2 := by
    have := refers_lt _ S 0 ⟨q, hq, f, hf, hty, ht⟩
    simpa using this
  have hall : ∀ S < 2, ∀ q ∈ (passes_arena 2 cfg_post_user)[S]?, ∀ f ∈ q.fq,
      f.type = ftype.FTYPE_STRUCT → field_target f ≠ some 0 := by decide
  exact hall S hS q hq f hf hty ht

/-- C6 (counterexample): in the scenario, with `user` declared first, the
longest chain of struct-typed references that starts at `user` has length 0
and the one that starts at `post` has length 1, but `parse_link` leaves
`user.height = 1` and `post.height = 0`. -/
theorem C6_user_post_counterexample :
    ∃ l, parse_link isort 2 cfg_user_post = .ok l ∧
      l.sq.map (fun p => (String.mk p.name, p.height, longest_chain 2 l.sq 0,
        longest_chain 2 l.sq 1)) = [("user", 1, 0, 1), ("post", 0, 0, 1)] := by
  exact ⟨{ sq := passes_arena 2 cfg_user_post,
           order := pass_order isort (passes_arena 2 cfg_user_post) }, by decide, by decide⟩

/-! ### The linking pass, field by field -/

theorem skel_modstrct (sq : List strct) (p : Nat) (g : strct → strct)
    (h : ∀ st, (g st).fq = st.fq) : skel (modstrct sq p g) = skel sq := by
  unfold skel
  apply modstrct_map
  intro st
  rw [h]

theorem skel_modfield (sq : List strct) (p : fptr) (g : field → field)
    (h : ∀ f, (g f).type = f.type ∧ (g f).flags = f.flags) :
    skel (modfield sq p g) = skel sq := by
  unfold skel modfield
  apply modstrct_map
  intro st
  cases hf : st.fq[p.f]? with
  | none => rfl
  | some f =>
    simp only
    apply List.ext_getElem?
    intro k
    simp only [List.getElem?_map, List.getElem?_set]
    by_cases hk : p.f = k
    · subst hk
      have hlt : p.f < st.fq.length := by
        rcases Nat.lt_or_ge p.f st.fq.length with h1 | h1
        · exact h1
        · rw [List.getElem?_eq_none h1] at hf
          cases hf
      simp [hlt, hf, (h f).1, (h f).2]
    · simp [hk]

theorem skel_fld (sq sq2 : List strct) (h : skel sq2 = skel sq) (q : fptr) :
    (fld sq2 q).map (fun f => (f.type, f.flags)) = (fld sq q).map (fun f => (f.type, f.flags)) := by
  have h1 : (skel sq2)[q.s]? = (skel sq)[q.s]? := by rw [h]
  unfold skel at h1
  simp only [List.getElem?_map] at h1
  unfold fld
  cases h2 : sq2[q.s]? with
  | none =>
    cases h3 : sq[q.s]? with
    | none => rfl
    | some st => simp [h2, h3] at h1
  | some st2 =>
    cases h3 : sq[q.s]? with
    | none => simp [h2, h3] at h1
    | some st =>
      simp only [h2, h3, Option.map_some', Option.some.injEq] at h1
      have h4 : (st2.fq.map (fun f => (f.type, f.flags)))[q.f]? =
          (st.fq.map (fun f => (f.type, f.flags)))[q.f]? := by rw [h1]
      simpa only [List.getElem?_map] using h4

theorem skel_fld_some (sq sq2 : List strct) (h : skel sq2 = skel sq) (q : fptr) (f : field)
    (hf : fld sq q = some f) :
    ∃ f2, fld sq2 q = some f2 ∧ f2.type = f.type ∧ f2.flags = f.flags := by
  have := skel_fld sq sq2 h q
  rw [hf] at this
  cases h2 : fld sq2 q with
  | none => simp [h2] at this
  | some f2 =>
    simp only [h2, Option.map_some', Option.some.injEq, Prod.mk.injEq] at this
    exact ⟨f2, rfl, this.1, this.2⟩

theorem getfield?_eq (sq : List strct) (p : Option fptr) :
    getfield? sq p = match p with
      | none => .error .null
      | some q =>
        match fld sq q with
        | some f => .ok f
        | none => .error .null := by
  cases p with
  | none => rfl
  | some q => simp [getfield?, getfield_eq]

theorem checktargettype_congr (sq sq2 : List strct) (h : skel sq2 = skel sq) (r r2 : ref)
    (hs : r2.source = r.source) (ht : r2.target = r.target) :
    checktargettype sq2 r2 = checktargettype sq r := by
  unfold checktargettype
  rw [getfield?_eq, getfield?_eq, getfield?_eq, getfield?_eq, hs, ht]
  cases htp : r.target with
  | none => rfl
  | some tp =>
    cases hsp : r.source with
    | none =>
      simp only [bind, Except.bind]
      cases fld sq2 tp <;> cases fld sq tp <;> rfl
    | some sp =>
      have e1 := skel_fld sq sq2 h tp
      have e2 := skel_fld sq sq2 h sp
      cases h1 : fld sq tp with
      | none =>
        cases h2 : fld sq2 tp with
        | none => simp [bind, Except.bind, h1, h2]
        | some a => simp [h1, h2] at e1
      | some a =>
        cases h2 : fld sq2 tp with
        | none => simp [h1, h2] at e1
        | some a2 =>
          simp only [h1, h2, Option.map_some', Option.some.injEq, Prod.mk.injEq] at e1
          cases h3 : fld sq sp with
          | none =>
            cases h4 : fld sq2 sp with
            | none => simp [bind, Except.bind, h1, h2, h3, h4]
            | some b => simp [h3, h4] at e2
          | some b =>
            cases h4 : fld sq2 sp with
            | none => simp [h3, h4] at e2
            | some b2 =>
              simp only [h3, h4, Option.map_some', Option.some.injEq, Prod.mk.injEq] at e2
              simp only [bind, Except.bind, h1, h2, h3, h4, e1.1, e2.1]

theorem ref_target_rowid_congr (sq sq2 : List strct) (h : skel sq2 = skel sq) (r r2 : ref)
    (ht : r2.target = r.target) (hr : ref_target_rowid sq r) : ref_target_rowid sq2 r2 := by
  obtain ⟨tp, tgt, h1, h2, h3, h4⟩ := hr
  obtain ⟨f2, hf2, _, hfl⟩ := skel_fld_some sq sq2 h tp tgt h2
  exact ⟨tp, f2, ht.trans h1, hf2, by rw [hfl]; exact h3, by rw [hfl]; exact h4⟩

/-- What `linkref` does when it succeeds: nothing, or it attaches to the
source field, which had no reference, a copy of the reference, after it found
the target to be a row identifier that is not nullable. -/
theorem linkref_cases (sq : List strct) (owner : fptr) (r : ref) (sq2 : List strct)
    (h : linkref sq owner r = .ok sq2) :
    sq2 = sq ∨ ∃ sp tp src tgt, r.source = some sp ∧ r.target = some tp ∧
      fld sq sp = some src ∧ src.ref = none ∧ fld sq tp = some tgt ∧
      hasflag FIELD_ROWID tgt.flags = true ∧ hasflag FIELD_NULL tgt.flags = false ∧
      sq2 = modfield sq sp
        (fun f => { f with ref := some { r with source := some sp, target := some tp } }) := by
  unfold linkref at h
  split at h
  · cases h
  · cases h
  · rename_i sp tp hsp htp
    cases ho : getfield sq owner with
    | error e => simp [ho, bind, Except.bind] at h
    | ok o =>
      simp only [ho, bind, Except.bind] at h
      split at h
      · simp only [Except.ok.injEq] at h
        exact Or.inl h.symm
      · cases hs : getfield sq sp with
        | error e => simp [hs] at h
        | ok src =>
          simp only [hs] at h
          split at h
          · split at h
            · cases h
            · simp only [Except.ok.injEq] at h
              exact Or.inl h.symm
          · rename_i hnone
            cases htg : getfield sq tp with
            | error e => simp [htg] at h
            | ok tgt =>
              simp only [htg] at h
              split at h
              · cases h
              · rename_i hrow
                split at h
                · cases h
                · rename_i hnull
                  simp only [Except.ok.injEq] at h
                  refine Or.inr ⟨sp, tp, src, tgt, hsp, htp, (getfield_ok_iff _ _ _).1 hs, hnone,
                    (getfield_ok_iff _ _ _).1 htg, ?_, ?_, h.symm⟩
                  · simpa using hrow
                  · simpa using hnull

theorem resolve_field_source_keeps (r : ref) (s : Nat) (fq : List field) (r1 : ref)
    (h : resolve_field_source r s fq = .ok r1) : r1.target = r.target := by
  unfold resolve_field_source at h
  split at h
  · simp only [Except.ok.injEq] at h
    rw [h]
  · split at h
    · cases h
    · split at h
      · simp only [Except.ok.injEq] at h
        rw [← h]
      · cases h

theorem resolve_field_target_keeps (r1 : ref) (q : List strct) (r2 : ref)
    (h : resolve_field_target r1 q = .ok r2) :
    r2.source = r1.source ∧ (r1.target.isSome = true → r2 = r1) := by
  unfold resolve_field_target at h
  split at h
  · simp only [Except.ok.injEq] at h
    rw [h]
    exact ⟨rfl, fun _ => rfl⟩
  · rename_i hnone
    split at h
    · cases h
    · split at h
      · simp only [Except.ok.injEq] at h
        rw [← h]
        exact ⟨rfl, fun h2 => absurd h2 hnone⟩
      · cases h

theorem ref_at_modfield_ref (sq : List strct) (p : fptr) (x : Option ref) (q : fptr) (f : field)
    (hf : fld sq p = some f) :
    ref_at (modfield sq p (fun g => { g with ref := x })) q =
      if q = p then some x else ref_at sq q := by
  unfold ref_at
  rw [fld_modfield]
  by_cases hq : q = p
  · subst hq
    simp [hf]
  · simp [hq]

theorem ref_at_modfield_eref (sq : List strct) (p : fptr) (x : Option eref) (q : fptr) :
    ref_at (modfield sq p (fun g => { g with eref := x })) q = ref_at sq q := by
  unfold ref_at
  rw [fld_modfield]
  by_cases hq : q = p
  · subst hq
    cases fld sq q <;> simp
  · simp [hq]

theorem link_field_enum_effect (eq : List enm) (sq : List strct) (s i : Nat) (f : field)
    (sq2 : List strct) (h : link_field_enum eq sq s i f = .ok sq2) :
    skel sq2 = skel sq ∧ ∀ q, ref_at sq2 q = ref_at sq q := by
  unfold link_field_enum at h
  cases hfe : f.eref with
  | none =>
    simp only [hfe, Except.ok.injEq] at h
    subst h
    exact ⟨rfl, fun _ => rfl⟩
  | some e =>
    simp only [hfe] at h
    cases h1 : resolve_field_enum e eq with
    | error e => simp [h1, bind, Except.bind] at h
    | ok e2 =>
      simp only [h1, bind, Except.bind, Except.ok.injEq] at h
      subst h
      exact ⟨skel_modfield _ _ _ (fun _ => ⟨rfl, rfl⟩), fun q => ref_at_modfield_eref _ _ _ q⟩

/-- What lines 683 to 688 do to the arena when they succeed on the field at
`(s, i)`: types and flags stay; a field without a reference changes nothing;
otherwise the reference of the field, resolved, passes `checktargettype`, and
any other field keeps its reference slot unless it had none and received a
copy with the same ends whose target is a non-nullable row identifier. -/
theorem link_field_ref_effect (sq : List strct) (s i : Nat) (f : field) (sq2 : List strct)
    (hf : fld sq { s := s, f := i } = some f)
    (h : link_field_ref sq s i f = .ok sq2) :
    skel sq2 = skel sq ∧
      ((f.ref = none ∧ sq2 = sq) ∨
        ∃ r r2, f.ref = some r ∧ (r.target.isSome = true → r2.target = r.target) ∧
          ref_checked sq2 r2 ∧ ref_at sq2 { s := s, f := i } = some (some r2) ∧
          ∀ q, q ≠ { s := s, f := i } →
            (ref_at sq2 q = ref_at sq q ∨
              (ref_at sq q = some none ∧ ∃ cr, ref_at sq2 q = some (some cr) ∧
                cr.source = r2.source ∧ cr.target = r2.target ∧ ref_target_rowid sq2 cr))) := by
  unfold link_field_ref at h
  cases hfr : f.ref with
  | none =>
    simp only [hfr, Except.ok.injEq] at h
    subst h
    exact ⟨rfl, Or.inl ⟨rfl, rfl⟩⟩
  | some r =>
    simp only [hfr] at h
    cases hp : getstrct sq s with
    | error e => simp [hp, bind, Except.bind] at h
    | ok p =>
      cases h1 : resolve_field_source r s p.fq with
      | error e => simp [hp, h1, bind, Except.bind] at h
      | ok r1 =>
        cases h2 : resolve_field_target r1 sq with
        | error e => simp [hp, h1, h2, bind, Except.bind] at h
        | ok r2 =>
          simp only [hp, h1, h2, bind, Except.bind] at h
          cases h3 : linkref (modfield sq { s := s, f := i }
              fun g => { g with ref := some r2 }) { s := s, f := i } r2 with
          | error e => simp [h3] at h
          | ok sq3 =>
            simp only [h3] at h
            cases h4 : checktargettype sq3 r2 with
            | error e => simp [h4] at h
            | ok u =>
              simp only [h4, Except.ok.injEq] at h
              subst h
              have hk1 : skel (modfield sq { s := s, f := i }
                  fun g => { g with ref := some r2 }) = skel sq :=
                skel_modfield _ _ _ (fun _ => ⟨rfl, rfl⟩)
              have htgt : r.target.isSome = true → r2.target = r.target := by
                intro hsome
                have e1 := resolve_field_source_keeps r s p.fq r1 h1
                have e2 := (resolve_field_target_keeps r1 sq r2 h2).2 (by rw [e1]; exact hsome)
                rw [e2, e1]
              have hra1 : ∀ q, ref_at (modfield sq { s := s, f := i }
                  fun g => { g with ref := some r2 }) q =
                  if q = { s := s, f := i } then some (some r2) else ref_at sq q :=
                fun q => ref_at_modfield_ref sq _ _ q f hf
              rcases linkref_cases _ _ _ _ h3 with hsame | ⟨sp, tp, src, tgt, hsp, htp, hsrc,
                hnone, htg, hrow, hnull, hsq3⟩
              · subst hsame
                refine ⟨hk1, Or.inr ⟨r, r2, rfl, htgt, h4, ?_, ?_⟩⟩
                · rw [hra1]
                  simp
                · intro q hq
                  left
                  rw [hra1]
                  simp [hq]
              · have hne : sp ≠ { s := s, f := i } := by
                  intro hsp2
                  rw [hsp2, fld_modfield] at hsrc
                  simp only [↓reduceIte, hf, Option.map_some', Option.some.injEq] at hsrc
                  rw [← hsrc] at hnone
                  cases hnone
                have hk3 : skel sq3 = skel sq := by
                  rw [hsq3]
                  refine Eq.trans (skel_modfield _ _ _ ?_) hk1
                  intro _
                  exact ⟨rfl, rfl⟩
                have hra3 : ∀ q, ref_at sq3 q = if q = sp then
                    some (some { r2 with source := some sp, target := some tp })
                    else ref_at (modfield sq { s := s, f := i }
                      fun g => { g with ref := some r2 }) q := by
                  intro q
                  rw [hsq3]
                  exact ref_at_modfield_ref _ _ _ q src hsrc
                refine ⟨hk3, Or.inr ⟨r, r2, rfl, htgt, h4, ?_, ?_⟩⟩
                · rw [hra3, hra1]
                  simp [Ne.symm hne]
                · intro q hq
                  by_cases hqs : q = sp
                  · right
                    subst hqs
                    refine ⟨?_, { r2 with source := some q, target := some tp }, ?_,
                      hsp.symm, htp.symm, ?_⟩
                    · have : ref_at (modfield sq { s := s, f := i }
                          fun g => { g with ref := some r2 }) q = some none := by
                        unfold ref_at
                        rw [hsrc]
                        simp [hnone]
                      rw [hra1] at this
                      simpa [hq] using this
                    · rw [hra3]
                      simp
                    · have hkk : skel sq3 = skel (modfield sq { s := s, f := i }
                          fun g => { g with ref := some r2 }) := by rw [hk3, hk1]
                      obtain ⟨f2, hf2, _, hfl⟩ := skel_fld_some _ sq3 hkk tp tgt htg
                      exact ⟨tp, f2, rfl, hf2, by rw [hfl]; exact hrow, by rw [hfl]; exact hnull⟩
                  · left
                    rw [hra3, hra1]
                    simp [hq, hqs]

theorem ref_checked_congr (sq sq2 : List strct) (h : skel sq2 = skel sq) (r r2 : ref)
    (hs : r2.source = r.source) (ht : r2.target = r.target) (hc : ref_checked sq r) :
    ref_checked sq2 r2 := by
  unfold ref_checked at *
  rw [checktargettype_congr sq sq2 h r r2 hs ht]
  exact hc

theorem link_field_step (eq : List enm) (s : Nat) (st : List strct × Nat) (i : Nat)
    (st2 : List strct × Nat) (sq0 : List strct) (V : fptr → Prop)
    (h : link_field eq s st i = .ok st2) :
    skel st2.1 = skel st.1 ∧
      (all_checked V st.1 → all_checked (fun q => V q ∨ q = { s := s, f := i }) st2.1) ∧
      (created_rowid sq0 st.1 → created_rowid sq0 st2.1) := by
  unfold link_field at h
  cases hf : getfield st.1 { s := s, f := i } with
  | error e => simp [hf, bind, Except.bind] at h
  | ok f =>
    cases hr : link_field_rowid f st.2 with
    | error e => simp [hf, hr, bind, Except.bind] at h
    | ok hrow =>
      cases hl : link_field_ref st.1 s i f with
      | error e => simp [hf, hr, hl, bind, Except.bind] at h
      | ok sq1 =>
        cases he : link_field_enum eq sq1 s i f with
        | error e => simp [hf, hr, hl, he, bind, Except.bind] at h
        | ok sq2 =>
          simp only [hf, hr, hl, he, bind, Except.bind, Except.ok.injEq] at h
          subst h
          simp only
          have hfld := (getfield_ok_iff _ _ _).1 hf
          obtain ⟨hk2, hra2⟩ := link_field_enum_effect eq sq1 s i f sq2 he
          obtain ⟨hk1, hcase⟩ := link_field_ref_effect st.1 s i f sq1 hfld hl
          have hk : skel sq2 = skel st.1 := hk2.trans hk1
          have hrc : ref_at st.1 { s := s, f := i } = some f.ref := by
            unfold ref_at
            rw [hfld]
            rfl
          refine ⟨hk, ?_, ?_⟩
          · intro hinv q r hV hq
            rw [hra2] at hq
            rcases hcase with ⟨hnone, hsame⟩ | ⟨r0, r2, hfr, _, hch, hrc2, hother⟩
            · subst hsame
              rcases hV with hV | hV
              · exact ref_checked_congr _ _ hk r r rfl rfl (hinv q r hV hq)
              · rw [hV, hrc, hnone] at hq
                cases hq
            · by_cases hqc : q = { s := s, f := i }
              · rw [hqc, hrc2] at hq
                simp only [Option.some.injEq] at hq
                subst hq
                exact ref_checked_congr _ _ hk2 r2 r2 rfl rfl hch
              · rcases hV with hV | hV
                · rcases hother q hqc with hsame | ⟨_, cr, hcr, hcs, hct, _⟩
                  · rw [hsame] at hq
                    exact ref_checked_congr _ _ hk r r rfl rfl (hinv q r hV hq)
                  · rw [hcr] at hq
                    simp only [Option.some.injEq] at hq
                    subst hq
                    exact ref_checked_congr _ _ hk2 r2 cr hcs hct hch
                · exact absurd hV hqc
          · intro hinv q r h0 hq
            rw [hra2] at hq
            rcases hcase with ⟨hnone, hsame⟩ | ⟨r0, r2, hfr, htgt, hch, hrc2, hother⟩
            · subst hsame
              exact ref_target_rowid_congr _ _ hk r r rfl (hinv q r h0 hq)
            · by_cases hqc : q = { s := s, f := i }
              · rw [hqc, hrc2] at hq
                simp only [Option.some.injEq] at hq
                subst hq
                rw [hqc] at h0
                have hold := hinv { s := s, f := i } r0 h0 (by rw [hrc, hfr])
                have hsome : r0.target.isSome = true := by
                  obtain ⟨tp, _, htp, _⟩ := hold
                  rw [htp]
                  rfl
                exact ref_target_rowid_congr _ _ hk r0 r2 (htgt hsome) hold
              · rcases hother q hqc with hsame | ⟨_, cr, hcr, _, _, hgood⟩
                · rw [hsame] at hq
                  exact ref_target_rowid_congr _ _ hk r r rfl (hinv q r h0 hq)
                · rw [hcr] at hq
                  simp only [Option.some.injEq] at hq
                  subst hq
                  exact ref_target_rowid_congr _ _ hk2 cr cr rfl hgood

theorem fld_some_lt (sq : List strct) (q : fptr) (f : field) (p : strct)
    (hf : fld sq q = some f) (hp : sq[q.s]? = some p) : q.f < p.fq.length := by
  unfold fld at hf
  rw [hp] at hf
  simp only at hf
  rcases Nat.lt_or_ge q.f p.fq.length with h | h
  · exact h
  · rw [List.getElem?_eq_none h] at hf
    cases hf

theorem fld_some_s_lt (sq : List strct) (q : fptr) (f : field)
    (hf : fld sq q = some f) : q.s < sq.length := by
  unfold fld at hf
  rcases Nat.lt_or_ge q.s sq.length with h | h
  · exact h
  · rw [List.getElem?_eq_none h] at hf
    cases hf

theorem skel_length (sq sq2 : List strct) (h : skel sq2 = skel sq) : sq2.length = sq.length := by
  have := congrArg List.length h
  simpa [skel] using this

theorem skel_of_map_fq (sq sq2 : List strct) (h : sq2.map strct.fq = sq.map strct.fq) :
    skel sq2 = skel sq := by
  have e : ∀ l : List strct,
      skel l = (l.map strct.fq).map (fun fq => fq.map (fun f => (f.type, f.flags))) := by
    intro l
    simp [skel, List.map_map, Function.comp_def]
  rw [e, e, h]

theorem fld_of_map_fq (sq sq2 : List strct) (h : sq2.map strct.fq = sq.map strct.fq)
    (q : fptr) : fld sq2 q = fld sq q := by
  have h1 := map_eq_getElem? strct.fq sq sq2 h q.s
  unfold fld
  cases h2 : sq2[q.s]? with
  | none =>
    cases h3 : sq[q.s]? with
    | none => rfl
    | some st => simp [h2, h3] at h1
  | some st2 =>
    cases h3 : sq[q.s]? with
    | none => simp [h2, h3] at h1
    | some st =>
      simp only [h2, h3, Option.map_some', Option.some.injEq] at h1
      simp only [h1]

theorem link_fields_inv (eq : List enm) (s n : Nat) (sq0 sqS : List strct)
    (st2 : List strct × Nat) (V : fptr → Prop)
    (h : tailq_foreach (link_field eq s) (List.range n) (sqS, 0) = .ok st2)
    (hc : all_checked V sqS) (hr : created_rowid sq0 sqS) :
    skel st2.1 = skel sqS ∧ all_checked (fun q => V q ∨ (q.s = s ∧ q.f < n)) st2.1 ∧
      created_rowid sq0 st2.1 := by
  refine tailq_foreach_range_inv (link_field eq s)
    (fun i st => skel st.1 = skel sqS ∧
      all_checked (fun q => V q ∨ (q.s = s ∧ q.f < i)) st.1 ∧ created_rowid sq0 st.1)
    n ?_ (sqS, 0) st2 ⟨rfl, ?_, hr⟩ h
  · intro i st st3 _ hinv hb
    obtain ⟨h1, h2, h3⟩ := link_field_step eq s st i st3 sq0
      (fun q => V q ∨ (q.s = s ∧ q.f < i)) hb
    refine ⟨h1.trans hinv.1, ?_, h3 hinv.2.2⟩
    intro q r hV hq
    apply h2 hinv.2.1 q r ?_ hq
    rcases hV with hV | ⟨hs, hf⟩
    · exact Or.inl (Or.inl hV)
    · by_cases hfi : q.f < i
      · exact Or.inl (Or.inr ⟨hs, hfi⟩)
      · right
        cases q
        simp only at hs hf hfi
        simp only [fptr.mk.injEq]
        omega
  · intro q r hV hq
    rcases hV with hV | ⟨_, hf⟩
    · exact hc q r hV hq
    · exact absurd hf (Nat.not_lt_zero _)

theorem link_strct_inv (eq : List enm) (sq : List strct) (s : Nat) (sq2 sq0 : List strct)
    (h : link_strct eq sq s = .ok sq2)
    (hc : all_checked (fun q => q.s < s) sq) (hr : created_rowid sq0 sq) :
    skel sq2 = skel sq ∧ all_checked (fun q => q.s < s + 1) sq2 ∧ created_rowid sq0 sq2 := by
  unfold link_strct at h
  cases hp : getstrct sq s with
  | error e => simp [hp, bind, Except.bind] at h
  | ok p =>
    cases hl : tailq_foreach (link_field eq s) (List.range p.fq.length) (sq, 0) with
    | error e => simp [hp, hl, bind, Except.bind] at h
    | ok st =>
      cases hp1 : getstrct st.1 s with
      | error e => simp [hp, hl, hp1, bind, Except.bind] at h
      | ok p1 =>
        cases hu : link_updates st.1 s p1.uq with
        | error e => simp [hp, hl, hp1, hu, bind, Except.bind] at h
        | ok uq =>
          cases hd : link_updates st.1 s p1.dq with
          | error e => simp [hp, hl, hp1, hu, hd, bind, Except.bind] at h
          | ok dq =>
            simp only [hp, hl, hp1, hu, hd, bind, Except.bind, Except.ok.injEq] at h
            subst h
            obtain ⟨h1, h2, h3⟩ := link_fields_inv eq s p.fq.length sq0 sq st
              (fun q => q.s < s) hl hc hr
            have hk : skel (modstrct st.1 s fun q => { q with uq := uq, dq := dq }) = skel st.1 :=
              skel_modstrct _ _ _ (fun _ => rfl)
            have hra : ∀ q, ref_at (modstrct st.1 s fun q => { q with uq := uq, dq := dq }) q =
                ref_at st.1 q := by
              intro q
              unfold ref_at
              exact congrArg _ (fld_modstrct _ _ _ _ (fun _ => rfl))
            refine ⟨hk.trans h1, ?_, ?_⟩
            · intro q r hV hq
              rw [hra] at hq
              apply ref_checked_congr _ _ hk r r rfl rfl
              apply h2 q r ?_ hq
              by_cases hqs : q.s < s
              · exact Or.inl hqs
              · have hs : q.s = s := by omega
                refine Or.inr ⟨hs, ?_⟩
                unfold ref_at at hq
                cases hfq : fld st.1 q with
                | none => simp [hfq] at hq
                | some f1 =>
                  obtain ⟨f0, hf0, _⟩ := skel_fld_some st.1 sq h1.symm q f1 hfq
                  apply fld_some_lt sq q f0 p hf0
                  rw [hs]
                  exact (getstrct_ok_iff _ _ _).1 hp
            · intro q r h0 hq
              rw [hra] at hq
              exact ref_target_rowid_congr _ _ hk r r rfl (h3 q r h0 hq)

theorem pass_link_inv (cfg : config) (sq1 : List strct) (h : pass_link cfg = .ok sq1) :
    skel sq1 = skel cfg.sq ∧ all_checked (fun q => q.s < cfg.sq.length) sq1 ∧
      created_rowid cfg.sq sq1 := by
  unfold pass_link at h
  refine tailq_foreach_range_inv (link_strct cfg.eq)
    (fun s sq => skel sq = skel cfg.sq ∧ all_checked (fun q => q.s < s) sq ∧
      created_rowid cfg.sq sq)
    cfg.sq.length ?_ cfg.sq sq1 ⟨rfl, ?_, ?_⟩ h
  · intro s sq sq2 _ hinv hb
    obtain ⟨h1, h2, h3⟩ := link_strct_inv cfg.eq sq s sq2 cfg.sq hb hinv.2.1 hinv.2.2
    exact ⟨h1.trans hinv.1, h2, h3⟩
  · intro q r hV _
    exact absurd hV (Nat.not_lt_zero _)
  · intro q r h0 hq
    rw [h0] at hq
    cases hq

theorem checktargettype_ok (sq : List strct) (r : ref) (h : checktargettype sq r = .ok ()) :
    ∃ sp tp sf tf, r.source = some sp ∧ r.target = some tp ∧ getfield sq sp = .ok sf ∧
      getfield sq tp = .ok tf ∧ sf.type ≠ ftype.FTYPE_STRUCT ∧ tf.type ≠ ftype.FTYPE_STRUCT ∧
      sf.type = tf.type := by
  unfold checktargettype at h
  cases htp : r.target with
  | none => simp [htp, getfield?, bind, Except.bind] at h
  | some tp =>
    cases hsp : r.source with
    | none =>
      simp only [htp, hsp, getfield?, bind, Except.bind] at h
      cases ht : getfield sq tp <;> simp [ht] at h
    | some sp =>
      simp only [htp, hsp, getfield?, bind, Except.bind] at h
      cases ht : getfield sq tp with
      | error e => simp [ht] at h
      | ok tf =>
        cases hs : getfield sq sp with
        | error e => simp [ht, hs] at h
        | ok sf =>
          simp only [ht, hs] at h
          split at h
          · cases h
          · rename_i hno
            split at h
            · cases h
            · rename_i heq
              refine ⟨sp, tp, sf, tf, rfl, rfl, hs, ht, ?_, ?_, ?_⟩
              · intro h1
                exact hno (Or.inr h1.symm)
              · intro h1
                exact hno (Or.inl h1.symm)
              · simpa using heq

/-- After `parse_link`, every reference held by a field is one the first pass
checked, and every reference held by a field that had none in the input has a
non-nullable row identifier as its target. -/
theorem parse_link_refs (qsort : (Nat → Nat → Int) → List Nat → List Nat) (fuel : Nat)
    (cfg : config) (l : linked) (h : parse_link qsort fuel cfg = .ok l) (q : fptr) (r : ref)
    (hq : ref_at l.sq q = some (some r)) :
    ref_checked l.sq r ∧ (ref_at cfg.sq q = some none → ref_target_rowid l.sq r) := by
  obtain ⟨sq1, sq2, h1, _, hfq, _⟩ :=
    parse_link_passes_frame fuel cfg l.sq (parse_link_ok qsort fuel cfg l h).1
  obtain ⟨hk, hc, hcr⟩ := pass_link_inv cfg sq1 h1
  have hk5 : skel l.sq = skel sq1 := skel_of_map_fq _ _ hfq
  have hq1 : ref_at sq1 q = some (some r) := by
    unfold ref_at at *
    rw [← fld_of_map_fq sq1 l.sq hfq q]
    exact hq
  have hlt : q.s < cfg.sq.length := by
    unfold ref_at at hq1
    cases hf : fld sq1 q with
    | none => simp [hf] at hq1
    | some f =>
      rw [← skel_length cfg.sq sq1 hk]
      exact fld_some_s_lt sq1 q f hf
  exact ⟨ref_checked_congr _ _ hk5 r r rfl rfl (hc q r hlt hq1),
    fun h0 => ref_target_rowid_congr _ _ hk5 r r rfl (hcr q r h0 hq1)⟩

/-- C5: if `parse_link` succeeds, then every reference held by a field of the
result, whether declared or attached by `linkref`, has a source field and a
target field in the arena, neither of them struct-typed, both with the same
type tag. -/
theorem C5_reference_ends_native_same_type
    (qsort : (Nat → Nat → Int) → List Nat → List Nat) (fuel : Nat) (cfg : config) (l : linked)
    (q : fptr) (f : field) (r : ref)
    (h : parse_link qsort fuel cfg = .ok l)
    (hf : getfield l.sq q = .ok f) (hr : f.ref = some r) :
    ∃ sp tp sf tf, r.source = some sp ∧ r.target = some tp ∧ getfield l.sq sp = .ok sf ∧
      getfield l.sq tp = .ok tf ∧ sf.type ≠ ftype.FTYPE_STRUCT ∧
      tf.type ≠ ftype.FTYPE_STRUCT ∧ sf.type = tf.type := by
  have hq : ref_at l.sq q = some (some r) := by
    unfold ref_at
    rw [(getfield_ok_iff _ _ _).1 hf]
    simp [hr]
  exact checktargettype_ok l.sq r (parse_link_refs qsort fuel cfg l h q r hq).1

/-- C5 at the scenario `user`, `post`: the reference that `linkref` attached to
`post.userid` joins two integer fields, `post.userid` and `user.id`. -/
theorem C5_reference_ends_native_same_type_witness :
    parse_link isort 2 cfg_user_post =
        .ok { sq := passes_arena 2 cfg_user_post,
              order := pass_order isort (passes_arena 2 cfg_user_post) } ∧
      ∃ f r, getfield (passes_arena 2 cfg_user_post) { s := 1, f := 1 } = .ok f ∧
        f.ref = some r ∧
        ∃ sp tp sf tf, r.source = some sp ∧ r.target = some tp ∧
          getfield (passes_arena 2 cfg_user_post) sp = .ok sf ∧
          getfield (passes_arena 2 cfg_user_post) tp = .ok tf ∧
          sf.type ≠ ftype.FTYPE_STRUCT ∧ tf.type ≠ ftype.FTYPE_STRUCT ∧ sf.type = tf.type := by
  have h : parse_link isort 2 cfg_user_post =
      .ok { sq := passes_arena 2 cfg_user_post,
            order := pass_order isort (passes_arena 2 cfg_user_post) } := by decide
  exact ⟨h, _, _, rfl, rfl,
    C5_reference_ends_native_same_type isort 2 cfg_user_post _ { s := 1, f := 1 } _ _ h rfl rfl⟩

/-- C4 (amended): if `parse_link` succeeds, then for every field that had no
reference in the input and holds one in the result (a reference that `linkref`
created and attached to the source field of a struct-typed field), the target
field of the reference carries the row-identifier flag and does not carry the
nullable flag. -/
theorem C4_created_reference_targets_rowid
    (qsort : (Nat → Nat → Int) → List Nat → List Nat) (fuel : Nat) (cfg : config) (l : linked)
    (q : fptr) (f0 f : field) (r : ref)
    (h : parse_link qsort fuel cfg = .ok l)
    (h0 : getfield cfg.sq q = .ok f0) (hnone : f0.ref = none)
    (hf : getfield l.sq q = .ok f) (hr : f.ref = some r) :
    ∃ tp tgt, r.target = some tp ∧ getfield l.sq tp = .ok tgt ∧
      hasflag FIELD_ROWID tgt.flags = true ∧ hasflag FIELD_NULL tgt.flags = false := by
  have hq : ref_at l.sq q = some (some r) := by
    unfold ref_at
    rw [(getfield_ok_iff _ _ _).1 hf]
    simp [hr]
  have hq0 : ref_at cfg.sq q = some none := by
    unfold ref_at
    rw [(getfield_ok_iff _ _ _).1 h0]
    simp [hnone]
  obtain ⟨tp, tgt, h1, h2, h3, h4⟩ := (parse_link_refs qsort fuel cfg l h q r hq).2 hq0
  exact ⟨tp, tgt, h1, (getfield_ok_iff _ _ _).2 h2, h3, h4⟩

/-- C4 at the scenario `user`, `post`: `post.userid` had no reference in the
input; the one it holds after linking targets `user.id`, a row identifier that
is not nullable. -/
theorem C4_created_reference_targets_rowid_witness :
    parse_link isort 2 cfg_user_post =
        .ok { sq := passes_arena 2 cfg_user_post,
              order := pass_order isort (passes_arena 2 cfg_user_post) } ∧
      ∃ f0 f r, getfield cfg_user_post.sq { s := 1, f := 1 } = .ok f0 ∧ f0.ref = none ∧
        getfield (passes_arena 2 cfg_user_post) { s := 1, f := 1 } = .ok f ∧ f.ref = some r ∧
        ∃ tp tgt, r.target = some tp ∧
          getfield (passes_arena 2 cfg_user_post) tp = .ok tgt ∧
          hasflag FIELD_ROWID tgt.flags = true ∧ hasflag FIELD_NULL tgt.flags = false := by
  have h : parse_link isort 2 cfg_user_post =
      .ok { sq := passes_arena 2 cfg_user_post,
            order := pass_order isort (passes_arena 2 cfg_user_post) } := by decide
  exact ⟨h, _, _, _, rfl, rfl, rfl, rfl,
    C4_created_reference_targets_rowid isort 2 cfg_user_post _ { s := 1, f := 1 } _ _ _ h
      rfl rfl rfl rfl⟩

/-- C4 (counterexample): the native field `post.uid` declares a reference to
`user.age`, which is nullable and no row identifier; `parse_link` succeeds
(`linkref` returns at once for a native field and `checktargettype` only
warns), and the field holds that reference in the result. -/
theorem C4_native_reference_counterexample :
    ∃ l f r tgt, parse_link isort 2 cfg_native_ref = .ok l ∧
      getfield l.sq { s := 1, f := 0 } = .ok f ∧ f.ref = some r ∧
      r.target = some { s := 0, f := 1 } ∧ getfield l.sq { s := 0, f := 1 } = .ok tgt ∧
      hasflag FIELD_ROWID tgt.flags = false ∧ hasflag FIELD_NULL tgt.flags = true := by
  exact ⟨{ sq := passes_arena 2 cfg_native_ref,
           order := pass_order isort (passes_arena 2 cfg_native_ref) }, _, _, _,
    by decide, rfl, rfl, rfl, rfl, rfl, rfl⟩

/-! ### Alias generation -/

theorem chains_fields_ne_nil (sub : Nat → List (List (List Char))) (fq : List field) :
    ∀ c ∈ chains_fields sub fq, c ≠ [] := by
  induction fq with
  | nil => simp [chains_fields]
  | cons f fs ih =>
    unfold chains_fields
    split
    · split
      · intro c hc
        rcases List.mem_append.1 hc with h | h
        · rcases List.mem_cons.1 h with rfl | h2
          · simp
          · obtain ⟨d, _, rfl⟩ := List.mem_map.1 h2
            simp
        · exact ih c h
      · exact ih
    · exact ih

theorem chains_ne_nil (fuel : Nat) (sq : List strct) (s : Nat) :
    ∀ c ∈ chains fuel sq s, c ≠ [] := by
  induction fuel generalizing s with
  | zero => simp [chains]
  | succ n ih =>
    unfold chains
    split
    · simp
    · exact chains_fields_ne_nil _ _

theorem mk_aliases_append (prior : Option alias_t) (offs : Nat) (l1 l2 : List (List (List Char))) :
    mk_aliases prior offs (l1 ++ l2) =
      mk_aliases prior offs l1 ++ mk_aliases prior (offs + l1.length) l2 := by
  induction l1 generalizing offs with
  | nil => simp [mk_aliases]
  | cons c cs ih =>
    rw [List.cons_append, mk_aliases, mk_aliases, ih, List.length_cons, List.cons_append]
    have : offs + 1 + cs.length = offs + (cs.length + 1) := by omega
    rw [this]

theorem mk_aliases_length (prior : Option alias_t) (offs : Nat) (l : List (List (List Char))) :
    (mk_aliases prior offs l).length = l.length := by
  induction l generalizing offs with
  | nil => rfl
  | cons c cs ih => simp [mk_aliases, ih]

theorem alias_name_dotjoin_cons (prior : Option alias_t) (n : List Char) (c : List (List Char))
    (x : List Char) (hc : c ≠ []) :
    alias_name prior (dotjoin (n :: c)) =
      alias_name (some { name := alias_name prior n, sym := x }) (dotjoin c) := by
  cases c with
  | nil => exact absurd rfl hc
  | cons m rest =>
    cases prior with
    | none => simp [alias_name, dotjoin]
    | some pr => simp [alias_name, dotjoin]

theorem mk_aliases_map_cons (prior : Option alias_t) (n x : List Char) (offs : Nat)
    (cs : List (List (List Char))) (hcs : ∀ c ∈ cs, c ≠ []) :
    mk_aliases prior offs (cs.map (fun c => n :: c)) =
      mk_aliases (some { name := alias_name prior n, sym := x }) offs cs := by
  induction cs generalizing offs with
  | nil => rfl
  | cons c rest ih =>
    simp only [List.map_cons, mk_aliases]
    rw [ih (offs + 1) (fun d hd => hcs d (List.mem_cons_of_mem _ hd)),
      alias_name_dotjoin_cons prior n c x (hcs c (List.mem_cons_self _ _))]

theorem field_target_some (f : field) (t : Nat) (h : field_target f = some t) :
    ∃ r tp, f.ref = some r ∧ r.target = some tp ∧ tp.s = t := by
  unfold field_target at h
  cases hr : f.ref with
  | none => simp [hr] at h
  | some r =>
    simp only [hr, Option.map_eq_some'] at h
    obtain ⟨tp, h1, h2⟩ := h
    exact ⟨r, tp, rfl, h1, h2⟩

/-- The loop of `resolve_aliases` over a field queue, given that the recursive
call on every structure a field refers to behaves as specified. -/
theorem resolve_aliases_fields_spec
    (again : Nat → List alias_t × Nat → alias_t → Except stop (List alias_t × Nat))
    (sub : Nat → List (List (List Char))) (hsub : ∀ t, ∀ c ∈ sub t, c ≠ [])
    (prior : Option alias_t) (fq : List field)
    (hfq : ∀ f ∈ fq, f.type = ftype.FTYPE_STRUCT → ∃ t, field_target f = some t ∧
      ∀ aq offs a, offs + (sub t).length ≤ 26 →
        again t (aq, offs) a = .ok (aq ++ mk_aliases (some a) offs (sub t), offs + (sub t).length))
    (aq : List alias_t) (offs : Nat)
    (hoffs : offs + (chains_fields sub fq).length ≤ 26) :
    resolve_aliases_fields again prior fq (aq, offs) =
      .ok (aq ++ mk_aliases prior offs (chains_fields sub fq),
        offs + (chains_fields sub fq).length) := by
  induction fq generalizing aq offs with
  | nil => simp [resolve_aliases_fields, chains_fields, mk_aliases]
  | cons f fs ih =>
    have hfs := fun g hg => hfq g (List.mem_cons_of_mem _ hg)
    unfold resolve_aliases_fields
    unfold chains_fields at hoffs ⊢
    by_cases hty : f.type = ftype.FTYPE_STRUCT
    · obtain ⟨t, ht, hag⟩ := hfq f (List.mem_cons_self _ _) hty
      obtain ⟨r, tp, hr, htp, hts⟩ := field_target_some f t ht
      have hty2 : ¬ ftype.FTYPE_STRUCT ≠ f.type := fun h => h hty.symm
      simp only [hty, ↓reduceIte, ht, List.length_append, List.length_cons, List.length_map]
        at hoffs ⊢
      have hlt : offs < 26 := by omega
      simp only [ne_eq, not_true_eq_false, ↓reduceIte, hr, hlt, not_true_eq_false, htp, hts]
      rw [hag _ _ _ (by omega)]
      simp only
      rw [ih hfs _ _ (by omega)]
      congr 1
      rw [List.cons_append, mk_aliases, mk_aliases_append]
      simp only [List.append_assoc, List.singleton_append, List.length_map]
      rw [mk_aliases_map_cons prior f.name ['_', Char.ofNat (offs + 97)] _ _ (hsub t)]
      apply Prod.ext
      · rfl
      · simp only
        omega
    · have hty2 : ftype.FTYPE_STRUCT ≠ f.type := fun h => hty h.symm
      simp only [hty, ↓reduceIte] at hoffs ⊢
      simp only [hty2, ne_eq, not_false_eq_true, ↓reduceIte]
      exact ih hfs aq offs hoffs

/-- The function `resolve_aliases` on an acyclic arena, with enough budget and
room in the counter: it appends to the alias queue the aliases of the join
paths of the structure, in order, and advances the counter by their number. -/
theorem resolve_aliases_spec (sq : List strct) (rank : Nat → Nat) (hac : acyclic_by sq rank)
    (fuel s : Nat) (aq : List alias_t) (offs : Nat) (prior : Option alias_t)
    (hfuel : rank s < fuel) (hs : s < sq.length)
    (hoffs : offs + (chains fuel sq s).length ≤ 26) :
    resolve_aliases fuel sq s (aq, offs) prior =
      .ok (aq ++ mk_aliases prior offs (chains fuel sq s), offs + (chains fuel sq s).length) := by
  induction fuel generalizing s aq offs prior with
  | zero => exact absurd hfuel (Nat.not_lt_zero _)
  | succ n ih =>
    have hp : sq[s]? = some sq[s] := List.getElem?_eq_getElem hs
    unfold resolve_aliases
    unfold chains at hoffs ⊢
    simp only [getstrct, hp] at hoffs ⊢
    apply resolve_aliases_fields_spec _ (chains n sq) (chains_ne_nil n sq) prior sq[s].fq _ aq offs
      hoffs
    intro f hf hty
    obtain ⟨t, ht, htlt, hrk⟩ := hac s sq[s] hp f hf hty
    refine ⟨t, ht, fun aq2 offs2 a h2 => ih t aq2 offs2 (some a) (by omega) htlt h2⟩

theorem chains_fields_congr (sub sub2 : Nat → List (List (List Char))) (fq : List field)
    (h : ∀ f ∈ fq, f.type = ftype.FTYPE_STRUCT → ∀ t, field_target f = some t → sub t = sub2 t) :
    chains_fields sub fq = chains_fields sub2 fq := by
  induction fq with
  | nil => rfl
  | cons f fs ih =>
    have ih2 := ih (fun g hg => h g (List.mem_cons_of_mem _ hg))
    unfold chains_fields
    by_cases hty : f.type = ftype.FTYPE_STRUCT
    · cases ht : field_target f with
      | none => simp [hty, ih2]
      | some t => simp [hty, ih2, h f (List.mem_cons_self _ _) hty t ht]
    · simp [hty, ih2]

/-- Beyond the rank of the structure the exploration depth no longer matters. -/
theorem chains_stable (sq : List strct) (rank : Nat → Nat) (hac : acyclic_by sq rank)
    (fuel fuel2 s : Nat) (h1 : rank s < fuel) (h2 : rank s < fuel2) :
    chains fuel sq s = chains fuel2 sq s := by
  induction fuel generalizing fuel2 s with
  | zero => exact absurd h1 (Nat.not_lt_zero _)
  | succ n ih =>
    cases fuel2 with
    | zero => exact absurd h2 (Nat.not_lt_zero _)
    | succ m =>
      unfold chains
      cases hp : sq[s]? with
      | none => rfl
      | some p =>
        simp only
        apply chains_fields_congr
        intro f hf hty t ht
        obtain ⟨t2, ht2, _, hrk⟩ := hac s p hp f hf hty
        rw [ht] at ht2
        cases ht2
        exact ih m t (by omega) (by omega)

theorem chains_congr (fuel : Nat) (sq sq2 : List strct)
    (h : sq2.map strct.fq = sq.map strct.fq) (s : Nat) : chains fuel sq2 s = chains fuel sq s := by
  induction fuel generalizing s with
  | zero => rfl
  | succ n ih =>
    have h1 := map_eq_getElem? strct.fq sq sq2 h s
    unfold chains
    cases h2 : sq2[s]? with
    | none =>
      cases h3 : sq[s]? with
      | none => rfl
      | some p => simp [h2, h3] at h1
    | some p2 =>
      cases h3 : sq[s]? with
      | none => simp [h2, h3] at h1
      | some p =>
        simp only [h2, h3, Option.map_some', Option.some.injEq] at h1
        simp only [h1]
        exact chains_fields_congr _ _ _ (fun _ _ _ t _ => ih t)

theorem acyclic_by_congr (sq sq2 : List strct) (rank : Nat → Nat)
    (h : sq2.map strct.fq = sq.map strct.fq) (hac : acyclic_by sq rank) : acyclic_by sq2 rank := by
  intro s p2 hp2 f hf hty
  have h1 := map_eq_getElem? strct.fq sq sq2 h s
  have hlen : sq2.length = sq.length := by
    have := congrArg List.length h
    simpa using this
  rw [hp2] at h1
  cases h3 : sq[s]? with
  | none => simp [h3] at h1
  | some p =>
    simp only [h3, Option.map_some', Option.some.injEq] at h1
    obtain ⟨t, ht, htlt, hrk⟩ := hac s p h3 f (h1 ▸ hf) hty
    exact ⟨t, ht, hlen ▸ htlt, hrk⟩

theorem acyclic_by_of_check (sq : List strct) (rank : Nat → Nat)
    (h : acyclic_check sq rank = true) : acyclic_by sq rank := by
  intro s p hp f hf hty
  unfold acyclic_check at h
  rw [List.all_eq_true] at h
  have hs : s < sq.length := by
    rcases Nat.lt_or_ge s sq.length with h1 | h1
    · exact h1
    · rw [List.getElem?_eq_none h1] at hp
      cases hp
  have h1 := h s (List.mem_range.2 hs)
  simp only [hp, List.all_eq_true] at h1
  have h2 := h1 f hf
  simp only [hty, bne_self_eq_false, Bool.false_or] at h2
  cases ht : field_target f with
  | none => simp [ht] at h2
  | some t =>
    simp only [ht, Bool.and_eq_true, decide_eq_true_eq] at h2
    exact ⟨t, rfl, h2.1, h2.2⟩

theorem alias_offset_succ (fuel : Nat) (sq : List strct) (k : Nat) :
    alias_offset fuel sq (k + 1) = alias_offset fuel sq k + (chains fuel sq k).length := by
  unfold alias_offset
  rw [List.range_succ, List.map_append, List.sum_append]
  simp

theorem alias_offset_mono (fuel : Nat) (sq : List strct) (k n : Nat) (h : k ≤ n) :
    alias_offset fuel sq k ≤ alias_offset fuel sq n := by
  induction n with
  | zero =>
    have : k = 0 := by omega
    rw [this]
  | succ m ih =>
    rcases Nat.lt_or_ge k (m + 1) with h1 | h1
    · have := ih (by omega)
      rw [alias_offset_succ]
      omega
    · have : k = m + 1 := by omega
      rw [this]

/-- The alias loop of `parse_link` on an acyclic arena whose structures have
at most 26 join paths together: it succeeds, the counter ends at the total
number of paths, and the alias queue of each structure has received the
aliases of its own paths, numbered from the number of paths of the structures
before it. -/
theorem pass_aliases_spec (fuel : Nat) (sq : List strct) (rank : Nat → Nat)
    (hac : acyclic_by sq rank) (hfuel : ∀ s < sq.length, rank s < fuel)
    (hcount : alias_offset fuel sq sq.length ≤ 26) :
    ∃ sq2, pass_aliases fuel sq = .ok (sq2, alias_offset fuel sq sq.length) ∧
      sq2.map strct.fq = sq.map strct.fq ∧
      ∀ s, (sq2[s]?).map strct.aq = (sq[s]?).map (fun p =>
        p.aq ++ mk_aliases none (alias_offset fuel sq s) (chains fuel sq s)) := by
  have key : ∀ k, k ≤ sq.length → ∃ st,
      tailq_foreach (pass_aliases_strct fuel) (List.range k) (sq, 0) = .ok st ∧
      st.1.map strct.fq = sq.map strct.fq ∧ st.2 = alias_offset fuel sq k ∧
      ∀ s, (st.1[s]?).map strct.aq = (sq[s]?).map (fun p =>
        if s < k then p.aq ++ mk_aliases none (alias_offset fuel sq s) (chains fuel sq s)
        else p.aq) := by
    intro k
    induction k with
    | zero =>
      intro _
      refine ⟨(sq, 0), rfl, rfl, rfl, fun s => ?_⟩
      cases sq[s]? <;> simp
    | succ k ih =>
      intro hk
      obtain ⟨st, h1, h2, h3, h4⟩ := ih (by omega)
      have hlen : st.1.length = sq.length := by
        have := congrArg List.length h2
        simpa using this
      have hklt : k < st.1.length := by omega
      have hp : st.1[k]? = some st.1[k] := List.getElem?_eq_getElem hklt
      have hch : chains fuel st.1 k = chains fuel sq k := chains_congr fuel sq st.1 h2 k
      have hbound : st.2 + (chains fuel st.1 k).length ≤ 26 := by
        rw [h3, hch, ← alias_offset_succ]
        exact (alias_offset_mono fuel sq (k + 1) sq.length hk).trans hcount
      have hres := resolve_aliases_spec st.1 rank (acyclic_by_congr sq st.1 rank h2 hac) fuel k
        st.1[k].aq st.2 none (hfuel k (by omega)) hklt hbound
      generalize hA : st.1[k].aq ++ mk_aliases none st.2 (chains fuel st.1 k) = A at hres
      have hstep : pass_aliases_strct fuel st k =
          .ok (modstrct st.1 k (fun q => { q with aq := A }),
            st.2 + (chains fuel st.1 k).length) := by
        unfold pass_aliases_strct
        simp only [getstrct, hp, hres]
      have hrun : tailq_foreach (pass_aliases_strct fuel) (List.range (k + 1)) (sq, 0) =
          .ok (modstrct st.1 k (fun q => { q with aq := A }),
            st.2 + (chains fuel st.1 k).length) := by
        rw [List.range_succ]
        have happ : ∀ (l1 l2 : List Nat) (a b : List strct × Nat),
            tailq_foreach (pass_aliases_strct fuel) l1 a = .ok b →
            tailq_foreach (pass_aliases_strct fuel) (l1 ++ l2) a =
              tailq_foreach (pass_aliases_strct fuel) l2 b := by
          intro l1
          induction l1 with
          | nil =>
            intro l2 a b hab
            simp only [tailq_foreach, Except.ok.injEq] at hab
            rw [hab]
            rfl
          | cons x xs ihx =>
            intro l2 a b hab
            simp only [List.cons_append, tailq_foreach] at hab ⊢
            cases hx : pass_aliases_strct fuel a x with
            | error e => simp [hx] at hab
            | ok c =>
              simp only [hx] at hab ⊢
              exact ihx l2 c b hab
        rw [happ _ _ _ _ h1]
        simp only [tailq_foreach, hstep]
      refine ⟨_, hrun, ?_, ?_, ?_⟩
      · refine Eq.trans (modstrct_map strct.fq st.1 k _ ?_) h2
        intro _
        rfl
      · simp only
        rw [h3, hch, alias_offset_succ]
      · intro s
        simp only
        rw [getElem?_modstrct]
        by_cases hsk : s = k
        · subst hsk
          have h5 := h4 s
          rw [hp] at h5
          cases hq : sq[s]? with
          | none => simp [hq] at h5
          | some p0 =>
            simp only [hq, Option.map_some', Nat.lt_irrefl, ↓reduceIte, Option.some.injEq] at h5
            simp [hp, h5, h3, hch, ← hA]
        · have h5 := h4 s
          have hiff : (s < k + 1) = (s < k) := by
            apply propext
            constructor <;> intro h <;> omega
          simp only [hsk, ↓reduceIte, h5, hiff]
  obtain ⟨st, h1, h2, h3, h4⟩ := key sq.length (Nat.le_refl _)
  refine ⟨st.1, ?_, h2, fun s => ?_⟩
  · unfold pass_aliases
    rw [h1, ← h3]
  · rw [h4 s]
    cases hq : sq[s]? with
    | none => rfl
    | some p =>
      have hs : s < sq.length := by
        rcases Nat.lt_or_ge s sq.length with h | h
        · exact h
        · rw [List.getElem?_eq_none h] at hq
          cases hq
      simp [hs]

theorem mk_aliases_names (offs : Nat) (cs : List (List (List Char))) :
    (mk_aliases none offs cs).map alias_t.name = cs.map dotjoin := by
  induction cs generalizing offs with
  | nil => rfl
  | cons c rest ih => simp [mk_aliases, alias_name, ih]

theorem mk_aliases_syms (prior : Option alias_t) (offs : Nat) (cs : List (List (List Char))) :
    (mk_aliases prior offs cs).map alias_t.sym =
      (List.range' offs cs.length).map (fun k => ['_', Char.ofNat (k + 97)]) := by
  induction cs generalizing offs with
  | nil => rfl
  | cons c rest ih => simp [mk_aliases, ih, List.range'_succ]

theorem alias_letter_injective :
    ∀ k1 < 26, ∀ k2 < 26, Char.ofNat (k1 + 97) = Char.ofNat (k2 + 97) → k1 = k2 := by
  decide

theorem mk_aliases_syms_nodup (prior : Option alias_t) (offs : Nat)
    (cs : List (List (List Char))) (h : offs + cs.length ≤ 26) :
    ((mk_aliases prior offs cs).map alias_t.sym).Nodup := by
  rw [mk_aliases_syms]
  apply List.Nodup.map_on _ (List.nodup_range' _ _)
  intro x hx y hy hxy
  rw [List.mem_range'_1] at hx hy
  simp only [List.cons.injEq, true_and, and_true] at hxy
  exact alias_letter_injective x (by omega) y (by omega) hxy

theorem mk_aliases_syms_letter (prior : Option alias_t) (offs : Nat)
    (cs : List (List (List Char))) (h : offs + cs.length ≤ 26) :
    ∀ a ∈ mk_aliases prior offs cs, ∃ k < 26, a.sym = ['_', Char.ofNat (k + 97)] := by
  intro a ha
  have h1 : a.sym ∈ (mk_aliases prior offs cs).map alias_t.sym := List.mem_map_of_mem _ ha
  rw [mk_aliases_syms] at h1
  obtain ⟨k, hk, hka⟩ := List.mem_map.1 h1
  rw [List.mem_range'_1] at hk
  exact ⟨k, by omega, hka.symm⟩

theorem pass_aliases_queue (fuel : Nat) (sq : List strct) (rank : Nat → Nat)
    (hac : acyclic_by sq rank) (hfuel : ∀ s < sq.length, rank s < fuel)
    (hempty : ∀ p ∈ sq, p.aq = [])
    (hcount : alias_offset fuel sq sq.length ≤ 26) :
    ∃ sq2, pass_aliases fuel sq = .ok (sq2, alias_offset fuel sq sq.length) ∧
      ∀ s p2, sq2[s]? = some p2 →
        p2.aq = mk_aliases none (alias_offset fuel sq s) (chains fuel sq s) ∧
          alias_offset fuel sq s + (chains fuel sq s).length ≤ 26 := by
  obtain ⟨sq2, h1, h2, h3⟩ := pass_aliases_spec fuel sq rank hac hfuel hcount
  refine ⟨sq2, h1, fun s p2 hp2 => ?_⟩
  have h4 := h3 s
  rw [hp2] at h4
  cases hq : sq[s]? with
  | none => simp [hq] at h4
  | some p =>
    simp only [hq, Option.map_some', Option.some.injEq] at h4
    have hs : s < sq.length := by
      rcases Nat.lt_or_ge s sq.length with h | h
      · exact h
      · rw [List.getElem?_eq_none h] at hq
        cases hq
    rw [hempty p (mem_of_getElem? _ _ _ hq), List.nil_append] at h4
    refine ⟨h4, ?_⟩
    rw [← alias_offset_succ]
    exact (alias_offset_mono fuel sq (s + 1) sq.length hs).trans hcount

/-- On an arena whose struct-typed references are resolved and acyclic, with
empty alias queues, in which the structures together have at most 26 join
paths, the alias loop completes without violating the assertion `*offs < 26`,
and a structure with `N` join paths receives `N` aliases whose symbols are
pairwise distinct, each an underscore followed by one letter. -/
theorem total_paths_within_26 (fuel : Nat) (sq : List strct) (rank : Nat → Nat)
    (hac : acyclic_by sq rank) (hfuel : ∀ s < sq.length, rank s < fuel)
    (hempty : ∀ p ∈ sq, p.aq = [])
    (hcount : alias_offset fuel sq sq.length ≤ 26) :
    ∃ sq2, pass_aliases fuel sq = .ok (sq2, alias_offset fuel sq sq.length) ∧
      ∀ s p2, sq2[s]? = some p2 →
        p2.aq.length = (chains fuel sq s).length ∧ (p2.aq.map alias_t.sym).Nodup ∧
          ∀ a ∈ p2.aq, ∃ k < 26, a.sym = ['_', Char.ofNat (k + 97)] := by
  obtain ⟨sq2, h1, h2⟩ := pass_aliases_queue fuel sq rank hac hfuel hempty hcount
  refine ⟨sq2, h1, fun s p2 hp2 => ?_⟩
  obtain ⟨h3, h4⟩ := h2 s p2 hp2
  rw [h3]
  exact ⟨mk_aliases_length _ _ _, mk_aliases_syms_nodup _ _ _ h4, mk_aliases_syms_letter _ _ _ h4⟩

/-- The diamond: its structures have 4, 2, 1 and 0 join paths, 7 together, and
alias generation gives each as many pairwise distinct symbols. -/
theorem total_paths_within_26_diamond :
    acyclic_by (annotated_arena 4 cfg_diamond) (fun k => 3 - k) ∧
      alias_offset 4 (annotated_arena 4 cfg_diamond) (annotated_arena 4 cfg_diamond).length = 7 ∧
      ∃ sq2, pass_aliases 4 (annotated_arena 4 cfg_diamond) = .ok (sq2, 7) ∧
        ∀ s p2, sq2[s]? = some p2 →
          p2.aq.length = (chains 4 (annotated_arena 4 cfg_diamond) s).length ∧
            (p2.aq.map alias_t.sym).Nodup ∧
            ∀ a ∈ p2.aq, ∃ k < 26, a.sym = ['_', Char.ofNat (k + 97)] := by
  have hac : acyclic_by (annotated_arena 4 cfg_diamond) (fun k => 3 - k) :=
    acyclic_by_of_check _ _ (by decide)
  have hn : alias_offset 4 (annotated_arena 4 cfg_diamond)
      (annotated_arena 4 cfg_diamond).length = 7 := by decide
  have h := total_paths_within_26 4 (annotated_arena 4 cfg_diamond) (fun k => 3 - k) hac
    (by decide) (by decide) (by rw [hn]; decide)
  rw [hn] at h
  exact ⟨hac, hn, h⟩

/-- C7 (failing input): in `cfg_fan` the references link, pass the recursion
check and are annotated; `a` has 24 join paths, `b` has 5 and `c` none, each
within the limit of 26 for one structure.  The alias counter is set to zero
once, before the loop over the structures, and is not reset between them, so
it reaches 26 while `b` is processed: the assertion `*offs < 26` fails, in the
alias loop and therefore in `parse_link`, whatever `qsort` is. -/
theorem C7_counter_across_structures_aborts :
    (annotated_arena 3 cfg_fan).length = 3 ∧
      (List.range 3).map (fun s => (chains 3 (annotated_arena 3 cfg_fan) s).length) =
        [24, 5, 0] ∧
      pass_aliases 3 (annotated_arena 3 cfg_fan) = .error .assertion ∧
      ∀ qsort : (Nat → Nat → Int) → List Nat → List Nat,
        parse_link qsort 3 cfg_fan = .error .assertion := by
  have hp : parse_link_passes 3 cfg_fan = .error .assertion := by decide
  refine ⟨by decide, by decide, by decide, fun qsort => ?_⟩
  simp [parse_link, hp, bind, Except.bind]

/-- C8: on an arena whose struct-typed references are resolved and acyclic,
with empty alias queues and at most 26 join paths in all (so that the counter
stays in range), alias generation succeeds and leaves in the alias queue of
every structure exactly one alias per non-empty chain of struct-typed fields
that starts at the structure, named by the field names of the chain joined
with dots, in depth-first order following the declaration order of the
fields; the list of chains does not depend on the exploration depth once it
exceeds every rank. -/
theorem C8_alias_names_are_dotted_chains (fuel : Nat) (sq : List strct) (rank : Nat → Nat)
    (hac : acyclic_by sq rank) (hfuel : ∀ s < sq.length, rank s < fuel)
    (hempty : ∀ p ∈ sq, p.aq = [])
    (hcount : alias_offset fuel sq sq.length ≤ 26) :
    (∃ sq2, pass_aliases fuel sq = .ok (sq2, alias_offset fuel sq sq.length) ∧
      ∀ s p2, sq2[s]? = some p2 →
        p2.aq.map alias_t.name = (chains fuel sq s).map dotjoin) ∧
      ∀ fuel2, (∀ s < sq.length, rank s < fuel2) →
        ∀ s < sq.length, chains fuel2 sq s = chains fuel sq s := by
  constructor
  · obtain ⟨sq2, h1, h2⟩ := pass_aliases_queue fuel sq rank hac hfuel hempty hcount
    refine ⟨sq2, h1, fun s p2 hp2 => ?_⟩
    rw [(h2 s p2 hp2).1, mk_aliases_names]
  · intro fuel2 hfuel2 s hs
    exact chains_stable sq rank hac fuel2 fuel s (hfuel2 s hs) (hfuel s hs)

/-- C8 at the diamond: the chains of `r` are `t`, `q`, `q.s` and `q.s.t`, and
these are the names of the aliases of `r`, in this order. -/
theorem C8_alias_names_are_dotted_chains_witness :
    acyclic_by (annotated_arena 4 cfg_diamond) (fun k => 3 - k) ∧
      (chains 4 (annotated_arena 4 cfg_diamond) 0).map dotjoin =
        ["t".toList, "q".toList, "q.s".toList, "q.s.t".toList] ∧
      ∃ sq2, pass_aliases 4 (annotated_arena 4 cfg_diamond) = .ok (sq2, 7) ∧
        ∀ s p2, sq2[s]? = some p2 →
          p2.aq.map alias_t.name = (chains 4 (annotated_arena 4 cfg_diamond) s).map dotjoin := by
  have hac : acyclic_by (annotated_arena 4 cfg_diamond) (fun k => 3 - k) :=
    acyclic_by_of_check _ _ (by decide)
  have hn : alias_offset 4 (annotated_arena 4 cfg_diamond)
      (annotated_arena 4 cfg_diamond).length = 7 := by decide
  have h := (C8_alias_names_are_dotted_chains 4 (annotated_arena 4 cfg_diamond)
    (fun k => 3 - k) hac (by decide) (by decide) (by rw [hn]; decide)).1
  rw [hn] at h
  exact ⟨hac, by decide, h⟩

/-! ### Updates and deletes -/

theorem resolve_uref_spec (sq : List strct) (s : Nat) (u : uref) (crq : Bool)
    (hnone : u.field = none) :
    (∀ u2, resolve_uref sq s u crq = .ok u2 →
        ∃ i f, u2 = { u with field := some { s := s, f := i } } ∧
          fld sq { s := s, f := i } = some f ∧ named_field sq s u.name = some f ∧
          f.type ≠ ftype.FTYPE_STRUCT ∧ (crq = true → f.type ≠ ftype.FTYPE_PASSWORD)) ∧
      (∀ f, named_field sq s u.name = some f → f.type ≠ ftype.FTYPE_STRUCT →
        (crq = true → f.type ≠ ftype.FTYPE_PASSWORD) →
        ∃ u2, resolve_uref sq s u crq = .ok u2) := by
  unfold resolve_uref named_field getstrct getfield fld
  simp only [hnone, Option.isSome_none, Bool.false_eq_true, ↓reduceIte, bind, Except.bind]
  cases hs : sq[s]? with
  | none => simp
  | some p =>
    simp only
    cases hi : find_field u.name p.fq with
    | none => simp
    | some i =>
      simp only [hs]
      cases hf : p.fq[i]? with
      | none => simp
      | some f =>
        simp only
        by_cases hty : ftype.FTYPE_STRUCT = f.type
        · simp [hty.symm]
        · have hty2 : ¬ f.type = ftype.FTYPE_STRUCT := fun h => hty h.symm
          by_cases hpw : crq = true ∧ ftype.FTYPE_PASSWORD = f.type
          · rw [if_neg hty, if_pos hpw]
            constructor
            · intro u2 h
              cases h
            · intro g hg _ hg2
              simp only [Option.some.injEq] at hg
              subst hg
              exact absurd hpw.2.symm (hg2 hpw.1)
          · rw [if_neg hty, if_neg hpw]
            constructor
            · intro u2 h
              simp only [Except.ok.injEq] at h
              refine ⟨i, f, h.symm, hf, rfl, hty2, fun hc hp => hpw ⟨hc, hp.symm⟩⟩
            · intro g _ _ _
              exact ⟨_, rfl⟩

theorem getfield?_some (sq : List strct) (q : fptr) (f : field) (h : fld sq q = some f) :
    getfield? sq (some q) = .ok f := by
  rw [getfield?_eq]
  simp [h]

theorem check_modtype_spec (sq : List strct) (u : uref) (q : fptr) (f : field)
    (hq : u.field = some q) (hf : fld sq q = some f) (hmod : u.mod ≠ modtype.MODTYPE__MAX) :
    check_modtype sq u = .ok () ↔
      (u.mod = modtype.MODTYPE_SET ∨ f.type = ftype.FTYPE_INT ∨ f.type = ftype.FTYPE_REAL ∨
        f.type = ftype.FTYPE_EPOCH) := by
  unfold check_modtype
  have h1 : ¬ modtype.MODTYPE__MAX = u.mod := fun h => hmod h.symm
  rw [if_neg h1, hq, getfield?_some sq q f hf]
  by_cases hset : modtype.MODTYPE_SET = u.mod
  · simp [hset.symm]
  · have hset2 : ¬ u.mod = modtype.MODTYPE_SET := fun h => hset h.symm
    rw [if_neg hset]
    simp only [bind, Except.bind, hset2, false_or]
    by_cases hn : ftype.FTYPE_EPOCH = f.type ∨ ftype.FTYPE_INT = f.type ∨
        ftype.FTYPE_REAL = f.type
    · rw [if_pos hn]
      simp only [true_iff]
      rcases hn with h | h | h
      · exact Or.inr (Or.inr h.symm)
      · exact Or.inl h.symm
      · exact Or.inr (Or.inl h.symm)
    · rw [if_neg hn]
      simp only [false_iff, reduceCtorEq]
      rintro (h | h | h)
      · exact hn (Or.inr (Or.inl h.symm))
      · exact hn (Or.inr (Or.inr h.symm))
      · exact hn (Or.inl h.symm)

theorem resolve_update_mrq_iff (sq : List strct) (s : Nat) (l : List uref)
    (hw : ∀ u ∈ l, u.field = none ∧ u.mod ≠ modtype.MODTYPE__MAX) :
    (∃ l2, resolve_update_mrq sq s l = .ok l2) ↔ ∀ u ∈ l, uref_modifier_ok sq s u := by
  induction l with
  | nil => simp [resolve_update_mrq]
  | cons u us ih =>
    have ih2 := ih (fun v hv => hw v (List.mem_cons_of_mem _ hv))
    obtain ⟨hnone, hmod⟩ := hw u (List.mem_cons_self _ _)
    obtain ⟨hs1, hs2⟩ := resolve_uref_spec sq s u false hnone
    rw [resolve_update_mrq, List.forall_mem_cons, ← ih2]
    cases hr : resolve_uref sq s u false with
    | error e =>
      simp only [false_iff, not_and, reduceCtorEq, exists_false]
      rintro ⟨f, hf, hty, _⟩
      obtain ⟨u2, hu2⟩ := hs2 f hf hty (fun h => by cases h)
      rw [hr] at hu2
      cases hu2
    | ok u2 =>
      obtain ⟨i, f, hu2, hfld, hnf, hty, _⟩ := hs1 u2 hr
      have hcm := check_modtype_spec sq u2 { s := s, f := i } f (by rw [hu2]) hfld
        (by rw [hu2]; exact hmod)
      have hmodeq : u2.mod = u.mod := by rw [hu2]
      rw [hmodeq] at hcm
      simp only
      cases hc : check_modtype sq u2 with
      | error e =>
        simp only [false_iff, not_and, reduceCtorEq, exists_false]
        rintro ⟨g, hg, _, hgm⟩
        rw [hnf] at hg
        simp only [Option.some.injEq] at hg
        subst hg
        have := hcm.2 hgm
        rw [hc] at this
        cases this
      | ok x =>
        have hok : uref_modifier_ok sq s u := ⟨f, hnf, hty, hcm.1 (by rw [hc])⟩
        simp only [hok, true_and]
        cases resolve_update_mrq sq s us <;> simp

theorem resolve_update_crq_iff (sq : List strct) (s : Nat) (l : List uref)
    (hw : ∀ u ∈ l, u.field = none) :
    (∃ l2, resolve_update_crq sq s l = .ok l2) ↔ ∀ u ∈ l, uref_constraint_ok sq s u := by
  induction l with
  | nil => simp [resolve_update_crq]
  | cons u us ih =>
    have ih2 := ih (fun v hv => hw v (List.mem_cons_of_mem _ hv))
    obtain ⟨hs1, hs2⟩ := resolve_uref_spec sq s u true (hw u (List.mem_cons_self _ _))
    rw [resolve_update_crq, List.forall_mem_cons, ← ih2]
    cases hr : resolve_uref sq s u true with
    | error e =>
      simp only [false_iff, not_and, reduceCtorEq, exists_false]
      rintro ⟨f, hf, hty, hpw⟩
      obtain ⟨u2, hu2⟩ := hs2 f hf hty (fun _ => hpw)
      rw [hr] at hu2
      cases hu2
    | ok u2 =>
      obtain ⟨i, f, _, _, hnf, hty, hpw⟩ := hs1 u2 hr
      have hok : uref_constraint_ok sq s u := ⟨f, hnf, hty, hpw rfl⟩
      simp only [hok, true_and]
      cases resolve_update_crq sq s us <;> simp

theorem resolve_update_crq_fields (sq : List strct) (s : Nat) (l l2 : List uref)
    (hw : ∀ u ∈ l, u.field = none) (h : resolve_update_crq sq s l = .ok l2) :
    ∀ u2 ∈ l2, ∃ f, getfield? sq u2.field = .ok f := by
  induction l generalizing l2 with
  | nil =>
    simp only [resolve_update_crq, Except.ok.injEq] at h
    subst h
    simp
  | cons u us ih =>
    unfold resolve_update_crq at h
    cases hr : resolve_uref sq s u true with
    | error e => simp [hr] at h
    | ok u2 =>
      simp only [hr] at h
      cases hrest : resolve_update_crq sq s us with
      | error e => simp [hrest] at h
      | ok us2 =>
        simp only [hrest, Except.ok.injEq] at h
        subst h
        obtain ⟨i, f, hu2, hfld, _⟩ :=
          (resolve_uref_spec sq s u true (hw u (List.mem_cons_self _ _))).1 u2 hr
        intro v hv
        rcases List.mem_cons.1 hv with rfl | hv2
        · exact ⟨f, by rw [hu2]; exact getfield?_some sq _ f hfld⟩
        · exact ih us2 (fun w hw2 => hw w (List.mem_cons_of_mem _ hw2)) hrest v hv2

theorem check_updatetype_ok (sq : List strct) (l : List uref)
    (h : ∀ u ∈ l, ∃ f, getfield? sq u.field = .ok f) : check_updatetype sq l = .ok () := by
  induction l with
  | nil => rfl
  | cons u us ih =>
    have ih2 := ih (fun v hv => h v (List.mem_cons_of_mem _ hv))
    obtain ⟨f, hf⟩ := h u (List.mem_cons_self _ _)
    unfold check_updatetype
    split
    · rw [hf]
      exact ih2
    · exact ih2

/-- C11: for an update or delete of the structure at `s` as the parser leaves
it (no entry resolved yet, every modification kind a real one), the processing
`resolve_update` followed by `check_updatetype` succeeds exactly when every
entry of the modify list names (first match up to case) a field of the
structure that is not struct-typed and is set or is an integer, a real or an
epoch, and every entry of the constraint list names a field that is neither
struct-typed nor password-typed.  The condition does not mention the operator
of a constraint. -/
theorem C11_update_accepted_iff (sq : List strct) (s : Nat) (up : update)
    (hm : ∀ u ∈ up.mrq, u.field = none ∧ u.mod ≠ modtype.MODTYPE__MAX)
    (hc : ∀ u ∈ up.crq, u.field = none) :
    update_accepted sq s up ↔
      (∀ u ∈ up.mrq, uref_modifier_ok sq s u) ∧ (∀ u ∈ up.crq, uref_constraint_ok sq s u) := by
  rw [← resolve_update_mrq_iff sq s up.mrq hm, ← resolve_update_crq_iff sq s up.crq hc]
  unfold update_accepted resolve_update
  cases h1 : resolve_update_mrq sq s up.mrq with
  | error e => simp [bind, Except.bind]
  | ok m =>
    cases h2 : resolve_update_crq sq s up.crq with
    | error e => simp [bind, Except.bind]
    | ok c =>
      have h3 := check_updatetype_ok sq c (resolve_update_crq_fields sq s up.crq c hc h2)
      simp [bind, Except.bind, h3]

theorem C11_update_accepted_iff_witness :
    (∀ u ∈ sample_update.mrq, u.field = none ∧ u.mod ≠ modtype.MODTYPE__MAX) ∧
      (∀ u ∈ sample_update.crq, u.field = none) ∧
      (update_accepted [sample_account] 0 sample_update ↔
        (∀ u ∈ sample_update.mrq, uref_modifier_ok [sample_account] 0 u) ∧
          (∀ u ∈ sample_update.crq, uref_constraint_ok [sample_account] 0 u)) :=
  ⟨by decide, by decide,
    C11_update_accepted_iff [sample_account] 0 sample_update (by decide) (by decide)⟩

/-! ### Unique constraints -/

theorem unique_accepted_cons (sq : List strct) (s : Nat) (n : nref) (ns : List nref) :
    unique_accepted sq s (n :: ns) ↔
      (∃ f, named_field sq s n.name = some f ∧ f.type ≠ ftype.FTYPE_STRUCT) ∧
        unique_accepted sq s ns := by
  unfold unique_accepted named_field
  rw [resolve_unique]
  unfold getstrct
  cases hs : sq[s]? with
  | none => simp
  | some p =>
    simp only
    cases hi : find_field n.name p.fq with
    | none => simp
    | some i =>
      simp only
      have hlt := find_field_lt _ _ _ hi
      have hf : p.fq[i]? = some p.fq[i] := List.getElem?_eq_getElem hlt
      have hfld : fld sq { s := s, f := i } = some p.fq[i] := by
        unfold fld
        simp [hs, hf]
      rw [hf]
      cases hr : resolve_unique sq s ns with
      | error e => simp
      | ok ns2 =>
        simp only [Except.ok.injEq, exists_eq_left, Option.some.injEq, exists_eq_left']
        rw [check_unique, getfield?_some sq _ _ hfld]
        simp only
        by_cases hty : ftype.FTYPE_STRUCT = p.fq[i].type
        · simp [hty.symm]
        · have hty2 : ¬ p.fq[i].type = ftype.FTYPE_STRUCT := fun h => hty h.symm
          simp [hty, hty2]

theorem unique_accepted_iff (sq : List strct) (s : Nat) (nq : List nref) :
    unique_accepted sq s nq ↔
      ∀ n ∈ nq, ∃ f, named_field sq s n.name = some f ∧ f.type ≠ ftype.FTYPE_STRUCT := by
  induction nq with
  | nil =>
    unfold unique_accepted
    simp [resolve_unique, check_unique]
  | cons n ns ih => rw [unique_accepted_cons, List.forall_mem_cons, ih]

/-- C12: a unique constraint of the structure at `s` passes `resolve_unique`
followed by `check_unique` exactly when every name in it matches (first match
up to case) a field of the structure and none of the matched fields is
struct-typed; and when `post` declares a unique constraint over its struct
field `author`, `parse_link` fails with the diagnostic that the field is not a
native type. -/
theorem C12_unique_accepted_iff :
    (∀ (sq : List strct) (s : Nat) (nq : List nref),
      unique_accepted sq s nq ↔
        ∀ n ∈ nq, ∃ f, named_field sq s n.name = some f ∧ f.type ≠ ftype.FTYPE_STRUCT) ∧
      parse_link isort 8 cfg_unique_author = .error (.fatal .unique_not_native) :=
  ⟨unique_accepted_iff, by decide⟩

/-! ### The reference created by `linkref` -/

/-- C15: `linkref` on a reference `r` with resolved source `sp` and target
`tp`, owned by a struct-typed field.  When the source field already owns a
reference `sr`, the call fails exactly when the target structure name or the
target field name of `r` differs from that of `sr` under `strcasecmp`, and
otherwise it succeeds with the arena as it was.  When the source field owns no
reference and the target is a row identifier that is not nullable, the call
succeeds, the source field now owns the reference `r` (same source, same
target) and no other field has changed. -/
theorem C15_linkref_on_struct_field (sq : List strct) (owner sp tp : fptr) (r : ref)
    (o src : field) (hs : r.source = some sp) (ht : r.target = some tp)
    (ho : fld sq owner = some o) (hty : o.type = ftype.FTYPE_STRUCT)
    (hsrc : fld sq sp = some src) :
    (∀ sr, src.ref = some sr →
      ((∃ e, linkref sq owner r = .error e) ↔
        (strcasecmp r.tstrct sr.tstrct ≠ 0 ∨ strcasecmp r.tfield sr.tfield ≠ 0)) ∧
      (strcasecmp r.tstrct sr.tstrct = 0 ∧ strcasecmp r.tfield sr.tfield = 0 →
        linkref sq owner r = .ok sq)) ∧
    (src.ref = none → ∀ tgt, fld sq tp = some tgt → hasflag FIELD_ROWID tgt.flags = true →
      hasflag FIELD_NULL tgt.flags = false →
      ∃ sq2, linkref sq owner r = .ok sq2 ∧ fld sq2 sp = some { src with ref := some r } ∧
        ∀ q, q ≠ sp → fld sq2 q = fld sq q) := by
  have ho2 := (getfield_ok_iff sq owner o).2 ho
  have hsrc2 := (getfield_ok_iff sq sp src).2 hsrc
  have hr : r = { r with source := some sp, target := some tp } := by
    cases r
    simp only at hs ht
    subst hs ht
    rfl
  constructor
  · intro sr hsr
    have hl : linkref sq owner r =
        if strcasecmp r.tfield sr.tfield ≠ 0 ∨ strcasecmp r.tstrct sr.tstrct ≠ 0 then
          .error (.fatal .redeclaration_of_reference)
        else .ok sq := by
      unfold linkref
      simp [hs, ht, ho2, hsrc2, hty, hsr, bind, Except.bind]
    rw [hl]
    constructor
    · by_cases hd : strcasecmp r.tfield sr.tfield ≠ 0 ∨ strcasecmp r.tstrct sr.tstrct ≠ 0
      · rw [if_pos hd]
        simp only [Except.error.injEq, exists_eq', true_iff]
        exact hd.symm
      · rw [if_neg hd]
        simp only [reduceCtorEq, exists_false, false_iff]
        exact fun h => hd h.symm
    · rintro ⟨h1, h2⟩
      rw [if_neg]
      simp [h1, h2]
  · intro hnone tgt htgt hrow hnull
    have htgt2 := (getfield_ok_iff sq tp tgt).2 htgt
    refine ⟨modfield sq sp (fun f => { f with ref := some r }), ?_, ?_, ?_⟩
    · unfold linkref
      simp only [hs, ht, ho2, hsrc2, hty, hnone, htgt2, bind, Except.bind, hrow, hnull]
      simp only [ne_eq, not_true_eq_false, ↓reduceIte, Bool.false_eq_true]
      rw [← hr]
    · rw [fld_modfield]
      simp [hsrc]
    · intro q hq
      rw [fld_modfield]
      simp [hq]

theorem C15_linkref_on_struct_field_witness :
    ∃ sq2, linkref [sample_user, sample_post] { s := 1, f := 2 } sample_author_ref = .ok sq2 ∧
      fld sq2 { s := 1, f := 1 } =
        some { mk_field "userid" .FTYPE_INT 0 with ref := some sample_author_ref } ∧
      ∀ q, q ≠ { s := 1, f := 1 } → fld sq2 q = fld [sample_user, sample_post] q :=
  (C15_linkref_on_struct_field [sample_user, sample_post] { s := 1, f := 2 } { s := 1, f := 1 }
    { s := 0, f := 0 } sample_author_ref (mk_struct_field "author" "userid" "user" "id")
    (mk_field "userid" .FTYPE_INT 0) rfl rfl rfl rfl rfl).2 rfl
    (mk_field "id" .FTYPE_INT FIELD_ROWID) rfl (by decide) (by decide)

/-! ### The uniqueness flags set by `resolve_search` -/

theorem hasflag_one_or (x : Nat) : hasflag 1 (x ||| 1) = true := by
  unfold hasflag
  have h : 1 &&& (x ||| 1) = 1 := by
    apply Nat.eq_of_testBit_eq
    intro i
    rw [Nat.testBit_and, Nat.testBit_or]
    cases (Nat.testBit 1 i) <;> simp
  rw [h]
  rfl

theorem resolve_search_sntq_flags (sq : List strct) (s : Nat) (aq : List alias_t)
    (l : List sent) (flags : Nat) (r : List sent × Nat)
    (hclear : ∀ e ∈ l, e.flags = 0) (h : resolve_search_sntq sq s aq l flags = .ok r) :
    List.Forall₂ (fun e e2 => resolve_sref sq e.srq s = .ok e2.srq) l r.1 ∧
      (∀ e2 ∈ r.1, ∃ f, last_field sq e2.srq = .ok f ∧
        (hasflag SENT_IS_UNIQUE e2.flags = true ↔
          (hasflag FIELD_ROWID f.flags = true ∨ hasflag FIELD_UNIQUE f.flags = true))) ∧
      (hasflag SEARCH_IS_UNIQUE r.2 = true ↔
        (hasflag SEARCH_IS_UNIQUE flags = true ∨
          ∃ e2 ∈ r.1, hasflag SENT_IS_UNIQUE e2.flags = true)) := by
  induction l generalizing flags r with
  | nil =>
    simp only [resolve_search_sntq, Except.ok.injEq] at h
    subst h
    simp
  | cons e es ih =>
    have he0 : e.flags = 0 := hclear e (List.mem_cons_self _ _)
    have hes : ∀ x ∈ es, x.flags = 0 := fun x hx => hclear x (List.mem_cons_of_mem _ hx)
    rw [resolve_search_sntq] at h
    cases hr : resolve_sref sq e.srq s with
    | error x => simp [hr] at h
    | ok srq =>
      simp only [hr] at h
      cases hl : last_field sq srq with
      | error x => simp [hl] at h
      | ok f =>
        simp only [hl, he0] at h
        generalize hu : (hasflag FIELD_ROWID f.flags || hasflag FIELD_UNIQUE f.flags) = uniq at h
        have huniq : uniq = true ↔
            (hasflag FIELD_ROWID f.flags = true ∨ hasflag FIELD_UNIQUE f.flags = true) := by
          rw [← hu, Bool.or_eq_true]
        have hef : hasflag SENT_IS_UNIQUE (if uniq = true then 0 ||| SENT_IS_UNIQUE else 0) = true ↔
            uniq = true := by
          cases uniq <;> decide
        have hfl : hasflag SEARCH_IS_UNIQUE
            (if uniq = true then flags ||| SEARCH_IS_UNIQUE else flags) = true ↔
            (hasflag SEARCH_IS_UNIQUE flags = true ∨ uniq = true) := by
          cases uniq
          · simp
          · simp only [↓reduceIte, or_true, iff_true]
            exact hasflag_one_or flags
        cases hrec : resolve_search_sntq sq s aq es
            (if uniq = true then flags ||| SEARCH_IS_UNIQUE else flags) with
        | error x =>
          cases hn : e.name with
          | none => simp [hn, hrec] at h
          | some nm =>
            simp only [hn, hrec] at h
            cases hfa : find_alias nm aq <;> rw [hfa] at h <;> cases h
        | ok r2 =>
          obtain ⟨ih1, ih2, ih3⟩ := ih _ r2 hes hrec
          have key : ∀ e2 : sent, e2.srq = srq →
              e2.flags = (if uniq = true then 0 ||| SENT_IS_UNIQUE else 0) →
              r = (e2 :: r2.1, r2.2) →
              List.Forall₂ (fun e e2 => resolve_sref sq e.srq s = .ok e2.srq) (e :: es) r.1 ∧
              (∀ e2 ∈ r.1, ∃ f, last_field sq e2.srq = .ok f ∧
                (hasflag SENT_IS_UNIQUE e2.flags = true ↔
                  (hasflag FIELD_ROWID f.flags = true ∨ hasflag FIELD_UNIQUE f.flags = true))) ∧
              (hasflag SEARCH_IS_UNIQUE r.2 = true ↔
                (hasflag SEARCH_IS_UNIQUE flags = true ∨
                  ∃ e2 ∈ r.1, hasflag SENT_IS_UNIQUE e2.flags = true)) := by
            intro e2 hsrq hflags hreq
            subst hreq
            have hthis : hasflag SENT_IS_UNIQUE e2.flags = true ↔ uniq = true := by
              rw [hflags]
              exact hef
            refine ⟨List.Forall₂.cons (by rw [hsrq]; exact hr) ih1, ?_, ?_⟩
            · intro x hx
              rcases List.mem_cons.1 hx with rfl | hx2
              · exact ⟨f, by rw [hsrq]; exact hl, hthis.trans huniq⟩
              · exact ih2 x hx2
            · simp only [List.exists_mem_cons_iff]
              rw [ih3, hfl, hthis]
              exact or_assoc
          cases hn : e.name with
          | none =>
            simp only [hn, hrec, Except.ok.injEq] at h
            exact key _ rfl rfl h.symm
          | some nm =>
            simp only [hn, hrec] at h
            cases hfa : find_alias nm aq with
            | none => simp [hfa] at h
            | some k =>
              simp only [hfa, Except.ok.injEq] at h
              exact key _ rfl rfl h.symm

/-- C16: when `resolve_search` succeeds on a search of the structure at `s`
whose flags and whose entities' flags are all clear, the entities of the result
are those of the input with their chains resolved, each of them carries
`SENT_IS_UNIQUE` exactly when the field of its last segment carries
`FIELD_ROWID` or `FIELD_UNIQUE`, and the search carries `SEARCH_IS_UNIQUE`
exactly when one of its entities carries `SENT_IS_UNIQUE`. -/
theorem C16_unique_flags_after_resolve_search (sq : List strct) (s : Nat) (srch srch2 : search)
    (hflags : srch.flags = 0) (hclear : ∀ e ∈ srch.sntq, e.flags = 0)
    (h : resolve_search sq s srch = .ok srch2) :
    List.Forall₂ (fun e e2 => resolve_sref sq e.srq s = .ok e2.srq) srch.sntq srch2.sntq ∧
      (∀ e2 ∈ srch2.sntq, ∃ f, last_field sq e2.srq = .ok f ∧
        (hasflag SENT_IS_UNIQUE e2.flags = true ↔
          (hasflag FIELD_ROWID f.flags = true ∨ hasflag FIELD_UNIQUE f.flags = true))) ∧
      (hasflag SEARCH_IS_UNIQUE srch2.flags = true ↔
        ∃ e2 ∈ srch2.sntq, hasflag SENT_IS_UNIQUE e2.flags = true) := by
  unfold resolve_search at h
  cases hp : getstrct sq s with
  | error e => simp [hp] at h
  | ok p =>
    simp only [hp] at h
    cases hr : resolve_search_sntq sq s p.aq srch.sntq srch.flags with
    | error e => simp [hr] at h
    | ok r =>
      simp only [hr, Except.ok.injEq] at h
      subst h
      obtain ⟨h1, h2, h3⟩ := resolve_search_sntq_flags sq s p.aq srch.sntq srch.flags r hclear hr
      refine ⟨h1, h2, ?_⟩
      rw [h3, hflags]
      simp [hasflag]

theorem C16_unique_flags_after_resolve_search_witness :
    resolve_search [sample_account] 0 sample_id_search = .ok sample_id_search_resolved ∧
      (hasflag SEARCH_IS_UNIQUE sample_id_search_resolved.flags = true ↔
        ∃ e2 ∈ sample_id_search_resolved.sntq, hasflag SENT_IS_UNIQUE e2.flags = true) :=
  ⟨by decide,
    (C16_unique_flags_after_resolve_search [sample_account] 0 sample_id_search
      sample_id_search_resolved rfl (by decide) (by decide)).2.2⟩

/-! ### The final queue is sorted by reverse height -/

/-- C18: when `parse_link` succeeds, with a `qsort` that meets its contract for
`parse_cmp`, the final structure queue is sorted by reverse height: a structure
`X` that comes before a structure `Y` in the queue is at least as high as
`Y`. -/
theorem C18_final_queue_reverse_height (qsort : (Nat → Nat → Int) → List Nat → List Nat)
    (fuel : Nat) (cfg : config) (l : linked)
    (h : parse_link qsort fuel cfg = .ok l)
    (hq : qsort_ok qsort (parse_cmp_at l.sq)) :
    l.order.Pairwise (fun X Y => (strct_at l.sq X).height ≥ (strct_at l.sq Y).height) ∧
      ∀ X Y, precedes l.order X Y → (strct_at l.sq X).height ≥ (strct_at l.sq Y).height := by
  have hp : l.order.Pairwise
      (fun X Y => (strct_at l.sq X).height ≥ (strct_at l.sq Y).height) := by
    rw [(parse_link_ok qsort fuel cfg l h).2]
    unfold pass_order
    rw [List.pairwise_reverse]
    refine List.Pairwise.imp ?_ (hq (List.range l.sq.length)).2
    intro a b hab
    exact (parse_cmp_at_le l.sq a b).1 hab
  exact ⟨hp, fun X Y hXY => List.pairwise_iff_forall_sublist.1 hp hXY⟩

theorem C18_final_queue_reverse_height_witness :
    parse_link isort 2 cfg_post_user =
        .ok { sq := passes_arena 2 cfg_post_user,
              order := pass_order isort (passes_arena 2 cfg_post_user) } ∧
      (pass_order isort (passes_arena 2 cfg_post_user)).Pairwise
        (fun X Y => (strct_at (passes_arena 2 cfg_post_user) X).height ≥
          (strct_at (passes_arena 2 cfg_post_user) Y).height) :=
  ⟨by decide,
    (C18_final_queue_reverse_height isort 2 cfg_post_user
      { sq := passes_arena 2 cfg_post_user,
        order := pass_order isort (passes_arena 2 cfg_post_user) }
      (by decide) (isort_qsort_ok _)).1⟩

/-! ### Row identifiers -/

theorem rowid_ok_iff_row (p : strct) :
    rowid_ok p ↔ rowid_ok_row (p.fq.map (fun f => (f.type, f.flags))) := by
  unfold rowid_ok rowid_ok_row rowid_fields
  rw [List.filter_map, List.length_map]
  constructor
  · rintro ⟨h1, h2⟩
    refine ⟨h1, ?_⟩
    intro x hx hflag
    obtain ⟨f, hf, rfl⟩ := List.mem_map.1 hx
    exact h2 f (List.mem_filter.2 ⟨hf, hflag⟩)
  · rintro ⟨h1, h2⟩
    refine ⟨h1, ?_⟩
    intro f hf
    obtain ⟨hf1, hf2⟩ := List.mem_filter.1 hf
    exact h2 (f.type, f.flags) (List.mem_map.2 ⟨f, hf1, rfl⟩) hf2

theorem link_field_rowid_of_ok (eq : List enm) (s : Nat) (st : List strct × Nat) (i : Nat)
    (st2 : List strct × Nat) (h : link_field eq s st i = .ok st2) :
    ∃ f, fld st.1 { s := s, f := i } = some f ∧ link_field_rowid f st.2 = .ok st2.2 := by
  unfold link_field at h
  cases hf : getfield st.1 { s := s, f := i } with
  | error e => simp [hf, bind, Except.bind] at h
  | ok f =>
    cases hr : link_field_rowid f st.2 with
    | error e => simp [hf, hr, bind, Except.bind] at h
    | ok hrow =>
      cases hl : link_field_ref st.1 s i f with
      | error e => simp [hf, hr, hl, bind, Except.bind] at h
      | ok sq1 =>
        cases he : link_field_enum eq sq1 s i f with
        | error e => simp [hf, hr, hl, he, bind, Except.bind] at h
        | ok sq2 =>
          simp only [hf, hr, hl, he, bind, Except.bind, Except.ok.injEq] at h
          subst h
          exact ⟨f, (getfield_ok_iff _ _ _).1 hf, hr⟩

theorem link_field_rowid_ok (f : field) (h h2 : Nat) (hok : link_field_rowid f h = .ok h2) :
    (hasflag FIELD_ROWID f.flags = true → h = 0 ∧ f.type ≠ ftype.FTYPE_STRUCT ∧ h2 = 1) ∧
      (hasflag FIELD_ROWID f.flags = false → h2 = h) := by
  unfold link_field_rowid checkrowid at hok
  cases hfl : hasflag FIELD_ROWID f.flags with
  | false =>
    simp only [hfl, Bool.false_eq_true, ↓reduceIte, Except.ok.injEq] at hok
    simp [hok]
  | true =>
    simp only [hfl, ↓reduceIte] at hok
    by_cases h0 : h = 0
    · subst h0
      by_cases hty : ftype.FTYPE_STRUCT = f.type
      · simp [hty] at hok
      · simp only [ne_eq, not_true_eq_false, ↓reduceIte, hty, Except.ok.injEq] at hok
        simp only [forall_const, true_and, Bool.true_eq_false, false_implies, and_true]
        exact ⟨fun hx => hty hx.symm, by omega⟩
    · simp [h0] at hok

theorem skel_row_getElem? (sq : List strct) (s i : Nat) (row : List (ftype × Nat))
    (hrow : (skel sq)[s]? = some row) :
    row[i]? = (fld sq { s := s, f := i }).map (fun f => (f.type, f.flags)) := by
  unfold skel at hrow
  unfold fld
  rw [List.getElem?_map] at hrow
  cases hs : sq[s]? with
  | none => simp [hs] at hrow
  | some p =>
    simp only [hs, Option.map_some', Option.some.injEq] at hrow
    subst hrow
    simp [List.getElem?_map]

theorem link_fields_rowid (eq : List enm) (s : Nat) (sqS : List strct)
    (row : List (ftype × Nat)) (hrow : (skel sqS)[s]? = some row) (st2 : List strct × Nat)
    (h : tailq_foreach (link_field eq s) (List.range row.length) (sqS, 0) = .ok st2) :
    skel st2.1 = skel sqS ∧ rowid_ok_row row := by
  have key := tailq_foreach_range_inv (link_field eq s)
    (fun i st => skel st.1 = skel sqS ∧
      st.2 = ((row.take i).filter (fun x => hasflag FIELD_ROWID x.2)).length ∧
      rowid_ok_row (row.take i)) row.length ?_ (sqS, 0) st2 ?_ h
  · obtain ⟨h1, _, h3⟩ := key
    rw [List.take_length] at h3
    exact ⟨h1, h3⟩
  · intro i st st3 hi ⟨hk, hcnt, hok⟩ hstep
    obtain ⟨f, hf, hr⟩ := link_field_rowid_of_ok eq s st i st3 hstep
    have hk3 : skel st3.1 = skel st.1 := (link_field_step eq s st i st3 [] (fun _ => True) hstep).1
    have hx : row[i]? = some (f.type, f.flags) := by
      rw [skel_row_getElem? sqS s i row hrow, ← skel_fld _ _ hk, hf]
      rfl
    have htake : row.take (i + 1) = row.take i ++ [(f.type, f.flags)] := by
      rw [List.take_succ, hx]
      rfl
    obtain ⟨hr1, hr2⟩ := link_field_rowid_ok f st.2 st3.2 hr
    refine ⟨hk3.trans hk, ?_, ?_⟩
    · rw [htake, List.filter_append, List.length_append]
      cases hfl : hasflag FIELD_ROWID f.flags with
      | false =>
        rw [hr2 hfl, hcnt]
        simp [List.filter, hfl]
      | true =>
        obtain ⟨h0, _, h1⟩ := hr1 hfl
        rw [h1, ← hcnt, h0]
        simp [List.filter, hfl]
    · unfold rowid_ok_row at hok ⊢
      rw [htake, List.filter_append, List.length_append]
      cases hfl : hasflag FIELD_ROWID f.flags with
      | false =>
        refine ⟨by simpa [List.filter, hfl] using hok.1, ?_⟩
        intro x hx2 hxf
        rcases List.mem_append.1 hx2 with hx3 | hx3
        · exact hok.2 x hx3 hxf
        · simp only [List.mem_singleton] at hx3
          subst hx3
          rw [hfl] at hxf
          cases hxf
      | true =>
        obtain ⟨h0, hty, _⟩ := hr1 hfl
        rw [← hcnt, h0]
        refine ⟨by simp [List.filter, hfl], ?_⟩
        intro x hx2 hxf
        rcases List.mem_append.1 hx2 with hx3 | hx3
        · exact hok.2 x hx3 hxf
        · simp only [List.mem_singleton] at hx3
          subst hx3
          exact hty
  · refine ⟨rfl, ?_, ?_⟩
    · simp
    · unfold rowid_ok_row
      simp
theorem link_strct_rowid (eq : List enm) (sq : List strct) (s : Nat) (sq2 : List strct)
    (h : link_strct eq sq s = .ok sq2) :
    skel sq2 = skel sq ∧ ∀ p, sq[s]? = some p → rowid_ok p := by
  unfold link_strct at h
  cases hp : getstrct sq s with
  | error e => simp [hp, bind, Except.bind] at h
  | ok p =>
    have hp2 := (getstrct_ok_iff sq s p).1 hp
    cases hl : tailq_foreach (link_field eq s) (List.range p.fq.length) (sq, 0) with
    | error e => simp [hp, hl, bind, Except.bind] at h
    | ok st =>
      have hrow : (skel sq)[s]? = some (p.fq.map (fun f => (f.type, f.flags))) := by
        unfold skel
        rw [List.getElem?_map, hp2]
        rfl
      have hlen : (p.fq.map (fun f => (f.type, f.flags))).length = p.fq.length :=
        List.length_map _ _
      rw [← hlen] at hl
      obtain ⟨hk, hok⟩ := link_fields_rowid eq s sq _ hrow st hl
      rw [hlen] at hl
      simp only [hp, hl, bind, Except.bind] at h
      cases hp1 : getstrct st.1 s with
      | error e => simp [hp1] at h
      | ok p1 =>
        simp only [hp1] at h
        cases hu : link_updates st.1 s p1.uq with
        | error e => simp [hu] at h
        | ok uq =>
          simp only [hu] at h
          cases hd : link_updates st.1 s p1.dq with
          | error e => simp [hd] at h
          | ok dq =>
            simp only [hd, Except.ok.injEq] at h
            subst h
            refine ⟨Eq.trans (skel_modstrct st.1 s _ (fun _ => rfl)) hk, ?_⟩
            intro q hq
            rw [hp2] at hq
            simp only [Option.some.injEq] at hq
            subst hq
            exact (rowid_ok_iff_row _).2 hok

theorem rowid_ok_congr (sq sq2 : List strct) (h : skel sq2 = skel sq) (s : Nat) (p p2 : strct)
    (hp : sq[s]? = some p) (hp2 : sq2[s]? = some p2) : rowid_ok p2 ↔ rowid_ok p := by
  have h1 : (skel sq2)[s]? = (skel sq)[s]? := by rw [h]
  unfold skel at h1
  simp only [List.getElem?_map, hp, hp2, Option.map_some', Option.some.injEq] at h1
  rw [rowid_ok_iff_row, rowid_ok_iff_row, h1]

theorem pass_link_rowid (cfg : config) (sq1 : List strct) (h : pass_link cfg = .ok sq1) :
    skel sq1 = skel cfg.sq ∧ ∀ p ∈ cfg.sq, rowid_ok p := by
  unfold pass_link at h
  have key := tailq_foreach_range_inv (link_strct cfg.eq)
    (fun i sq => skel sq = skel cfg.sq ∧ ∀ j p, j < i → cfg.sq[j]? = some p → rowid_ok p)
    cfg.sq.length ?_ cfg.sq sq1 ?_ h
  · refine ⟨key.1, ?_⟩
    intro p hp
    obtain ⟨j, hj, hjp⟩ := List.getElem_of_mem hp
    exact key.2 j p hj (by rw [List.getElem?_eq_getElem hj, hjp])
  · intro i sq sq2 hi ⟨hk, hdone⟩ hstep
    obtain ⟨hk2, hok⟩ := link_strct_rowid cfg.eq sq i sq2 hstep
    refine ⟨hk2.trans hk, ?_⟩
    intro j p hj hp
    rcases Nat.lt_succ_iff_lt_or_eq.1 hj with hlt | heq
    · exact hdone j p hlt hp
    · subst heq
      have hlen : j < sq.length := by
        rw [skel_length _ _ hk]
        exact hi
      have hq : sq[j]? = some sq[j] := List.getElem?_eq_getElem hlen
      exact (rowid_ok_congr cfg.sq sq hk j p sq[j] hp hq).1 (hok _ hq)
  · exact ⟨rfl, fun j p hj _ => absurd hj (Nat.not_lt_zero j)⟩

/-! ### The first pass stops on diagnosed failures only -/

theorem tailq_foreach_range'_err {σ : Type} (body : σ → Nat → Except stop σ)
    (inv : Nat → σ → Prop) (P : stop → Prop) (n : Nat)
    (hok : ∀ i st st2, i < n → inv i st → body st i = .ok st2 → inv (i + 1) st2)
    (herr : ∀ i st e, i < n → inv i st → body st i = .error e → P e)
    (k a : Nat) (st : σ) (e : stop) (hak : a + k = n) (h0 : inv a st)
    (h : tailq_foreach body (List.range' a k) st = .error e) : P e := by
  induction k generalizing a st with
  | zero => simp [List.range', tailq_foreach] at h
  | succ k ih =>
    rw [List.range'_succ, tailq_foreach] at h
    cases hb : body st a with
    | error x =>
      simp only [hb, Except.error.injEq] at h
      subst h
      exact herr a st x (by omega) h0 hb
    | ok st3 =>
      simp only [hb] at h
      exact ih (a + 1) st3 (by omega) (hok a st st3 (by omega) h0 hb) h

theorem tailq_foreach_range_err {σ : Type} (body : σ → Nat → Except stop σ)
    (inv : Nat → σ → Prop) (P : stop → Prop) (n : Nat)
    (hok : ∀ i st st2, i < n → inv i st → body st i = .ok st2 → inv (i + 1) st2)
    (herr : ∀ i st e, i < n → inv i st → body st i = .error e → P e)
    (st : σ) (e : stop) (h0 : inv 0 st)
    (h : tailq_foreach body (List.range n) st = .error e) : P e := by
  rw [List.range_eq_range'] at h
  exact tailq_foreach_range'_err body inv P n hok herr n 0 st e (by omega) h0 h

theorem fld_isSome_congr (sq sq2 : List strct) (h : skel sq2 = skel sq) (q : fptr) :
    (fld sq2 q).isSome = (fld sq q).isSome := by
  have := congrArg Option.isSome (skel_fld sq sq2 h q)
  simpa using this

theorem ref_wf_congr (sq sq2 : List strct) (h : skel sq2 = skel sq) (r : ref)
    (hr : ref_wf sq r) : ref_wf sq2 r := by
  obtain ⟨h1, h2, h3⟩ := hr
  refine ⟨h1, ?_, ?_⟩
  · intro sp hsp
    rw [fld_isSome_congr sq sq2 h]
    exact h2 sp hsp
  · intro tp htp
    rw [fld_isSome_congr sq sq2 h]
    exact h3 tp htp

theorem find_target_valid (a b : List Char) (sq : List strct) (t : fptr)
    (h : find_target a b sq = some t) : (fld sq t).isSome = true := by
  induction sq generalizing t with
  | nil => simp [find_target] at h
  | cons p ps ih =>
    have hlater : ∀ t, (find_target a b ps).map (fun t => { t with s := t.s + 1 }) = some t →
        (fld (p :: ps) t).isSome = true := by
      intro t ht
      cases hft : find_target a b ps with
      | none => simp [hft] at ht
      | some t0 =>
        simp only [hft, Option.map_some', Option.some.injEq] at ht
        subst ht
        have := ih t0 hft
        unfold fld at this ⊢
        simpa using this
    unfold find_target at h
    simp only at h
    split at h
    · cases hff : find_field b p.fq with
      | none =>
        simp only [hff] at h
        exact hlater t h
      | some i =>
        simp only [hff, Option.some.injEq] at h
        subst h
        have hlt := find_field_lt _ _ _ hff
        unfold fld
        simp [hlt]
    · exact hlater t h

theorem getfield_of_isSome (sq : List strct) (q : fptr) (h : (fld sq q).isSome = true) :
    ∃ f, getfield sq q = .ok f ∧ fld sq q = some f := by
  cases hf : fld sq q with
  | none => simp [hf] at h
  | some f => exact ⟨f, (getfield_ok_iff sq q f).2 hf, rfl⟩
theorem resolve_field_source_cases (r : ref) (s : Nat) (fq : List field)
    (hwf : r.source = none → r.target = none) :
    (r.source.isSome = true ∧ resolve_field_source r s fq = .ok r) ∨
      (r.source = none ∧ find_field r.sfield fq = none ∧
        resolve_field_source r s fq = .error (.fatal .unknown_reference_source)) ∨
      (r.source = none ∧ ∃ i, find_field r.sfield fq = some i ∧
        resolve_field_source r s fq = .ok { r with source := some { s := s, f := i } }) := by
  unfold resolve_field_source
  cases hs : r.source with
  | some sp => simp
  | none =>
    have ht := hwf hs
    simp only [Option.isSome_none, Bool.false_eq_true, ↓reduceIte, ht, false_and, true_and,
      false_or]
    cases hff : find_field r.sfield fq with
    | none => simp
    | some i => simp

theorem resolve_field_target_cases (r : ref) (q : List strct) (hs : r.source.isSome = true) :
    (r.target.isSome = true ∧ resolve_field_target r q = .ok r) ∨
      (r.target = none ∧ find_target r.tstrct r.tfield q = none ∧
        resolve_field_target r q = .error (.fatal .unknown_reference_target)) ∨
      (r.target = none ∧ ∃ t, find_target r.tstrct r.tfield q = some t ∧
        resolve_field_target r q = .ok { r with target := some t }) := by
  unfold resolve_field_target
  cases ht : r.target with
  | some tp => simp
  | none =>
    have hs2 : r.source.isNone = false := by
      cases hsrc : r.source with
      | none => simp [hsrc] at hs
      | some sp => rfl
    simp only [Option.isSome_none, Bool.false_eq_true, ↓reduceIte, hs2, false_and, true_and,
      false_or]
    cases hft : find_target r.tstrct r.tfield q with
    | none => simp
    | some t => simp

theorem checktargettype_err (sq : List strct) (r : ref) (sp tp : fptr) (e : stop)
    (hs : r.source = some sp) (ht : r.target = some tp)
    (hsv : (fld sq sp).isSome = true) (htv : (fld sq tp).isSome = true)
    (h : checktargettype sq r = .error e) : is_fatal e := by
  obtain ⟨sf, hsf, _⟩ := getfield_of_isSome sq sp hsv
  obtain ⟨tf, htf, _⟩ := getfield_of_isSome sq tp htv
  unfold checktargettype at h
  simp only [hs, ht, getfield?, hsf, htf, bind, Except.bind] at h
  split at h
  · cases h
    exact ⟨_, rfl⟩
  · split at h
    · cases h
      exact ⟨_, rfl⟩
    · cases h

theorem linkref_err (sq : List strct) (owner : fptr) (r : ref) (sp tp : fptr) (e : stop)
    (hs : r.source = some sp) (ht : r.target = some tp)
    (hov : (fld sq owner).isSome = true)
    (hsv : (fld sq sp).isSome = true) (htv : (fld sq tp).isSome = true)
    (h : linkref sq owner r = .error e) : is_fatal e := by
  obtain ⟨o, ho, _⟩ := getfield_of_isSome sq owner hov
  obtain ⟨sf, hsf, _⟩ := getfield_of_isSome sq sp hsv
  obtain ⟨tf, htf, _⟩ := getfield_of_isSome sq tp htv
  unfold linkref at h
  simp only [hs, ht, ho, bind, Except.bind] at h
  split at h
  · cases h
  · simp only [hsf] at h
    split at h
    · split at h
      · cases h
        exact ⟨_, rfl⟩
      · cases h
    · simp only [htf] at h
      split at h
      · cases h
        exact ⟨_, rfl⟩
      · split at h
        · cases h
          exact ⟨_, rfl⟩
        · cases h

theorem linkref_skel (sq : List strct) (owner : fptr) (r : ref) (sq2 : List strct)
    (h : linkref sq owner r = .ok sq2) : skel sq2 = skel sq := by
  rcases linkref_cases sq owner r sq2 h with h1 | ⟨sp, tp, src, tgt, _, _, _, _, _, _, _, h2⟩
  · rw [h1]
  · rw [h2]
    exact skel_modfield _ _ _ (fun _ => ⟨rfl, rfl⟩)

theorem fld_some_strct (sq : List strct) (q : fptr) (f : field) (h : fld sq q = some f) :
    ∃ p, sq[q.s]? = some p ∧ p.fq[q.f]? = some f := by
  unfold fld at h
  cases hs : sq[q.s]? with
  | none => simp [hs] at h
  | some p =>
    simp only [hs] at h
    exact ⟨p, rfl, h⟩

theorem find_field_valid (sq : List strct) (s i : Nat) (p : strct) (n : List Char)
    (hp : sq[s]? = some p) (h : find_field n p.fq = some i) :
    (fld sq { s := s, f := i }).isSome = true := by
  have hlt := find_field_lt _ _ _ h
  unfold fld
  simp [hp, hlt]

theorem resolve_field_source_total (sq : List strct) (s : Nat) (p : strct) (r : ref)
    (hp : sq[s]? = some p) (hwf : ref_wf sq r) :
    resolve_field_source r s p.fq = .error (.fatal .unknown_reference_source) ∨
      ∃ r1 sp, resolve_field_source r s p.fq = .ok r1 ∧ r1.source = some sp ∧
        (fld sq sp).isSome = true ∧ r1.target = r.target := by
  obtain ⟨hw1, hw2, _⟩ := hwf
  rcases resolve_field_source_cases r s p.fq hw1 with
    ⟨hs1, hok⟩ | ⟨_, _, herr⟩ | ⟨_, k, hff, hok⟩
  · cases hss : r.source with
    | none => simp [hss] at hs1
    | some sp => exact Or.inr ⟨r, sp, hok, hss, hw2 sp hss, rfl⟩
  · exact Or.inl herr
  · exact Or.inr ⟨_, _, hok, rfl, find_field_valid sq s k p _ hp hff, rfl⟩

theorem resolve_field_target_total (sq : List strct) (r1 : ref)
    (hs : r1.source.isSome = true) (hw3 : ∀ tp, r1.target = some tp → (fld sq tp).isSome = true) :
    resolve_field_target r1 sq = .error (.fatal .unknown_reference_target) ∨
      ∃ r2 tp, resolve_field_target r1 sq = .ok r2 ∧ r2.source = r1.source ∧
        r2.target = some tp ∧ (fld sq tp).isSome = true := by
  rcases resolve_field_target_cases r1 sq hs with ⟨ht1, hok⟩ | ⟨_, _, herr⟩ | ⟨_, t, hft, hok⟩
  · cases htt : r1.target with
    | none => simp [htt] at ht1
    | some tp => exact Or.inr ⟨r1, tp, hok, rfl, htt, hw3 tp htt⟩
  · exact Or.inl herr
  · exact Or.inr ⟨_, t, hok, rfl, rfl, find_target_valid _ _ sq t hft⟩

theorem link_field_ref_err (sq : List strct) (s i : Nat) (f : field) (e : stop)
    (hf : fld sq { s := s, f := i } = some f) (hwf : ∀ r, f.ref = some r → ref_wf sq r)
    (h : link_field_ref sq s i f = .error e) : is_fatal e := by
  obtain ⟨p, hp, _⟩ := fld_some_strct sq _ f hf
  simp only at hp
  have hgp : getstrct sq s = .ok p := (getstrct_ok_iff sq s p).2 hp
  unfold link_field_ref at h
  cases hr : f.ref with
  | none => simp [hr] at h
  | some r =>
    have hw := hwf r hr
    simp only [hr, hgp, bind, Except.bind] at h
    rcases resolve_field_source_total sq s p r hp hw with herr | ⟨r1, sp, hok, hsp, hspv, htgt⟩
    · rw [herr] at h
      cases h
      exact ⟨_, rfl⟩
    · rw [hok] at h
      simp only at h
      rcases resolve_field_target_total sq r1 (by rw [hsp]; rfl)
        (fun tp htp => hw.2.2 tp (by rw [← htgt, htp])) with herr | ⟨r2, tp, hok2, hs2, htp, htpv⟩
      · rw [herr] at h
        cases h
        exact ⟨_, rfl⟩
      · rw [hok2] at h
        simp only at h
        rw [hsp] at hs2
        have hk1 : skel (modfield sq { s := s, f := i } (fun g => { g with ref := some r2 })) =
            skel sq := skel_modfield _ _ _ (fun _ => ⟨rfl, rfl⟩)
        generalize modfield sq { s := s, f := i } (fun g => { g with ref := some r2 }) = sq1
          at h hk1
        have hv1 : ∀ q, (fld sq q).isSome = true → (fld sq1 q).isSome = true := by
          intro q hq
          rw [fld_isSome_congr sq sq1 hk1]
          exact hq
        cases hl : linkref sq1 { s := s, f := i } r2 with
        | error x =>
          simp only [hl, Except.error.injEq] at h
          subst h
          exact linkref_err sq1 _ r2 sp tp x hs2 htp (hv1 _ (by rw [hf]; rfl)) (hv1 _ hspv)
            (hv1 _ htpv) hl
        | ok sq2 =>
          simp only [hl] at h
          have hk2 := linkref_skel sq1 _ r2 sq2 hl
          have hv2 : ∀ q, (fld sq q).isSome = true → (fld sq2 q).isSome = true := by
            intro q hq
            rw [fld_isSome_congr sq1 sq2 hk2]
            exact hv1 q hq
          cases hc : checktargettype sq2 r2 with
          | error x =>
            simp only [hc, Except.error.injEq] at h
            subst h
            exact checktargettype_err sq2 r2 sp tp x hs2 htp (hv2 _ hspv) (hv2 _ htpv) hc
          | ok u => simp [hc] at h
theorem ref_wf_of_checked (sq : List strct) (r : ref) (h : ref_checked sq r) : ref_wf sq r := by
  obtain ⟨sp, tp, sf, tf, hs, ht, hsf, htf, _⟩ := checktargettype_ok sq r h
  have h1 := (getfield_ok_iff sq sp sf).1 hsf
  have h2 := (getfield_ok_iff sq tp tf).1 htf
  refine ⟨fun hn => (by rw [hs] at hn; cases hn), ?_, ?_⟩
  · intro sp2 hsp2
    rw [hs] at hsp2
    cases hsp2
    rw [h1]
    rfl
  · intro tp2 htp2
    rw [ht] at htp2
    cases htp2
    rw [h2]
    rfl

theorem ref_wf_of_same_ends (sq : List strct) (r cr : ref) (hs : cr.source = r.source)
    (ht : cr.target = r.target) (h : ref_wf sq r) : ref_wf sq cr := by
  unfold ref_wf at *
  rw [hs, ht]
  exact h

theorem link_field_wf (eq : List enm) (s : Nat) (st : List strct × Nat) (i : Nat)
    (st2 : List strct × Nat) (hwf : refs_wf st.1) (h : link_field eq s st i = .ok st2) :
    refs_wf st2.1 := by
  unfold link_field at h
  cases hf : getfield st.1 { s := s, f := i } with
  | error e => simp [hf, bind, Except.bind] at h
  | ok f =>
    cases hr : link_field_rowid f st.2 with
    | error e => simp [hf, hr, bind, Except.bind] at h
    | ok hrow =>
      cases hl : link_field_ref st.1 s i f with
      | error e => simp [hf, hr, hl, bind, Except.bind] at h
      | ok sq1 =>
        cases he : link_field_enum eq sq1 s i f with
        | error e => simp [hf, hr, hl, he, bind, Except.bind] at h
        | ok sq2 =>
          simp only [hf, hr, hl, he, bind, Except.bind, Except.ok.injEq] at h
          subst h
          simp only
          have hfld := (getfield_ok_iff _ _ _).1 hf
          obtain ⟨hk2, hra2⟩ := link_field_enum_effect eq sq1 s i f sq2 he
          obtain ⟨hk1, hcase⟩ := link_field_ref_effect st.1 s i f sq1 hfld hl
          intro q r hq
          rw [hra2] at hq
          apply ref_wf_congr sq1 sq2 hk2
          rcases hcase with ⟨_, hsame⟩ | ⟨r0, r2, _, _, hch, hrc2, hother⟩
          · subst hsame
            exact hwf q r hq
          · by_cases hqc : q = { s := s, f := i }
            · rw [hqc, hrc2] at hq
              simp only [Option.some.injEq] at hq
              subst hq
              exact ref_wf_of_checked _ _ hch
            · rcases hother q hqc with hsame | ⟨_, cr, hcr, hcs, hct, _⟩
              · rw [hsame] at hq
                exact ref_wf_congr st.1 sq1 hk1 r (hwf q r hq)
              · rw [hcr] at hq
                simp only [Option.some.injEq] at hq
                rw [← hq]
                exact ref_wf_of_same_ends sq1 r2 cr hcs hct (ref_wf_of_checked _ _ hch)

theorem link_field_rowid_err (f : field) (n : Nat) (e : stop)
    (h : link_field_rowid f n = .error e) : is_fatal e := by
  unfold link_field_rowid at h
  split at h
  · cases hc : checkrowid f n with
    | ok u => simp [hc] at h
    | error x =>
      simp only [hc, Except.error.injEq] at h
      subst h
      unfold checkrowid at hc
      split at hc
      · cases hc
        exact ⟨_, rfl⟩
      · split at hc
        · cases hc
          exact ⟨_, rfl⟩
        · cases hc
  · cases h

theorem link_field_err (eq : List enm) (s : Nat) (st : List strct × Nat) (i : Nat) (e : stop)
    (hv : (fld st.1 { s := s, f := i }).isSome = true) (hwf : refs_wf st.1)
    (h : link_field eq s st i = .error e) : is_fatal e := by
  obtain ⟨f, hf, hfld⟩ := getfield_of_isSome st.1 _ hv
  unfold link_field at h
  simp only [hf, bind, Except.bind] at h
  cases hr : link_field_rowid f st.2 with
  | error x =>
    simp only [hr, Except.error.injEq] at h
    subst h
    exact link_field_rowid_err f st.2 x hr
  | ok hrow =>
    simp only [hr] at h
    cases hl : link_field_ref st.1 s i f with
    | error x =>
      simp only [hl, Except.error.injEq] at h
      subst h
      refine link_field_ref_err st.1 s i f x hfld ?_ hl
      intro r hfr
      apply hwf { s := s, f := i } r
      unfold ref_at
      rw [hfld, ← hfr]
      rfl
    | ok sq1 =>
      simp only [hl] at h
      cases he : link_field_enum eq sq1 s i f with
      | ok sq2 => simp [he] at h
      | error x =>
        simp only [he, Except.error.injEq] at h
        subst h
        unfold link_field_enum resolve_field_enum at he
        cases hfe : f.eref with
        | none => simp [hfe] at he
        | some er =>
          simp only [hfe, bind, Except.bind] at he
          cases hfn : find_enm er.ename eq with
          | none =>
            simp only [hfn] at he
            cases he
            exact ⟨_, rfl⟩
          | some k => simp [hfn] at he

theorem resolve_uref_err (sq : List strct) (s : Nat) (p : strct) (u : uref) (crq : Bool)
    (e : stop) (hp : sq[s]? = some p) (hnone : u.field = none)
    (h : resolve_uref sq s u crq = .error e) : is_fatal e := by
  unfold resolve_uref at h
  simp only [hnone, Option.isSome_none, Bool.false_eq_true, ↓reduceIte,
    (getstrct_ok_iff sq s p).2 hp, bind, Except.bind] at h
  cases hi : find_field u.name p.fq with
  | none =>
    simp only [hi] at h
    cases h
    exact ⟨_, rfl⟩
  | some i =>
    obtain ⟨f, hf, _⟩ := getfield_of_isSome sq _ (find_field_valid sq s i p _ hp hi)
    simp only [hi, hf] at h
    split at h
    · cases h
      exact ⟨_, rfl⟩
    · split at h
      · cases h
        exact ⟨_, rfl⟩
      · cases h

theorem check_modtype_err (sq : List strct) (u : uref) (q : fptr) (f : field) (e : stop)
    (hq : u.field = some q) (hf : fld sq q = some f) (hmod : u.mod ≠ modtype.MODTYPE__MAX)
    (h : check_modtype sq u = .error e) : is_fatal e := by
  unfold check_modtype at h
  have h1 : ¬ modtype.MODTYPE__MAX = u.mod := fun hx => hmod hx.symm
  rw [if_neg h1, hq, getfield?_some sq q f hf] at h
  split at h
  · cases h
  · simp only [bind, Except.bind] at h
    split at h
    · cases h
    · cases h
      exact ⟨_, rfl⟩

theorem resolve_update_mrq_err (sq : List strct) (s : Nat) (p : strct) (l : List uref)
    (e : stop) (hp : sq[s]? = some p)
    (hw : ∀ u ∈ l, u.field = none ∧ u.mod ≠ modtype.MODTYPE__MAX)
    (h : resolve_update_mrq sq s l = .error e) : is_fatal e := by
  induction l with
  | nil => simp [resolve_update_mrq] at h
  | cons u us ih =>
    obtain ⟨hnone, hmod⟩ := hw u (List.mem_cons_self _ _)
    rw [resolve_update_mrq] at h
    cases hr : resolve_uref sq s u false with
    | error x =>
      simp only [hr, Except.error.injEq] at h
      subst h
      exact resolve_uref_err sq s p u false x hp hnone hr
    | ok u2 =>
      simp only [hr] at h
      obtain ⟨i, f, hu2, hfld, _⟩ := (resolve_uref_spec sq s u false hnone).1 u2 hr
      cases hc : check_modtype sq u2 with
      | error x =>
        simp only [hc, Except.error.injEq] at h
        subst h
        exact check_modtype_err sq u2 _ f x (by rw [hu2]) hfld (by rw [hu2]; exact hmod) hc
      | ok y =>
        simp only [hc] at h
        cases hrest : resolve_update_mrq sq s us with
        | error x =>
          simp only [hrest, Except.error.injEq] at h
          subst h
          exact ih (fun v hv => hw v (List.mem_cons_of_mem _ hv)) hrest
        | ok us2 => simp [hrest] at h

theorem resolve_update_crq_err (sq : List strct) (s : Nat) (p : strct) (l : List uref)
    (e : stop) (hp : sq[s]? = some p) (hw : ∀ u ∈ l, u.field = none)
    (h : resolve_update_crq sq s l = .error e) : is_fatal e := by
  induction l with
  | nil => simp [resolve_update_crq] at h
  | cons u us ih =>
    rw [resolve_update_crq] at h
    cases hr : resolve_uref sq s u true with
    | error x =>
      simp only [hr, Except.error.injEq] at h
      subst h
      exact resolve_uref_err sq s p u true x hp (hw u (List.mem_cons_self _ _)) hr
    | ok u2 =>
      simp only [hr] at h
      cases hrest : resolve_update_crq sq s us with
      | error x =>
        simp only [hrest, Except.error.injEq] at h
        subst h
        exact ih (fun v hv => hw v (List.mem_cons_of_mem _ hv)) hrest
      | ok us2 => simp [hrest] at h

theorem update_parsed_iff (up : update) :
    update_parsed up = true ↔
      (∀ u ∈ up.mrq, u.field = none ∧ u.mod ≠ modtype.MODTYPE__MAX) ∧
        (∀ u ∈ up.crq, u.field = none) := by
  unfold update_parsed
  simp [List.all_eq_true, Option.isNone_iff_eq_none]

theorem link_updates_err (sq : List strct) (s : Nat) (p : strct) (l : List update) (e : stop)
    (hp : sq[s]? = some p) (hw : ∀ up ∈ l, update_parsed up = true)
    (h : link_updates sq s l = .error e) : is_fatal e := by
  induction l with
  | nil => simp [link_updates] at h
  | cons up ups ih =>
    obtain ⟨hm, hc⟩ := (update_parsed_iff up).1 (hw up (List.mem_cons_self _ _))
    rw [link_updates] at h
    cases hr : resolve_update sq s up with
    | error x =>
      simp only [hr, Except.error.injEq] at h
      subst h
      unfold resolve_update at hr
      cases h1 : resolve_update_mrq sq s up.mrq with
      | error y =>
        simp only [h1, bind, Except.bind, Except.error.injEq] at hr
        subst hr
        exact resolve_update_mrq_err sq s p _ y hp hm h1
      | ok m =>
        cases h2 : resolve_update_crq sq s up.crq with
        | error y =>
          simp only [h1, h2, bind, Except.bind, Except.error.injEq] at hr
          subst hr
          exact resolve_update_crq_err sq s p _ y hp hc h2
        | ok c => simp [h1, h2, bind, Except.bind] at hr
    | ok up2 =>
      simp only [hr] at h
      have hcu : check_updatetype sq up2.crq = .ok () := by
        unfold resolve_update at hr
        cases h1 : resolve_update_mrq sq s up.mrq with
        | error y => simp [h1, bind, Except.bind] at hr
        | ok m =>
          cases h2 : resolve_update_crq sq s up.crq with
          | error y => simp [h1, h2, bind, Except.bind] at hr
          | ok c =>
            simp only [h1, h2, bind, Except.bind, Except.ok.injEq] at hr
            subst hr
            exact check_updatetype_ok sq c (resolve_update_crq_fields sq s up.crq c hc h2)
      simp only [hcu] at h
      cases hrest : link_updates sq s ups with
      | error x =>
        simp only [hrest, Except.error.injEq] at h
        subst h
        exact ih (fun v hv => hw v (List.mem_cons_of_mem _ hv)) hrest
      | ok us2 => simp [hrest] at h
theorem link_fields_wf (eq : List enm) (s : Nat) (l : List Nat) (sq : List strct) (n0 : Nat)
    (st2 : List strct × Nat) (hwf : refs_wf sq)
    (h : tailq_foreach (link_field eq s) l (sq, n0) = .ok st2) :
    skel st2.1 = skel sq ∧ refs_wf st2.1 ∧
      st2.1.map (fun p => (p.uq, p.dq)) = sq.map (fun p => (p.uq, p.dq)) := by
  refine tailq_foreach_inv (link_field eq s)
    (fun st => skel st.1 = skel sq ∧ refs_wf st.1 ∧
      st.1.map (fun p => (p.uq, p.dq)) = sq.map (fun p => (p.uq, p.dq)))
    ?_ l (sq, n0) st2 ⟨rfl, hwf, rfl⟩ h
  intro st i st3 ⟨hk, hw, hm⟩ hstep
  refine ⟨Eq.trans (link_field_step eq s st i st3 [] (fun _ => True) hstep).1 hk,
    link_field_wf eq s st i st3 hw hstep, ?_⟩
  rw [link_field_keeps (fun p => (p.uq, p.dq)) (fun _ _ => rfl) eq s st i st3 hstep]
  exact hm

theorem link_fields_err (eq : List enm) (s : Nat) (sq : List strct) (p : strct) (e : stop)
    (hp : sq[s]? = some p) (hwf : refs_wf sq)
    (h : tailq_foreach (link_field eq s) (List.range p.fq.length) (sq, 0) = .error e) :
    is_fatal e := by
  refine tailq_foreach_range_err (link_field eq s)
    (fun _ st => skel st.1 = skel sq ∧ refs_wf st.1) is_fatal p.fq.length ?_ ?_ (sq, 0) e
    ⟨rfl, hwf⟩ h
  · intro i st st3 _ ⟨hk, hw⟩ hstep
    exact ⟨Eq.trans (link_field_step eq s st i st3 [] (fun _ => True) hstep).1 hk,
      link_field_wf eq s st i st3 hw hstep⟩
  · intro i st x hi ⟨hk, hw⟩ hstep
    refine link_field_err eq s st i x ?_ hw hstep
    rw [fld_isSome_congr sq st.1 hk]
    unfold fld
    simp [hp, hi]

theorem refs_wf_modstrct (sq : List strct) (s : Nat) (g : strct → strct)
    (hg : ∀ st, (g st).fq = st.fq) (h : refs_wf sq) : refs_wf (modstrct sq s g) := by
  intro q r hq
  unfold ref_at at hq
  rw [fld_modstrct sq s g q hg] at hq
  exact ref_wf_congr sq _ (skel_modstrct sq s g hg) r (h q r hq)
theorem link_strct_wf (eq : List enm) (sq : List strct) (s : Nat) (sq2 : List strct)
    (hwf : refs_wf sq) (h : link_strct eq sq s = .ok sq2) :
    skel sq2 = skel sq ∧ refs_wf sq2 ∧
      ∀ j, j ≠ s → (sq2[j]?).map (fun p => (p.uq, p.dq)) = (sq[j]?).map (fun p => (p.uq, p.dq)) := by
  unfold link_strct at h
  cases hp : getstrct sq s with
  | error e => simp [hp, bind, Except.bind] at h
  | ok p =>
    cases hl : tailq_foreach (link_field eq s) (List.range p.fq.length) (sq, 0) with
    | error e => simp [hp, hl, bind, Except.bind] at h
    | ok st =>
      obtain ⟨hk, hw, hm⟩ := link_fields_wf eq s _ sq 0 st hwf hl
      simp only [hp, hl, bind, Except.bind] at h
      cases hp1 : getstrct st.1 s with
      | error e => simp [hp1] at h
      | ok p1 =>
        simp only [hp1] at h
        cases hu : link_updates st.1 s p1.uq with
        | error e => simp [hu] at h
        | ok uq =>
          simp only [hu] at h
          cases hd : link_updates st.1 s p1.dq with
          | error e => simp [hd] at h
          | ok dq =>
            simp only [hd, Except.ok.injEq] at h
            subst h
            refine ⟨Eq.trans (skel_modstrct st.1 s _ (fun _ => rfl)) hk,
              refs_wf_modstrct st.1 s _ (fun _ => rfl) hw, ?_⟩
            intro j hj
            rw [getElem?_modstrct, if_neg hj]
            have := congrArg (fun l => l[j]?) hm
            simpa [List.getElem?_map] using this

theorem link_strct_err (eq : List enm) (sq : List strct) (s : Nat) (p : strct) (e : stop)
    (hp : sq[s]? = some p) (hwf : refs_wf sq)
    (hu : ∀ up ∈ p.uq, update_parsed up = true) (hd : ∀ up ∈ p.dq, update_parsed up = true)
    (h : link_strct eq sq s = .error e) : is_fatal e := by
  unfold link_strct at h
  simp only [(getstrct_ok_iff sq s p).2 hp, bind, Except.bind] at h
  cases hl : tailq_foreach (link_field eq s) (List.range p.fq.length) (sq, 0) with
  | error x =>
    simp only [hl, Except.error.injEq] at h
    subst h
    exact link_fields_err eq s sq p x hp hwf hl
  | ok st =>
    obtain ⟨hk, hw, hm⟩ := link_fields_wf eq s _ sq 0 st hwf hl
    simp only [hl] at h
    have hm2 : (st.1[s]?).map (fun p => (p.uq, p.dq)) = some (p.uq, p.dq) := by
      have := congrArg (fun l => l[s]?) hm
      simpa [List.getElem?_map, hp] using this
    cases hp1 : st.1[s]? with
    | none => simp [hp1] at hm2
    | some p1 =>
      simp only [hp1, Option.map_some', Option.some.injEq, Prod.mk.injEq] at hm2
      simp only [(getstrct_ok_iff st.1 s p1).2 hp1] at h
      cases hlu : link_updates st.1 s p1.uq with
      | error x =>
        simp only [hlu, Except.error.injEq] at h
        subst h
        exact link_updates_err st.1 s p1 _ x hp1 (by rw [hm2.1]; exact hu) hlu
      | ok uq =>
        simp only [hlu] at h
        cases hld : link_updates st.1 s p1.dq with
        | error x =>
          simp only [hld, Except.error.injEq] at h
          subst h
          exact link_updates_err st.1 s p1 _ x hp1 (by rw [hm2.2]; exact hd) hld
        | ok dq => simp [hld] at h

theorem refs_wf_of_parsed (cfg : config) (h : parsed cfg = true) : refs_wf cfg.sq := by
  intro q r hq
  unfold ref_at at hq
  cases hf : fld cfg.sq q with
  | none => simp [hf] at hq
  | some f =>
    simp only [hf, Option.map_some', Option.some.injEq] at hq
    obtain ⟨p, hp, hpf⟩ := fld_some_strct cfg.sq q f hf
    unfold parsed at h
    have h1 := List.all_eq_true.1 h p (mem_of_getElem? _ _ _ hp)
    unfold strct_parsed at h1
    simp only [Bool.and_eq_true] at h1
    have h2 := List.all_eq_true.1 h1.1.1 f (mem_of_getElem? _ _ _ hpf)
    unfold field_parsed at h2
    simp only [hq, Bool.and_eq_true, Option.isNone_iff_eq_none] at h2
    refine ⟨fun _ => h2.2, ?_, ?_⟩
    · intro sp hsp
      rw [h2.1] at hsp
      cases hsp
    · intro tp htp
      rw [h2.2] at htp
      cases htp

/-- On a configuration as the parser leaves it, the first pass stops only on a
diagnosed failure: no assertion fails and no null pointer is read. -/
theorem pass_link_err (cfg : config) (e : stop) (hparsed : parsed cfg = true)
    (h : pass_link cfg = .error e) : is_fatal e := by
  unfold pass_link at h
  refine tailq_foreach_range_err (link_strct cfg.eq)
    (fun i sq => skel sq = skel cfg.sq ∧ refs_wf sq ∧
      ∀ j, i ≤ j → (sq[j]?).map (fun p => (p.uq, p.dq)) =
        (cfg.sq[j]?).map (fun p => (p.uq, p.dq)))
    is_fatal cfg.sq.length ?_ ?_ cfg.sq e ⟨rfl, refs_wf_of_parsed cfg hparsed, fun _ _ => rfl⟩ h
  · intro i sq sq2 _ ⟨hk, hw, hm⟩ hstep
    obtain ⟨hk2, hw2, hm2⟩ := link_strct_wf cfg.eq sq i sq2 hw hstep
    refine ⟨hk2.trans hk, hw2, ?_⟩
    intro j hj
    rw [hm2 j (by omega), hm j (by omega)]
  · intro i sq x hi ⟨hk, hw, hm⟩ hstep
    have hlen : i < sq.length := by
      rw [skel_length _ _ hk]
      exact hi
    have hp : sq[i]? = some sq[i] := List.getElem?_eq_getElem hlen
    have hc : cfg.sq[i]? = some cfg.sq[i] := List.getElem?_eq_getElem hi
    have hmi := hm i (Nat.le_refl i)
    rw [hp, hc] at hmi
    simp only [Option.map_some', Option.some.injEq, Prod.mk.injEq] at hmi
    have hpar := List.all_eq_true.1 hparsed cfg.sq[i] (List.getElem_mem _)
    unfold strct_parsed at hpar
    simp only [Bool.and_eq_true] at hpar
    refine link_strct_err cfg.eq sq i sq[i] x hp hw ?_ ?_ hstep
    · rw [hmi.1]
      exact fun up hup => List.all_eq_true.1 hpar.1.2 up hup
    · rw [hmi.2]
      exact fun up hup => List.all_eq_true.1 hpar.2 up hup

theorem parse_link_of_pass_link_error (qsort : (Nat → Nat → Int) → List Nat → List Nat)
    (fuel : Nat) (cfg : config) (e : stop) (h : pass_link cfg = .error e) :
    parse_link qsort fuel cfg = .error e := by
  unfold parse_link parse_link_passes
  simp [h, bind, Except.bind]

theorem parse_link_skel (qsort : (Nat → Nat → Int) → List Nat → List Nat) (fuel : Nat)
    (cfg : config) (l : linked) (h : parse_link qsort fuel cfg = .ok l) :
    ∃ sq1, pass_link cfg = .ok sq1 ∧ l.sq.map strct.fq = sq1.map strct.fq ∧
      skel l.sq = skel cfg.sq := by
  obtain ⟨sq1, sq2, h1, _, hfq, _⟩ :=
    parse_link_passes_frame fuel cfg l.sq (parse_link_ok qsort fuel cfg l h).1
  exact ⟨sq1, h1, hfq, (skel_of_map_fq _ _ hfq).trans (pass_link_rowid cfg sq1 h1).1⟩

/-- C13: on a configuration as the parser leaves it, `parse_link` fails with a
diagnostic, whatever the sort and the recursion bound, as soon as a structure
has two or more fields that carry the row-identifier flag or a struct-typed
field that carries it; and whenever `parse_link` succeeds, every structure,
before and after, has at most one row-identifier field and that field is not
struct-typed. -/
theorem C13_rowid_at_most_one_native (cfg : config) (hparsed : parsed cfg = true) :
    ((∃ p ∈ cfg.sq, 2 ≤ (rowid_fields p).length ∨
          ∃ f ∈ rowid_fields p, f.type = ftype.FTYPE_STRUCT) →
        ∃ d, ∀ (qsort : (Nat → Nat → Int) → List Nat → List Nat) (fuel : Nat),
          parse_link qsort fuel cfg = .error (.fatal d)) ∧
      (∀ (qsort : (Nat → Nat → Int) → List Nat → List Nat) (fuel : Nat) (l : linked),
        parse_link qsort fuel cfg = .ok l →
          (∀ p ∈ cfg.sq, rowid_ok p) ∧ (∀ p ∈ l.sq, rowid_ok p)) := by
  constructor
  · rintro ⟨p, hp, hbad⟩
    cases h : pass_link cfg with
    | ok sq1 =>
      have hok := (pass_link_rowid cfg sq1 h).2 p hp
      rcases hbad with h2 | ⟨f, hf, hty⟩
      · have := hok.1
        omega
      · exact absurd hty (hok.2 f hf)
    | error e =>
      obtain ⟨d, hd⟩ := pass_link_err cfg e hparsed h
      subst hd
      exact ⟨d, fun qsort fuel => parse_link_of_pass_link_error qsort fuel cfg _ h⟩
  · intro qsort fuel l h
    obtain ⟨sq1, h1, _, hk⟩ := parse_link_skel qsort fuel cfg l h
    have hall := (pass_link_rowid cfg sq1 h1).2
    refine ⟨hall, ?_⟩
    intro p hp
    obtain ⟨j, hj, hjp⟩ := List.getElem_of_mem hp
    have hj2 : j < cfg.sq.length := by
      rw [← skel_length _ _ hk]
      exact hj
    have h2 : l.sq[j]? = some p := by rw [List.getElem?_eq_getElem hj, hjp]
    have h3 : cfg.sq[j]? = some cfg.sq[j] := List.getElem?_eq_getElem hj2
    exact (rowid_ok_congr cfg.sq l.sq hk j cfg.sq[j] p h3 h2).2
      (hall _ (List.getElem_mem _))

theorem C13_rowid_at_most_one_native_witness :
    ∃ d, ∀ (qsort : (Nat → Nat → Int) → List Nat → List Nat) (fuel : Nat),
      parse_link qsort fuel cfg_two_rowids = .error (.fatal d) :=
  (C13_rowid_at_most_one_native cfg_two_rowids rfl).1
    ⟨_, List.mem_cons_self _ _, Or.inl (by decide)⟩

/-! ### Name lookups return the first match -/

theorem first_match_zero (x : List Char) (l : List (List Char)) (n : List Char)
    (h : strcasecmp x n = 0) : first_match (x :: l) n 0 :=
  ⟨⟨x, List.getElem?_cons_zero, h⟩, fun j _ hj => absurd hj (Nat.not_lt_zero j)⟩

theorem first_match_succ (x : List Char) (l : List (List Char)) (n : List Char) (i : Nat)
    (h : strcasecmp x n ≠ 0) : first_match (x :: l) n (i + 1) ↔ first_match l n i := by
  unfold first_match
  constructor
  · rintro ⟨⟨y, hy, hyn⟩, hall⟩
    refine ⟨⟨y, by simpa using hy, hyn⟩, ?_⟩
    intro j z hj hz
    exact hall (j + 1) z (by omega) (by simpa using hz)
  · rintro ⟨⟨y, hy, hyn⟩, hall⟩
    refine ⟨⟨y, by simpa using hy, hyn⟩, ?_⟩
    intro j z hj hz
    cases j with
    | zero =>
      simp only [List.getElem?_cons_zero, Option.some.injEq] at hz
      subst hz
      exact h
    | succ j => exact hall j z (by omega) (by simpa using hz)

theorem first_match_unique (l : List (List Char)) (n : List Char) (i j : Nat)
    (hi : first_match l n i) (hj : first_match l n j) : i = j := by
  obtain ⟨⟨x, hx, hxn⟩, hix⟩ := hi
  obtain ⟨⟨y, hy, hyn⟩, hjx⟩ := hj
  rcases Nat.lt_trichotomy i j with h | h | h
  · exact absurd hxn (hjx i x h hx)
  · exact h
  · exact absurd hyn (hix j y h hy)

theorem find_field_some_iff (n : List Char) (fq : List field) (i : Nat) :
    find_field n fq = some i ↔ first_match (fq.map field.name) n i := by
  induction fq generalizing i with
  | nil =>
    unfold first_match
    simp [find_field]
  | cons f fs ih =>
    unfold find_field
    by_cases hm : strcasecmp f.name n = 0
    · rw [if_pos hm]
      constructor
      · intro h
        cases h
        exact first_match_zero _ _ _ hm
      · intro h
        rw [first_match_unique _ _ _ _ h (first_match_zero f.name (fs.map field.name) n hm)]
    · rw [if_neg hm]
      cases i with
      | zero =>
        constructor
        · intro h
          cases hff : find_field n fs with
          | none => simp [hff] at h
          | some k => simp [hff] at h
        · rintro ⟨⟨x, hx, hxn⟩, _⟩
          simp only [List.map_cons, List.getElem?_cons_zero, Option.some.injEq] at hx
          subst hx
          exact absurd hxn hm
      | succ i =>
        rw [List.map_cons, first_match_succ _ _ _ _ hm, ← ih]
        cases find_field n fs <;> simp

theorem explore_mono (sq : List strct) (n m : Nat) (t : Nat) (hnm : n ≤ m)
    (h : explore n sq t) : explore m sq t := by
  induction n generalizing m t with
  | zero => cases h
  | succ n ih =>
    cases m with
    | zero => omega
    | succ m =>
      obtain ⟨p, hp, hall⟩ := h
      refine ⟨p, hp, fun g hg hty => ?_⟩
      obtain ⟨t2, ht2, hex⟩ := hall g hg hty
      exact ⟨t2, ht2, ih m t2 (by omega) hex⟩

theorem check_recursive_fields_true (again : Option ref → Except stop Bool) (fq : List field)
    (h : check_recursive_fields again fq = .ok true) :
    ∀ g ∈ fq, g.type = ftype.FTYPE_STRUCT → again g.ref = .ok true := by
  induction fq with
  | nil => intro g hg; cases hg
  | cons f fs ih =>
    unfold check_recursive_fields at h
    by_cases hty : ftype.FTYPE_STRUCT = f.type
    · rw [if_pos hty] at h
      cases ha : again f.ref with
      | error e => simp [ha] at h
      | ok b =>
        cases b with
        | false => simp [ha] at h
        | true =>
          simp only [ha] at h
          intro g hg hgt
          rcases List.mem_cons.1 hg with rfl | hg2
          · exact ha
          · exact ih h g hg2 hgt
    · rw [if_neg hty] at h
      intro g hg hgt
      rcases List.mem_cons.1 hg with rfl | hg2
      · exact absurd hgt.symm hty
      · exact ih h g hg2 hgt

theorem check_recursive_true (fuel : Nat) (sq : List strct) (r : Option ref) (check : Nat)
    (h : check_recursive fuel sq r check = .ok true) :
    ∃ x t, r = some x ∧ x.target = some t ∧ t.s ≠ check ∧ explore fuel sq t.s := by
  induction fuel generalizing r with
  | zero => simp [check_recursive] at h
  | succ fuel ih =>
    unfold check_recursive at h
    cases hr : r with
    | none => simp [hr] at h
    | some x =>
      simp only [hr] at h
      cases ht : x.target with
      | none => simp [ht] at h
      | some t =>
        simp only [ht] at h
        by_cases hc : t.s = check
        · simp [hc] at h
        · rw [if_neg hc] at h
          cases hp : getstrct sq t.s with
          | error e => simp [hp] at h
          | ok p =>
            simp only [hp] at h
            refine ⟨x, t, rfl, ht, hc, p, (getstrct_ok_iff sq t.s p).1 hp, ?_⟩
            intro g hg hty
            obtain ⟨y, t2, hy, hyt, _, hex⟩ :=
              ih g.ref (check_recursive_fields_true _ p.fq h g hg hty)
            refine ⟨t2.s, ?_, hex⟩
            unfold field_target
            rw [hy]
            simp [hyt]

theorem explore_fields_uniform (sq : List strct) (fq : List field)
    (h : ∀ g ∈ fq, g.type = ftype.FTYPE_STRUCT → ∃ n t2, field_target g = some t2 ∧ explore n sq t2) :
    ∃ n, ∀ g ∈ fq, g.type = ftype.FTYPE_STRUCT → ∃ t2, field_target g = some t2 ∧ explore n sq t2 := by
  induction fq with
  | nil => exact ⟨0, fun g hg => by cases hg⟩
  | cons f fs ih =>
    obtain ⟨n, hn⟩ := ih (fun g hg => h g (List.mem_cons_of_mem _ hg))
    by_cases hty : f.type = ftype.FTYPE_STRUCT
    · obtain ⟨m, t2, ht2, hex⟩ := h f (List.mem_cons_self _ _) hty
      refine ⟨max n m, fun g hg hgt => ?_⟩
      rcases List.mem_cons.1 hg with rfl | hg2
      · exact ⟨t2, ht2, explore_mono sq m _ t2 (Nat.le_max_right n m) hex⟩
      · obtain ⟨t3, ht3, hex3⟩ := hn g hg2 hgt
        exact ⟨t3, ht3, explore_mono sq n _ t3 (Nat.le_max_left n m) hex3⟩
    · refine ⟨n, fun g hg hgt => ?_⟩
      rcases List.mem_cons.1 hg with rfl | hg2
      · exact absurd hgt hty
      · exact hn g hg2 hgt

theorem recursion_checked_explore (sq : List strct) (h : recursion_checked sq) (s : Nat)
    (hs : s < sq.length) : ∃ n, explore n sq s := by
  have hp : sq[s]? = some sq[s] := List.getElem?_eq_getElem hs
  obtain ⟨n, hn⟩ := explore_fields_uniform sq sq[s].fq (fun g hg hty => by
    obtain ⟨fuel, hf⟩ := h s _ hp g hg hty
    obtain ⟨x, t, hx, hxt, _, hex⟩ := check_recursive_true fuel sq g.ref s hf
    refine ⟨fuel, t.s, ?_, hex⟩
    unfold field_target
    rw [hx]
    simp [hxt])
  exact ⟨n + 1, _, hp, hn⟩
theorem explore_lt (sq : List strct) (n t : Nat) (h : explore n sq t) : t < sq.length := by
  cases n with
  | zero => cases h
  | succ n =>
    obtain ⟨p, hp, _⟩ := h
    rcases Nat.lt_or_ge t sq.length with h1 | h1
    · exact h1
    · rw [List.getElem?_eq_none h1] at hp
      cases hp

theorem recursion_checked_acyclic (sq : List strct) (h : recursion_checked sq) :
    ∃ rank : Nat → Nat, acyclic_by sq rank := by
  classical
  refine ⟨fun s => if hs : ∃ n, explore n sq s then Nat.find hs else 0, ?_⟩
  intro s p hp f hf hty
  have hlt : s < sq.length := by
    rcases Nat.lt_or_ge s sq.length with h1 | h1
    · exact h1
    · rw [List.getElem?_eq_none h1] at hp
      cases hp
  have hs := recursion_checked_explore sq h s hlt
  have hspec := Nat.find_spec hs
  simp only [dif_pos hs]
  cases hm : Nat.find hs with
  | zero =>
    rw [hm] at hspec
    cases hspec
  | succ k =>
    rw [hm] at hspec
    obtain ⟨p2, hp2, hall⟩ := hspec
    rw [hp] at hp2
    cases hp2
    obtain ⟨t, ht, hex⟩ := hall f hf hty
    refine ⟨t, ht, explore_lt sq k t hex, ?_⟩
    have ht2 : ∃ n, explore n sq t := ⟨k, hex⟩
    rw [dif_pos ht2]
    exact Nat.lt_succ_of_le (Nat.find_min' ht2 hex)

theorem acyclic_by_refers (sq : List strct) (rank : Nat → Nat) (hac : acyclic_by sq rank)
    (S T : Nat) (h : refers sq S T) : rank T < rank S := by
  obtain ⟨p, hp, f, hf, hty, ht⟩ := h
  obtain ⟨t, ht2, _, hr⟩ := hac S p hp f hf hty
  rw [ht] at ht2
  cases ht2
  exact hr

theorem acyclic_by_no_cycle (sq : List strct) (rank : Nat → Nat) (hac : acyclic_by sq rank)
    (S T : Nat) (h : Relation.TransGen (refers sq) S T) : rank T < rank S := by
  induction h with
  | single h1 => exact acyclic_by_refers sq rank hac _ _ h1
  | tail _ h2 ih => exact Nat.lt_trans (acyclic_by_refers sq rank hac _ _ h2) ih

theorem resolve_aliases_fields_no_fuel
    (again : Nat → List alias_t × Nat → alias_t → Except stop (List alias_t × Nat))
    (prior : Option alias_t) (fq : List field)
    (h : ∀ f ∈ fq, f.type = ftype.FTYPE_STRUCT → ∀ t, field_target f = some t →
      ∀ st a, again t st a ≠ .error .fuel)
    (st : List alias_t × Nat) : resolve_aliases_fields again prior fq st ≠ .error .fuel := by
  induction fq generalizing st with
  | nil => simp [resolve_aliases_fields]
  | cons f fs ih =>
    have ih2 := ih (fun g hg => h g (List.mem_cons_of_mem _ hg))
    unfold resolve_aliases_fields
    by_cases hty : ftype.FTYPE_STRUCT ≠ f.type
    · rw [if_pos hty]
      exact ih2 st
    · rw [if_neg hty]
      have hty2 : f.type = ftype.FTYPE_STRUCT := by
        by_contra hx
        exact hty (fun hy => hx hy.symm)
      cases hr : f.ref with
      | none => simp
      | some r =>
        simp only
        by_cases ho : ¬ st.2 < 26
        · rw [if_pos ho]
          simp
        · rw [if_neg ho]
          cases ht : r.target with
          | none => simp
          | some t =>
            simp only
            have hft : field_target f = some t.s := by
              unfold field_target
              rw [hr]
              simp [ht]
            have hcall := h f (List.mem_cons_self _ _) hty2 t.s hft
              (st.1 ++ [new_alias prior f st.2], st.2 + 1) (new_alias prior f st.2)
            cases ha : again t.s (st.1 ++ [new_alias prior f st.2], st.2 + 1)
                (new_alias prior f st.2) with
            | error e =>
              simp only
              intro hx
              rw [ha] at hcall
              exact hcall hx
            | ok st2 => exact ih2 st2

theorem resolve_aliases_no_fuel (sq : List strct) (rank : Nat → Nat) (hac : acyclic_by sq rank)
    (fuel s : Nat) (hfuel : 0 < fuel) (hrank : s < sq.length → rank s < fuel)
    (st : List alias_t × Nat) (prior : Option alias_t) :
    resolve_aliases fuel sq s st prior ≠ .error .fuel := by
  induction fuel generalizing s st prior with
  | zero => omega
  | succ fuel ih =>
    unfold resolve_aliases
    cases hp : getstrct sq s with
    | error e =>
      unfold getstrct at hp
      cases hq : sq[s]? with
      | none =>
        simp only [hq, Except.error.injEq] at hp
        subst hp
        simp
      | some p => simp [hq] at hp
    | ok p =>
      simp only
      have hp2 := (getstrct_ok_iff sq s p).1 hp
      have hlt : s < sq.length := by
        rcases Nat.lt_or_ge s sq.length with h1 | h1
        · exact h1
        · rw [List.getElem?_eq_none h1] at hp2
          cases hp2
      apply resolve_aliases_fields_no_fuel
      intro f hf hty t ht st2 a
      obtain ⟨t2, ht2, _, hr⟩ := hac s p hp2 f hf hty
      rw [ht] at ht2
      cases ht2
      have := hrank hlt
      exact ih t (by omega) (fun _ => by omega) st2 (some a)
theorem rank_bound (rank : Nat → Nat) (n : Nat) : ∃ N, 0 < N ∧ ∀ s < n, rank s < N := by
  induction n with
  | zero => exact ⟨1, Nat.one_pos, fun s hs => absurd hs (Nat.not_lt_zero s)⟩
  | succ n ih =>
    obtain ⟨N, hN, hall⟩ := ih
    refine ⟨max N (rank n + 1), by omega, fun s hs => ?_⟩
    rcases Nat.lt_succ_iff_lt_or_eq.1 hs with h | h
    · have := hall s h
      omega
    · subst h
      omega

theorem pass_aliases_no_fuel (sq : List strct) (rank : Nat → Nat) (hac : acyclic_by sq rank)
    (fuel : Nat) (hfuel : 0 < fuel) (hrank : ∀ s < sq.length, rank s < fuel) :
    pass_aliases fuel sq ≠ .error .fuel := by
  intro h
  unfold pass_aliases at h
  refine tailq_foreach_range_err (pass_aliases_strct fuel)
    (fun _ st => st.1.map strct.fq = sq.map strct.fq) (fun e => e ≠ .fuel) sq.length ?_ ?_
    (sq, 0) .fuel rfl h rfl
  · intro i st st2 _ hinv hstep
    unfold pass_aliases_strct at hstep
    cases hp : getstrct st.1 i with
    | error e => simp [hp] at hstep
    | ok p =>
      simp only [hp] at hstep
      cases hr : resolve_aliases fuel st.1 i (p.aq, st.2) none with
      | error e => simp [hr] at hstep
      | ok r =>
        simp only [hr, Except.ok.injEq] at hstep
        subst hstep
        simp only
        exact Eq.trans (modstrct_map strct.fq st.1 i _ (fun _ => rfl)) hinv
  · intro i st e _ hinv hstep
    have hac2 : acyclic_by st.1 rank := acyclic_by_congr sq st.1 rank hinv hac
    have hlen : st.1.length = sq.length := by
      have := congrArg List.length hinv
      simpa using this
    unfold pass_aliases_strct at hstep
    cases hp : getstrct st.1 i with
    | error x =>
      simp only [hp, Except.error.injEq] at hstep
      subst hstep
      unfold getstrct at hp
      cases hq : st.1[i]? with
      | none =>
        simp only [hq, Except.error.injEq] at hp
        subst hp
        simp
      | some p => simp [hq] at hp
    | ok p =>
      simp only [hp] at hstep
      cases hr : resolve_aliases fuel st.1 i (p.aq, st.2) none with
      | ok r => simp [hr] at hstep
      | error x =>
        simp only [hr, Except.error.injEq] at hstep
        subst hstep
        intro hx
        subst hx
        exact resolve_aliases_no_fuel st.1 rank hac2 fuel i hfuel
          (fun hi => hrank i (by omega)) _ _ hr

theorem pass_recursive_fields_checked (fuel : Nat) (sq : List strct) (s : Nat)
    (fq : List field) (h : pass_recursive_fields fuel sq s fq = .ok ()) :
    ∀ f ∈ fq, f.type = ftype.FTYPE_STRUCT → check_recursive fuel sq f.ref s = .ok true := by
  induction fq with
  | nil => intro f hf; cases hf
  | cons g gs ih =>
    unfold pass_recursive_fields at h
    by_cases hty : ftype.FTYPE_STRUCT = g.type
    · rw [if_pos hty] at h
      cases hc : check_recursive fuel sq g.ref s with
      | error e => simp [hc] at h
      | ok b =>
        cases b with
        | false => simp [hc] at h
        | true =>
          simp only [hc] at h
          intro f hf hft
          rcases List.mem_cons.1 hf with rfl | hf2
          · exact hc
          · exact ih h f hf2 hft
    · rw [if_neg hty] at h
      intro f hf hft
      rcases List.mem_cons.1 hf with rfl | hf2
      · exact absurd hft.symm hty
      · exact ih h f hf2 hft

theorem pass_recursive_mem (fuel : Nat) (sq : List strct) (l : List Nat)
    (h : pass_recursive fuel sq l = .ok ()) :
    ∀ s ∈ l, ∀ p, sq[s]? = some p → pass_recursive_fields fuel sq s p.fq = .ok () := by
  induction l with
  | nil => intro s hs; cases hs
  | cons a more ih =>
    unfold pass_recursive at h
    cases hp : getstrct sq a with
    | error e => simp [hp] at h
    | ok p =>
      simp only [hp] at h
      cases hf : pass_recursive_fields fuel sq a p.fq with
      | error e => simp [hf] at h
      | ok u =>
        simp only [hf] at h
        intro s hs q hq
        rcases List.mem_cons.1 hs with rfl | hs2
        · rw [(getstrct_ok_iff sq s p).1 hp] at hq
          cases hq
          exact hf
        · exact ih h s hs2 q hq

theorem pass_recursive_checked (fuel : Nat) (sq : List strct)
    (h : pass_recursive fuel sq (List.range sq.length) = .ok ()) : recursion_checked sq := by
  intro s p hp f hf hty
  have hlt : s < sq.length := by
    rcases Nat.lt_or_ge s sq.length with h1 | h1
    · exact h1
    · rw [List.getElem?_eq_none h1] at hp
      cases hp
  exact ⟨fuel, pass_recursive_fields_checked fuel sq s p.fq
    (pass_recursive_mem fuel sq _ h s (List.mem_range.2 hlt) p hp) f hf hty⟩

/-- C20: if `check_recursive` returns non-zero for every struct-typed field of
every structure (called with the reference of the field and the structure),
then the graph whose edges lead from a structure to the structures that own
the targets of its struct-typed fields has no cycle; and there is a recursion
depth within which `resolve_aliases`, from any structure and any state, and
the whole alias loop of `parse_link` return: they never exhaust a budget that
is at least that depth. -/
theorem C20_recursion_check_gives_termination (sq : List strct) (h : recursion_checked sq) :
    (∀ s, ¬ Relation.TransGen (refers sq) s s) ∧
      ∃ N, ∀ fuel, N ≤ fuel →
        (∀ s st prior, resolve_aliases fuel sq s st prior ≠ .error .fuel) ∧
          pass_aliases fuel sq ≠ .error .fuel := by
  obtain ⟨rank, hac⟩ := recursion_checked_acyclic sq h
  refine ⟨fun s hs => Nat.lt_irrefl _ (acyclic_by_no_cycle sq rank hac s s hs), ?_⟩
  obtain ⟨N, hN, hall⟩ := rank_bound rank sq.length
  refine ⟨N, fun fuel hfuel => ⟨fun s st prior => ?_, ?_⟩⟩
  · exact resolve_aliases_no_fuel sq rank hac fuel s (by omega)
      (fun hs => Nat.lt_of_lt_of_le (hall s hs) hfuel) st prior
  · exact pass_aliases_no_fuel sq rank hac fuel (by omega)
      (fun s hs => Nat.lt_of_lt_of_le (hall s hs) hfuel)

theorem C20_recursion_check_gives_termination_witness :
    (∀ s, ¬ Relation.TransGen (refers (linked_arena cfg_diamond)) s s) ∧
      ∃ N, ∀ fuel, N ≤ fuel →
        (∀ s st prior,
            resolve_aliases fuel (linked_arena cfg_diamond) s st prior ≠ .error .fuel) ∧
          pass_aliases fuel (linked_arena cfg_diamond) ≠ .error .fuel :=
  C20_recursion_check_gives_termination (linked_arena cfg_diamond)
    (pass_recursive_checked 4 (linked_arena cfg_diamond) (by decide))

/-! ### The alias lookup of `resolve_search` -/

theorem tolower_eq_zero (c : Char) : tolower c = 0 ↔ c.toNat = 0 := by
  unfold tolower
  split <;> omega

theorem strcasecmp_zero_iff (a b : List Char) (ha : cstr a) (hb : cstr b) :
    strcasecmp a b = 0 ↔ a.map tolower = b.map tolower := by
  induction a generalizing b with
  | nil =>
    cases b with
    | nil => simp [strcasecmp]
    | cons c cs =>
      have hc : c.toNat ≠ 0 := hb c (List.mem_cons_self _ _)
      have : tolower c ≠ 0 := fun h => hc ((tolower_eq_zero c).1 h)
      simp only [strcasecmp, List.map_nil, List.map_cons, reduceCtorEq, iff_false]
      omega
  | cons x xs ih =>
    have hx : x.toNat ≠ 0 := ha x (List.mem_cons_self _ _)
    have hx2 : tolower x ≠ 0 := fun h => hx ((tolower_eq_zero x).1 h)
    cases b with
    | nil =>
      simp only [strcasecmp, List.map_nil, List.map_cons, reduceCtorEq, iff_false]
      omega
    | cons c cs =>
      unfold strcasecmp
      by_cases hxc : tolower x = tolower c
      · rw [if_pos hxc, ih cs (fun y hy => ha y (List.mem_cons_of_mem _ hy))
          (fun y hy => hb y (List.mem_cons_of_mem _ hy))]
        simp [hxc]
      · rw [if_neg hxc]
        simp only [List.map_cons, List.cons.injEq, hxc, false_and, iff_false]
        omega

theorem cstr_dotjoin (c : List (List Char)) (h : ∀ n ∈ c, cstr n) : cstr (dotjoin c) := by
  induction c with
  | nil => intro x hx; cases hx
  | cons n rest ih =>
    cases rest with
    | nil => exact h n (List.mem_cons_self _ _)
    | cons m more =>
      unfold dotjoin
      intro x hx
      rcases List.mem_append.1 hx with h1 | h1
      · exact h n (List.mem_cons_self _ _) x h1
      · rcases List.mem_cons.1 h1 with rfl | h2
        · decide
        · exact ih (fun k hk => h k (List.mem_cons_of_mem _ hk)) x h2

theorem dotjoin_lower (c d : List (List Char))
    (h : List.Forall₂ (fun x y => x.map tolower = y.map tolower) c d) :
    (dotjoin c).map tolower = (dotjoin d).map tolower := by
  induction h with
  | nil => rfl
  | cons hxy hrest ih =>
    rename_i x y xs ys
    cases hrest with
    | nil => simpa [dotjoin] using hxy
    | cons hxy2 hrest2 =>
      unfold dotjoin
      simp only [List.map_append, List.map_cons]
      rw [hxy, ih]

theorem find_alias_of_mem (nm : List Char) (aq : List alias_t)
    (h : ∃ a ∈ aq, strcasecmp a.name nm = 0) :
    ∃ k a, find_alias nm aq = some k ∧ aq[k]? = some a ∧ strcasecmp a.name nm = 0 := by
  induction aq with
  | nil =>
    obtain ⟨a, ha, _⟩ := h
    cases ha
  | cons b bs ih =>
    unfold find_alias
    by_cases hb : strcasecmp b.name nm = 0
    · rw [if_pos hb]
      exact ⟨0, b, rfl, List.getElem?_cons_zero, hb⟩
    · rw [if_neg hb]
      obtain ⟨a, ha, han⟩ := h
      rcases List.mem_cons.1 ha with rfl | ha2
      · exact absurd han hb
      · obtain ⟨k, a2, hk, hak, han2⟩ := ih ⟨a, ha2, han⟩
        exact ⟨k + 1, a2, by rw [hk]; rfl, by simpa using hak, han2⟩
theorem named_field_mem (sq : List strct) (s : Nat) (n : List Char) (f : field)
    (h : named_field sq s n = some f) :
    ∃ p, sq[s]? = some p ∧ f ∈ p.fq ∧ strcasecmp f.name n = 0 := by
  unfold named_field at h
  cases hp : sq[s]? with
  | none => simp [hp] at h
  | some p =>
    simp only [hp] at h
    cases hi : find_field n p.fq with
    | none => simp [hi] at h
    | some i =>
      simp only [hi] at h
      refine ⟨p, rfl, mem_of_getElem? _ _ _ h, ?_⟩
      obtain ⟨⟨x, hx, hxn⟩, _⟩ := (find_field_some_iff n p.fq i).1 hi
      rw [List.getElem?_map, h] at hx
      simp only [Option.map_some', Option.some.injEq] at hx
      rw [hx]
      exact hxn

theorem chains_fields_mem (sub : Nat → List (List (List Char))) (fq : List field) (f : field)
    (t : Nat) (hf : f ∈ fq) (hty : f.type = ftype.FTYPE_STRUCT) (ht : field_target f = some t) :
    [f.name] ∈ chains_fields sub fq ∧ ∀ c ∈ sub t, f.name :: c ∈ chains_fields sub fq := by
  induction fq with
  | nil => cases hf
  | cons g gs ih =>
    unfold chains_fields
    rcases List.mem_cons.1 hf with rfl | hf2
    · rw [if_pos hty, ht]
      simp only [List.cons_append, List.mem_cons, List.mem_append, List.mem_map, true_or,
        true_and]
      intro c hc
      exact Or.inr (Or.inl ⟨c, hc, rfl⟩)
    · obtain ⟨h1, h2⟩ := ih hf2
      by_cases hg : g.type = ftype.FTYPE_STRUCT
      · rw [if_pos hg]
        cases hgt : field_target g with
        | none => exact ⟨h1, h2⟩
        | some t2 =>
          simp only
          exact ⟨List.mem_append_right _ h1, fun c hc => List.mem_append_right _ (h2 c hc)⟩
      · rw [if_neg hg]
        exact ⟨h1, h2⟩

theorem chain_valid_in_chains (sq : List strct) (rank : Nat → Nat) (hac : acyclic_by sq rank)
    (ns : List (List Char)) (s fuel : Nat) (hlen : 2 ≤ ns.length) (hfuel : rank s < fuel)
    (h : chain_valid sq ns s) :
    ∃ c ∈ chains fuel sq s, List.Forall₂ (fun x n => strcasecmp x n = 0) c ns.dropLast ∧
      ∀ x ∈ c, ∃ p ∈ sq, ∃ f ∈ p.fq, x = f.name := by
  induction ns generalizing s fuel with
  | nil => simp at hlen
  | cons a rest ih =>
    cases rest with
    | nil => simp at hlen
    | cons b l =>
      obtain ⟨f, t, hnf, hty, hft, hrest⟩ := (chain_valid_cons sq a b l s).1 h
      obtain ⟨p, hp, hfp, hname⟩ := named_field_mem sq s a f hnf
      obtain ⟨t2, ht2, _, hrank⟩ := hac s p hp f hfp hty
      rw [hft] at ht2
      cases ht2
      cases fuel with
      | zero => omega
      | succ k =>
        have hch : chains (k + 1) sq s = chains_fields (chains k sq) p.fq := by
          rw [chains]
          simp [hp]
        obtain ⟨hm1, hm2⟩ := chains_fields_mem (chains k sq) p.fq f t hfp hty hft
        have hsrc : ∃ p ∈ sq, ∃ g ∈ p.fq, f.name = g.name :=
          ⟨p, mem_of_getElem? _ _ _ hp, f, hfp, rfl⟩
        cases l with
        | nil =>
          refine ⟨[f.name], by rw [hch]; exact hm1, ?_, ?_⟩
          · simp only [List.dropLast_cons₂, List.dropLast_single]
            exact List.Forall₂.cons hname List.Forall₂.nil
          · intro x hx
            simp only [List.mem_singleton] at hx
            rw [hx]
            exact hsrc
        | cons b2 l2 =>
          obtain ⟨c, hc, hfa, hsrc2⟩ := ih t k (by simp) (by omega) hrest
          refine ⟨f.name :: c, by rw [hch]; exact hm2 c hc, ?_, ?_⟩
          · rw [List.dropLast_cons₂]
            exact List.Forall₂.cons hname hfa
          · intro x hx
            rcases List.mem_cons.1 hx with rfl | hx2
            · exact hsrc
            · exact hsrc2 x hx2
theorem forall2_lower (c d : List (List Char)) (hc : ∀ x ∈ c, cstr x) (hd : ∀ y ∈ d, cstr y)
    (h : List.Forall₂ (fun x n => strcasecmp x n = 0) c d) :
    List.Forall₂ (fun x y => x.map tolower = y.map tolower) c d := by
  induction h with
  | nil => exact List.Forall₂.nil
  | @cons x y xs ys hxy _ ih =>
    exact List.Forall₂.cons
      ((strcasecmp_zero_iff x y (hc x (List.mem_cons_self _ _))
        (hd y (List.mem_cons_self _ _))).1 hxy)
      (ih (fun z hz => hc z (List.mem_cons_of_mem _ hz))
        (fun z hz => hd z (List.mem_cons_of_mem _ hz)))

theorem resolve_sref_no_assertion (sq : List strct) (chain : List sref) (s : Nat) :
    resolve_sref sq chain s ≠ .error .assertion := by
  induction chain generalizing s with
  | nil => simp [resolve_sref]
  | cons r rest ih =>
    rw [resolve_sref]
    cases hp : getstrct sq s with
    | error e =>
      unfold getstrct at hp
      cases hq : sq[s]? with
      | none =>
        simp only [hq, Except.error.injEq] at hp
        subst hp
        simp
      | some p => simp [hq] at hp
    | ok p =>
      simp only
      cases hi : find_field r.name p.fq with
      | none => simp
      | some i =>
        simp only
        cases hf : getfield sq { s := s, f := i } with
        | error e =>
          rw [getfield_eq] at hf
          cases hfl : fld sq { s := s, f := i } with
          | none =>
            simp only [hfl, Except.error.injEq] at hf
            subst hf
            simp
          | some g => simp [hfl] at hf
        | ok f =>
          simp only
          cases rest with
          | nil =>
            simp only
            split <;> simp
          | cons n more =>
            simp only
            split
            · simp
            · cases hr : f.ref with
              | none => simp
              | some fr =>
                simp only
                cases ht : fr.target with
                | none => simp
                | some t =>
                  simp only
                  have := ih t.s
                  cases hrec : resolve_sref sq (n :: more) t.s with
                  | error e =>
                    simp only [ne_eq, Except.error.injEq]
                    intro hx
                    rw [hrec, hx] at this
                    exact this rfl
                  | ok out => simp
theorem find_alias_for_chain (sq : List strct) (rank : Nat → Nat) (hac : acyclic_by sq rank)
    (fuel s : Nat) (hfuel : rank s < fuel) (hnames : ∀ p ∈ sq, ∀ f ∈ p.fq, cstr f.name)
    (aq pre : List alias_t) (off : Nat)
    (haq : aq = pre ++ mk_aliases none off (chains fuel sq s))
    (srq : List sref) (hlen : 2 ≤ srq.length) (hcs : ∀ sr ∈ srq, cstr sr.name)
    (hres : ∃ out, resolve_sref sq srq s = .ok out) :
    ∃ k a, find_alias (dotjoin (srq.dropLast.map sref.name)) aq = some k ∧
      aq[k]? = some a ∧ strcasecmp a.name (dotjoin (srq.dropLast.map sref.name)) = 0 := by
  have hv := (resolve_sref_iff sq srq s).1 hres
  obtain ⟨c, hc, hfa, hsrc⟩ := chain_valid_in_chains sq rank hac (srq.map sref.name) s fuel
    (by simpa using hlen) hfuel hv
  have hdl : (srq.map sref.name).dropLast = srq.dropLast.map sref.name := by
    simp [List.dropLast_eq_take, List.map_take]
  rw [hdl] at hfa
  have hc1 : ∀ x ∈ c, cstr x := by
    intro x hx
    obtain ⟨p, hp, f, hf, rfl⟩ := hsrc x hx
    exact hnames p hp f hf
  have hc2 : ∀ y ∈ srq.dropLast.map sref.name, cstr y := by
    intro y hy
    obtain ⟨sr, hsr, rfl⟩ := List.mem_map.1 hy
    exact hcs sr (List.dropLast_subset _ hsr)
  have hzero : strcasecmp (dotjoin c) (dotjoin (srq.dropLast.map sref.name)) = 0 :=
    (strcasecmp_zero_iff _ _ (cstr_dotjoin c hc1) (cstr_dotjoin _ hc2)).2
      (dotjoin_lower _ _ (forall2_lower _ _ hc1 hc2 hfa))
  apply find_alias_of_mem
  have hmem : dotjoin c ∈ (mk_aliases none off (chains fuel sq s)).map alias_t.name := by
    rw [mk_aliases_names]
    exact List.mem_map.2 ⟨c, hc, rfl⟩
  obtain ⟨a, ha, han⟩ := List.mem_map.1 hmem
  refine ⟨a, ?_, ?_⟩
  · rw [haq]
    exact List.mem_append_right _ ha
  · rw [han]
    exact hzero

theorem resolve_search_sntq_no_assertion (sq : List strct) (s : Nat) (aq : List alias_t)
    (l : List sent) (flags : Nat)
    (h : ∀ e ∈ l, ∀ nm, e.name = some nm → (∃ out, resolve_sref sq e.srq s = .ok out) →
      ∃ k, find_alias nm aq = some k) :
    resolve_search_sntq sq s aq l flags ≠ .error .assertion := by
  induction l generalizing flags with
  | nil => simp [resolve_search_sntq]
  | cons e es ih =>
    have ih2 := ih (h := fun x hx => h x (List.mem_cons_of_mem _ hx))
    rw [resolve_search_sntq]
    cases hr : resolve_sref sq e.srq s with
    | error x =>
      simp only [ne_eq, Except.error.injEq]
      intro hx
      rw [hx] at hr
      exact resolve_sref_no_assertion sq e.srq s hr
    | ok srq =>
      simp only
      cases hl : last_field sq srq with
      | error x =>
        simp only [ne_eq, Except.error.injEq]
        intro hx
        subst hx
        unfold last_field at hl
        cases hg : srq.getLast? with
        | none => simp [hg] at hl
        | some sr =>
          simp only [hg] at hl
          rw [getfield?_eq] at hl
          cases hsf : sr.field with
          | none => simp [hsf] at hl
          | some q =>
            simp only [hsf] at hl
            cases hq : fld sq q with
            | none => simp [hq] at hl
            | some g => simp [hq] at hl
      | ok f =>
        simp only
        cases hn : e.name with
        | none =>
          simp only
          have := ih2 (if (hasflag FIELD_ROWID f.flags || hasflag FIELD_UNIQUE f.flags) = true
            then flags ||| SEARCH_IS_UNIQUE else flags)
          cases hrec : resolve_search_sntq sq s aq es
              (if (hasflag FIELD_ROWID f.flags || hasflag FIELD_UNIQUE f.flags) = true
                then flags ||| SEARCH_IS_UNIQUE else flags) with
          | error x =>
            simp only [ne_eq, Except.error.injEq]
            intro hx
            rw [hrec, hx] at this
            exact this rfl
          | ok r => simp
        | some nm =>
          simp only
          obtain ⟨k, hk⟩ := h e (List.mem_cons_self _ _) nm hn ⟨srq, hr⟩
          rw [hk]
          simp only
          have := ih2 (if (hasflag FIELD_ROWID f.flags || hasflag FIELD_UNIQUE f.flags) = true
            then flags ||| SEARCH_IS_UNIQUE else flags)
          cases hrec : resolve_search_sntq sq s aq es
              (if (hasflag FIELD_ROWID f.flags || hasflag FIELD_UNIQUE f.flags) = true
                then flags ||| SEARCH_IS_UNIQUE else flags) with
          | error x =>
            simp only [ne_eq, Except.error.injEq]
            intro hx
            rw [hrec, hx] at this
            exact this rfl
          | ok r => simp
/-- C17: on a linked arena whose struct-typed references are acyclic, whose
field names are C strings and whose structures have at most 26 join paths
together, alias generation succeeds, and afterwards, for every structure and
every search entity whose chain has at least two segments, resolves from that
structure, and whose name is the dot-joined names of all its segments but the
last, the alias lookup of `resolve_search` finds an alias in the alias queue of
the structure, whose name agrees with the entity name under `strcasecmp`; so
`resolve_search` never stops on its assertion for a search made of such
entities and of entities without a name. -/
theorem C17_alias_lookup_finds_alias (fuel : Nat) (sq : List strct) (rank : Nat → Nat)
    (hac : acyclic_by sq rank) (hfuel : ∀ s < sq.length, rank s < fuel)
    (hcount : alias_offset fuel sq sq.length ≤ 26)
    (hnames : ∀ p ∈ sq, ∀ f ∈ p.fq, cstr f.name) :
    ∃ sq2, pass_aliases fuel sq = .ok (sq2, alias_offset fuel sq sq.length) ∧
      (∀ s p2 (e : sent) nm, sq2[s]? = some p2 → 2 ≤ e.srq.length →
        (∀ sr ∈ e.srq, cstr sr.name) → (∃ out, resolve_sref sq2 e.srq s = .ok out) →
        e.name = some nm → nm = dotjoin (e.srq.dropLast.map sref.name) →
        ∃ k a, find_alias nm p2.aq = some k ∧ p2.aq[k]? = some a ∧
          strcasecmp a.name nm = 0) ∧
      (∀ s srch,
        (∀ e ∈ srch.sntq, ∀ nm, e.name = some nm →
          2 ≤ e.srq.length ∧ (∀ sr ∈ e.srq, cstr sr.name) ∧
            nm = dotjoin (e.srq.dropLast.map sref.name)) →
        resolve_search sq2 s srch ≠ .error .assertion) := by
  obtain ⟨sq2, hpass, hfq, haq⟩ := pass_aliases_spec fuel sq rank hac hfuel hcount
  have hac2 : acyclic_by sq2 rank := acyclic_by_congr sq sq2 rank hfq hac
  have hlen : sq2.length = sq.length := by
    have := congrArg List.length hfq
    simpa using this
  have hnames2 : ∀ p ∈ sq2, ∀ f ∈ p.fq, cstr f.name := by
    intro p hp f hf
    have : p.fq ∈ sq.map strct.fq := by
      rw [← hfq]
      exact List.mem_map.2 ⟨p, hp, rfl⟩
    obtain ⟨p0, hp0, hpf⟩ := List.mem_map.1 this
    exact hnames p0 hp0 f (by rw [hpf]; exact hf)
  have key : ∀ s p2 (e : sent) nm, sq2[s]? = some p2 → 2 ≤ e.srq.length →
      (∀ sr ∈ e.srq, cstr sr.name) → (∃ out, resolve_sref sq2 e.srq s = .ok out) →
      e.name = some nm → nm = dotjoin (e.srq.dropLast.map sref.name) →
      ∃ k a, find_alias nm p2.aq = some k ∧ p2.aq[k]? = some a ∧
        strcasecmp a.name nm = 0 := by
    intro s p2 e nm hp2 hl hcs hres _ hnm
    have hs : s < sq.length := by
      rw [← hlen]
      rcases Nat.lt_or_ge s sq2.length with h1 | h1
      · exact h1
      · rw [List.getElem?_eq_none h1] at hp2
        cases hp2
    have hq := haq s
    rw [hp2, List.getElem?_eq_getElem hs] at hq
    simp only [Option.map_some', Option.some.injEq] at hq
    rw [hnm]
    exact find_alias_for_chain sq2 rank hac2 fuel s (hfuel s hs) hnames2 p2.aq _ _
      (by rw [hq, chains_congr fuel sq sq2 hfq s]) e.srq hl hcs hres
  refine ⟨sq2, hpass, key, ?_⟩
  intro s srch hall
  unfold resolve_search
  cases hp : getstrct sq2 s with
  | error x =>
    unfold getstrct at hp
    cases hq : sq2[s]? with
    | none =>
      simp only [hq, Except.error.injEq] at hp
      subst hp
      simp
    | some p => simp [hq] at hp
  | ok p2 =>
    simp only
    have hp2 := (getstrct_ok_iff sq2 s p2).1 hp
    have hno := resolve_search_sntq_no_assertion sq2 s p2.aq srch.sntq srch.flags
      (fun e he nm hn hres => by
        obtain ⟨h1, h2, h3⟩ := hall e he nm hn
        obtain ⟨k, _, hk, _⟩ := key s p2 e nm hp2 h1 h2 hres hn h3
        exact ⟨k, hk⟩)
    cases hr : resolve_search_sntq sq2 s p2.aq srch.sntq srch.flags with
    | error x =>
      simp only [ne_eq, Except.error.injEq]
      intro hx
      rw [hr, hx] at hno
      exact hno rfl
    | ok r => simp

theorem C17_alias_lookup_finds_alias_witness :
    ∃ sq2, pass_aliases 4 (annotated_arena 4 cfg_diamond) =
        .ok (sq2, alias_offset 4 (annotated_arena 4 cfg_diamond)
          (annotated_arena 4 cfg_diamond).length) ∧
      ∀ s srch,
        (∀ e ∈ srch.sntq, ∀ nm, e.name = some nm →
          2 ≤ e.srq.length ∧ (∀ sr ∈ e.srq, cstr sr.name) ∧
            nm = dotjoin (e.srq.dropLast.map sref.name)) →
        resolve_search sq2 s srch ≠ .error .assertion := by
  obtain ⟨sq2, h1, _, h3⟩ := C17_alias_lookup_finds_alias 4 (annotated_arena 4 cfg_diamond)
    (fun k => 3 - k) (acyclic_by_of_check _ _ (by decide)) (by decide) (by decide) (by decide)
  exact ⟨sq2, h1, h3⟩

/-! ### Height annotation on a forest -/

theorem strct_at_modstrct (sq : List strct) (t : Nat) (g : strct → strct) (x : Nat) :
    strct_at (modstrct sq t g) x =
      if x = t ∧ t < sq.length then g (strct_at sq x) else strct_at sq x := by
  unfold strct_at
  rw [getElem?_modstrct]
  by_cases hx : x = t
  · subst hx
    by_cases hlt : x < sq.length
    · simp [hlt]
    · simp [hlt, List.getElem?_eq_none (Nat.le_of_not_lt hlt)]
  · simp [hx]

theorem hgt_modstrct_colour (sq : List strct) (t c x : Nat) :
    hgt (modstrct sq t (fun st => { st with colour := c })) x = hgt sq x := by
  unfold hgt
  rw [strct_at_modstrct]
  split <;> rfl

theorem col_modstrct_colour (sq : List strct) (t c x : Nat) (ht : t < sq.length) :
    col (modstrct sq t (fun st => { st with colour := c })) x = if x = t then c else col sq x := by
  unfold col
  rw [strct_at_modstrct]
  by_cases hx : x = t
  · simp [hx, ht]
  · simp [hx]

theorem hgt_modstrct_visit (sq : List strct) (t c h x : Nat) (ht : t < sq.length) :
    hgt (modstrct sq t (fun st => { st with colour := c, height := st.height + h })) x =
      if x = t then hgt sq x + h else hgt sq x := by
  unfold hgt
  rw [strct_at_modstrct]
  by_cases hx : x = t
  · simp [hx, ht]
  · simp [hx]

theorem col_modstrct_visit (sq : List strct) (t c h x : Nat) (ht : t < sq.length) :
    col (modstrct sq t (fun st => { st with colour := c, height := st.height + h })) x =
      if x = t then c else col sq x := by
  unfold col
  rw [strct_at_modstrct]
  by_cases hx : x = t
  · simp [hx, ht]
  · simp [hx]

theorem modstrct_colour_same (sq : List strct) (t c : Nat) (h : col sq t = c) :
    modstrct sq t (fun st => { st with colour := c }) = sq := by
  unfold modstrct
  cases hp : sq[t]? with
  | none => rfl
  | some p =>
    simp only
    have hc : p.colour = c := by
      unfold col strct_at at h
      rw [hp] at h
      exact h
    have : ({ p with colour := c } : strct) = p := by
      cases p
      simp only at hc
      subst hc
      rfl
    rw [this]
    apply List.ext_getElem?
    intro k
    rw [List.getElem?_set]
    by_cases hk : t = k
    · subst hk
      rw [if_pos rfl, hp]
      have hlt : t < sq.length := by
        rcases Nat.lt_or_ge t sq.length with h1 | h1
        · exact h1
        · rw [List.getElem?_eq_none h1] at hp
          cases hp
      simp [hlt]
    · rw [if_neg hk]

theorem refers_of_field (g sq : List strct) (hsq : sq.map strct.fq = g.map strct.fq)
    (t : Nat) (p : strct) (hp : sq[t]? = some p) (f : field) (hf : f ∈ p.fq)
    (hty : f.type = ftype.FTYPE_STRUCT) (k : Nat) (hk : field_target f = some k) :
    refers g t k := by
  have h1 := map_eq_getElem? strct.fq g sq hsq t
  rw [hp] at h1
  cases hg : g[t]? with
  | none => simp [hg] at h1
  | some p0 =>
    simp only [hg, Option.map_some', Option.some.injEq] at h1
    exact ⟨p0, hg, f, by rw [← h1]; exact hf, hty, hk⟩

theorem reach_head (g : List strct) (t x : Nat) (h : reach g t x) :
    x = t ∨ ∃ k, refers g t k ∧ reach g k x := by
  rcases Relation.ReflTransGen.cases_head h with h1 | ⟨k, hk, hkx⟩
  · exact Or.inl h1.symm
  · exact Or.inr ⟨k, hk, hkx⟩

theorem reach_tail (g : List strct) (t x : Nat) (h : reach g t x) :
    x = t ∨ ∃ y, reach g t y ∧ refers g y x := by
  rcases Relation.ReflTransGen.cases_tail h with h1 | ⟨y, hy, hyx⟩
  · exact Or.inl h1
  · exact Or.inr ⟨y, hy, hyx⟩

theorem reach_rank (g : List strct) (rank : Nat → Nat) (hac : acyclic_by g rank) (a b : Nat)
    (h : reach g a b) : rank b ≤ rank a := by
  induction h with
  | refl => exact Nat.le_refl _
  | tail _ h2 ih => exact Nat.le_of_lt (Nat.lt_of_lt_of_le (acyclic_by_refers g rank hac _ _ h2) ih)

theorem not_reach_back (g : List strct) (rank : Nat → Nat) (hac : acyclic_by g rank) (t k : Nat)
    (h : refers g t k) : ¬ reach g k t := by
  intro hr
  have h1 := acyclic_by_refers g rank hac t k h
  have h2 := reach_rank g rank hac k t hr
  omega

theorem forest_chain (g : List strct) (hfo : forest g) (a b x : Nat) (ha : reach g a x)
    (hb : reach g b x) : reach g a b ∨ reach g b a := by
  induction ha with
  | refl => exact Or.inr hb
  | tail hay hyx ih =>
    rename_i y z
    rcases reach_tail g b z hb with h1 | ⟨y2, hby2, hy2z⟩
    · subst h1
      exact Or.inl (Relation.ReflTransGen.tail hay hyx)
    · have := hfo y y2 z hyx hy2z
      subst this
      exact ih hby2

theorem parent_in (g : List strct) (hfo : forest g) (k x y : Nat) (hxy : refers g x y)
    (hky : reach g k y) : y = k ∨ reach g k x := by
  rcases reach_tail g k y hky with h1 | ⟨y2, hky2, hy2y⟩
  · exact Or.inl h1
  · have := hfo x y2 y hxy hy2y
    subst this
    exact Or.inr hky2

theorem siblings_disjoint (g : List strct) (rank : Nat → Nat) (hac : acyclic_by g rank)
    (hfo : forest g) (t k1 k2 x : Nat) (h1 : refers g t k1) (h2 : refers g t k2)
    (hne : k1 ≠ k2) (hx1 : reach g k1 x) : ¬ reach g k2 x := by
  intro hx2
  have key : ∀ a b, refers g t a → refers g t b → a ≠ b → ¬ reach g a b := by
    intro a b ha hb hab hr
    rcases parent_in g hfo a t b hb hr with h3 | h3
    · exact hab h3.symm
    · exact not_reach_back g rank hac t a ha h3
  rcases forest_chain g hfo k1 k2 x hx1 hx2 with h | h
  · exact key k1 k2 h1 h2 hne h
  · exact key k2 k1 h2 h1 (fun e => hne e.symm) h

theorem tgt_append_single (pre : List field) (f : field) (k : Nat) :
    tgt (pre ++ [f]) k ↔
      tgt pre k ∨ (f.type = ftype.FTYPE_STRUCT ∧ field_target f = some k) := by
  unfold tgt
  constructor
  · rintro ⟨g, hg, hty, hk⟩
    rcases List.mem_append.1 hg with h1 | h1
    · exact Or.inl ⟨g, h1, hty, hk⟩
    · simp only [List.mem_singleton] at h1
      subst h1
      exact Or.inr ⟨hty, hk⟩
  · rintro (⟨g, hg, hty, hk⟩ | ⟨hty, hk⟩)
    · exact ⟨g, List.mem_append_left _ hg, hty, hk⟩
    · exact ⟨f, List.mem_append_right _ (List.mem_singleton.2 rfl), hty, hk⟩

theorem loop_inv_congr (g sq0 sq1 : List strct) (pre pre2 : List field) (h c : Nat)
    (heq : ∀ k, tgt pre2 k ↔ tgt pre k) (hinv : loop_inv g sq0 sq1 pre h c) :
    loop_inv g sq0 sq1 pre2 h c := by
  obtain ⟨h1, h2, h3⟩ := hinv
  refine ⟨h1, ?_, ?_⟩
  · intro x hx
    exact h2 x (fun k hk => hx k ((heq k).2 hk))
  · intro k hk
    exact h3 k ((heq k).1 hk)

theorem annotate_noop (fuel : Nat) (sq : List strct) (f : field) (k h c : Nat)
    (hk : field_target f = some k) (hv : k < sq.length) (hcol : col sq k = c) :
    annotate (fuel + 1) sq f.ref h c = .ok sq := by
  obtain ⟨r, tp, hr, ht, hs⟩ := field_target_some f k hk
  subst hs
  have hp : sq[tp.s]? = some sq[tp.s] := List.getElem?_eq_getElem hv
  have hc : (sq[tp.s]).colour = c := by
    unfold col strct_at at hcol
    rw [hp] at hcol
    exact hcol
  unfold annotate
  simp [hr, ht, (getstrct_ok_iff sq tp.s _).2 hp, hc]
theorem annotate_fields_spec (g : List strct) (rank : Nat → Nat) (hac : acyclic_by g rank)
    (hfo : forest g) (t h c : Nat)
    (again : List strct → Option ref → Except stop (List strct))
    (hspec : ∀ sq1 f k, f.type = ftype.FTYPE_STRUCT → field_target f = some k →
      refers g t k → sq1.map strct.fq = g.map strct.fq → col sq1 t = c →
      (∀ x, reach g k x → col sq1 x ≠ c) →
      ∃ sq2, again sq1 f.ref = .ok sq2 ∧ annot_spec g sq1 sq2 k h c)
    (hnoop : ∀ sq1 f k, f.type = ftype.FTYPE_STRUCT → field_target f = some k →
      refers g t k → sq1.map strct.fq = g.map strct.fq → col sq1 t = c → col sq1 k = c →
      again sq1 f.ref = .ok sq1)
    (sq0 : List strct) (hct : col sq0 t = c) (fs pre : List field)
    (hkids : ∀ f ∈ pre ++ fs, f.type = ftype.FTYPE_STRUCT →
      ∃ k, field_target f = some k ∧ refers g t k)
    (hfresh : ∀ k, tgt (pre ++ fs) k → ∀ x, reach g k x → col sq0 x ≠ c)
    (sq1 : List strct) (hinv : loop_inv g sq0 sq1 pre h c) :
    ∃ sq2, annotate_fields again fs sq1 = .ok sq2 ∧ loop_inv g sq0 sq2 (pre ++ fs) h c := by
  induction fs generalizing pre sq1 with
  | nil =>
    refine ⟨sq1, rfl, ?_⟩
    rw [List.append_nil]
    exact hinv
  | cons f fs ih =>
    have hassoc : pre ++ f :: fs = (pre ++ [f]) ++ fs := by simp
    have hkid_of : ∀ k, tgt pre k → refers g t k := by
      rintro k ⟨f2, hf2, hty2, hk2⟩
      obtain ⟨k2, hk3, hr⟩ := hkids f2 (List.mem_append_left _ hf2) hty2
      rw [hk2] at hk3
      cases hk3
      exact hr
    obtain ⟨hq1, hU, hT⟩ := hinv
    have hcol_t : col sq1 t = c := by
      rw [(hU t (fun k hk => not_reach_back g rank hac t k (hkid_of k hk))).2]
      exact hct
    have hnext : ∀ sq2, loop_inv g sq0 sq2 (pre ++ [f]) h c →
        ∃ sq3, annotate_fields again fs sq2 = .ok sq3 ∧
          loop_inv g sq0 sq3 (pre ++ f :: fs) h c := by
      intro sq2 hinv2
      rw [hassoc]
      exact ih (pre ++ [f]) (by rw [← hassoc]; exact hkids) (by rw [← hassoc]; exact hfresh)
        sq2 hinv2
    rw [annotate_fields]
    by_cases hty : ftype.FTYPE_STRUCT = f.type
    · rw [if_pos hty]
      obtain ⟨k, hk, hrk⟩ := hkids f (List.mem_append_right _ (List.mem_cons_self _ _)) hty.symm
      by_cases hdone : tgt pre k
      · rw [hnoop sq1 f k hty.symm hk hrk hq1 hcol_t ((hT k hdone).1 k Relation.ReflTransGen.refl)]
        simp only
        apply hnext
        apply loop_inv_congr g sq0 sq1 pre _ h c _ ⟨hq1, hU, hT⟩
        intro k2
        rw [tgt_append_single]
        constructor
        · rintro (h1 | ⟨_, h1⟩)
          · exact h1
          · rw [hk] at h1
            cases h1
            exact hdone
        · exact fun h1 => Or.inl h1
      · have hdisj : ∀ x, reach g k x → ∀ k2, tgt pre k2 → ¬ reach g k2 x := by
          intro x hx k2 hk2 hx2
          have hne : k2 ≠ k := fun e => hdone (e ▸ hk2)
          exact siblings_disjoint g rank hac hfo t k2 k x (hkid_of k2 hk2) hrk hne hx2 hx
        have hfr : ∀ x, reach g k x → col sq1 x ≠ c := by
          intro x hx
          rw [(hU x (hdisj x hx)).2]
          exact hfresh k ⟨f, List.mem_append_right _ (List.mem_cons_self _ _), hty.symm, hk⟩ x hx
        obtain ⟨sq2, hcall, hA1, hA2, hA3, hA4, hA5⟩ :=
          hspec sq1 f k hty.symm hk hrk hq1 hcol_t hfr
        rw [hcall]
        simp only
        apply hnext
        refine ⟨hA1, ?_, ?_⟩
        · intro x hx
          have hnk : ¬ reach g k x := hx k ((tgt_append_single pre f k).2 (Or.inr ⟨hty.symm, hk⟩))
          have h1 := hA2 x hnk
          have h2 := hU x (fun k2 hk2 => hx k2 ((tgt_append_single pre f k2).2 (Or.inl hk2)))
          exact ⟨h1.1.trans h2.1, h1.2.trans h2.2⟩
        · intro k2 hk2
          rcases (tgt_append_single pre f k2).1 hk2 with hold | ⟨_, hnew⟩
          · obtain ⟨hC, hH, hE⟩ := hT k2 hold
            have hout : ∀ x, reach g k2 x → ¬ reach g k x := fun x hx hx2 => hdisj x hx2 k2 hold hx
            refine ⟨?_, ?_, ?_⟩
            · intro x hx
              rw [(hA2 x (hout x hx)).2]
              exact hC x hx
            · rw [(hA2 k2 (hout k2 Relation.ReflTransGen.refl)).1]
              exact hH
            · intro x y hx hxy
              have hy : reach g k2 y := Relation.ReflTransGen.tail hx hxy
              rw [(hA2 x (hout x hx)).1, (hA2 y (hout y hy)).1]
              exact hE x y hx hxy
          · rw [hk] at hnew
            cases hnew
            refine ⟨hA3, ?_, ?_⟩
            · rw [hA4, (hU k (hdisj k Relation.ReflTransGen.refl)).1]
            · intro x y hx hxy
              have hy : reach g k y := Relation.ReflTransGen.tail hx hxy
              have := hA5 x y hx hxy
              rw [(hU x (hdisj x hx)).1, (hU y (hdisj y hy)).1] at this
              exact this
    · rw [if_neg hty]
      apply hnext
      apply loop_inv_congr g sq0 sq1 pre _ h c _ ⟨hq1, hU, hT⟩
      intro k2
      rw [tgt_append_single]
      constructor
      · rintro (h1 | ⟨h1, _⟩)
        · exact h1
        · exact absurd h1.symm hty
      · exact fun h1 => Or.inl h1
theorem refers_target_lt (g : List strct) (rank : Nat → Nat) (hac : acyclic_by g rank)
    (a b : Nat) (h : refers g a b) : b < g.length := by
  obtain ⟨p, hp, f, hf, hty, ht⟩ := h
  obtain ⟨t, ht2, hlt, _⟩ := hac a p hp f hf hty
  rw [ht] at ht2
  cases ht2
  exact hlt

theorem tgt_iff_refers (g sq : List strct) (hsq : sq.map strct.fq = g.map strct.fq) (t : Nat)
    (p : strct) (hp : sq[t]? = some p) (k : Nat) : tgt p.fq k ↔ refers g t k := by
  have h1 := map_eq_getElem? strct.fq g sq hsq t
  rw [hp] at h1
  cases hg : g[t]? with
  | none => simp [hg] at h1
  | some p0 =>
    simp only [hg, Option.map_some', Option.some.injEq] at h1
    unfold tgt refers
    rw [hg, h1]
    constructor
    · rintro ⟨f, hf, hty, hk⟩
      exact ⟨p0, rfl, f, hf, hty, hk⟩
    · rintro ⟨p1, hp1, f, hf, hty, hk⟩
      cases hp1
      exact ⟨f, hf, hty, hk⟩

theorem annotate_spec (g : List strct) (rank : Nat → Nat) (hac : acyclic_by g rank)
    (hfo : forest g) (fuel : Nat) (sq : List strct) (f : field) (t h c : Nat)
    (hsq : sq.map strct.fq = g.map strct.fq) (hft : field_target f = some t)
    (hlt : t < g.length) (hfuel : rank t < fuel)
    (hfresh : ∀ x, reach g t x → col sq x ≠ c) :
    ∃ sq2, annotate fuel sq f.ref h c = .ok sq2 ∧ annot_spec g sq sq2 t h c := by
  induction fuel generalizing sq f t h with
  | zero => omega
  | succ fuel ih =>
    obtain ⟨r, tp, hr, htp, hs⟩ := field_target_some f t hft
    subst hs
    have hlen : sq.length = g.length := by
      have := congrArg List.length hsq
      simpa using this
    have hv : tp.s < sq.length := by omega
    have hp : sq[tp.s]? = some sq[tp.s] := List.getElem?_eq_getElem hv
    have hcne : (sq[tp.s]).colour ≠ c := by
      have := hfresh tp.s Relation.ReflTransGen.refl
      unfold col strct_at at this
      rw [hp] at this
      exact this
    have hkid : ∀ k, tgt (sq[tp.s]).fq k ↔ refers g tp.s k := tgt_iff_refers g sq hsq tp.s _ hp
    have hfqeq : (sq[tp.s]).fq = (g[tp.s]).fq := by
      have h1 := map_eq_getElem? strct.fq g sq hsq tp.s
      rw [hp, List.getElem?_eq_getElem hlt] at h1
      simpa using h1
    have hne : ∀ k, refers g tp.s k → k ≠ tp.s := by
      intro k hk e
      have := acyclic_by_refers g rank hac _ _ hk
      rw [e] at this
      omega
    have hnr : ∀ k x, refers g tp.s k → reach g k x → x ≠ tp.s := by
      intro k x hk hx e
      rw [e] at hx
      exact not_reach_back g rank hac tp.s k hk hx
    generalize hsq0 : modstrct sq tp.s
      (fun st => { st with colour := c, height := st.height + h }) = sq0
    have hh0 : ∀ x, hgt sq0 x = if x = tp.s then hgt sq x + h else hgt sq x := by
      intro x
      rw [← hsq0]
      exact hgt_modstrct_visit sq tp.s c h x hv
    have hc0 : ∀ x, col sq0 x = if x = tp.s then c else col sq x := by
      intro x
      rw [← hsq0]
      exact col_modstrct_visit sq tp.s c h x hv
    have hfq0 : sq0.map strct.fq = g.map strct.fq := by
      rw [← hsq0]
      exact Eq.trans (modstrct_map strct.fq sq tp.s _ (fun _ => rfl)) hsq
    obtain ⟨sq2, hloop, hq2, hU, hT⟩ := annotate_fields_spec g rank hac hfo tp.s (h + 1) c
      (fun sq2 r2 => annotate fuel sq2 r2 (h + 1) c)
      (fun sq1 f2 k _ hk hrk hq1 _ hfr =>
        ih sq1 f2 k (h + 1) hq1 hk (refers_target_lt g rank hac _ _ hrk)
          (by have := acyclic_by_refers g rank hac _ _ hrk; omega) hfr)
      (fun sq1 f2 k _ hk hrk hq1 _ hck => by
        have hr1 := acyclic_by_refers g rank hac _ _ hrk
        have hl1 : sq1.length = g.length := by
          have := congrArg List.length hq1
          simpa using this
        cases fuel with
        | zero => omega
        | succ n =>
          exact annotate_noop n sq1 f2 k (h + 1) c hk
            (by rw [hl1]; exact refers_target_lt g rank hac _ _ hrk) hck)
      sq0 (by rw [hc0]; simp) (sq[tp.s]).fq []
      (fun f2 hf2 hty2 => by
        have hf3 : f2 ∈ (sq[tp.s]).fq := by simpa using hf2
        obtain ⟨k, hk, _⟩ := hac tp.s g[tp.s] (List.getElem?_eq_getElem hlt) f2
          (by rw [← hfqeq]; exact hf3) hty2
        exact ⟨k, hk, (hkid k).1 ⟨f2, hf3, hty2, hk⟩⟩)
      (fun k hk x hx => by
        have hrk := (hkid k).1 (by simpa using hk)
        rw [hc0, if_neg (hnr k x hrk hx)]
        exact hfresh x (Relation.ReflTransGen.head hrk hx))
      sq0 ⟨hfq0, fun x _ => ⟨rfl, rfl⟩, fun k hk => by
        obtain ⟨f2, hf2, _⟩ := hk
        cases hf2⟩
    simp only [List.nil_append] at hU hT
    refine ⟨sq2, ?_, hq2, ?_, ?_, ?_, ?_⟩
    · unfold annotate
      simp only [hr, htp, (getstrct_ok_iff sq tp.s _).2 hp, if_neg hcne, hsq0]
      exact hloop
    · intro x hx
      have hxt : x ≠ tp.s := fun e => hx (e ▸ Relation.ReflTransGen.refl)
      have h1 := hU x (fun k hk hkx => hx (Relation.ReflTransGen.head ((hkid k).1 hk) hkx))
      rw [hh0, hc0, if_neg hxt, if_neg hxt] at h1
      exact h1
    · intro x hx
      rcases reach_head g tp.s x hx with h1 | ⟨k, hk, hkx⟩
      · rw [h1, (hU tp.s (fun k hk hkx => hnr k tp.s ((hkid k).1 hk) hkx rfl)).2, hc0,
          if_pos rfl]
      · exact (hT k ((hkid k).2 hk)).1 x hkx
    · rw [(hU tp.s (fun k hk hkx => hnr k tp.s ((hkid k).1 hk) hkx rfl)).1, hh0, if_pos rfl]
    · intro x y hx hxy
      rcases reach_head g tp.s x hx with h1 | ⟨k, hk, hkx⟩
      · rw [h1] at hxy ⊢
        have hy := (hT y ((hkid y).2 hxy)).2.1
        have hx2 := (hU tp.s (fun k hk hkx => hnr k tp.s ((hkid k).1 hk) hkx rfl)).1
        rw [hh0, if_neg (hne y hxy)] at hy
        rw [hh0, if_pos rfl] at hx2
        omega
      · have hE := (hT k ((hkid k).2 hk)).2.2 x y hkx hxy
        have hky : reach g k y := Relation.ReflTransGen.tail hkx hxy
        rw [hh0, hh0, if_neg (hnr k x hk hkx), if_neg (hnr k y hk hky)] at hE
        exact hE

theorem pass_annotate_fields_eq (fuel s c : Nat) (fs : List field) (sq : List strct) :
    pass_annotate_fields fuel s c fs sq =
      annotate_fields
        (fun sq2 r2 => annotate fuel (modstrct sq2 s (fun q => { q with colour := c })) r2 1 c)
        fs sq := by
  induction fs generalizing sq with
  | nil => rfl
  | cons f fs ih =>
    rw [pass_annotate_fields, annotate_fields]
    split
    · cases annotate fuel (modstrct sq s (fun q => { q with colour := c })) f.ref 1 c with
      | error e => rfl
      | ok sq2 => exact ih sq2
    · exact ih sq

theorem annotate_fields_no_struct (again : List strct → Option ref → Except stop (List strct))
    (fs : List field) (sq : List strct) (h : ∀ f ∈ fs, f.type ≠ ftype.FTYPE_STRUCT) :
    annotate_fields again fs sq = .ok sq := by
  induction fs with
  | nil => rfl
  | cons f fs ih =>
    rw [annotate_fields, if_neg (fun e => h f (List.mem_cons_self _ _) e.symm)]
    exact ih (fun g hg => h g (List.mem_cons_of_mem _ hg))

theorem annotate_fields_recolour (fuel s c : Nat) (fs : List field) (sq : List strct)
    (h : ∃ f ∈ fs, f.type = ftype.FTYPE_STRUCT) :
    annotate_fields
        (fun sq2 r2 => annotate fuel (modstrct sq2 s (fun q => { q with colour := c })) r2 1 c)
        fs sq =
      annotate_fields
        (fun sq2 r2 => annotate fuel (modstrct sq2 s (fun q => { q with colour := c })) r2 1 c)
        fs (modstrct sq s (fun q => { q with colour := c })) := by
  induction fs with
  | nil =>
    obtain ⟨f, hf, _⟩ := h
    cases hf
  | cons f fs ih =>
    rw [annotate_fields, annotate_fields]
    by_cases hty : ftype.FTYPE_STRUCT = f.type
    · rw [if_pos hty, if_pos hty]
      have hidem : modstrct (modstrct sq s (fun q => { q with colour := c })) s
          (fun q => { q with colour := c }) = modstrct sq s (fun q => { q with colour := c }) := by
        by_cases hs : s < sq.length
        · apply modstrct_colour_same
          rw [col_modstrct_colour sq s c s hs, if_pos rfl]
        · unfold modstrct
          simp [List.getElem?_eq_none (Nat.le_of_not_lt hs)]
      rw [hidem]
    · rw [if_neg hty, if_neg hty]
      apply ih
      obtain ⟨f2, hf2, hty2⟩ := h
      rcases List.mem_cons.1 hf2 with rfl | hf3
      · exact absurd hty2.symm hty
      · exact ⟨f2, hf3, hty2⟩

theorem annot_spec_of_loop (g : List strct) (rank : Nat → Nat) (hac : acyclic_by g rank)
    (sq sq0 sq2 : List strct) (fq : List field) (t h c : Nat)
    (hkid : ∀ k, tgt fq k ↔ refers g t k)
    (hh0 : ∀ x, hgt sq0 x = if x = t then hgt sq x + h else hgt sq x)
    (hc0 : ∀ x, col sq0 x = if x = t then c else col sq x)
    (hinv : loop_inv g sq0 sq2 fq (h + 1) c) : annot_spec g sq sq2 t h c := by
  obtain ⟨hq2, hU, hT⟩ := hinv
  have hne : ∀ k, refers g t k → k ≠ t := by
    intro k hk e
    have := acyclic_by_refers g rank hac _ _ hk
    rw [e] at this
    omega
  have hnr : ∀ k x, refers g t k → reach g k x → x ≠ t := by
    intro k x hk hx e
    rw [e] at hx
    exact not_reach_back g rank hac t k hk hx
  refine ⟨hq2, ?_, ?_, ?_, ?_⟩
  · intro x hx
    have hxt : x ≠ t := fun e => hx (e ▸ Relation.ReflTransGen.refl)
    have h1 := hU x (fun k hk hkx => hx (Relation.ReflTransGen.head ((hkid k).1 hk) hkx))
    rw [hh0, hc0, if_neg hxt, if_neg hxt] at h1
    exact h1
  · intro x hx
    rcases reach_head g t x hx with h1 | ⟨k, hk, hkx⟩
    · rw [h1, (hU t (fun k hk hkx => hnr k t ((hkid k).1 hk) hkx rfl)).2, hc0, if_pos rfl]
    · exact (hT k ((hkid k).2 hk)).1 x hkx
  · rw [(hU t (fun k hk hkx => hnr k t ((hkid k).1 hk) hkx rfl)).1, hh0, if_pos rfl]
  · intro x y hx hxy
    rcases reach_head g t x hx with h1 | ⟨k, hk, hkx⟩
    · rw [h1] at hxy ⊢
      have hy := (hT y ((hkid y).2 hxy)).2.1
      have hx2 := (hU t (fun k hk hkx => hnr k t ((hkid k).1 hk) hkx rfl)).1
      rw [hh0, if_neg (hne y hxy)] at hy
      rw [hh0, if_pos rfl] at hx2
      omega
    · have hE := (hT k ((hkid k).2 hk)).2.2 x y hkx hxy
      have hky : reach g k y := Relation.ReflTransGen.tail hkx hxy
      rw [hh0, hh0, if_neg (hnr k x hk hkx), if_neg (hnr k y hk hky)] at hE
      exact hE
theorem pass_fields_spec (g : List strct) (rank : Nat → Nat) (hac : acyclic_by g rank)
    (hfo : forest g) (fuel : Nat) (hfuel : ∀ a b, refers g a b → rank b < fuel)
    (sq : List strct) (hsq : sq.map strct.fq = g.map strct.fq) (s c : Nat) (p : strct)
    (hp : sq[s]? = some p) (hfresh : ∀ x, col sq x ≠ c) :
    ∃ sq2, pass_annotate_fields fuel s c p.fq sq = .ok sq2 ∧
      (((¬ ∃ k, refers g s k) ∧ sq2 = sq) ∨
        ((∃ k, refers g s k) ∧ annot_spec g sq sq2 s 0 c)) := by
  have hkid : ∀ k, tgt p.fq k ↔ refers g s k := tgt_iff_refers g sq hsq s p hp
  have hlen : sq.length = g.length := by
    have := congrArg List.length hsq
    simpa using this
  have hs : s < sq.length := by
    rcases Nat.lt_or_ge s sq.length with h1 | h1
    · exact h1
    · rw [List.getElem?_eq_none h1] at hp
      cases hp
  have hfqeq : p.fq = (g[s]).fq := by
    have h1 := map_eq_getElem? strct.fq g sq hsq s
    rw [hp, List.getElem?_eq_getElem (by omega)] at h1
    simpa using h1
  have hkids : ∀ f ∈ p.fq, f.type = ftype.FTYPE_STRUCT →
      ∃ k, field_target f = some k ∧ refers g s k := by
    intro f hf hty
    obtain ⟨k, hk, _⟩ := hac s g[s] (List.getElem?_eq_getElem (by omega)) f
      (by rw [← hfqeq]; exact hf) hty
    exact ⟨k, hk, (hkid k).1 ⟨f, hf, hty, hk⟩⟩
  rw [pass_annotate_fields_eq]
  by_cases hex : ∃ k, refers g s k
  · obtain ⟨k0, hk0⟩ := hex
    obtain ⟨f0, hf0, hty0, _⟩ := (hkid k0).2 hk0
    rw [annotate_fields_recolour fuel s c p.fq sq ⟨f0, hf0, hty0⟩]
    generalize hsq0 : modstrct sq s (fun q => { q with colour := c }) = sq0
    have hh0 : ∀ x, hgt sq0 x = if x = s then hgt sq x + 0 else hgt sq x := by
      intro x
      rw [← hsq0, hgt_modstrct_colour]
      split <;> rfl
    have hc0 : ∀ x, col sq0 x = if x = s then c else col sq x := by
      intro x
      rw [← hsq0]
      exact col_modstrct_colour sq s c x hs
    have hfq0 : sq0.map strct.fq = g.map strct.fq := by
      rw [← hsq0]
      exact Eq.trans (modstrct_map strct.fq sq s _ (fun _ => rfl)) hsq
    obtain ⟨sq2, hloop, hinv⟩ := annotate_fields_spec g rank hac hfo s 1 c
      (fun sq2 r2 => annotate fuel (modstrct sq2 s (fun q => { q with colour := c })) r2 1 c)
      (fun sq1 f k _ hk hrk hq1 hcs hfr => by
        show ∃ sq2, annotate fuel (modstrct sq1 s (fun q => { q with colour := c })) f.ref 1 c =
          .ok sq2 ∧ annot_spec g sq1 sq2 k 1 c
        rw [modstrct_colour_same sq1 s c hcs]
        exact annotate_spec g rank hac hfo fuel sq1 f k 1 c hq1 hk
          (refers_target_lt g rank hac _ _ hrk) (hfuel s k hrk) hfr)
      (fun sq1 f k _ hk hrk hq1 hcs hck => by
        show annotate fuel (modstrct sq1 s (fun q => { q with colour := c })) f.ref 1 c = .ok sq1
        rw [modstrct_colour_same sq1 s c hcs]
        have hr1 := hfuel s k hrk
        have hl1 : sq1.length = g.length := by
          have := congrArg List.length hq1
          simpa using this
        cases fuel with
        | zero => omega
        | succ n =>
          exact annotate_noop n sq1 f k 1 c hk
            (by rw [hl1]; exact refers_target_lt g rank hac _ _ hrk) hck)
      sq0 (by rw [hc0]; simp) p.fq []
      (fun f hf hty => hkids f (by simpa using hf) hty)
      (fun k hk x hx => by
        have hrk := (hkid k).1 (by simpa using hk)
        have hxs : x ≠ s := by
          intro e
          rw [e] at hx
          exact not_reach_back g rank hac s k hrk hx
        rw [hc0, if_neg hxs]
        exact hfresh x)
      sq0 ⟨hfq0, fun x _ => ⟨rfl, rfl⟩, fun k hk => by
        obtain ⟨f2, hf2, _⟩ := hk
        cases hf2⟩
    simp only [List.nil_append] at hinv
    exact ⟨sq2, hloop, Or.inr ⟨⟨k0, hk0⟩,
      annot_spec_of_loop g rank hac sq sq0 sq2 p.fq s 0 c hkid hh0 hc0 hinv⟩⟩
  · refine ⟨sq, annotate_fields_no_struct _ p.fq sq ?_, Or.inl ⟨hex, rfl⟩⟩
    intro f hf hty
    obtain ⟨k, _, hrk⟩ := hkids f hf hty
    exact hex ⟨k, hrk⟩
theorem tailq_foreach_range'_total {σ : Type} (body : σ → Nat → Except stop σ)
    (inv : Nat → σ → Prop) (n : Nat)
    (hbody : ∀ i st, i < n → inv i st → ∃ st2, body st i = .ok st2 ∧ inv (i + 1) st2)
    (k a : Nat) (st : σ) (hak : a + k = n) (h0 : inv a st) :
    ∃ st2, tailq_foreach body (List.range' a k) st = .ok st2 ∧ inv n st2 := by
  induction k generalizing a st with
  | zero =>
    have : a = n := by omega
    subst this
    exact ⟨st, rfl, h0⟩
  | succ k ih =>
    obtain ⟨st3, hb, hinv3⟩ := hbody a st (by omega) h0
    rw [List.range'_succ, tailq_foreach, hb]
    exact ih (a + 1) st3 (by omega) hinv3

theorem tailq_foreach_range_total {σ : Type} (body : σ → Nat → Except stop σ)
    (inv : Nat → σ → Prop) (n : Nat)
    (hbody : ∀ i st, i < n → inv i st → ∃ st2, body st i = .ok st2 ∧ inv (i + 1) st2)
    (st : σ) (h0 : inv 0 st) :
    ∃ st2, tailq_foreach body (List.range n) st = .ok st2 ∧ inv n st2 := by
  rw [List.range_eq_range']
  exact tailq_foreach_range'_total body inv n hbody n 0 st (by omega) h0

theorem pass_annotate_strct_spec (g : List strct) (rank : Nat → Nat) (hac : acyclic_by g rank)
    (hfo : forest g) (fuel : Nat) (hfuel : ∀ a b, refers g a b → rank b < fuel)
    (s : Nat) (hs : s < g.length) (st : List strct × Nat) (hinv : pass_inv g s st) :
    ∃ st2, pass_annotate_strct fuel st s = .ok st2 ∧ pass_inv g (s + 1) st2 := by
  obtain ⟨hq, hc1, hcol, hedge, hdone⟩ := hinv
  have hlen : st.1.length = g.length := by
    have := congrArg List.length hq
    simpa using this
  have hp : st.1[s]? = some st.1[s] := List.getElem?_eq_getElem (by omega)
  have hcs : col st.1 s = (st.1[s]).colour := by
    unfold col strct_at
    rw [hp]
  unfold pass_annotate_strct
  rw [(getstrct_ok_iff st.1 s _).2 hp]
  simp only
  by_cases hz : (st.1[s]).colour ≠ 0
  · rw [if_pos hz]
    refine ⟨st, rfl, hq, hc1, hcol, hedge, ?_⟩
    intro j hj hex
    rcases Nat.lt_succ_iff_lt_or_eq.1 hj with h1 | h1
    · exact hdone j h1 hex
    · rw [h1, hcs]
      exact hz
  · rw [if_neg hz]
    obtain ⟨sq2, hrun, hres⟩ := pass_fields_spec g rank hac hfo fuel hfuel st.1 hq s st.2
      st.1[s] hp (fun x => Nat.ne_of_lt (hcol x))
    rw [hrun]
    refine ⟨(sq2, st.2 + 1), rfl, ?_⟩
    rcases hres with ⟨hno, hsame⟩ | ⟨_, hA1, hA2, hA3, hA4, hA5⟩
    · subst hsame
      refine ⟨hq, by simp only; omega, fun x => Nat.lt_succ_of_lt (hcol x), hedge, ?_⟩
      intro j hj hex
      rcases Nat.lt_succ_iff_lt_or_eq.1 hj with h1 | h1
      · exact hdone j h1 hex
      · rw [h1] at hex
        exact absurd hex hno
    · have hcol2 : ∀ x, col sq2 x = st.2 ∨ col sq2 x = col st.1 x := by
        intro x
        by_cases hx : reach g s x
        · exact Or.inl (hA3 x hx)
        · exact Or.inr (hA2 x hx).2
      refine ⟨hA1, by simp only; omega, ?_, ?_, ?_⟩
      · intro x
        simp only
        rcases hcol2 x with h1 | h1
        · omega
        · rw [h1]
          exact Nat.lt_succ_of_lt (hcol x)
      · intro x y hxy
        simp only
        obtain ⟨hle, hlt⟩ := hedge x y hxy
        by_cases hx : reach g s x
        · have := hA5 x y hx hxy
          constructor
          · omega
          · intro _
            omega
        · have hxu := hA2 x hx
          have hyu : hgt sq2 y = hgt st.1 y := by
            by_cases hy : reach g s y
            · rcases parent_in g hfo s x y hxy hy with h1 | h1
              · rw [h1, hA4]
                rfl
              · exact absurd h1 hx
            · exact (hA2 y hy).1
          rw [hxu.1, hxu.2, hyu]
          exact ⟨hle, hlt⟩
      · intro j hj hex
        simp only
        rcases Nat.lt_succ_iff_lt_or_eq.1 hj with h1 | h1
        · rcases hcol2 j with h2 | h2
          · omega
          · rw [h2]
            exact hdone j h1 hex
        · rw [h1, hA3 s Relation.ReflTransGen.refl]
          omega
theorem hgt_col_zero (g : List strct) (hz : ∀ p ∈ g, p.height = 0 ∧ p.colour = 0) (x : Nat) :
    hgt g x = 0 ∧ col g x = 0 := by
  unfold hgt col strct_at
  cases hp : g[x]? with
  | none => exact ⟨rfl, rfl⟩
  | some p => exact hz p (mem_of_getElem? _ _ _ hp)

theorem pass_annotate_forest (g : List strct) (rank : Nat → Nat) (hac : acyclic_by g rank)
    (hfo : forest g) (fuel : Nat) (hfuel : ∀ a b, refers g a b → rank b < fuel)
    (hz : ∀ p ∈ g, p.height = 0 ∧ p.colour = 0) (hpos : 0 < g.length) :
    ∃ sq2, pass_annotate fuel g = .ok sq2 ∧ sq2.map strct.fq = g.map strct.fq ∧
      ∀ S T, refers g S T → hgt sq2 S + 1 ≤ hgt sq2 T := by
  obtain ⟨st2, hrun, hq, _, _, hedge, hdone⟩ :=
    tailq_foreach_range_total (pass_annotate_strct fuel) (pass_inv g) g.length
      (fun i st hi hinv => pass_annotate_strct_spec g rank hac hfo fuel hfuel i hi st hinv)
      (g, 1) ⟨rfl, Nat.le_refl 1, fun x => by rw [(hgt_col_zero g hz x).2]; exact Nat.one_pos,
        fun x y _ => ⟨by rw [(hgt_col_zero g hz x).1]; exact Nat.zero_le _,
          fun hc => absurd (hgt_col_zero g hz x).2 hc⟩,
        fun j hj => absurd hj (Nat.not_lt_zero j)⟩
  refine ⟨st2.1, ?_, hq, ?_⟩
  · unfold pass_annotate
    rw [hrun]
    simp [hpos]
  · intro S T hST
    exact (hedge S T hST).2 (hdone S (refers_lt g S T hST) ⟨T, hST⟩)

theorem pass_recursive_rank (fuel : Nat) (sq : List strct)
    (h : pass_recursive fuel sq (List.range sq.length) = .ok ()) :
    ∃ rank : Nat → Nat, acyclic_by sq rank ∧ ∀ a b, refers sq a b → rank b < fuel := by
  classical
  have hchk := pass_recursive_checked fuel sq h
  have hpos : ∀ x (hs : ∃ n, explore n sq x), 1 ≤ Nat.find hs := by
    intro x hs
    have := Nat.find_spec hs
    cases hm : Nat.find hs with
    | zero =>
      rw [hm] at this
      cases this
    | succ k => omega
  refine ⟨fun s => (if hs : ∃ n, explore n sq s then Nat.find hs else 0) - 1, ?_, ?_⟩
  · intro s p hp f hf hty
    have hlt : s < sq.length := by
      rcases Nat.lt_or_ge s sq.length with h1 | h1
      · exact h1
      · rw [List.getElem?_eq_none h1] at hp
        cases hp
    have hs := recursion_checked_explore sq hchk s hlt
    have hspec := Nat.find_spec hs
    simp only [dif_pos hs]
    cases hm : Nat.find hs with
    | zero =>
      rw [hm] at hspec
      cases hspec
    | succ k =>
      rw [hm] at hspec
      obtain ⟨p2, hp2, hall⟩ := hspec
      rw [hp] at hp2
      cases hp2
      obtain ⟨t, ht, hex⟩ := hall f hf hty
      refine ⟨t, ht, explore_lt sq k t hex, ?_⟩
      have ht2 : ∃ n, explore n sq t := ⟨k, hex⟩
      rw [dif_pos ht2]
      have h1 := Nat.find_min' ht2 hex
      have h2 := hpos t ht2
      omega
  · rintro a b ⟨p, hp, f, hf, hty, hb⟩
    have hlt : a < sq.length := by
      rcases Nat.lt_or_ge a sq.length with h1 | h1
      · exact h1
      · rw [List.getElem?_eq_none h1] at hp
        cases hp
    have hc := pass_recursive_fields_checked fuel sq a p.fq
      (pass_recursive_mem fuel sq _ h a (List.mem_range.2 hlt) p hp) f hf hty
    obtain ⟨x, t, hx, hxt, _, hex⟩ := check_recursive_true fuel sq f.ref a hc
    have hbt : t.s = b := by
      unfold field_target at hb
      rw [hx] at hb
      simp only [hxt, Option.map_some', Option.some.injEq] at hb
      exact hb
    rw [hbt] at hex
    have hb2 : ∃ n, explore n sq b := ⟨fuel, hex⟩
    simp only [dif_pos hb2]
    have h1 := Nat.find_min' hb2 hex
    have h2 := hpos b hb2
    omega

theorem refers_congr (sq sq2 : List strct) (h : sq2.map strct.fq = sq.map strct.fq) (S T : Nat) :
    refers sq2 S T ↔ refers sq S T := by
  have h1 := map_eq_getElem? strct.fq sq sq2 h S
  unfold refers
  constructor
  · rintro ⟨p, hp, f, hf, hty, ht⟩
    rw [hp] at h1
    cases hq : sq[S]? with
    | none => simp [hq] at h1
    | some q =>
      simp only [hq, Option.map_some', Option.some.injEq] at h1
      exact ⟨q, rfl, f, by rw [← h1]; exact hf, hty, ht⟩
  · rintro ⟨p, hp, f, hf, hty, ht⟩
    rw [hp] at h1
    cases hq : sq2[S]? with
    | none => simp [hq] at h1
    | some q =>
      simp only [hq, Option.map_some', Option.some.injEq] at h1
      exact ⟨q, rfl, f, by rw [h1]; exact hf, hty, ht⟩
theorem refers_iff_b (sq : List strct) (S T : Nat) : refers sq S T ↔ refers_b sq S T = true := by
  unfold refers refers_b
  cases hp : sq[S]? with
  | none => simp
  | some p =>
    simp only [Option.some.injEq, exists_eq_left', List.any_eq_true, Bool.and_eq_true,
      decide_eq_true_eq]

theorem forest_of_check (sq : List strct) (h : forest_check sq = true) : forest sq := by
  intro S S2 T h1 h2
  have hS := refers_lt sq S T h1
  have hS2 := refers_lt sq S2 T h2
  obtain ⟨p, hp, f, hf, hty, ht⟩ := h1
  unfold forest_check at h
  have h3 := List.all_eq_true.1 (List.all_eq_true.1 h S (List.mem_range.2 hS)) S2
    (List.mem_range.2 hS2)
  simp only [hp] at h3
  have h4 := List.all_eq_true.1 h3 f hf
  simp only [hty, bne_self_eq_false, ht, Bool.false_or, Bool.or_eq_true, Bool.not_eq_true',
    decide_eq_true_eq] at h4
  rcases h4 with h5 | h5
  · rw [(refers_iff_b sq S2 T).1 h2] at h5
    cases h5
  · exact h5

theorem hgt_congr (sq sq2 : List strct) (h : sq2.map strct.height = sq.map strct.height)
    (x : Nat) : hgt sq2 x = hgt sq x := by
  have h1 := map_eq_getElem? strct.height sq sq2 h x
  unfold hgt strct_at
  cases hp : sq[x]? with
  | none =>
    cases hq : sq2[x]? with
    | none => rfl
    | some q => simp [hp, hq] at h1
  | some p =>
    cases hq : sq2[x]? with
    | none => simp [hp, hq] at h1
    | some q =>
      simp only [hp, hq, Option.map_some', Option.some.injEq] at h1
      exact h1

/-- C19: when `parse_link` succeeds (so the references are linked and have
passed the recursion check) on a configuration whose heights and colours are
all zero and in which each structure is the target of struct-typed fields of at
most one structure, then whenever `S` has a struct-typed field that refers to
`T`, the height of `T` is at least the height of `S` plus one, and `T` precedes
`S` in the final structure queue.  The configuration is arbitrary, so this
holds for every input order of the structures. -/
theorem C19_forest_target_higher_and_first
    (qsort : (Nat → Nat → Int) → List Nat → List Nat) (fuel : Nat) (cfg : config) (l : linked)
    (h : parse_link qsort fuel cfg = .ok l)
    (hq : qsort_ok qsort (parse_cmp_at l.sq))
    (hz : ∀ p ∈ cfg.sq, p.height = 0 ∧ p.colour = 0)
    (hfo : forest l.sq) :
    ∀ S T, refers l.sq S T → hgt l.sq S + 1 ≤ hgt l.sq T ∧ precedes l.order T S := by
  intro S T hST
  obtain ⟨hpasses, horder⟩ := parse_link_ok qsort fuel cfg l h
  obtain ⟨sq1, sq2, st, sq3, sq4, h1, h2, h3, _, _, _, _⟩ :=
    parse_link_passes_ok fuel cfg l.sq hpasses
  obtain ⟨sq1b, sq2b, h1b, h3b, hfq, hht⟩ := parse_link_passes_frame fuel cfg l.sq hpasses
  rw [h1] at h1b
  cases h1b
  rw [h3] at h3b
  cases h3b
  obtain ⟨rank, hac, hfuel⟩ := pass_recursive_rank fuel sq1 h2
  have hfo1 : forest sq1 := by
    intro a b c hab hbc
    exact hfo a b c ((refers_congr sq1 l.sq hfq a c).2 hab) ((refers_congr sq1 l.sq hfq b c).2 hbc)
  have hST1 : refers sq1 S T := (refers_congr sq1 l.sq hfq S T).1 hST
  have hz1 : ∀ p ∈ sq1, p.height = 0 ∧ p.colour = 0 := by
    intro p hp
    have hm := pass_link_keeps (fun q => (q.height, q.colour)) (fun _ _ => rfl)
      (fun _ _ _ => rfl) cfg sq1 h1
    have : (p.height, p.colour) ∈ cfg.sq.map (fun q => (q.height, q.colour)) := by
      rw [← hm]
      exact List.mem_map.2 ⟨p, hp, rfl⟩
    obtain ⟨p0, hp0, he⟩ := List.mem_map.1 this
    simp only [Prod.mk.injEq] at he
    rw [← he.1, ← he.2]
    exact hz p0 hp0
  have hpos : 0 < sq1.length := Nat.lt_of_le_of_lt (Nat.zero_le _) (refers_lt sq1 S T hST1)
  obtain ⟨sq2c, hrun, _, hhigh⟩ := pass_annotate_forest sq1 rank hac hfo1 fuel hfuel hz1 hpos
  rw [h3] at hrun
  cases hrun
  have hgoal : hgt l.sq S + 1 ≤ hgt l.sq T := by
    rw [hgt_congr sq2 l.sq hht S, hgt_congr sq2 l.sq hht T]
    exact hhigh S T hST1
  refine ⟨hgoal, ?_⟩
  rw [horder]
  have hlt : (strct_at l.sq S).height < (strct_at l.sq T).height := by
    unfold hgt at hgoal
    omega
  exact (pass_order_higher_first qsort l.sq hq S T (refers_lt _ _ _ hST)
    (strct_at_height_pos_lt _ _ (by omega)) hlt).1

theorem C19_forest_target_higher_and_first_witness :
    parse_link isort 4 cfg_chain_reversed =
        .ok { sq := passes_arena 4 cfg_chain_reversed,
              order := pass_order isort (passes_arena 4 cfg_chain_reversed) } ∧
      ∀ S T, refers (passes_arena 4 cfg_chain_reversed) S T →
        hgt (passes_arena 4 cfg_chain_reversed) S + 1 ≤
            hgt (passes_arena 4 cfg_chain_reversed) T ∧
          precedes (pass_order isort (passes_arena 4 cfg_chain_reversed)) T S :=
  ⟨by decide,
    C19_forest_target_higher_and_first isort 4 cfg_chain_reversed
      { sq := passes_arena 4 cfg_chain_reversed,
        order := pass_order isort (passes_arena 4 cfg_chain_reversed) }
      (by decide) (isort_qsort_ok _) (by decide) (forest_of_check _ (by decide))⟩

/-! ### The final queue holds every structure once -/

theorem parse_link_names (qsort : (Nat → Nat → Int) → List Nat → List Nat) (fuel : Nat)
    (cfg : config) (l : linked) (h : parse_link qsort fuel cfg = .ok l) :
    l.sq.map strct.name = cfg.sq.map strct.name := by
  obtain ⟨sq1, sq2, st, sq3, sq4, h1, _, h3, h4, h5, h6, h7⟩ :=
    parse_link_passes_ok fuel cfg l.sq (parse_link_ok qsort fuel cfg l h).1
  rw [pass_searchtype_keeps sq4 l.sq h7, pass_unique_keeps strct.name (fun _ _ => rfl) sq3 sq4 h6,
    pass_search_keeps strct.name (fun _ _ => rfl) st.1 sq3 h5,
    pass_aliases_keeps strct.name (fun _ _ => rfl) fuel sq2 st h4,
    pass_annotate_keeps strct.name (fun _ _ _ => rfl) fuel sq1 sq2 h3,
    pass_link_keeps strct.name (fun _ _ => rfl) (fun _ _ _ => rfl) cfg sq1 h1]

/-- C21: when `parse_link` succeeds, with a `qsort` that meets its contract,
the final structure queue is a rearrangement of the input queue: the arena
still holds the input structures at their places (same names, same number),
and the queue lists every place of the arena exactly once, so it is as long as
the input queue. -/
theorem C21_final_queue_is_permutation (qsort : (Nat → Nat → Int) → List Nat → List Nat)
    (fuel : Nat) (cfg : config) (l : linked)
    (h : parse_link qsort fuel cfg = .ok l)
    (hq : qsort_ok qsort (parse_cmp_at l.sq)) :
    l.sq.map strct.name = cfg.sq.map strct.name ∧
      l.order.Perm (List.range cfg.sq.length) ∧
      l.order.length = cfg.sq.length ∧
      (∀ i, i < cfg.sq.length → l.order.count i = 1) ∧
      (∀ i, cfg.sq.length ≤ i → l.order.count i = 0) := by
  have hnames := parse_link_names qsort fuel cfg l h
  have hlen : l.sq.length = cfg.sq.length := by
    have := congrArg List.length hnames
    simpa using this
  have hperm : l.order.Perm (List.range cfg.sq.length) := by
    rw [(parse_link_ok qsort fuel cfg l h).2, ← hlen]
    unfold pass_order
    exact (List.reverse_perm _).trans (hq (List.range l.sq.length)).1
  refine ⟨hnames, hperm, ?_, ?_, ?_⟩
  · rw [hperm.length_eq, List.length_range]
  · intro i hi
    rw [hperm.count_eq]
    exact List.count_eq_one_of_mem (List.nodup_range _) (List.mem_range.2 hi)
  · intro i hi
    rw [hperm.count_eq]
    exact List.count_eq_zero.2 (fun hm => by
      have := List.mem_range.1 hm
      omega)

theorem C21_final_queue_is_permutation_witness :
    parse_link isort 4 cfg_diamond =
        .ok { sq := passes_arena 4 cfg_diamond,
              order := pass_order isort (passes_arena 4 cfg_diamond) } ∧
      (pass_order isort (passes_arena 4 cfg_diamond)).Perm (List.range cfg_diamond.sq.length) :=
  ⟨by decide,
    (C21_final_queue_is_permutation isort 4 cfg_diamond
      { sq := passes_arena 4 cfg_diamond,
        order := pass_order isort (passes_arena 4 cfg_diamond) }
      (by decide) (isort_qsort_ok _)).2.1⟩

/-! ### Heights are positive exactly on referenced structures -/

theorem mark_spec_refl (g sq : List strct) (c r : Nat) (hsq : sq.map strct.fq = g.map strct.fq)
    (hG : ∀ x, col sq x = c → x ≠ r → 1 ≤ hgt sq x) : mark_spec g sq sq c r :=
  ⟨hsq, fun _ => Nat.le_refl _, hG, fun _ => Or.inl rfl⟩

theorem done_mono (g sq sq2 : List strct) (hm : ∀ x, hgt sq x ≤ hgt sq2 x) (x : Nat)
    (h : done g sq x) : done g sq2 x :=
  fun y hy => Nat.le_trans (h y hy) (hm y)

theorem mark_spec_trans (g sq sqA sq2 : List strct) (c r : Nat) (h1 : mark_spec g sq sqA c r)
    (h2 : mark_spec g sqA sq2 c r) : mark_spec g sq sq2 c r := by
  obtain ⟨_, hm1, _, hc1⟩ := h1
  obtain ⟨hq2, hm2, hG2, hc2⟩ := h2
  refine ⟨hq2, fun x => Nat.le_trans (hm1 x) (hm2 x), hG2, ?_⟩
  intro x
  rcases hc2 x with h3 | h3
  · rcases hc1 x with h4 | ⟨h4, h5⟩
    · exact Or.inl (h3.trans h4)
    · exact Or.inr ⟨h3.trans h4, done_mono g sqA sq2 hm2 x h5⟩
  · exact Or.inr h3

theorem tgt_cons (f : field) (fs : List field) (k : Nat) :
    tgt (f :: fs) k ↔ (f.type = ftype.FTYPE_STRUCT ∧ field_target f = some k) ∨ tgt fs k := by
  unfold tgt
  constructor
  · rintro ⟨g, hg, hty, hk⟩
    rcases List.mem_cons.1 hg with rfl | h1
    · exact Or.inl ⟨hty, hk⟩
    · exact Or.inr ⟨g, h1, hty, hk⟩
  · rintro (⟨hty, hk⟩ | ⟨g, hg, hty, hk⟩)
    · exact ⟨f, List.mem_cons_self _ _, hty, hk⟩
    · exact ⟨g, List.mem_cons_of_mem _ hg, hty, hk⟩

theorem annotate_fields_mark (g : List strct) (t c r : Nat)
    (again : List strct → Option ref → Except stop (List strct))
    (hspec : ∀ sq1 f k, f.type = ftype.FTYPE_STRUCT → field_target f = some k →
      refers g t k → sq1.map strct.fq = g.map strct.fq → col sq1 t = c →
      (∀ x, col sq1 x = c → x ≠ r → 1 ≤ hgt sq1 x) →
      ∃ sq2, again sq1 f.ref = .ok sq2 ∧ mark_spec g sq1 sq2 c r ∧ 1 ≤ hgt sq2 k)
    (fs : List field)
    (hkids : ∀ f ∈ fs, f.type = ftype.FTYPE_STRUCT →
      ∃ k, field_target f = some k ∧ refers g t k)
    (sq1 : List strct) (hq1 : sq1.map strct.fq = g.map strct.fq) (hct : col sq1 t = c)
    (hG : ∀ x, col sq1 x = c → x ≠ r → 1 ≤ hgt sq1 x) :
    ∃ sq2, annotate_fields again fs sq1 = .ok sq2 ∧ mark_spec g sq1 sq2 c r ∧
      ∀ k, tgt fs k → 1 ≤ hgt sq2 k := by
  induction fs generalizing sq1 with
  | nil =>
    refine ⟨sq1, rfl, mark_spec_refl g sq1 c r hq1 hG, ?_⟩
    rintro k ⟨f, hf, _⟩
    cases hf
  | cons f fs ih =>
    have hkids2 : ∀ f2 ∈ fs, f2.type = ftype.FTYPE_STRUCT →
        ∃ k, field_target f2 = some k ∧ refers g t k :=
      fun f2 hf2 => hkids f2 (List.mem_cons_of_mem _ hf2)
    rw [annotate_fields]
    by_cases hty : ftype.FTYPE_STRUCT = f.type
    · rw [if_pos hty]
      obtain ⟨k, hk, hrk⟩ := hkids f (List.mem_cons_self _ _) hty.symm
      obtain ⟨sqA, hcall, hA, hkA⟩ := hspec sq1 f k hty.symm hk hrk hq1 hct hG
      rw [hcall]
      simp only
      have hctA : col sqA t = c := by
        rcases hA.2.2.2 t with h1 | ⟨h1, _⟩
        · exact h1.trans hct
        · exact h1
      obtain ⟨sq2, hrun, hB, hkB⟩ := ih hkids2 sqA hA.1 hctA hA.2.2.1
      refine ⟨sq2, hrun, mark_spec_trans g sq1 sqA sq2 c r hA hB, ?_⟩
      intro k2 hk2
      rcases (tgt_cons f fs k2).1 hk2 with ⟨_, h1⟩ | h1
      · rw [hk] at h1
        cases h1
        exact Nat.le_trans hkA (hB.2.1 k)
      · exact hkB k2 h1
    · rw [if_neg hty]
      obtain ⟨sq2, hrun, hB, hkB⟩ := ih hkids2 sq1 hq1 hct hG
      refine ⟨sq2, hrun, hB, ?_⟩
      intro k2 hk2
      rcases (tgt_cons f fs k2).1 hk2 with ⟨h1, _⟩ | h1
      · exact absurd h1.symm hty
      · exact hkB k2 h1
theorem kids_of_field (g sq : List strct) (rank : Nat → Nat) (hac : acyclic_by g rank)
    (hsq : sq.map strct.fq = g.map strct.fq) (t : Nat) (p : strct) (hp : sq[t]? = some p) :
    ∀ f ∈ p.fq, f.type = ftype.FTYPE_STRUCT → ∃ k, field_target f = some k ∧ refers g t k := by
  intro f hf hty
  have h1 := map_eq_getElem? strct.fq g sq hsq t
  rw [hp] at h1
  cases hg : g[t]? with
  | none => simp [hg] at h1
  | some p0 =>
    simp only [hg, Option.map_some', Option.some.injEq] at h1
    obtain ⟨k, hk, _⟩ := hac t p0 hg f (by rw [← h1]; exact hf) hty
    exact ⟨k, hk, p0, hg, f, by rw [← h1]; exact hf, hty, hk⟩

theorem annotate_mark (g : List strct) (rank : Nat → Nat) (hac : acyclic_by g rank)
    (c r fuel : Nat) (sq : List strct) (f : field) (t h : Nat)
    (hsq : sq.map strct.fq = g.map strct.fq) (hft : field_target f = some t)
    (hlt : t < g.length) (hfuel : rank t < fuel) (hh : 1 ≤ h) (hnr : ¬ reach g t r)
    (hG : ∀ x, col sq x = c → x ≠ r → 1 ≤ hgt sq x) :
    ∃ sq2, annotate fuel sq f.ref h c = .ok sq2 ∧ mark_spec g sq sq2 c r ∧ 1 ≤ hgt sq2 t := by
  induction fuel generalizing sq f t h with
  | zero => omega
  | succ fuel ih =>
    have htr : t ≠ r := fun e => hnr (e ▸ Relation.ReflTransGen.refl)
    have hlen : sq.length = g.length := by
      have := congrArg List.length hsq
      simpa using this
    by_cases hcol : col sq t = c
    · exact ⟨sq, annotate_noop fuel sq f t h c hft (by omega) hcol,
        mark_spec_refl g sq c r hsq hG, hG t hcol htr⟩
    · obtain ⟨rf, tp, hr, htp, hs⟩ := field_target_some f t hft
      subst hs
      have hv : tp.s < sq.length := by omega
      have hp : sq[tp.s]? = some sq[tp.s] := List.getElem?_eq_getElem hv
      have hcne : (sq[tp.s]).colour ≠ c := by
        unfold col strct_at at hcol
        rw [hp] at hcol
        exact hcol
      have hkid : ∀ k, tgt (sq[tp.s]).fq k ↔ refers g tp.s k :=
        tgt_iff_refers g sq hsq tp.s _ hp
      generalize hsq0 : modstrct sq tp.s
        (fun st => { st with colour := c, height := st.height + h }) = sq0
      have hh0 : ∀ x, hgt sq0 x = if x = tp.s then hgt sq x + h else hgt sq x := by
        intro x
        rw [← hsq0]
        exact hgt_modstrct_visit sq tp.s c h x hv
      have hc0 : ∀ x, col sq0 x = if x = tp.s then c else col sq x := by
        intro x
        rw [← hsq0]
        exact col_modstrct_visit sq tp.s c h x hv
      have hfq0 : sq0.map strct.fq = g.map strct.fq := by
        rw [← hsq0]
        exact Eq.trans (modstrct_map strct.fq sq tp.s _ (fun _ => rfl)) hsq
      have hG0 : ∀ x, col sq0 x = c → x ≠ r → 1 ≤ hgt sq0 x := by
        intro x hx hxr
        rw [hh0]
        rw [hc0] at hx
        by_cases hxt : x = tp.s
        · rw [if_pos hxt]
          omega
        · rw [if_neg hxt] at hx ⊢
          exact hG x hx hxr
      obtain ⟨sq2, hloop, ⟨hq2, hm2, hG2, hc2⟩, hk2⟩ := annotate_fields_mark g tp.s c r
        (fun sq2 r2 => annotate fuel sq2 r2 (h + 1) c)
        (fun sq1 f2 k _ hk hrk hq1 _ hG1 =>
          ih sq1 f2 k (h + 1) hq1 hk (refers_target_lt g rank hac _ _ hrk)
            (by have := acyclic_by_refers g rank hac _ _ hrk; omega) (by omega)
            (fun hkr => hnr (Relation.ReflTransGen.head hrk hkr)) hG1)
        (sq[tp.s]).fq (kids_of_field g sq rank hac hsq tp.s _ hp) sq0 hfq0
        (by rw [hc0, if_pos rfl]) hG0
      have hmono : ∀ x, hgt sq x ≤ hgt sq2 x := by
        intro x
        have := hm2 x
        rw [hh0] at this
        split at this <;> omega
      refine ⟨sq2, ?_, ⟨hq2, hmono, hG2, ?_⟩, ?_⟩
      · unfold annotate
        simp only [hr, htp, (getstrct_ok_iff sq tp.s _).2 hp, if_neg hcne, hsq0]
        exact hloop
      · intro x
        by_cases hxt : x = tp.s
        · right
          rw [hxt]
          constructor
          · rcases hc2 tp.s with h1 | ⟨h1, _⟩
            · rw [h1, hc0, if_pos rfl]
            · exact h1
          · intro y hy
            exact hk2 y ((hkid y).2 hy)
        · rcases hc2 x with h1 | h1
          · rw [hc0, if_neg hxt] at h1
            exact Or.inl h1
          · exact Or.inr h1
      · have := hm2 tp.s
        rw [hh0, if_pos rfl] at this
        omega
theorem pass_fields_mark (g : List strct) (rank : Nat → Nat) (hac : acyclic_by g rank)
    (fuel : Nat) (hfuel : ∀ a b, refers g a b → rank b < fuel)
    (sq : List strct) (hsq : sq.map strct.fq = g.map strct.fq) (s c : Nat) (p : strct)
    (hp : sq[s]? = some p) (hfresh : ∀ x, col sq x < c) :
    ∃ sq2, pass_annotate_fields fuel s c p.fq sq = .ok sq2 ∧
      (((¬ ∃ k, refers g s k) ∧ sq2 = sq) ∨
        ((∃ k, refers g s k) ∧ sq2.map strct.fq = g.map strct.fq ∧
          (∀ x, hgt sq x ≤ hgt sq2 x) ∧ col sq2 s = c ∧
          (∀ x, col sq2 x = col sq x ∨ (col sq2 x = c ∧ done g sq2 x)))) := by
  have hkid : ∀ k, tgt p.fq k ↔ refers g s k := tgt_iff_refers g sq hsq s p hp
  have hs : s < sq.length := by
    rcases Nat.lt_or_ge s sq.length with h1 | h1
    · exact h1
    · rw [List.getElem?_eq_none h1] at hp
      cases hp
  have hkids := kids_of_field g sq rank hac hsq s p hp
  rw [pass_annotate_fields_eq]
  by_cases hex : ∃ k, refers g s k
  · obtain ⟨k0, hk0⟩ := hex
    obtain ⟨f0, hf0, hty0, _⟩ := (hkid k0).2 hk0
    rw [annotate_fields_recolour fuel s c p.fq sq ⟨f0, hf0, hty0⟩]
    generalize hsq0 : modstrct sq s (fun q => { q with colour := c }) = sq0
    have hh0 : ∀ x, hgt sq0 x = hgt sq x := by
      intro x
      rw [← hsq0, hgt_modstrct_colour]
    have hc0 : ∀ x, col sq0 x = if x = s then c else col sq x := by
      intro x
      rw [← hsq0]
      exact col_modstrct_colour sq s c x hs
    have hfq0 : sq0.map strct.fq = g.map strct.fq := by
      rw [← hsq0]
      exact Eq.trans (modstrct_map strct.fq sq s _ (fun _ => rfl)) hsq
    have hG0 : ∀ x, col sq0 x = c → x ≠ s → 1 ≤ hgt sq0 x := by
      intro x hx hxs
      rw [hc0, if_neg hxs] at hx
      have := hfresh x
      omega
    obtain ⟨sq2, hloop, ⟨hq2, hm2, _, hc2⟩, hk2⟩ := annotate_fields_mark g s c s
      (fun sq2 r2 => annotate fuel (modstrct sq2 s (fun q => { q with colour := c })) r2 1 c)
      (fun sq1 f k _ hk hrk hq1 hcs hG1 => by
        show ∃ sq2, annotate fuel (modstrct sq1 s (fun q => { q with colour := c })) f.ref 1 c =
          .ok sq2 ∧ mark_spec g sq1 sq2 c s ∧ 1 ≤ hgt sq2 k
        rw [modstrct_colour_same sq1 s c hcs]
        exact annotate_mark g rank hac c s fuel sq1 f k 1 hq1 hk
          (refers_target_lt g rank hac _ _ hrk) (hfuel s k hrk) (Nat.le_refl 1)
          (not_reach_back g rank hac s k hrk) hG1)
      p.fq hkids sq0 hfq0 (by rw [hc0, if_pos rfl]) hG0
    have hcs2 : col sq2 s = c := by
      rcases hc2 s with h1 | ⟨h1, _⟩
      · rw [h1, hc0, if_pos rfl]
      · exact h1
    refine ⟨sq2, hloop, Or.inr ⟨⟨k0, hk0⟩, hq2, fun x => by rw [← hh0 x]; exact hm2 x,
      hcs2, ?_⟩⟩
    intro x
    by_cases hxs : x = s
    · right
      rw [hxs]
      exact ⟨hcs2, fun y hy => hk2 y ((hkid y).2 hy)⟩
    · rcases hc2 x with h1 | h1
      · rw [hc0, if_neg hxs] at h1
        exact Or.inl h1
      · exact Or.inr h1
  · refine ⟨sq, annotate_fields_no_struct _ p.fq sq ?_, Or.inl ⟨hex, rfl⟩⟩
    intro f hf hty
    obtain ⟨k, _, hrk⟩ := hkids f hf hty
    exact hex ⟨k, hrk⟩

theorem pass_annotate_strct_mark (g : List strct) (rank : Nat → Nat) (hac : acyclic_by g rank)
    (fuel : Nat) (hfuel : ∀ a b, refers g a b → rank b < fuel)
    (s : Nat) (hs : s < g.length) (st : List strct × Nat) (hinv : pass_mark_inv g s st) :
    ∃ st2, pass_annotate_strct fuel st s = .ok st2 ∧ pass_mark_inv g (s + 1) st2 := by
  obtain ⟨hq, hc1, hcol, hdn, hdone⟩ := hinv
  have hlen : st.1.length = g.length := by
    have := congrArg List.length hq
    simpa using this
  have hp : st.1[s]? = some st.1[s] := List.getElem?_eq_getElem (by omega)
  have hcs : col st.1 s = (st.1[s]).colour := by
    unfold col strct_at
    rw [hp]
  unfold pass_annotate_strct
  rw [(getstrct_ok_iff st.1 s _).2 hp]
  simp only
  by_cases hz : (st.1[s]).colour ≠ 0
  · rw [if_pos hz]
    refine ⟨st, rfl, hq, hc1, hcol, hdn, ?_⟩
    intro j hj hex
    rcases Nat.lt_succ_iff_lt_or_eq.1 hj with h1 | h1
    · exact hdone j h1 hex
    · rw [h1, hcs]
      exact hz
  · rw [if_neg hz]
    obtain ⟨sq2, hrun, hres⟩ := pass_fields_mark g rank hac fuel hfuel st.1 hq s st.2
      st.1[s] hp hcol
    rw [hrun]
    refine ⟨(sq2, st.2 + 1), rfl, ?_⟩
    rcases hres with ⟨hno, hsame⟩ | ⟨_, hq2, hm2, hcs2, hc2⟩
    · subst hsame
      refine ⟨hq, by simp only; omega, fun x => Nat.lt_succ_of_lt (hcol x), hdn, ?_⟩
      intro j hj hex
      rcases Nat.lt_succ_iff_lt_or_eq.1 hj with h1 | h1
      · exact hdone j h1 hex
      · rw [h1] at hex
        exact absurd hex hno
    · refine ⟨hq2, by simp only; omega, ?_, ?_, ?_⟩
      · intro x
        simp only
        rcases hc2 x with h1 | ⟨h1, _⟩
        · rw [h1]
          exact Nat.lt_succ_of_lt (hcol x)
        · omega
      · intro x hx
        simp only at hx ⊢
        rcases hc2 x with h1 | ⟨_, h1⟩
        · rw [h1] at hx
          exact done_mono g st.1 sq2 hm2 x (hdn x hx)
        · exact h1
      · intro j hj hex
        simp only
        rcases Nat.lt_succ_iff_lt_or_eq.1 hj with h1 | h1
        · rcases hc2 j with h2 | ⟨h2, _⟩
          · rw [h2]
            exact hdone j h1 hex
          · omega
        · rw [h1, hcs2]
          omega
/-- C22: on an arena whose references are linked and pass the recursion check
(so they are acyclic), with all heights and colours zero, the annotation loop
of `parse_link` returns, and afterwards a structure has height at least one
exactly when some struct-typed field refers to it: a structure that no
struct-typed field refers to keeps height zero, whatever fields it has. -/
theorem C22_height_positive_iff_referenced (g : List strct) (fuel : Nat)
    (hrec : pass_recursive fuel g (List.range g.length) = .ok ())
    (hz : ∀ p ∈ g, p.height = 0 ∧ p.colour = 0) (hpos : 0 < g.length) :
    ∃ sq2, pass_annotate fuel g = .ok sq2 ∧ sq2.map strct.fq = g.map strct.fq ∧
      ∀ T, (1 ≤ hgt sq2 T ↔ ∃ S, refers g S T) ∧ ((¬ ∃ S, refers g S T) → hgt sq2 T = 0) := by
  obtain ⟨rank, hac, hfuel⟩ := pass_recursive_rank fuel g hrec
  obtain ⟨st2, hrun, hq, _, _, hdn, hdone⟩ :=
    tailq_foreach_range_total (pass_annotate_strct fuel) (pass_mark_inv g) g.length
      (fun i st hi hinv => pass_annotate_strct_mark g rank hac fuel hfuel i hi st hinv)
      (g, 1) ⟨rfl, Nat.le_refl 1, fun x => by rw [(hgt_col_zero g hz x).2]; exact Nat.one_pos,
        fun x hx => absurd (hgt_col_zero g hz x).2 hx,
        fun j hj => absurd hj (Nat.not_lt_zero j)⟩
  have hpass : pass_annotate fuel g = .ok st2.1 := by
    unfold pass_annotate
    rw [hrun]
    simp [hpos]
  have hzero : ∀ T, (¬ ∃ S, refers g S T) → hgt st2.1 T = 0 := by
    intro T hT
    have hP : no_ref_into g (fun k => ¬ ∃ S, refers g S k) := by
      intro p hp f hf hty t ht hnot
      obtain ⟨S, hS, hSp⟩ := List.getElem_of_mem hp
      exact hnot ⟨S, p, by rw [List.getElem?_eq_getElem hS, hSp], f, hf, hty, ht⟩
    have h1 := pass_annotate_protect (fun k => ¬ ∃ S, refers g S k) fuel g st2.1 hP hpass T hT
    have h2 := (hgt_col_zero g hz T).1
    unfold hgt strct_at at h2 ⊢
    cases hg : g[T]? with
    | none =>
      rw [hg] at h1
      cases hs : st2.1[T]? with
      | none => rfl
      | some q => simp [hs] at h1
    | some p =>
      rw [hg] at h1 h2
      cases hs : st2.1[T]? with
      | none => rfl
      | some q =>
        simp only [hs, Option.map_some', Option.some.injEq] at h1
        simp only at h2 ⊢
        omega
  refine ⟨st2.1, hpass, hq, fun T => ⟨⟨?_, ?_⟩, hzero T⟩⟩
  · intro h1
    by_contra hno
    have := hzero T hno
    omega
  · rintro ⟨S, hST⟩
    exact hdn S (hdone S (refers_lt g S T hST) ⟨T, hST⟩) T hST

theorem C22_height_positive_iff_referenced_witness :
    ∃ sq2, pass_annotate 4 (linked_arena cfg_diamond) = .ok sq2 ∧
      sq2.map strct.fq = (linked_arena cfg_diamond).map strct.fq ∧
      ∀ T, (1 ≤ hgt sq2 T ↔ ∃ S, refers (linked_arena cfg_diamond) S T) ∧
        ((¬ ∃ S, refers (linked_arena cfg_diamond) S T) → hgt sq2 T = 0) :=
  C22_height_positive_iff_referenced (linked_arena cfg_diamond) 4 (by decide) (by decide)
    (by decide)

/-! ### The JavaScript generator -/

theorem gen_js_field_uses (pname : List Char) (f : field) (o : List js_out)
    (h : gen_js_field pname f = .ok o) :
    ((∃ x ∈ o, uses_list_or_i x = true) ↔ exported_struct f) ∧
      ∀ y ∈ o, in_fill_body y = true := by
  unfold gen_js_field gen_js_struct_stmt at h
  unfold exported_struct
  by_cases h1 : hasflag FIELD_NOEXPORT f.flags = true
  · simp only [h1, true_or, if_true] at h
    cases h
    simp [h1]
  · by_cases h2 : ftype.FTYPE_BLOB = f.type
    · simp only [h2, or_true, if_true] at h
      cases h
      have h5 : ¬ f.type = ftype.FTYPE_STRUCT := by rw [← h2]; decide
      simp [h5]
    · by_cases h4 : ftype.FTYPE_STRUCT = f.type
      · cases hr : f.ref with
        | none =>
          rw [hr] at h
          by_cases h3 : hasflag FIELD_NULL f.flags = true <;> simp [h1, h2, h3, h4] at h
        | some r =>
          rw [hr] at h
          by_cases h3 : hasflag FIELD_NULL f.flags = true <;>
            simp [h1, h2, h3, h4] at h <;> subst h <;>
            simp [uses_list_or_i, in_fill_body, h1, h4.symm]
      · have h5 : ¬ f.type = ftype.FTYPE_STRUCT := fun h6 => h4 h6.symm
        by_cases h3 : hasflag FIELD_NULL f.flags = true <;>
          simp [h1, h2, h3, h4] at h <;> subst h <;>
          simp [uses_list_or_i, in_fill_body, h5]

theorem gen_js_field_total (pname : List Char) (f : field)
    (href : exported_struct f → f.ref ≠ none) :
    ∃ o, gen_js_field pname f = .ok o := by
  unfold gen_js_field gen_js_struct_stmt
  unfold exported_struct at href
  by_cases h1 : hasflag FIELD_NOEXPORT f.flags = true
  · exact ⟨[], by simp [h1]⟩
  · by_cases h4 : ftype.FTYPE_STRUCT = f.type
    · have hne := href ⟨h1, h4.symm⟩
      cases hr : f.ref with
      | none => exact absurd hr hne
      | some r =>
        by_cases h2 : ftype.FTYPE_BLOB = f.type <;>
          by_cases h3 : hasflag FIELD_NULL f.flags = true <;>
          simp [h1, h2, h3, h4]
    · by_cases h2 : ftype.FTYPE_BLOB = f.type <;>
        by_cases h3 : hasflag FIELD_NULL f.flags = true <;>
        simp [h1, h2, h3, h4]

theorem gen_js_fields_spec (pname : List Char) (fq : List field)
    (href : ∀ f ∈ fq, exported_struct f → f.ref ≠ none) :
    ∃ outs : List (List js_out),
      List.Forall₂ (fun f o => gen_js_field pname f = .ok o) fq outs ∧
      gen_js_fields pname fq = .ok outs.flatten := by
  induction fq with
  | nil => exact ⟨[], List.Forall₂.nil, rfl⟩
  | cons f fs ih =>
    obtain ⟨o, ho⟩ := gen_js_field_total pname f (href f (List.mem_cons_self _ _))
    obtain ⟨os, hos, hfs⟩ := ih (fun g hg => href g (List.mem_cons_of_mem _ hg))
    refine ⟨o :: os, List.Forall₂.cons ho hos, ?_⟩
    rw [gen_js_fields, ho, hfs]
    simp

theorem gen_js_decl_spec (fq : List field) :
    ((∃ f ∈ fq, exported_struct f) → gen_js_decl fq = [js_out.var_decl]) ∧
      (gen_js_decl fq = [] ∨ gen_js_decl fq = [js_out.var_decl]) := by
  induction fq with
  | nil => exact ⟨fun ⟨f, hf, _⟩ => (by cases hf), Or.inl rfl⟩
  | cons f fs ih =>
    rw [gen_js_decl]
    by_cases hc : ¬ hasflag FIELD_NOEXPORT f.flags = true ∧ ftype.FTYPE_STRUCT = f.type
    · rw [if_pos hc]
      exact ⟨fun _ => rfl, Or.inr rfl⟩
    · rw [if_neg hc]
      refine ⟨?_, ih.2⟩
      rintro ⟨g, hg, hgx⟩
      rcases List.mem_cons.mp hg with rfl | hg2
      · exact absurd (And.intro hgx.1 hgx.2.symm) hc
      · exact ih.1 ⟨g, hg2, hgx⟩

theorem forall2_flatten_mem {α β : Type} (R : α → List β → Prop) (l : List α)
    (outs : List (List β)) (h : List.Forall₂ R l outs) (x : β) (hx : x ∈ outs.flatten) :
    ∃ a ∈ l, ∃ o, R a o ∧ x ∈ o := by
  induction h with
  | nil => cases hx
  | @cons a o l2 os hao _ ih =>
    rw [List.flatten_cons, List.mem_append] at hx
    rcases hx with hx | hx
    · exact ⟨a, List.mem_cons_self _ _, o, hao, hx⟩
    · obtain ⟨a2, ha2, o2, h2, hx2⟩ := ih hx
      exact ⟨a2, List.mem_cons_of_mem _ ha2, o2, h2, hx2⟩
theorem declared_of_no_use (l : List js_out) (h : ∀ x ∈ l, uses_list_or_i x = false) :
    declared_before_use l := by
  intro pre x post heq hux
  have hx : x ∈ l := by rw [heq]; simp
  rw [h x hx] at hux
  cases hux

theorem declared_append (l1 l2 : List js_out) (h1 : declared_before_use l1)
    (h2 : declared_before_use l2) : declared_before_use (l1 ++ l2) := by
  intro pre x post heq hux
  rcases List.append_eq_append_iff.mp heq with ⟨a2, hpre, hl2⟩ | ⟨c2, hl1, hc⟩
  · obtain ⟨a, nm, b, hab, hb⟩ := h2 a2 x post hl2 hux
    exact ⟨l1 ++ a, nm, b, by rw [hpre, hab, List.append_assoc], hb⟩
  · cases c2 with
    | nil =>
      obtain ⟨a, nm, b, hab, _⟩ := h2 [] x post (by simpa using hc.symm) hux
      cases a <;> cases hab
    | cons z c3 =>
      rw [List.cons_append] at hc
      have hz : x = z := (List.cons.inj hc).1
      rw [← hz] at hl1
      exact h1 pre x c3 hl1 hux

theorem declared_block (nm : List Char) (decl body : List js_out)
    (hbody : ∀ y ∈ body, in_fill_body y = true)
    (hdecl : decl = [] ∨ decl = [js_out.var_decl])
    (huse : (∃ x ∈ body, uses_list_or_i x = true) → decl = [js_out.var_decl]) :
    declared_before_use (js_out.fill_head nm :: decl ++ body ++ [js_out.fill_foot]) := by
  intro pre x post heq hux
  have hx : x ∈ js_out.fill_head nm :: decl ++ body ++ [js_out.fill_foot] := by
    rw [heq]; simp
  have hxb : x ∈ body := by
    simp only [List.mem_append, List.mem_cons, List.mem_singleton, List.not_mem_nil,
      or_false] at hx
    rcases hx with ((hx | hx) | hx) | hx
    · rw [hx] at hux; cases hux
    · rcases hdecl with hd | hd
      · rw [hd] at hx; cases hx
      · rw [hd, List.mem_singleton] at hx; rw [hx] at hux; cases hux
    · exact hx
    · rw [hx] at hux; cases hux
  have hd := huse ⟨x, hxb, hux⟩
  rw [hd] at heq
  cases pre with
  | nil =>
    have hx2 : js_out.fill_head nm = x := by simpa using (List.cons.inj heq).1
    rw [← hx2] at hux; cases hux
  | cons p pre1 =>
    simp only [List.cons_append, List.nil_append, List.singleton_append] at heq
    obtain ⟨hp, heq1⟩ := List.cons.inj heq
    cases pre1 with
    | nil =>
      have hx2 : js_out.var_decl = x := by simpa using (List.cons.inj heq1).1
      rw [← hx2] at hux; cases hux
    | cons q b =>
      rw [List.cons_append] at heq1
      obtain ⟨hq, heq2⟩ := List.cons.inj heq1
      refine ⟨[], nm, b, by rw [← hp, ← hq]; rfl, ?_⟩
      rcases List.append_eq_append_iff.mp heq2 with ⟨a2, _, hc⟩ | ⟨c2, hb, _⟩
      · cases a2 with
        | nil =>
          have hx2 : js_out.fill_foot = x := (List.cons.inj hc).1
          rw [← hx2] at hux; cases hux
        | cons z a3 =>
          exact absurd (congrArg List.length hc) (by simp)
      · intro y hy
        exact hbody y (by rw [hb]; exact List.mem_append_left _ hy)
theorem uses_list_or_i_text (x : js_out) (h : uses_list_or_i x = true) :
    List.IsInfix "list = e.getElementsByClassName(".toList x.render ∧
      List.IsInfix "for (i = 0; i < list.length; i++)".toList x.render := by
  cases x with
  | list_fill deep pname name tstrct =>
    constructor
    · refine ⟨(if deep then "\t\t\t\t" else "\t\t\t").toList,
        "\x27".toList ++ pname ++ "-".toList ++ name ++ "-obj\x27);\n".toList ++
        "\t\t\tfor (i = 0; i < list.length; i++)\n".toList ++
        "\t\t\t\t".toList ++ tstrct ++ ".fill(list[i], this.obj.".toList ++ name ++
        ");\n".toList, ?_⟩
      have e : "list = e.getElementsByClassName(\x27".toList =
          "list = e.getElementsByClassName(".toList ++ "\x27".toList := by decide
      rw [js_out.render, e]
      simp only [List.append_assoc]
    · refine ⟨(if deep then "\t\t\t\t" else "\t\t\t").toList ++
        "list = e.getElementsByClassName(\x27".toList ++ pname ++ "-".toList ++ name ++
        "-obj\x27);\n".toList ++ "\t\t\t".toList,
        "\n".toList ++ "\t\t\t\t".toList ++ tstrct ++ ".fill(list[i], this.obj.".toList ++ name ++
        ");\n".toList, ?_⟩
      have e : "\t\t\tfor (i = 0; i < list.length; i++)\n".toList =
          "\t\t\t".toList ++ "for (i = 0; i < list.length; i++)".toList ++ "\n".toList := by decide
      rw [js_out.render, e]
      simp only [List.append_assoc]
  | prologue => cases h
  | fill_head _ => cases h
  | var_decl => cases h
  | null_open _ _ => cases h
  | replcl _ _ _ => cases h
  | close => cases h
  | fill_foot => cases h
  | root _ => cases h
  | epilogue => cases h
theorem gen_js_strct_spec (s : strct)
    (href : ∀ f ∈ s.fq, exported_struct f → f.ref ≠ none) :
    ∃ block, gen_js_strct s = .ok block ∧ fill_block s block ∧ declared_before_use block := by
  obtain ⟨outs, hall, hfs⟩ := gen_js_fields_spec s.name s.fq href
  have hbody : ∀ y ∈ outs.flatten, in_fill_body y = true := by
    intro y hy
    obtain ⟨f, _, o, ho, hyo⟩ :=
      forall2_flatten_mem (fun f o => gen_js_field s.name f = .ok o) s.fq outs hall y hy
    exact (gen_js_field_uses s.name f o ho).2 y hyo
  have huse : (∃ x ∈ outs.flatten, uses_list_or_i x = true) →
      gen_js_decl s.fq = [js_out.var_decl] := by
    rintro ⟨x, hx, hux⟩
    obtain ⟨f, hf, o, ho, hxo⟩ :=
      forall2_flatten_mem (fun f o => gen_js_field s.name f = .ok o) s.fq outs hall x hx
    exact (gen_js_decl_spec s.fq).1 ⟨f, hf, (gen_js_field_uses s.name f o ho).1.mp ⟨x, hxo, hux⟩⟩
  refine ⟨js_out.fill_head s.name :: gen_js_decl s.fq ++ outs.flatten ++ [js_out.fill_foot],
    ?_, ?_, declared_block s.name _ _ hbody (gen_js_decl_spec s.fq).2 huse⟩
  · rw [gen_js_strct, hfs]
  · refine ⟨outs, gen_js_decl s.fq, hall,
      fun f _ o ho => (gen_js_field_uses s.name f o ho).1, rfl, (gen_js_decl_spec s.fq).2, ?_⟩
    intro hx
    refine ⟨huse hx, ?_⟩
    rw [huse hx]
    simp [js_text, js_out.render]

theorem gen_js_strcts_spec (sq : List strct)
    (href : ∀ s ∈ sq, ∀ f ∈ s.fq, exported_struct f → f.ref ≠ none) :
    ∃ blocks : List (List js_out), gen_js_strcts sq = .ok blocks.flatten ∧
      List.Forall₂ fill_block sq blocks ∧ declared_before_use blocks.flatten := by
  induction sq with
  | nil => exact ⟨[], rfl, List.Forall₂.nil, declared_of_no_use _ (fun x hx => by cases hx)⟩
  | cons s more ih =>
    obtain ⟨block, hb, hfb, hdb⟩ := gen_js_strct_spec s (href s (List.mem_cons_self _ _))
    obtain ⟨blocks, hbs, hfbs, hdbs⟩ := ih (fun t ht => href t (List.mem_cons_of_mem _ ht))
    refine ⟨block :: blocks, ?_, List.Forall₂.cons hfb hfbs, ?_⟩
    · rw [gen_js_strcts, hb, hbs]
      simp
    · rw [List.flatten_cons]
      exact declared_append _ _ hdb hdbs

/-- The blocks of the scenario: `user` has no struct-typed field and gets no
declaration; `post` gets it before the output of its first field. -/
theorem gen_js_strct_samples :
    gen_js_strct sample_user = .ok [.fill_head "user".toList,
      .replcl false "user".toList "id".toList, .fill_foot] ∧
    gen_js_strct sample_post = .ok [.fill_head "post".toList, .var_decl,
      .replcl false "post".toList "id".toList, .replcl false "post".toList "userid".toList,
      .list_fill false "post".toList "author".toList "user".toList, .fill_foot] ∧
    gen_js_strct (mk_strct "post" [{ mk_struct_field "author" "userid" "user" "id" with
      flags := FIELD_NOEXPORT }]) = .ok [.fill_head "post".toList, .fill_foot] := by
  decide

/-- C23: on a queue whose exported struct-typed fields carry their reference,
`gen_javascript` writes the prologue, one block per structure in order, the
`root` lines and the epilogue.  The block of a structure is the head of its
`fill` function, then the declaration or nothing, then the output of
`gen_js_field` on each field in order, then the foot.  A field gives a statement
using `list` or `i` exactly when it is struct-typed and not flagged no-export,
and when some field of the structure does, the declaration is there and its
text, the line `var list, i;`, stands between the head and the text of the
fields.  So in the whole script every statement using `list` or `i` has, earlier
in the same `fill` function and right after its head, the declaration, with only
field output between the two.  The text of such a statement assigns `list` and
counts with `i`. -/
theorem C23_list_declared_before_use (sq : List strct)
    (href : ∀ s ∈ sq, ∀ f ∈ s.fq, exported_struct f → f.ref ≠ none) :
    ∃ blocks : List (List js_out),
      gen_javascript sq = .ok (js_out.prologue :: blocks.flatten ++
        sq.map (fun s => js_out.root s.name) ++ [js_out.epilogue]) ∧
      gen_javascript_text sq = .ok (js_text (js_out.prologue :: blocks.flatten ++
        sq.map (fun s => js_out.root s.name) ++ [js_out.epilogue])) ∧
      List.Forall₂ fill_block sq blocks ∧
      declared_before_use (js_out.prologue :: blocks.flatten ++
        sq.map (fun s => js_out.root s.name) ++ [js_out.epilogue]) ∧
      js_out.var_decl.render = "\t\t\tvar list, i;\n".toList ∧
      ∀ x, uses_list_or_i x = true →
        List.IsInfix "list = e.getElementsByClassName(".toList x.render ∧
          List.IsInfix "for (i = 0; i < list.length; i++)".toList x.render := by
  obtain ⟨blocks, hbs, hfbs, hdbs⟩ := gen_js_strcts_spec sq href
  have hgen : gen_javascript sq = .ok (js_out.prologue :: blocks.flatten ++
      sq.map (fun s => js_out.root s.name) ++ [js_out.epilogue]) := by
    rw [gen_javascript, hbs]
  refine ⟨blocks, hgen, ?_, hfbs, ?_, rfl, uses_list_or_i_text⟩
  · rw [gen_javascript_text, hgen]
    rfl
  · have h1 : declared_before_use [js_out.prologue] :=
      declared_of_no_use _ (fun x hx => by rw [List.mem_singleton.mp hx]; rfl)
    have h2 : declared_before_use (sq.map (fun s => js_out.root s.name)) :=
      declared_of_no_use _ (fun x hx => by
        obtain ⟨s, _, hs⟩ := List.mem_map.mp hx
        rw [← hs]; rfl)
    have h3 : declared_before_use [js_out.epilogue] :=
      declared_of_no_use _ (fun x hx => by rw [List.mem_singleton.mp hx]; rfl)
    exact declared_append _ _ (declared_append _ _ (declared_append _ _ h1 hdbs) h2) h3

/-- C23 on the scenario `user`, `post`: the field `author` of `post` is
struct-typed and exported. -/
theorem C23_list_declared_before_use_witness :
    (∀ s ∈ cfg_user_post.sq, ∀ f ∈ s.fq, exported_struct f → f.ref ≠ none) ∧
    ∃ blocks : List (List js_out),
      gen_javascript cfg_user_post.sq = .ok (js_out.prologue :: blocks.flatten ++
        cfg_user_post.sq.map (fun s => js_out.root s.name) ++ [js_out.epilogue]) ∧
      gen_javascript_text cfg_user_post.sq = .ok (js_text (js_out.prologue :: blocks.flatten ++
        cfg_user_post.sq.map (fun s => js_out.root s.name) ++ [js_out.epilogue])) ∧
      List.Forall₂ fill_block cfg_user_post.sq blocks ∧
      declared_before_use (js_out.prologue :: blocks.flatten ++
        cfg_user_post.sq.map (fun s => js_out.root s.name) ++ [js_out.epilogue]) ∧
      js_out.var_decl.render = "\t\t\tvar list, i;\n".toList ∧
      ∀ x, uses_list_or_i x = true →
        List.IsInfix "list = e.getElementsByClassName(".toList x.render ∧
          List.IsInfix "for (i = 0; i < list.length; i++)".toList x.render :=
  ⟨by decide, C23_list_declared_before_use cfg_user_post.sq (by decide)⟩

end Kwebapp
